import Mathlib

/-!
# LPVC, a lossless palette-aware video codec: embedding and properties

The definitions follow `include/lpvc/lpvc.h`, `include/lpvc/detail/*.h` and
`src/lpvc.cpp`.  Octets are `Fin 256`; `std::size_t` quantities are natural
numbers (no frame approaches `2 ^ 64` pixels); every narrowing cast of the
source is an explicit `%`.  Contiguous buffers are lists.  C++ exceptions are
the `error` side of `Except Error`.

The zstd library is external to the repository.  A streaming session is
modelled by the list of inputs it has processed since it was last reset
(newest first); the output for the next input is an arbitrary function of that
history and of the input (`Zstd.compress`, `Zstd.decompress`).
-/

namespace lpvc

/-! ## Octets and colours -/

/-- An octet: `std::byte`, `std::uint8_t` or `unsigned char`. -/
abbrev Byte := Fin 256

/-- Narrowing cast `static_cast<std::uint8_t>(v)`. -/
def toUInt8 (v : Nat) : Byte := ⟨v % 256, Nat.mod_lt v (by decide)⟩

/-- Exceptions thrown by the library. -/
inductive Error where
  /-- Thrown as `std::out_of_range("Buffer overflow")` by the cursors. -/
  | bufferOverflow
  /-- Thrown as `std::invalid_argument("Too many colors to form a palette.")`. -/
  | tooManyColors
  /-- Thrown as `std::runtime_error("Invalid palette (too many colors).")`. -/
  | invalidPalette
  /-- Thrown as `std::logic_error("Palettes with 0 colors are not allowed.")`. -/
  | emptyPalette
  /-- Thrown as `std::out_of_range` by `std::unordered_map::at`. -/
  | colorNotMapped
  /-- Thrown as `std::runtime_error("Invalid variant index")`. -/
  | invalidVariantIndex
  /-- The zstd stream cannot be completed: the destination handed to the
  library is smaller than what it has to produce. -/
  | zstdDstTooSmall
  /-- The iteration budget of `decodeLoop` is used up (never the case for the
  budget `Decoder.decode` passes, see `Decoder.decode_ne_outOfFuel`). -/
  | outOfFuel
deriving DecidableEq, Repr

/-- The struct `Color` of `lpvc.h`: three octets. -/
structure Color where
  r : Byte
  g : Byte
  b : Byte
deriving DecidableEq, Repr

/-- Value-initialised colour (`Color {}`), as found in a fresh `std::array`. -/
def Color.zero : Color := ⟨0, 0, 0⟩

/-- The comparator `ColorOrdering::operator()`: `std::tie(r, g, b)` compared
with `<`, which is the lexicographic comparison of the three components. -/
def ColorOrdering (lhs rhs : Color) : Bool :=
  if lhs.r < rhs.r then true
  else if rhs.r < lhs.r then false
  else if lhs.g < rhs.g then true
  else if rhs.g < lhs.g then false
  else decide (lhs.b < rhs.b)

/-- Rank of a colour in the lexicographic order: the components read as the
digits of a number in base 256 (used to reason about `ColorOrdering`). -/
def Color.key (c : Color) : Nat := c.r.val * 65536 + c.g.val * 256 + c.b.val

/-- A list of colours is strictly increasing for `ColorOrdering`. -/
def Increasing (l : List Color) : Prop := l.Pairwise (fun a b => ColorOrdering a b = true)

instance (l : List Color) : Decidable (Increasing l) := by unfold Increasing; infer_instance

/-- The struct `BitmapInfo`. -/
structure BitmapInfo where
  width : Nat
  height : Nat
deriving DecidableEq, Repr

/-- Number of pixels of a frame, `bitmapInfo_.width * bitmapInfo_.height`. -/
def BitmapInfo.pixelCount (bitmapInfo : BitmapInfo) : Nat :=
  bitmapInfo.width * bitmapInfo.height

/-! ## Standard-library algorithms on sorted ranges -/

/-- The loop of `std::set_difference(first1, last1, first2, last2, out, comp)`;
the first argument bounds the number of iterations. -/
def setDifferenceAux (comp : Color → Color → Bool) : Nat → List Color → List Color → List Color
  | 0, _, _ => []
  | _ + 1, [], _ => []
  | _ + 1, x :: xs, [] => x :: xs
  | n + 1, x :: xs, y :: ys =>
    if comp x y then x :: setDifferenceAux comp n xs (y :: ys)
    else if comp y x then setDifferenceAux comp n (x :: xs) ys
    else setDifferenceAux comp n xs ys

/-- The algorithm `std::set_difference`: every iteration advances in one of the
two ranges, so their total length bounds the iterations. -/
def setDifference (comp : Color → Color → Bool) (range1 range2 : List Color) : List Color :=
  setDifferenceAux comp (range1.length + range2.length) range1 range2

/-- The loop of `std::set_union(first1, last1, first2, last2, out, comp)`;
the first argument bounds the number of iterations. -/
def setUnionAux (comp : Color → Color → Bool) : Nat → List Color → List Color → List Color
  | 0, _, _ => []
  | _ + 1, [], ys => ys
  | _ + 1, x :: xs, [] => x :: xs
  | n + 1, x :: xs, y :: ys =>
    if comp y x then y :: setUnionAux comp n (x :: xs) ys
    else if comp x y then x :: setUnionAux comp n xs (y :: ys)
    else x :: setUnionAux comp n xs ys

/-- The algorithm `std::set_union`, with the same iteration bound. -/
def setUnion (comp : Color → Color → Bool) (range1 range2 : List Color) : List Color :=
  setUnionAux comp (range1.length + range2.length) range1 range2

/-- Insertion into a `std::set<Color, ColorOrdering>`, kept as the increasing
list of its elements; an element equivalent to a member is not inserted. -/
def colorSetInsert (c : Color) : List Color → List Color
  | [] => [c]
  | x :: xs =>
    if ColorOrdering c x then c :: x :: xs
    else if ColorOrdering x c then x :: colorSetInsert c xs
    else x :: xs

/-! ## Palette -/

/-- The class `Palette`: the array `colors_` of 256 colours is split into its
first `size_` entries (`colors`) and the entries behind them (`spare`). -/
structure Palette where
  colors : List Color
  spare : List Color
deriving DecidableEq, Repr

namespace Palette

/-- The constant `Palette::maxColorCount`. -/
def maxColorCount : Nat := 256

/-- The method `Palette::size`. -/
def size (p : Palette) : Nat := p.colors.length

/-- Default-constructed palette: size zero over a value-initialised array. -/
def empty : Palette := ⟨[], List.replicate maxColorCount Color.zero⟩

/-- The constructor `Palette(std::size_t size)`. -/
def ofSize (size : Nat) : Palette :=
  ⟨List.replicate size Color.zero, List.replicate (maxColorCount - size) Color.zero⟩

/-- The range constructor `Palette(ColorIterator begin, ColorIterator end)`. -/
def ofRange (range : List Color) : Except Error Palette :=
  if range.length > maxColorCount then .error .tooManyColors
  else .ok ⟨range, List.replicate (maxColorCount - range.length) Color.zero⟩

/-- The method `Palette::clear`: only `size_` is set to zero. -/
def clear (p : Palette) : Palette := ⟨[], p.colors ++ p.spare⟩

/-- Unchecked `Palette::operator[]` on the underlying array. -/
def get (p : Palette) (index : Nat) : Color := (p.colors ++ p.spare).getD index Color.zero

/-- The method `Palette::bits`. -/
def bits (p : Palette) : Except Error Nat :=
  if p.size ≤ 1 then .ok 0
  else if p.size ≤ 2 then .ok 1
  else if p.size ≤ 4 then .ok 2
  else if p.size ≤ 16 then .ok 4
  else if p.size ≤ 256 then .ok 8
  else .error .invalidPalette

/-- The method `Palette::difference`: `std::set_difference` of `other` against
`*this`, written into a default-constructed palette. -/
def difference (self other : Palette) : Palette :=
  let out := setDifference ColorOrdering other.colors self.colors
  ⟨out, List.replicate (maxColorCount - out.length) Color.zero⟩

/-- The method `Palette::merge`: `std::set_union` of `other` and `*this`,
written into a default-constructed palette. -/
def merge (self other : Palette) : Palette :=
  let out := setUnion ColorOrdering other.colors self.colors
  ⟨out, List.replicate (maxColorCount - out.length) Color.zero⟩

/-- Colours strictly increasing in the order of `ColorOrdering` (the class
invariant of the specification). -/
def Sorted (p : Palette) : Prop := Increasing p.colors

instance (p : Palette) : Decidable p.Sorted := by unfold Sorted; infer_instance

end Palette

/-! ## Byte buffer writer and reader (`detail/serialization.h`) -/

/-- The `width` octets of an unsigned integer, least significant first; taking
only `width` octets is the cast `static_cast<C>(value)`. -/
def littleEndian : Nat → Nat → List Byte
  | 0, _ => []
  | width + 1, value => toUInt8 value :: littleEndian width (value / 256)

/-- Value of a little-endian octet string. -/
def fromLittleEndian : List Byte → Nat
  | [] => 0
  | b :: bs => b.val + 256 * fromLittleEndian bs

/-- The class `BufferWriter` over a region of `size` octets; `written` holds
the octets in front of the cursor, so `offset_` is its length.  What lies
behind the cursor is never read through the writer. -/
structure BufferWriter where
  written : List Byte
  size : Nat
deriving DecidableEq, Repr

namespace BufferWriter

/-- The method `BufferWriter::offset`. -/
def offset (w : BufferWriter) : Nat := w.written.length

/-- The private member template `BufferWriter::write<C>`, `width = sizeof(C)`. -/
def write (w : BufferWriter) (width value : Nat) : Except Error BufferWriter :=
  if w.offset + width > w.size then .error .bufferOverflow
  else .ok { w with written := w.written ++ littleEndian width value }

/-- The method `BufferWriter::writeUInt8`. -/
def writeUInt8 (w : BufferWriter) (value : Nat) : Except Error BufferWriter := w.write 1 value

/-- The method `BufferWriter::writeUInt32`. -/
def writeUInt32 (w : BufferWriter) (value : Nat) : Except Error BufferWriter := w.write 4 value

/-- The method `BufferWriter::writeByte`. -/
def writeByte (w : BufferWriter) (value : Byte) : Except Error BufferWriter := w.write 1 value.val

/-- Assignment through the reference returned by an earlier `writeUInt32`
whose slot starts at `position`. -/
def patchUInt32 (w : BufferWriter) (position value : Nat) : BufferWriter :=
  { w with written := w.written.take position ++ littleEndian 4 value ++
      w.written.drop (position + 4) }

/-- The method `BufferWriter::advance` over `stored`, octets that were put
behind the cursor through `data()`; the cursor moves by their number. -/
def advance (w : BufferWriter) (stored : List Byte) : Except Error BufferWriter :=
  if w.offset + stored.length > w.size then .error .bufferOverflow
  else .ok { w with written := w.written ++ stored }

end BufferWriter

/-- The class `BufferReader`; `size_` is the length of `data`. -/
structure BufferReader where
  data : List Byte
  offset : Nat
deriving DecidableEq, Repr

namespace BufferReader

/-- The method `BufferReader::size`. -/
def size (r : BufferReader) : Nat := r.data.length

/-- The octets behind the cursor. -/
def remaining (r : BufferReader) : List Byte := r.data.drop r.offset

/-- The private member template `BufferReader::read<T>`, `width = sizeof(T)`. -/
def read (r : BufferReader) (width : Nat) : Except Error (Nat × BufferReader) :=
  if r.offset + width > r.size then .error .bufferOverflow
  else .ok (fromLittleEndian (r.remaining.take width), { r with offset := r.offset + width })

/-- The methods `BufferReader::readUInt8` and `BufferReader::readByte`. -/
def readUInt8 (r : BufferReader) : Except Error (Byte × BufferReader) :=
  match r.read 1 with
  | .error err => .error err
  | .ok (value, r) => .ok (toUInt8 value, r)

/-- The method `BufferReader::readUInt32`. -/
def readUInt32 (r : BufferReader) : Except Error (Nat × BufferReader) := r.read 4

/-- The method `BufferReader::advance`. -/
def advance (r : BufferReader) (count : Nat) : Except Error BufferReader :=
  if r.offset + count > r.size then .error .bufferOverflow
  else .ok { r with offset := r.offset + count }

end BufferReader

/-- The function `writeColor`. -/
def writeColor (w : BufferWriter) (color : Color) : Except Error BufferWriter := do
  let w ← w.writeByte color.r
  let w ← w.writeByte color.g
  w.writeByte color.b

/-- The function `readColor`. -/
def readColor (r : BufferReader) : Except Error (Color × BufferReader) := do
  let (red, r) ← r.readUInt8
  let (green, r) ← r.readUInt8
  let (blue, r) ← r.readUInt8
  pure (⟨red, green, blue⟩, r)

/-- The loop `for(const auto& color : palette) writeColor(writer, color)`. -/
def writeColors : List Color → BufferWriter → Except Error BufferWriter
  | [], w => pure w
  | color :: rest, w => do
    let w ← writeColor w color
    writeColors rest w

/-- The loop `for(Color& color : palette) color = readColor(reader)` over a
palette of `count` colours. -/
def readColors : Nat → BufferReader → Except Error (List Color × BufferReader)
  | 0, r => pure ([], r)
  | count + 1, r => do
    let (color, r) ← readColor r
    let (rest, r) ← readColors count r
    pure (color :: rest, r)

/-- Object representation of a `std::vector<Color>`: three octets per colour. -/
def colorsToBytes : List Color → List Byte
  | [] => []
  | c :: cs => c.r :: c.g :: c.b :: colorsToBytes cs

/-- The colours whose object representation is the given octet string. -/
def bytesToColors : List Byte → List Color
  | r :: g :: b :: rest => ⟨r, g, b⟩ :: bytesToColors rest
  | _ => []

/-! ## Block kinds (`FrameBlock`, `detail/variant_utils.h`) -/

/-- The alternatives of the variant `FrameBlock`, in declaration order. -/
inductive FrameBlock where
  | KeyFrameBlock
  | PaletteBlock
  | PaletteResetBlock
  | IndexedBitmapBlock
  | RawBitmapBlock
  | SolidColorBitmapBlock
  | NullBitmapBlock
deriving DecidableEq, Repr

/-- The type list of `std::variant<...>` in `FrameBlock`. -/
def FrameBlock.alternatives : List FrameBlock :=
  [.KeyFrameBlock, .PaletteBlock, .PaletteResetBlock, .IndexedBitmapBlock,
   .RawBitmapBlock, .SolidColorBitmapBlock, .NullBitmapBlock]

/-- The recursion of `VariantTypeIndexImpl<Index, Type, std::variant<...>>`. -/
def variantTypeIndexImpl (index : Nat) (type : FrameBlock) : List FrameBlock → Nat
  | [] => index
  | variantType :: variantTypes =>
    if type = variantType then index else variantTypeIndexImpl (index + 1) type variantTypes

/-- The function `variant_type_index<Type, FrameBlock>()`. -/
def variant_type_index (type : FrameBlock) : Nat :=
  variantTypeIndexImpl 0 type FrameBlock.alternatives

/-- The recursion `MakeVariantImpl::make_variant_impl<Index, T, Rest...>`. -/
def make_variant_impl (current : Nat) : List FrameBlock → Nat → Except Error FrameBlock
  | [], _ => .error .invalidVariantIndex
  | alternative :: rest, index =>
    if current = index then .ok alternative else make_variant_impl (current + 1) rest index

/-- The function `make_variant<FrameBlock>(index)`. -/
def make_variant (index : Nat) : Except Error FrameBlock :=
  make_variant_impl 0 FrameBlock.alternatives index

/-! ## The entropy codec (zstd, external) -/

/-- The zstd streaming interface as the codec uses it.  A session is
identified with `history`, the inputs it has processed since its last reset,
newest first.
* `compress history input` is what `ZSTD_compressStream2(.., ZSTD_e_flush)`
  emits while it consumes the non-empty `input`;
* `decompress history input` is what `ZSTD_decompressStream` emits while it
  consumes the non-empty `input`;
* `compressBound` is `ZSTD_compressBound`. -/
structure Zstd where
  compress : List (List Byte) → List Byte → List Byte
  decompress : List (List Byte) → List Byte → List Byte
  compressBound : Nat → Nat

/-- The blocks a compression session emitted for the inputs `history` (newest
first), which is the history of a decompression session fed with them. -/
def Zstd.emitted (z : Zstd) : List (List Byte) → List (List Byte)
  | [] => []
  | input :: history => z.compress history input :: z.emitted history

/-- The codec is lossless as a stream: a decompression session that was fed
the blocks emitted so far returns, for the next emitted block, the input that
block was made from, and that block is not empty. -/
def Zstd.Lossless (z : Zstd) : Prop :=
  ∀ (history : List (List Byte)) (input : List Byte),
    (∀ earlier ∈ history, earlier ≠ []) → input ≠ [] →
    z.compress history input ≠ [] ∧
    z.decompress (z.emitted history) (z.compress history input) = input

/-- The assumption on `ZSTD_compressBound`: it bounds the size of what is
emitted for an input of a given size, and grows with that size. -/
def Zstd.Bounded (z : Zstd) : Prop :=
  (∀ (history : List (List Byte)) (input : List Byte),
    (z.compress history input).length ≤ z.compressBound input.length) ∧
  (∀ m n : Nat, m ≤ n → z.compressBound m ≤ z.compressBound n)

/-- A codec that stores its input unchanged. -/
def Zstd.store : Zstd := ⟨fun _ input => input, fun _ input => input, fun n => n⟩

/-- A codec that puts the number of blocks emitted so far in the session
(modulo 256) in front of the stored input. -/
def Zstd.counting : Zstd :=
  ⟨fun history input => toUInt8 history.length :: input,
   fun _ input => input.tail,
   fun n => n + 1⟩

/-! ## Encoder (`lpvc.h`, `detail/lpvc_impl.h`, `lpvc.cpp`) -/

/-- The struct `EncoderSettings`. -/
structure EncoderSettings where
  usePalette : Bool := true
  zstdCompressionLevel : Int := 18
  zstdWorkerCount : Int := 1
deriving DecidableEq, Repr

/-- The struct `Encoder::EncodeResult`. -/
structure EncodeResult where
  bytesWritten : Nat := 0
  keyFrame : Bool := false
deriving DecidableEq, Repr

/-- The data members of the class `Encoder`.  Of `internalBuffer_` only the
size is kept: every routine writes it before it reads it.  The member
`colorMap_` (a `std::unordered_map`) is an association list, and
`zstdCompressor_` is the history of the compression session. -/
structure Encoder where
  settings : EncoderSettings
  bitmapInfo : BitmapInfo
  frameBitmap : List Color
  previousFrameBitmap : List Color
  internalBufferSize : Nat
  palette : Palette
  colorMap : List (Color × Byte)
  firstFrame : Bool
  zstdCompressor : List (List Byte)
deriving DecidableEq, Repr

/-- What one call of `Encoder::encode` leaves behind: the returned record,
the octets written to the output buffer, and the encoder. -/
structure Encoded where
  result : EncodeResult
  output : List Byte
  encoder : Encoder
deriving DecidableEq, Repr

/-- The function `KeyFrameBlock::maxSize`. -/
def KeyFrameBlock.maxSize : Nat := 0

/-- The function `PaletteBlock::maxSize`. -/
def PaletteBlock.maxSize : Nat := 1 + Palette.maxColorCount * 3

/-- The function `PaletteResetBlock::maxSize`. -/
def PaletteResetBlock.maxSize : Nat := 0

/-- The function `IndexedBitmapBlock::maxSize`. -/
def IndexedBitmapBlock.maxSize (bitmapInfo : BitmapInfo) : Nat :=
  1 + bitmapInfo.width * bitmapInfo.height * 1

/-- The function `RawBitmapBlock::maxSize`. -/
def RawBitmapBlock.maxSize (bitmapInfo : BitmapInfo) : Nat :=
  bitmapInfo.width * bitmapInfo.height * 3

/-- The function `SolidColorBitmapBlock::maxSize`. -/
def SolidColorBitmapBlock.maxSize : Nat := 3

/-- The function `NullBitmapBlock::maxSize`. -/
def NullBitmapBlock.maxSize : Nat := 0

/-- The function `safeInternalOutpuBufferSize`. -/
def safeInternalOutpuBufferSize (bitmapInfo : BitmapInfo) : Nat :=
  max PaletteBlock.maxSize (IndexedBitmapBlock.maxSize bitmapInfo)

/-- Insertion `colorMap_.emplace(color, index)`: a key that is present keeps
its value. -/
def colorMapEmplace (colorMap : List (Color × Byte)) (color : Color) (index : Byte) :
    List (Color × Byte) :=
  if (colorMap.lookup color).isSome then colorMap else colorMap ++ [(color, index)]

/-- Lookup `colorMap_.at(color)`. -/
def colorMapAt (colorMap : List (Color × Byte)) (color : Color) : Except Error Byte :=
  match colorMap.lookup color with
  | some index => .ok index
  | none => .error .colorNotMapped

/-- The loop of `PaletteBlock::encode` that fills `colorMap_` from the palette,
`colorIdx` counting up from its second argument. -/
def colorMapFill : List Color → Nat → List (Color × Byte) → List (Color × Byte)
  | [], _, colorMap => colorMap
  | color :: rest, colorIdx, colorMap =>
    colorMapFill rest (colorIdx + 1) (colorMapEmplace colorMap color (toUInt8 colorIdx))

namespace Encoder

/-- The constructor `Encoder::Encoder`. -/
def construct (bitmapInfo : BitmapInfo) (settings : EncoderSettings := {}) : Encoder :=
  { settings := settings
    bitmapInfo := bitmapInfo
    frameBitmap := List.replicate (bitmapInfo.width * bitmapInfo.height) Color.zero
    previousFrameBitmap := []
    internalBufferSize := safeInternalOutpuBufferSize bitmapInfo
    palette := Palette.empty
    colorMap := []
    firstFrame := true
    zstdCompressor := [] }

/-- The method `Encoder::safeOutputBufferSize`. -/
def safeOutputBufferSize (z : Zstd) (e : Encoder) : Nat :=
  let fullBlockSize := fun (blockSize : Nat) => 1 + blockSize
  let compressedBlockSize := fun (blockSize : Nat) => 4 + z.compressBound blockSize
  let indexedBitmapWithPaletteSize :=
    fullBlockSize (compressedBlockSize PaletteResetBlock.maxSize) +
    fullBlockSize (compressedBlockSize PaletteBlock.maxSize) +
    fullBlockSize (compressedBlockSize (IndexedBitmapBlock.maxSize e.bitmapInfo))
  let rawBitmapSize := fullBlockSize (compressedBlockSize (RawBitmapBlock.maxSize e.bitmapInfo))
  let solidColorBitmapSize := fullBlockSize SolidColorBitmapBlock.maxSize
  fullBlockSize KeyFrameBlock.maxSize +
    max (max indexedBitmapWithPaletteSize rawBitmapSize) solidColorBitmapSize

/-- The method `Encoder::resetPalette`. -/
def resetPalette (e : Encoder) : Encoder :=
  { e with palette := e.palette.clear, colorMap := [] }

/-- The method `Encoder::reset`. -/
def reset (e : Encoder) : Encoder :=
  { e.resetPalette with previousFrameBitmap := [], zstdCompressor := [] }

/-- The method `Encoder::compressBuffer`.  The library is handed the region
behind the cursor as destination and is not called on an empty input; when
what it has to emit does not fit the destination the stream cannot be
completed, which is the error `zstdDstTooSmall`. -/
def compressBuffer (z : Zstd) (e : Encoder) (w : BufferWriter) (inputBuffer : List Byte) :
    Except Error (Encoder × BufferWriter) := do
  let position := w.offset
  let w ← w.writeUInt32 0
  let emitted := if inputBuffer = [] then [] else z.compress e.zstdCompressor inputBuffer
  let e := if inputBuffer = [] then e
    else { e with zstdCompressor := inputBuffer :: e.zstdCompressor }
  if emitted.length > w.size - w.offset then .error .zstdDstTooSmall
  else
    let compressedSize := emitted.length % 2 ^ 32
    let w := w.patchUInt32 position compressedSize
    let w ← w.advance (emitted.take compressedSize)
    pure (e, w)

/-- The method `Encoder::copyFrameBitmap`. -/
def copyFrameBitmap (e : Encoder) (bitmap : List Color) : Encoder :=
  { e with frameBitmap := bitmap.take (e.bitmapInfo.width * e.bitmapInfo.height) }

/-- The loop of `Encoder::makePalette` over the pixels, `colorSet` being the
`std::set`; `none` is the early `return std::nullopt`. -/
def makePaletteLoop : List Color → List Color → Option (List Color)
  | [], colorSet => some colorSet
  | color :: rest, colorSet =>
    let colorSet := colorSetInsert color colorSet
    if colorSet.length > Palette.maxColorCount then none else makePaletteLoop rest colorSet

/-- The method `Encoder::makePalette`. -/
def makePalette (e : Encoder) (bitmap : List Color) : Except Error (Option Palette) :=
  match makePaletteLoop (bitmap.take (e.bitmapInfo.width * e.bitmapInfo.height)) [] with
  | none => .ok none
  | some colorSet =>
    match Palette.ofRange colorSet with
    | .error err => .error err
    | .ok palette => .ok (some palette)

end Encoder

/-- The member template `Encoder::writeBlock<Block>`: the tag octet, then the
`encode` routine of the block. -/
def writeBlock (block : FrameBlock) (w : BufferWriter)
    (encode : BufferWriter → Except Error (Encoder × BufferWriter)) :
    Except Error (Encoder × BufferWriter) := do
  let w ← w.writeUInt8 (variant_type_index block)
  encode w

/-- The function `KeyFrameBlock::encode`. -/
def KeyFrameBlock.encode (e : Encoder) (w : BufferWriter) :
    Except Error (Encoder × BufferWriter) :=
  pure (e.reset, w)

/-- The uncompressed content `PaletteBlock::encode` assembles in the internal
buffer. -/
def PaletteBlock.payload (e : Encoder) (palette : Palette) : Except Error (List Byte) := do
  let internalBufferWriter : BufferWriter := ⟨[], e.internalBufferSize⟩
  let internalBufferWriter ← internalBufferWriter.writeUInt8 (palette.size - 1)
  let internalBufferWriter ← writeColors palette.colors internalBufferWriter
  pure internalBufferWriter.written

/-- The function `PaletteBlock::encode`. -/
def PaletteBlock.encode (z : Zstd) (e : Encoder) (w : BufferWriter) (palette : Palette) :
    Except Error (Encoder × BufferWriter) :=
  if palette.size = 0 then .error .emptyPalette
  else do
    let payload ← PaletteBlock.payload e palette
    let (e, w) ← e.compressBuffer z w payload
    let merged := e.palette.merge palette
    pure ({ e with palette := merged, colorMap := colorMapFill merged.colors 0 [] }, w)

/-- The function `PaletteResetBlock::encode`. -/
def PaletteResetBlock.encode (e : Encoder) (w : BufferWriter) :
    Except Error (Encoder × BufferWriter) :=
  pure (e.resetPalette, w)

/-- Local variables of the packing loop of `IndexedBitmapBlock::encode`. -/
structure PackState where
  writer : BufferWriter
  compressedBitmap : Byte
  compressedOffset : Nat
deriving DecidableEq, Repr

/-- Body of the packing loop of `IndexedBitmapBlock::encode`, behind the
lookup of the palette index. -/
def IndexedBitmapBlock.packStep (paletteBits : Nat) (st : PackState) (paletteIndex : Byte) :
    Except Error PackState :=
  let compressedBitmap :=
    toUInt8 (st.compressedBitmap.val ||| (paletteIndex.val <<< st.compressedOffset))
  let compressedOffset := st.compressedOffset + paletteBits
  if compressedOffset = 8 then do
    let writer ← st.writer.writeUInt8 compressedBitmap.val
    pure ⟨writer, 0, 0⟩
  else pure ⟨st.writer, compressedBitmap, compressedOffset⟩

/-- The packing loop of `IndexedBitmapBlock::encode` over the pixels; `lookup`
is `colorMap_.at`. -/
def IndexedBitmapBlock.packLoop {α : Type} (lookup : α → Except Error Byte) (paletteBits : Nat) :
    List α → PackState → Except Error PackState
  | [], st => pure st
  | color :: rest, st => do
    let paletteIndex ← lookup color
    let st ← IndexedBitmapBlock.packStep paletteBits st paletteIndex
    IndexedBitmapBlock.packLoop lookup paletteBits rest st

/-- The statement behind the packing loop: a started octet is written out. -/
def IndexedBitmapBlock.packFlush (st : PackState) : Except Error BufferWriter :=
  if st.compressedOffset ≠ 0 then st.writer.writeUInt8 st.compressedBitmap.val
  else pure st.writer

/-- The uncompressed content `IndexedBitmapBlock::encode` assembles in the
internal buffer. -/
def IndexedBitmapBlock.payload (e : Encoder) : Except Error (List Byte) := do
  let internalBufferWriter : BufferWriter := ⟨[], e.internalBufferSize⟩
  let paletteBits ← e.palette.bits
  let internalBufferWriter ← internalBufferWriter.writeUInt8 paletteBits
  let st ← IndexedBitmapBlock.packLoop (colorMapAt e.colorMap) paletteBits e.frameBitmap
    ⟨internalBufferWriter, 0, 0⟩
  let internalBufferWriter ← IndexedBitmapBlock.packFlush st
  pure internalBufferWriter.written

/-- The function `IndexedBitmapBlock::encode`. -/
def IndexedBitmapBlock.encode (z : Zstd) (e : Encoder) (w : BufferWriter) :
    Except Error (Encoder × BufferWriter) := do
  let payload ← IndexedBitmapBlock.payload e
  e.compressBuffer z w payload

/-- The function `RawBitmapBlock::encode`. -/
def RawBitmapBlock.encode (z : Zstd) (e : Encoder) (w : BufferWriter) :
    Except Error (Encoder × BufferWriter) :=
  e.compressBuffer z w (colorsToBytes e.frameBitmap)

/-- The function `SolidColorBitmapBlock::encode`. -/
def SolidColorBitmapBlock.encode (e : Encoder) (w : BufferWriter) (color : Color) :
    Except Error (Encoder × BufferWriter) := do
  let w ← writeColor w color
  pure ({ e with frameBitmap := List.replicate e.frameBitmap.length color }, w)

/-- The function `NullBitmapBlock::encode`. -/
def NullBitmapBlock.encode (e : Encoder) (w : BufferWriter) :
    Except Error (Encoder × BufferWriter) :=
  pure (e, w)

namespace Encoder

/-- The method `Encoder::updatePalette`. -/
def updatePalette (z : Zstd) (e : Encoder) (w : BufferWriter) (newPalette : Palette) :
    Except Error (Encoder × BufferWriter) :=
  let newColors := e.palette.difference newPalette
  if newColors.size > 0 then do
    let bits ← newPalette.bits
    let newPaletteMaxColorCount := 1 <<< bits
    if e.palette.size + newColors.size > newPaletteMaxColorCount then do
      let (e, w) ←
        if e.palette.size ≠ 0 then writeBlock .PaletteResetBlock w (PaletteResetBlock.encode e)
        else pure (e, w)
      writeBlock .PaletteBlock w (fun w => PaletteBlock.encode z e w newPalette)
    else writeBlock .PaletteBlock w (fun w => PaletteBlock.encode z e w newColors)
  else pure (e, w)

/-- The branch of `Encoder::encode` taken when the frame is not sent as a
`NullBitmapBlock`, up to the assignment of `previousFrameBitmap_`. -/
def encodeBitmap (z : Zstd) (e : Encoder) (w : BufferWriter) (bitmap : List Color) :
    Except Error (Encoder × BufferWriter) :=
  if e.settings.usePalette then do
    let newPalette ← e.makePalette bitmap
    match newPalette with
    | some newPalette =>
      if newPalette.size = 1 then
        writeBlock .SolidColorBitmapBlock w
          (fun w => SolidColorBitmapBlock.encode e w (newPalette.get 0))
      else do
        let (e, w) ← e.updatePalette z w newPalette
        let e := e.copyFrameBitmap bitmap
        writeBlock .IndexedBitmapBlock w (IndexedBitmapBlock.encode z e)
    | none =>
      let e := e.copyFrameBitmap bitmap
      writeBlock .RawBitmapBlock w (RawBitmapBlock.encode z e)
  else
    let e := e.copyFrameBitmap bitmap
    writeBlock .RawBitmapBlock w (RawBitmapBlock.encode z e)

/-- The member template `Encoder::encode`; `std::equal` compares the previous
frame with as many pixels of the input. -/
def encode (z : Zstd) (e : Encoder) (bitmap : List Color) (keyFrame : Bool) :
    Except Error Encoded := do
  let bufferWriter : BufferWriter := ⟨[], e.safeOutputBufferSize z⟩
  let keyFrame := if e.firstFrame then true else keyFrame
  let e := if e.firstFrame then { e with firstFrame := false } else e
  let (e, bufferWriter) ←
    if keyFrame then writeBlock .KeyFrameBlock bufferWriter (KeyFrameBlock.encode e)
    else pure (e, bufferWriter)
  let (e, bufferWriter) ←
    if e.previousFrameBitmap ≠ [] ∧
        e.previousFrameBitmap = bitmap.take e.previousFrameBitmap.length then
      writeBlock .NullBitmapBlock bufferWriter (NullBitmapBlock.encode e)
    else do
      let (e, bufferWriter) ← e.encodeBitmap z bufferWriter bitmap
      pure ({ e with previousFrameBitmap := e.frameBitmap }, bufferWriter)
  pure ⟨⟨bufferWriter.offset, keyFrame⟩, bufferWriter.written, e⟩

end Encoder

/-! ## Decoder -/

/-- The struct `Decoder::DecodeResult`. -/
structure DecodeResult where
  keyFrame : Bool := false
deriving DecidableEq, Repr

/-- The data members of the class `Decoder`; `zstdDecompressor_` is the
history of the decompression session. -/
structure Decoder where
  bitmapInfo : BitmapInfo
  frameBitmap : List Color
  previousFrameBitmap : List Color
  internalBuffer : List Byte
  palette : Palette
  zstdDecompressor : List (List Byte)
  result : DecodeResult
deriving DecidableEq, Repr

/-- What one call of `Decoder::decode` leaves behind: the returned record, the
pixels copied to the output iterator, the decoder, and (for reference only)
the block kinds that were dispatched, in order. -/
structure Decoded where
  result : DecodeResult
  bitmap : List Color
  decoder : Decoder
  blocks : List FrameBlock
deriving DecidableEq, Repr

/-- Local variables of the unpacking loop of `IndexedBitmapBlock::decode`. -/
structure UnpackState where
  reader : BufferReader
  compressedBitmap : Byte
  compressedOffset : Nat
deriving DecidableEq, Repr

/-- Body of the unpacking loop of `IndexedBitmapBlock::decode`, up to the
palette index.  (A shift count `8 - paletteBits - compressedOffset` below zero
is undefined in the source; the subtraction here stops at zero.) -/
def IndexedBitmapBlock.unpackStep (paletteBits : Nat) (st : UnpackState) :
    Except Error (Byte × UnpackState) := do
  let st ←
    if st.compressedOffset = 8 then do
      let (compressedBitmap, reader) ← st.reader.readUInt8
      pure (⟨reader, compressedBitmap, 0⟩ : UnpackState)
    else pure st
  let paletteIndex := toUInt8 (st.compressedBitmap.val <<< (8 - paletteBits - st.compressedOffset))
  let paletteIndex := toUInt8 (paletteIndex.val >>> (8 - paletteBits))
  pure (paletteIndex, { st with compressedOffset := st.compressedOffset + paletteBits })

/-- The unpacking loop of `IndexedBitmapBlock::decode` over `count` pixels;
`lookup` is `palette_[paletteIndex]`. -/
def IndexedBitmapBlock.unpackLoop {α : Type} (lookup : Byte → α) (paletteBits : Nat) :
    Nat → UnpackState → Except Error (List α)
  | 0, _ => pure []
  | count + 1, st => do
    let (paletteIndex, st) ← IndexedBitmapBlock.unpackStep paletteBits st
    let rest ← IndexedBitmapBlock.unpackLoop lookup paletteBits count st
    pure (lookup paletteIndex :: rest)

namespace Decoder

/-- The constructor `Decoder::Decoder`. -/
def construct (bitmapInfo : BitmapInfo) : Decoder :=
  { bitmapInfo := bitmapInfo
    frameBitmap := List.replicate (bitmapInfo.width * bitmapInfo.height) Color.zero
    previousFrameBitmap := []
    internalBuffer := List.replicate (safeInternalOutpuBufferSize bitmapInfo) 0
    palette := Palette.empty
    zstdDecompressor := []
    result := {} }

/-- The method `Decoder::resetPalette`. -/
def resetPalette (d : Decoder) : Decoder := { d with palette := d.palette.clear }

/-- The method `Decoder::reset`. -/
def reset (d : Decoder) : Decoder := { d.resetPalette with zstdDecompressor := [] }

/-- The method `Decoder::decompressBuffer` with destination `outputBuffer`,
whose new content is returned.  The compressed octets are taken behind the
cursor (`advance` rejects a length that leaves the buffer), the library is not
called when there are none, and an output that does not fit the destination
is the error `zstdDstTooSmall`. -/
def decompressBuffer (z : Zstd) (d : Decoder) (r : BufferReader) (outputBuffer : List Byte) :
    Except Error (Decoder × BufferReader × List Byte) := do
  let (compressedSize, r) ← r.readUInt32
  let input := r.remaining.take compressedSize
  let output := if compressedSize = 0 then [] else z.decompress d.zstdDecompressor input
  let d := if compressedSize = 0 then d
    else { d with zstdDecompressor := input :: d.zstdDecompressor }
  if output.length > outputBuffer.length then .error .zstdDstTooSmall
  else do
    let r ← r.advance compressedSize
    pure (d, r, output ++ outputBuffer.drop output.length)

end Decoder

/-- The function `KeyFrameBlock::decode`. -/
def KeyFrameBlock.decode (d : Decoder) (r : BufferReader) : Except Error (Decoder × BufferReader) :=
  pure ({ d.reset with result := { d.reset.result with keyFrame := true } }, r)

/-- The function `PaletteBlock::decode`. -/
def PaletteBlock.decode (z : Zstd) (d : Decoder) (r : BufferReader) :
    Except Error (Decoder × BufferReader) := do
  let (d, r, internalBuffer) ← d.decompressBuffer z r d.internalBuffer
  let d := { d with internalBuffer := internalBuffer }
  let internalBufferReader : BufferReader := ⟨d.internalBuffer, 0⟩
  let (count, internalBufferReader) ← internalBufferReader.readUInt8
  let size := count.val + 1
  let (colors, _) ← readColors size internalBufferReader
  let palette : Palette := { Palette.ofSize size with colors := colors }
  pure ({ d with palette := d.palette.merge palette }, r)

/-- The function `PaletteResetBlock::decode`. -/
def PaletteResetBlock.decode (d : Decoder) (r : BufferReader) :
    Except Error (Decoder × BufferReader) :=
  pure (d.resetPalette, r)

/-- The function `IndexedBitmapBlock::decode`. -/
def IndexedBitmapBlock.decode (z : Zstd) (d : Decoder) (r : BufferReader) :
    Except Error (Decoder × BufferReader) := do
  let (d, r, internalBuffer) ← d.decompressBuffer z r d.internalBuffer
  let d := { d with internalBuffer := internalBuffer }
  let internalBufferReader : BufferReader := ⟨d.internalBuffer, 0⟩
  let (paletteBits, internalBufferReader) ← internalBufferReader.readUInt8
  let frameBitmap ← IndexedBitmapBlock.unpackLoop (fun paletteIndex => d.palette.get paletteIndex.val)
    paletteBits.val d.frameBitmap.length ⟨internalBufferReader, 0, 8⟩
  pure ({ d with frameBitmap := frameBitmap }, r)

/-- The function `RawBitmapBlock::decode`: the destination is the storage of
`frameBitmap_`. -/
def RawBitmapBlock.decode (z : Zstd) (d : Decoder) (r : BufferReader) :
    Except Error (Decoder × BufferReader) := do
  let (d, r, frameBytes) ← d.decompressBuffer z r (colorsToBytes d.frameBitmap)
  pure ({ d with frameBitmap := bytesToColors frameBytes }, r)

/-- The function `SolidColorBitmapBlock::decode`. -/
def SolidColorBitmapBlock.decode (d : Decoder) (r : BufferReader) :
    Except Error (Decoder × BufferReader) := do
  let (color, r) ← readColor r
  pure ({ d with frameBitmap := List.replicate d.frameBitmap.length color }, r)

/-- The function `NullBitmapBlock::decode`. -/
def NullBitmapBlock.decode (d : Decoder) (r : BufferReader) :
    Except Error (Decoder × BufferReader) :=
  pure ({ d with frameBitmap := d.previousFrameBitmap }, r)

namespace Decoder

/-- The visitor of `Decoder::decode`: the `decode` routine of the block. -/
def decodeBlock (z : Zstd) (d : Decoder) (r : BufferReader) :
    FrameBlock → Except Error (Decoder × BufferReader)
  | .KeyFrameBlock => KeyFrameBlock.decode d r
  | .PaletteBlock => PaletteBlock.decode z d r
  | .PaletteResetBlock => PaletteResetBlock.decode d r
  | .IndexedBitmapBlock => IndexedBitmapBlock.decode z d r
  | .RawBitmapBlock => RawBitmapBlock.decode z d r
  | .SolidColorBitmapBlock => SolidColorBitmapBlock.decode d r
  | .NullBitmapBlock => NullBitmapBlock.decode d r

/-- The `while` loop of `Decoder::decode`, with a budget of iterations; it
also lists the dispatched block kinds. -/
def decodeLoop (z : Zstd) : Nat → Decoder → BufferReader → Except Error (Decoder × List FrameBlock)
  | 0, d, r => if r.offset = r.size then pure (d, []) else .error .outOfFuel
  | fuel + 1, d, r =>
    if r.offset = r.size then pure (d, [])
    else do
      let (frameBlockId, r) ← r.readUInt8
      let block ← make_variant frameBlockId.val
      let (d, r) ← d.decodeBlock z r block
      let (d, blocks) ← decodeLoop z fuel d r
      pure (d, block :: blocks)

/-- The member template `Decoder::decode`.  Every iteration of its loop reads
at least the tag octet, so the size of the input bounds the iterations. -/
def decode (z : Zstd) (d : Decoder) (inputBuffer : List Byte) : Except Error Decoded := do
  let bufferReader : BufferReader := ⟨inputBuffer, 0⟩
  let d := { d with result := {} }
  let (d, blocks) ← d.decodeLoop z inputBuffer.length bufferReader
  let d := { d with previousFrameBitmap := d.frameBitmap }
  pure ⟨d.result, d.frameBitmap, d, blocks⟩

end Decoder

/-! ## Streams of frames -/

/-- Successive `encode` calls on one encoder: the records of the calls and the
encoder after the last one. -/
def encodeAll (z : Zstd) : Encoder → List (List Color × Bool) → Except Error (List Encoded)
  | _, [] => pure []
  | e, (bitmap, keyFrame) :: rest => do
    let encoded ← e.encode z bitmap keyFrame
    let more ← encodeAll z encoded.encoder rest
    pure (encoded :: more)

/-- Successive `decode` calls on one decoder, each on a whole byte frame. -/
def decodeAll (z : Zstd) : Decoder → List (List Byte) → Except Error (List Decoded)
  | _, [] => pure []
  | d, inputBuffer :: rest => do
    let decoded ← d.decode z inputBuffer
    let more ← decodeAll z decoded.decoder rest
    pure (decoded :: more)

/-- The octets the packing loop of `IndexedBitmapBlock::encode` and the
statement behind it write for the palette indices `indices`, when entered
with `compressedBitmap` and `compressedOffset` (a device for reasoning; the
loop itself is `IndexedBitmapBlock.packLoop`). -/
def packedBytes (paletteBits : Nat) : List Byte → Byte → Nat → List Byte
  | [], compressedBitmap, compressedOffset =>
    if compressedOffset ≠ 0 then [compressedBitmap] else []
  | paletteIndex :: rest, compressedBitmap, compressedOffset =>
    let compressedBitmap := toUInt8 (compressedBitmap.val ||| (paletteIndex.val <<< compressedOffset))
    if compressedOffset + paletteBits = 8 then compressedBitmap :: packedBytes paletteBits rest 0 0
    else packedBytes paletteBits rest compressedBitmap (compressedOffset + paletteBits)

/-- The reader over `consumed ++ rest` whose cursor stands behind `consumed`
(every reader whose cursor is inside its buffer is of this form). -/
def BufferReader.between (consumed rest : List Byte) : BufferReader :=
  ⟨consumed ++ rest, consumed.length⟩

/-- An encoder about to send a four-pixel frame with a three-colour palette
as an indexed bitmap (used to exercise `IndexedBitmapBlock.payload`). -/
def indexedExample : Encoder :=
  { Encoder.construct ⟨2, 2⟩ with
    palette := ⟨[⟨0, 0, 1⟩, ⟨0, 0, 2⟩, ⟨0, 0, 3⟩], []⟩
    colorMap := colorMapFill [⟨0, 0, 1⟩, ⟨0, 0, 2⟩, ⟨0, 0, 3⟩] 0 []
    frameBitmap := [⟨0, 0, 3⟩, ⟨0, 0, 1⟩, ⟨0, 0, 2⟩, ⟨0, 0, 3⟩] }

/-- The value the specification gives for `safe_output_buffer_size()`, with
`N` pixels: the KeyFrame and PaletteReset terms are the tag octet alone, the
entropy-coded blocks count tag, 4-octet length and `compressBound` of their
payload (769, `1 + N`, `3 * N`), the solid-colour block is tag and 3 octets. -/
def specSafeOutputBufferSize (z : Zstd) (N : Nat) : Nat :=
  1 + max (max (1 + (5 + z.compressBound 769) + (5 + z.compressBound (1 + N)))
    (5 + z.compressBound (3 * N))) 4

/-- What `Encoder::compressBuffer` appends to the output for `input` in a
session with the given history: the 32-bit length, then as many of the
emitted octets. -/
def Zstd.framed (z : Zstd) (history : List (List Byte)) (input : List Byte) : List Byte :=
  littleEndian 4 ((if input = [] then [] else z.compress history input).length % 2 ^ 32) ++
    (if input = [] then [] else z.compress history input).take
      ((if input = [] then [] else z.compress history input).length % 2 ^ 32)

/-- History of a compression session after `Encoder::compressBuffer` ran on
`input`: the library is not called on an empty input. -/
def Zstd.fed (history : List (List Byte)) (input : List Byte) : List (List Byte) :=
  if input = [] then history else input :: history

/-- Index of a colour in a palette, as the octet `colorMap_` holds for it. -/
def Palette.indexByte (p : Palette) (c : Color) : Byte := toUInt8 (p.colors.indexOf c)

/-- The uncompressed content of a Palette block: the colour count minus one,
then the colours. -/
def PaletteBlock.content (palette : Palette) : List Byte :=
  toUInt8 (palette.size - 1) :: colorsToBytes palette.colors

/-- The uncompressed content of an IndexedBitmap block for bit width `b`. -/
def IndexedBitmapBlock.content (e : Encoder) (b : Nat) : List Byte :=
  toUInt8 b :: packedBytes b (e.frameBitmap.map e.palette.indexByte) 0 0

/-- The second encoder differs from the first at most in the frame buffer, the
palette with its colour map, and the compression session. -/
structure Encoder.SameConfig (e e' : Encoder) : Prop where
  bitmapInfo : e'.bitmapInfo = e.bitmapInfo
  settings : e'.settings = e.settings
  buffer : e'.internalBufferSize = e.internalBufferSize
  firstFrame : e'.firstFrame = e.firstFrame
  previous : e'.previousFrameBitmap = e.previousFrameBitmap

/-- The shape of the octets that follow the tag of a block: none, a colour,
or a 32-bit length and as many octets. -/
def FrameBlock.Payload (block : FrameBlock) (payload : List Byte) : Prop :=
  match block with
  | .KeyFrameBlock => payload = []
  | .PaletteBlock =>
    ∃ chunk, chunk.length < 2 ^ 32 ∧ payload = littleEndian 4 chunk.length ++ chunk
  | .PaletteResetBlock => payload = []
  | .IndexedBitmapBlock =>
    ∃ chunk, chunk.length < 2 ^ 32 ∧ payload = littleEndian 4 chunk.length ++ chunk
  | .RawBitmapBlock =>
    ∃ chunk, chunk.length < 2 ^ 32 ∧ payload = littleEndian 4 chunk.length ++ chunk
  | .SolidColorBitmapBlock => ∃ color : Color, payload = [color.r, color.g, color.b]
  | .NullBitmapBlock => payload = []

/-- The octets are the blocks one after the other, each its tag and a payload
of the shape of its kind. -/
inductive Tagged : List Byte → List FrameBlock → Prop where
  | nil : Tagged [] []
  | cons (block : FrameBlock) (payload rest : List Byte) (more : List FrameBlock) :
      block.Payload payload → Tagged rest more →
      Tagged (toUInt8 (variant_type_index block) :: (payload ++ rest)) (block :: more)

/-! ## Invariants and the relation between an encoder and a decoder -/

/-- Invariant of the encoder between two `encode` calls: the frame buffer has
`width * height` pixels, the previous frame is empty or has as many, the
internal buffer has the size the constructor gives it, the palette is
strictly increasing with at most 256 colours, the colour map is the one built
from the palette, and no empty input was handed to the compressor. -/
structure Encoder.Inv (e : Encoder) : Prop where
  frame : e.frameBitmap.length = e.bitmapInfo.pixelCount
  previous : e.previousFrameBitmap = [] ∨
    e.previousFrameBitmap.length = e.bitmapInfo.pixelCount
  buffer : e.internalBufferSize = safeInternalOutpuBufferSize e.bitmapInfo
  sorted : e.palette.Sorted
  size : e.palette.size ≤ Palette.maxColorCount
  colorMap : e.colorMap = colorMapFill e.palette.colors 0 []
  session : ∀ earlier ∈ e.zstdCompressor, earlier ≠ []

/-- Invariant of the decoder while it receives the frames of an encoder for
`bitmapInfo`: the buffers have the sizes the constructor gives them. -/
structure Decoder.Inv (d : Decoder) (bitmapInfo : BitmapInfo) : Prop where
  frame : d.frameBitmap.length = bitmapInfo.pixelCount
  buffer : d.internalBuffer.length = safeInternalOutpuBufferSize bitmapInfo

/-- The decoder is in step with the encoder: same palette colours, the
decompression session has been fed what the compression session emitted, and
the same previous frame whenever the encoder has one. -/
structure Sync (z : Zstd) (e : Encoder) (d : Decoder) : Prop where
  palette : d.palette.colors = e.palette.colors
  session : d.zstdDecompressor = z.emitted e.zstdCompressor
  previous : e.previousFrameBitmap ≠ [] → d.previousFrameBitmap = e.previousFrameBitmap

/-- Reading `bytes`, the loop of `Decoder::decode` dispatches `blocks` and
takes the decoder from `d` to `d'`, whatever precedes and follows `bytes` in
the buffer. -/
def DecodesTo (z : Zstd) (d : Decoder) (bytes : List Byte) (blocks : List FrameBlock)
    (d' : Decoder) : Prop :=
  ∀ (pre post : List Byte) (fuel : Nat) (last : Decoder) (more : List FrameBlock),
    Decoder.decodeLoop z fuel d' (BufferReader.between (pre ++ bytes) post) = .ok (last, more) →
    Decoder.decodeLoop z (fuel + blocks.length) d (BufferReader.between pre (bytes ++ post)) =
      .ok (last, blocks ++ more)

/-- One bitmap block (with what precedes it in the frame) took the encoder
from `e` with writer `w` to `e'` with writer `w'`: it appended `bytes`, the
frame buffer now holds `bitmap`, and a decoder in step with `e` that reads
`bytes` dispatches `blocks`, ends in step with `e'` and holds `bitmap`. -/
structure BitmapStep (z : Zstd) (e : Encoder) (w : BufferWriter) (bitmap : List Color)
    (e' : Encoder) (w' : BufferWriter) (bytes : List Byte) (blocks : List FrameBlock) : Prop where
  writer : w' = ⟨w.written ++ bytes, w.size⟩
  fits : w.offset + bytes.length ≤ w.size
  inv : e'.Inv
  config : e.SameConfig e'
  frame : e'.frameBitmap = bitmap
  decoder : z.Lossless → w.size < 2 ^ 32 → ∀ d, Sync z e d → d.Inv e.bitmapInfo →
    ∃ d', DecodesTo z d bytes blocks d' ∧ Sync z e' d' ∧ d'.Inv e.bitmapInfo ∧
      d'.result = d.result ∧ d'.frameBitmap = bitmap

/-- What a successful `encode` call did: the state it leaves, the record it
returns, the shape of the octets it wrote (they start with the tag of the
first of `blocks`, a KeyFrame block exactly when the frame is a key frame),
and what a decoder makes of them when the frame is a key frame or the decoder
is in step with the encoder. -/
structure FrameStep (z : Zstd) (e : Encoder) (bitmap : List Color) (keyFrame : Bool)
    (enc : Encoded) (blocks : List FrameBlock) : Prop where
  inv : enc.encoder.Inv
  bitmapInfo : enc.encoder.bitmapInfo = e.bitmapInfo
  settings : enc.encoder.settings = e.settings
  firstFrame : enc.encoder.firstFrame = false
  previous : enc.encoder.previousFrameBitmap = bitmap
  keyFrame : enc.result.keyFrame = (e.firstFrame || keyFrame)
  bytesWritten : enc.result.bytesWritten = enc.output.length
  fits : enc.output.length ≤ e.safeOutputBufferSize z
  tagged : Tagged enc.output blocks
  nonempty : blocks ≠ []
  count : blocks.length ≤ enc.output.length
  head : enc.result.keyFrame = true ↔ blocks.head? = some .KeyFrameBlock
  tail : ∀ k ∈ blocks.tail, k ≠ .KeyFrameBlock
  decoder : z.Lossless → e.safeOutputBufferSize z < 2 ^ 32 → ∀ d, d.Inv e.bitmapInfo →
    (enc.result.keyFrame = true ∨ Sync z e d) →
    ∃ dec, d.decode z enc.output = .ok dec ∧ dec.bitmap = bitmap ∧
      dec.result.keyFrame = enc.result.keyFrame ∧ dec.blocks = blocks ∧
      Sync z enc.encoder dec.decoder ∧ dec.decoder.Inv e.bitmapInfo

/-- Four frames of a 2×1 stream with their key-frame requests: two colours,
the same frame again, a requested key frame of one colour, two colours of
which one is new. -/
def streamExample : List (List Color × Bool) :=
  [([⟨255, 0, 0⟩, ⟨0, 0, 255⟩], false), ([⟨255, 0, 0⟩, ⟨0, 0, 255⟩], false),
   ([⟨0, 255, 0⟩, ⟨0, 255, 0⟩], true), ([⟨1, 2, 3⟩, ⟨0, 255, 0⟩], false)]

/-- The records of the `encode` calls of a stream, none if a call failed. -/
def encodedStream (z : Zstd) (bitmapInfo : BitmapInfo) (settings : EncoderSettings)
    (frames : List (List Color × Bool)) : List Encoded :=
  match encodeAll z (Encoder.construct bitmapInfo settings) frames with
  | .ok encs => encs
  | .error _ => []

/-- The cursor `r'` is the cursor `r` moved forward over the same buffer,
not beyond its end. -/
def BufferReader.Advanced (r r' : BufferReader) : Prop :=
  r'.data = r.data ∧ r.offset ≤ r'.offset ∧ r'.offset ≤ r'.size

/-- The encoder behind the first statements of `Encoder::encode`: `firstFrame_`
is cleared and, for a key frame, the KeyFrame block has reset the encoder. -/
def Encoder.afterKeyFrame (e : Encoder) (keyFrame : Bool) : Encoder :=
  if (e.firstFrame || keyFrame) = true then ({ e with firstFrame := false } : Encoder).reset
  else { e with firstFrame := false }

/-- The octets `Encoder::encode` writes in front of the bitmap block: the tag
of the KeyFrame block for a key frame, nothing otherwise. -/
def Encoder.keyTag (e : Encoder) (keyFrame : Bool) : List Byte :=
  if (e.firstFrame || keyFrame) = true then [toUInt8 (variant_type_index .KeyFrameBlock)] else []

/-- The encoders a freshly constructed encoder becomes by successive `encode`
calls on frames of `width * height` colours that return; `last` is the frame
given to the latest call, if there was one. -/
inductive Encoder.After (z : Zstd) (bitmapInfo : BitmapInfo) (settings : EncoderSettings) :
    Option (List Color) → Encoder → Prop where
  | fresh : Encoder.After z bitmapInfo settings none (Encoder.construct bitmapInfo settings)
  | call (last : Option (List Color)) (e : Encoder) (bitmap : List Color) (keyFrame : Bool)
      (enc : Encoded) :
      Encoder.After z bitmapInfo settings last e →
      bitmap.length = bitmapInfo.width * bitmapInfo.height →
      e.encode z bitmap keyFrame = .ok enc →
      Encoder.After z bitmapInfo settings (some bitmap) enc.encoder

/-- The record an `encode` call returns, for a call that returns. -/
def Encoder.encoded (z : Zstd) (e : Encoder) (bitmap : List Color) (keyFrame : Bool) : Encoded :=
  match e.encode z bitmap keyFrame with
  | .ok enc => enc
  | .error _ => ⟨{}, [], e⟩

/-- A 2×1 frame of two colours. -/
def twoColourExample : List Color := [⟨255, 0, 0⟩, ⟨0, 0, 255⟩]

/-- A 2×1 frame of one colour. -/
def solidExample : List Color := [⟨7, 8, 9⟩, ⟨7, 8, 9⟩]

/-- The loop of `Decoder::decode`, entered with the first decoder and cursor,
has dispatched whole blocks and stands with the second decoder at the second
cursor, which is a block boundary. -/
inductive Decoder.Dispatched (z : Zstd) :
    Decoder → BufferReader → Decoder → BufferReader → Prop
  | start (d : Decoder) (r : BufferReader) : Decoder.Dispatched z d r d r
  | block (d : Decoder) (r : BufferReader) (frameBlockId : Byte) (r0 : BufferReader)
      (block : FrameBlock) (d1 : Decoder) (r1 : BufferReader) (d' : Decoder)
      (r' : BufferReader) :
      r.offset ≠ r.size → r.readUInt8 = .ok (frameBlockId, r0) →
      make_variant frameBlockId.val = .ok block →
      d.decodeBlock z r0 block = .ok (d1, r1) →
      Decoder.Dispatched z d1 r1 d' r' → Decoder.Dispatched z d r d' r'

/-- The encoder for 2×1 frames with default settings that has encoded
`twoColourExample` as its first frame; its palette holds the two colours. -/
def twoColourEncoder : Encoder :=
  ((Encoder.construct ⟨2, 1⟩ {}).encoded Zstd.store twoColourExample false).encoder

/-- The block kinds that carry the pixels of a frame: IndexedBitmap,
RawBitmap, SolidColorBitmap and NullBitmap. -/
def FrameBlock.isBitmap : FrameBlock → Bool
  | .IndexedBitmapBlock => true
  | .RawBitmapBlock => true
  | .SolidColorBitmapBlock => true
  | .NullBitmapBlock => true
  | _ => false

/-- A 3×1 frame of two colours. -/
def threePixelExample : List Color := [⟨255, 0, 0⟩, ⟨0, 0, 255⟩, ⟨255, 0, 0⟩]

/-- The encoder for 3×1 frames with default settings that has encoded
`threePixelExample` as its first frame. -/
def threePixelEncoder : Encoder :=
  ((Encoder.construct ⟨3, 1⟩ {}).encoded Zstd.store threePixelExample false).encoder

/-! ## Properties -/

/-! ### The colour order -/

theorem ColorOrdering_iff (a b : Color) : ColorOrdering a b = true ↔ a.key < b.key := by
  obtain ⟨ar, ag, ab⟩ := a
  obtain ⟨br, bg, bb⟩ := b
  simp only [ColorOrdering, Color.key, Fin.lt_def]
  split_ifs <;> simp <;> omega

theorem Color.key_inj {a b : Color} (h : a.key = b.key) : a = b := by
  obtain ⟨ar, ag, ab⟩ := a
  obtain ⟨br, bg, bb⟩ := b
  simp only [Color.key] at h
  have h1 : ar.val = br.val := by omega
  have h2 : ag.val = bg.val := by omega
  have h3 : ab.val = bb.val := by omega
  simp [Fin.ext_iff, h1, h2, h3]

theorem ColorOrdering_eq_false_iff (a b : Color) : ColorOrdering a b = false ↔ b.key ≤ a.key := by
  rw [← Bool.not_eq_true, ColorOrdering_iff]; omega

theorem Increasing.tail {x : Color} {l : List Color} (h : Increasing (x :: l)) : Increasing l :=
  (List.pairwise_cons.1 h).2

theorem Increasing.head_lt {x c : Color} {l : List Color} (h : Increasing (x :: l))
    (hc : c ∈ l) : x.key < c.key :=
  (ColorOrdering_iff x c).1 ((List.pairwise_cons.1 h).1 c hc)

theorem Increasing.nodup {l : List Color} (h : Increasing l) : l.Nodup := by
  refine List.Pairwise.imp ?_ h
  intro a b hab heq
  rw [ColorOrdering_iff] at hab
  subst heq
  omega

theorem Increasing.eq_of_mem_iff {l₁ l₂ : List Color} (h₁ : Increasing l₁) (h₂ : Increasing l₂)
    (hmem : ∀ c, c ∈ l₁ ↔ c ∈ l₂) : l₁ = l₂ := by
  have hperm : l₁.Perm l₂ := (List.perm_ext_iff_of_nodup h₁.nodup h₂.nodup).2 hmem
  refine @List.eq_of_perm_of_sorted _ _ ⟨?_⟩ _ _ hperm h₁ h₂
  intro a b hab hba
  rw [ColorOrdering_iff] at hab hba
  omega

/-! ### `std::set_difference` and `std::set_union` on increasing lists -/

theorem setDifferenceAux_eq_filter (n : Nat) : ∀ (xs ys : List Color),
    xs.length + ys.length ≤ n → Increasing xs → Increasing ys →
    setDifferenceAux ColorOrdering n xs ys = xs.filter (fun c => decide (c ∉ ys)) := by
  induction n with
  | zero =>
    intro xs ys hlen _ _
    have : xs = [] := List.length_eq_zero.1 (by omega)
    subst this
    simp [setDifferenceAux]
  | succ n ih =>
    intro xs ys hlen hx hy
    cases xs with
    | nil => simp [setDifferenceAux]
    | cons x xs =>
      cases ys with
      | nil => simp [setDifferenceAux]
      | cons y ys =>
        simp only [List.length_cons] at hlen
        simp only [setDifferenceAux]
        by_cases hxy : ColorOrdering x y = true
        · have hlt := (ColorOrdering_iff x y).1 hxy
          have hnot : x ∉ y :: ys := by
            intro hmem
            rcases List.mem_cons.1 hmem with h | h
            · subst h; omega
            · have := hy.head_lt h; omega
          rw [if_pos hxy, ih xs (y :: ys) (by simp only [List.length_cons]; omega) hx.tail hy]
          rw [List.filter_cons_of_pos (by simpa using hnot)]
        · rw [if_neg hxy]
          have hge := (ColorOrdering_eq_false_iff x y).1 (by simpa using hxy)
          by_cases hyx : ColorOrdering y x = true
          · have hlt := (ColorOrdering_iff y x).1 hyx
            rw [if_pos hyx, ih (x :: xs) ys (by simp only [List.length_cons]; omega) hx hy.tail]
            apply List.filter_congr
            intro c hc
            have hcy : c ≠ y := by
              intro h
              subst h
              rcases List.mem_cons.1 hc with h | h
              · subst h; omega
              · have := hx.head_lt h; omega
            simp [hcy]
          · rw [if_neg hyx]
            have hle := (ColorOrdering_eq_false_iff y x).1 (by simpa using hyx)
            have heq : x = y := Color.key_inj (by omega)
            subst heq
            rw [ih xs ys (by omega) hx.tail hy.tail]
            rw [List.filter_cons_of_neg (by simp)]
            apply List.filter_congr
            intro c hc
            have hcx : c ≠ x := by
              intro h
              subst h
              have := hx.head_lt hc; omega
            simp [hcx]

theorem setDifference_eq_filter {xs ys : List Color} (hx : Increasing xs) (hy : Increasing ys) :
    setDifference ColorOrdering xs ys = xs.filter (fun c => decide (c ∉ ys)) :=
  setDifferenceAux_eq_filter _ xs ys (Nat.le_refl _) hx hy

theorem setUnionAux_spec (n : Nat) : ∀ (xs ys : List Color),
    xs.length + ys.length ≤ n → Increasing xs → Increasing ys →
    (∀ c, c ∈ setUnionAux ColorOrdering n xs ys ↔ c ∈ xs ∨ c ∈ ys) ∧
    Increasing (setUnionAux ColorOrdering n xs ys) ∧
    (setUnionAux ColorOrdering n xs ys).length ≤ xs.length + ys.length ∧
    ((∀ c ∈ xs, c ∉ ys) →
      (setUnionAux ColorOrdering n xs ys).length = xs.length + ys.length) := by
  induction n with
  | zero =>
    intro xs ys hlen _ _
    have h1 : xs = [] := List.length_eq_zero.1 (by omega)
    have h2 : ys = [] := List.length_eq_zero.1 (by omega)
    subst h1 h2
    simp [setUnionAux, Increasing]
  | succ n ih =>
    intro xs ys hlen hx hy
    cases xs with
    | nil => simp [setUnionAux, hy]
    | cons x xs =>
      cases ys with
      | nil => simp [setUnionAux, hx]
      | cons y ys =>
        simp only [List.length_cons] at hlen
        simp only [setUnionAux]
        by_cases hyx : ColorOrdering y x = true
        · have hlt := (ColorOrdering_iff y x).1 hyx
          obtain ⟨hm, hs, hl, hd⟩ :=
            ih (x :: xs) ys (by simp only [List.length_cons]; omega) hx hy.tail
          rw [if_pos hyx]
          refine ⟨?_, ?_, ?_, ?_⟩
          · intro c
            simp only [List.mem_cons, hm]
            constructor
            · rintro (h | (h | h) | h) <;> simp [h]
            · rintro ((h | h) | h | h) <;> simp [h]
          · refine List.pairwise_cons.2 ⟨?_, hs⟩
            intro c hc
            rw [ColorOrdering_iff]
            rcases (hm c).1 hc with h | h
            · rcases List.mem_cons.1 h with h | h
              · subst h; exact hlt
              · have := hx.head_lt h; omega
            · exact hy.head_lt h
          · simp only [List.length_cons] at hl ⊢; omega
          · intro hdisj
            have := hd (fun c hc hcy => hdisj c hc (List.mem_cons_of_mem _ hcy))
            simp only [List.length_cons] at this ⊢; omega
        · rw [if_neg hyx]
          have hge := (ColorOrdering_eq_false_iff y x).1 (by simpa using hyx)
          by_cases hxy : ColorOrdering x y = true
          · have hlt := (ColorOrdering_iff x y).1 hxy
            obtain ⟨hm, hs, hl, hd⟩ :=
              ih xs (y :: ys) (by simp only [List.length_cons]; omega) hx.tail hy
            rw [if_pos hxy]
            refine ⟨?_, ?_, ?_, ?_⟩
            · intro c
              simp only [List.mem_cons, hm, or_assoc]
            · refine List.pairwise_cons.2 ⟨?_, hs⟩
              intro c hc
              rw [ColorOrdering_iff]
              rcases (hm c).1 hc with h | h
              · exact hx.head_lt h
              · rcases List.mem_cons.1 h with h | h
                · subst h; exact hlt
                · have := hy.head_lt h; omega
            · simp only [List.length_cons] at hl ⊢; omega
            · intro hdisj
              have := hd (fun c hc hcy => hdisj c (List.mem_cons_of_mem _ hc) hcy)
              simp only [List.length_cons] at this ⊢; omega
          · rw [if_neg hxy]
            have hle := (ColorOrdering_eq_false_iff x y).1 (by simpa using hxy)
            have heq : x = y := Color.key_inj (by omega)
            subst heq
            obtain ⟨hm, hs, hl, hd⟩ := ih xs ys (by omega) hx.tail hy.tail
            refine ⟨?_, ?_, ?_, ?_⟩
            · intro c
              simp only [List.mem_cons, hm]
              constructor
              · rintro (h | h | h) <;> simp [h]
              · rintro ((h | h) | h | h) <;> simp [h]
            · refine List.pairwise_cons.2 ⟨?_, hs⟩
              intro c hc
              rw [ColorOrdering_iff]
              rcases (hm c).1 hc with h | h
              · exact hx.head_lt h
              · exact hy.head_lt h
            · simp only [List.length_cons] at hl ⊢; omega
            · intro hdisj
              exact absurd (List.mem_cons_self x ys) (hdisj x (List.mem_cons_self x xs))

theorem setUnion_spec {xs ys : List Color} (hx : Increasing xs) (hy : Increasing ys) :
    (∀ c, c ∈ setUnion ColorOrdering xs ys ↔ c ∈ xs ∨ c ∈ ys) ∧
    Increasing (setUnion ColorOrdering xs ys) ∧
    (setUnion ColorOrdering xs ys).length ≤ xs.length + ys.length ∧
    ((∀ c ∈ xs, c ∉ ys) → (setUnion ColorOrdering xs ys).length = xs.length + ys.length) :=
  setUnionAux_spec _ xs ys (Nat.le_refl _) hx hy

/-! ### Palette algebra -/

/-- C9: for palettes `A` and `B` with strictly increasing colours,
`A.difference(B)` is the strictly increasing sequence of exactly the colours
of `B` that are not in `A` (the colours of `B` in their order, those of `A`
removed), so it has at most `|B|` colours. -/
theorem Palette.difference_spec (A B : Palette) (hA : A.Sorted) (hB : B.Sorted) :
    (A.difference B).Sorted ∧
    (∀ c, c ∈ (A.difference B).colors ↔ c ∈ B.colors ∧ c ∉ A.colors) ∧
    (A.difference B).colors = B.colors.filter (fun c => decide (c ∉ A.colors)) ∧
    (A.difference B).size ≤ B.size := by
  have hEq : (A.difference B).colors = B.colors.filter (fun c => decide (c ∉ A.colors)) :=
    setDifference_eq_filter hB hA
  refine ⟨?_, ?_, hEq, ?_⟩
  · unfold Palette.Sorted Increasing
    rw [hEq]
    exact List.Pairwise.filter _ hB
  · intro c
    rw [hEq]
    simp [List.mem_filter]
  · unfold Palette.size
    rw [hEq]
    exact List.length_filter_le _ _

/-- C10: for palettes `A` and `B` with strictly increasing colours whose union
has at most 256 colours, `A.merge(B)` is the strictly increasing sequence of
exactly the colours of `A` and of `B`; it has at most `|A| + |B|` colours,
exactly that many when `A` and `B` share no colour; and `A.merge(B)` is
`B.merge(A)`. -/
theorem Palette.merge_spec (A B : Palette) (hA : A.Sorted) (hB : B.Sorted)
    (_hUnion : (A.colors ++ B.colors).dedup.length ≤ Palette.maxColorCount) :
    (A.merge B).Sorted ∧
    (∀ c, c ∈ (A.merge B).colors ↔ c ∈ A.colors ∨ c ∈ B.colors) ∧
    (A.merge B).size ≤ A.size + B.size ∧
    ((∀ c ∈ A.colors, c ∉ B.colors) → (A.merge B).size = A.size + B.size) ∧
    A.merge B = B.merge A := by
  obtain ⟨hm, hs, hl, hd⟩ := setUnion_spec hB hA
  obtain ⟨hm2, hs2, -, -⟩ := setUnion_spec hA hB
  refine ⟨hs, ?_, ?_, ?_, ?_⟩
  · intro c
    exact (hm c).trans Or.comm
  · unfold Palette.size
    have : (A.merge B).colors = setUnion ColorOrdering B.colors A.colors := rfl
    rw [this]
    omega
  · intro hdisj
    unfold Palette.size
    have : (A.merge B).colors = setUnion ColorOrdering B.colors A.colors := rfl
    rw [this, hd (fun c hc hcA => hdisj c hcA hc)]
    omega
  · have hEq : setUnion ColorOrdering B.colors A.colors = setUnion ColorOrdering A.colors B.colors :=
      Increasing.eq_of_mem_iff hs hs2 (fun c => by rw [hm c, hm2 c]; exact Or.comm)
    simp only [Palette.merge, hEq]

/-- Witness for C9 on two overlapping two-colour palettes. -/
theorem Palette.difference_spec_witness :
    (Palette.mk [⟨0, 0, 1⟩, ⟨0, 0, 3⟩] []).Sorted ∧ (Palette.mk [⟨0, 0, 2⟩, ⟨0, 0, 3⟩] []).Sorted ∧
    ((Palette.mk [⟨0, 0, 1⟩, ⟨0, 0, 3⟩] []).difference (Palette.mk [⟨0, 0, 2⟩, ⟨0, 0, 3⟩] [])).colors
      = [⟨0, 0, 2⟩] :=
  ⟨by decide, by decide,
    ((Palette.difference_spec ⟨[⟨0, 0, 1⟩, ⟨0, 0, 3⟩], []⟩ ⟨[⟨0, 0, 2⟩, ⟨0, 0, 3⟩], []⟩
      (by decide) (by decide)).2.2.1).trans (by decide)⟩

/-- Witness for C10 on two overlapping two-colour palettes. -/
theorem Palette.merge_spec_witness :
    (Palette.mk [⟨0, 0, 1⟩, ⟨0, 0, 3⟩] []).Sorted ∧ (Palette.mk [⟨0, 0, 2⟩, ⟨0, 0, 3⟩] []).Sorted ∧
    ((Palette.mk [⟨0, 0, 1⟩, ⟨0, 0, 3⟩] []).merge (Palette.mk [⟨0, 0, 2⟩, ⟨0, 0, 3⟩] [])).size ≤ 2 + 2 ∧
    (Palette.mk [⟨0, 0, 1⟩, ⟨0, 0, 3⟩] []).merge (Palette.mk [⟨0, 0, 2⟩, ⟨0, 0, 3⟩] []) =
      (Palette.mk [⟨0, 0, 2⟩, ⟨0, 0, 3⟩] []).merge (Palette.mk [⟨0, 0, 1⟩, ⟨0, 0, 3⟩] []) :=
  have h := Palette.merge_spec ⟨[⟨0, 0, 1⟩, ⟨0, 0, 3⟩], []⟩ ⟨[⟨0, 0, 2⟩, ⟨0, 0, 3⟩], []⟩
    (by decide) (by decide) (by decide)
  ⟨by decide, by decide, h.2.2.1, h.2.2.2.2⟩

/-! ### Cursors -/

theorem toUInt8_val (v : Nat) : (toUInt8 v).val = v % 256 := rfl

theorem toUInt8_of_val (b : Byte) : toUInt8 b.val = b := by
  apply Fin.ext
  simp [toUInt8_val, Nat.mod_eq_of_lt b.isLt]

theorem BufferWriter.write_ok {w : BufferWriter} {width : Nat} (value : Nat)
    (h : w.offset + width ≤ w.size) :
    w.write width value = .ok ⟨w.written ++ littleEndian width value, w.size⟩ := by
  unfold BufferWriter.write
  rw [if_neg (by omega)]

theorem BufferWriter.writeUInt8_ok {w : BufferWriter} (value : Nat) (h : w.offset + 1 ≤ w.size) :
    w.writeUInt8 value = .ok ⟨w.written ++ [toUInt8 value], w.size⟩ :=
  BufferWriter.write_ok value h

theorem BufferWriter.write_inv {w w' : BufferWriter} {width value : Nat}
    (h : w.write width value = .ok w') :
    w'.written = w.written ++ littleEndian width value ∧ w'.size = w.size ∧
      w.offset + width ≤ w.size := by
  unfold BufferWriter.write at h
  split at h
  · cases h
  · cases h
    exact ⟨rfl, rfl, by omega⟩

theorem littleEndian_length (width value : Nat) : (littleEndian width value).length = width := by
  induction width generalizing value with
  | zero => rfl
  | succ n ih => simp [littleEndian, ih]

/-! ### Bit packing of palette indices -/

theorem pack_arith {acc idx off b : Nat} (hacc : acc < 2 ^ off) (hidx : idx < 2 ^ b)
    (hob : off + b ≤ 8) :
    (acc ||| idx <<< off) % 256 = acc + idx * 2 ^ off ∧ acc + idx * 2 ^ off < 2 ^ (off + b) := by
  have h1 : acc ||| idx <<< off = acc + idx * 2 ^ off := by
    rw [Nat.shiftLeft_eq, Nat.lor_comm, Nat.mul_comm idx, ← Nat.mul_add_lt_is_or hacc idx]
    omega
  have h2 : acc + idx * 2 ^ off < 2 ^ (off + b) := by
    have : (idx + 1) * 2 ^ off ≤ 2 ^ b * 2 ^ off := Nat.mul_le_mul_right _ hidx
    rw [pow_add, Nat.mul_comm (2 ^ off)]
    rw [Nat.succ_mul] at this
    omega
  have h3 : 2 ^ (off + b) ≤ 2 ^ 8 := Nat.pow_le_pow_right (by decide) hob
  refine ⟨?_, h2⟩
  rw [h1]
  exact Nat.mod_eq_of_lt (by omega)

theorem low_bits {c acc idx off b : Nat} (hacc : acc < 2 ^ off)
    (hc : c % 2 ^ (off + b) = acc + idx * 2 ^ off) :
    (c / 2 ^ off) % 2 ^ b = idx ∧ c % 2 ^ off = acc := by
  constructor
  · rw [← Nat.mod_mul_right_div_self, ← pow_add, hc, Nat.add_mul_div_right _ _ (by positivity),
      Nat.div_eq_of_lt hacc]
    simp
  · have : c % 2 ^ off = c % 2 ^ (off + b) % 2 ^ off := by
      rw [pow_add, Nat.mod_mul_right_mod]
    rw [this, hc, Nat.add_mul_mod_self_right, Nat.mod_eq_of_lt hacc]

theorem unpack_arith {c b off : Nat} (hb : b = 1 ∨ b = 2 ∨ b = 4 ∨ b = 8) (hc : c < 256)
    (hob : off + b ≤ 8) :
    ((c <<< (8 - b - off)) % 256) >>> (8 - b) = (c / 2 ^ off) % 2 ^ b := by
  simp only [Nat.shiftLeft_eq, Nat.shiftRight_eq_div_pow]
  have hoff : off ≤ 8 := by omega
  rcases hb with rfl | rfl | rfl | rfl <;> interval_cases off <;> omega

theorem offset_step {b off : Nat} (hb : b = 1 ∨ b = 2 ∨ b = 4 ∨ b = 8) (hmod : off % b = 0)
    (hlt : off < 8) : off + b ≤ 8 ∧ (off + b) % b = 0 ∧ 0 < b := by
  rcases hb with rfl | rfl | rfl | rfl <;> omega

/-- The packing loop and the statement behind it write `packedBytes`. -/
theorem packLoop_eq_packedBytes (b : Nat) : ∀ (idxs : List Byte) (st : PackState),
    st.writer.offset + (packedBytes b idxs st.compressedBitmap st.compressedOffset).length
      ≤ st.writer.size →
    ∃ st', IndexedBitmapBlock.packLoop (fun i => Except.ok i) b idxs st = .ok st' ∧
      IndexedBitmapBlock.packFlush st' = .ok
        ⟨st.writer.written ++ packedBytes b idxs st.compressedBitmap st.compressedOffset,
          st.writer.size⟩ := by
  intro idxs
  induction idxs with
  | nil =>
    intro st hcap
    refine ⟨st, rfl, ?_⟩
    unfold IndexedBitmapBlock.packFlush packedBytes
    by_cases h : st.compressedOffset ≠ 0
    · simp only [packedBytes, if_pos h, List.length_singleton] at hcap
      rw [if_pos h, if_pos h, BufferWriter.writeUInt8_ok _ hcap, toUInt8_of_val]
    · rw [if_neg h, if_neg h]
      simp [pure, Except.pure]
  | cons idx rest ih =>
    intro st hcap
    simp only [IndexedBitmapBlock.packLoop, IndexedBitmapBlock.packStep, bind, Except.bind]
    simp only [packedBytes] at hcap ⊢
    by_cases h : st.compressedOffset + b = 8
    · rw [if_pos h] at hcap ⊢
      simp only [if_pos h, List.length_cons] at hcap ⊢
      rw [BufferWriter.writeUInt8_ok _ (by omega)]
      simp only [toUInt8_of_val, pure, Except.pure]
      obtain ⟨st', h1, h2⟩ := ih ⟨⟨st.writer.written ++
        [toUInt8 (st.compressedBitmap.val ||| idx.val <<< st.compressedOffset)], st.writer.size⟩,
        0, 0⟩ (by simp only [BufferWriter.offset, List.length_append, List.length_singleton] at hcap ⊢
                  omega)
      refine ⟨st', h1, ?_⟩
      rw [h2]
      simp
    · rw [if_neg h] at hcap ⊢
      simp only [if_neg h, pure, Except.pure]
      obtain ⟨st', h1, h2⟩ := ih ⟨st.writer,
        toUInt8 (st.compressedBitmap.val ||| idx.val <<< st.compressedOffset),
        st.compressedOffset + b⟩ hcap
      exact ⟨st', h1, h2⟩


theorem BufferReader.between_remaining (pre post : List Byte) :
    (BufferReader.between pre post).remaining = post := by
  simp [BufferReader.between, BufferReader.remaining]

theorem BufferReader.between_append (pre l post : List Byte) :
    (⟨pre ++ (l ++ post), pre.length + l.length⟩ : BufferReader) =
      BufferReader.between (pre ++ l) post := by
  simp [BufferReader.between]

theorem BufferReader.between_offset_eq_size (pre post : List Byte) :
    (BufferReader.between pre post).offset = (BufferReader.between pre post).size ↔ post = [] := by
  simp [BufferReader.between, BufferReader.size]

theorem fromLittleEndian_littleEndian (width value : Nat) :
    fromLittleEndian (littleEndian width value) = value % 256 ^ width := by
  induction width generalizing value with
  | zero => simp [littleEndian, fromLittleEndian, Nat.mod_one]
  | succ n ih =>
    simp only [littleEndian, fromLittleEndian, ih, toUInt8_val]
    rw [pow_succ, Nat.mul_comm (256 ^ n), Nat.mod_mul]

theorem BufferReader.read_between (pre l post : List Byte) :
    (BufferReader.between pre (l ++ post)).read l.length =
      .ok (fromLittleEndian l, BufferReader.between (pre ++ l) post) := by
  unfold BufferReader.read
  rw [if_neg (by simp [BufferReader.between, BufferReader.size])]
  rw [BufferReader.between_remaining]
  simp [BufferReader.between]

theorem BufferReader.readUInt8_between (pre : List Byte) (x : Byte) (post : List Byte) :
    (BufferReader.between pre (x :: post)).readUInt8 =
      .ok (x, BufferReader.between (pre ++ [x]) post) := by
  have h := BufferReader.read_between pre [x] post
  simp only [List.length_singleton, List.singleton_append] at h
  unfold BufferReader.readUInt8
  rw [h]
  simp [fromLittleEndian, toUInt8_of_val]

theorem BufferReader.readUInt32_between (pre : List Byte) (value : Nat) (post : List Byte) :
    (BufferReader.between pre (littleEndian 4 value ++ post)).readUInt32 =
      .ok (value % 2 ^ 32, BufferReader.between (pre ++ littleEndian 4 value) post) := by
  have h := BufferReader.read_between pre (littleEndian 4 value) post
  rw [littleEndian_length] at h
  unfold BufferReader.readUInt32
  rw [h, fromLittleEndian_littleEndian]
  norm_num

theorem BufferReader.advance_between (pre l post : List Byte) :
    (BufferReader.between pre (l ++ post)).advance l.length =
      .ok (BufferReader.between (pre ++ l) post) := by
  unfold BufferReader.advance
  rw [if_neg (by simp [BufferReader.between, BufferReader.size])]
  simp [BufferReader.between]

/-! ### Properties of the packed octets -/

/-- Conditions under which the packing loop is entered and which it keeps:
the bit width is one of 1, 2, 4, 8, the bit offset is a multiple of it below
8, and the started octet has no bit at or above the offset. -/
theorem packedBytes_step {b : Nat} (hb : b = 1 ∨ b = 2 ∨ b = 4 ∨ b = 8) {acc idx : Byte}
    {off : Nat} (hmod : off % b = 0) (hlt : off < 8) (hacc : acc.val < 2 ^ off)
    (hidx : idx.val < 2 ^ b) (rest : List Byte) :
    (toUInt8 (acc.val ||| idx.val <<< off)).val = acc.val + idx.val * 2 ^ off ∧
    acc.val + idx.val * 2 ^ off < 2 ^ (off + b) ∧
    (off + b = 8 → packedBytes b (idx :: rest) acc off =
      toUInt8 (acc.val ||| idx.val <<< off) :: packedBytes b rest 0 0) ∧
    (off + b ≠ 8 → off + b < 8 ∧ (off + b) % b = 0 ∧
      packedBytes b (idx :: rest) acc off =
        packedBytes b rest (toUInt8 (acc.val ||| idx.val <<< off)) (off + b)) := by
  obtain ⟨h1, h2, _⟩ := offset_step hb hmod hlt
  obtain ⟨h3, h4⟩ := pack_arith hacc hidx h1
  refine ⟨by rw [toUInt8_val, h3], h4, ?_, ?_⟩
  · intro h
    simp only [packedBytes, if_pos h]
  · intro h
    refine ⟨by omega, h2, ?_⟩
    simp only [packedBytes, if_neg h]

theorem packedBytes_length {b : Nat} (hb : b = 1 ∨ b = 2 ∨ b = 4 ∨ b = 8) :
    ∀ (idxs : List Byte) (acc : Byte) (off : Nat), off % b = 0 → off < 8 →
      (packedBytes b idxs acc off).length = (off + idxs.length * b + 7) / 8 := by
  intro idxs
  induction idxs with
  | nil =>
    intro acc off _ hlt
    simp only [packedBytes, List.length_nil, Nat.zero_mul, Nat.add_zero]
    by_cases h : off = 0
    · subst h; simp
    · rw [if_pos h, List.length_singleton]; omega
  | cons idx rest ih =>
    intro acc off hmod hlt
    obtain ⟨h1, h2, _⟩ := offset_step hb hmod hlt
    simp only [packedBytes, List.length_cons, Nat.succ_mul]
    by_cases h : off + b = 8
    · rw [if_pos h, List.length_cons, ih 0 0 (Nat.zero_mod b) (by decide)]
      omega
    · rw [if_neg h, ih _ _ h2 (by omega)]
      omega

theorem packedBytes_head {b : Nat} (hb : b = 1 ∨ b = 2 ∨ b = 4 ∨ b = 8) :
    ∀ (idxs : List Byte) (acc : Byte) (off : Nat), off % b = 0 → off < 8 → off ≠ 0 →
      acc.val < 2 ^ off → (∀ i ∈ idxs, i.val < 2 ^ b) →
      ∃ c P, packedBytes b idxs acc off = c :: P ∧ c.val % 2 ^ off = acc.val := by
  intro idxs
  induction idxs with
  | nil =>
    intro acc off _ _ h0 hacc _
    exact ⟨acc, [], by simp [packedBytes, h0], Nat.mod_eq_of_lt hacc⟩
  | cons idx rest ih =>
    intro acc off hmod hlt h0 hacc hidx
    obtain ⟨h1, h2, h3, h4⟩ := packedBytes_step hb hmod hlt hacc
      (hidx idx (List.mem_cons_self _ _)) rest
    by_cases h : off + b = 8
    · refine ⟨_, _, h3 h, ?_⟩
      rw [h1]
      exact (low_bits (b := b) hacc (Nat.mod_eq_of_lt h2)).2
    · obtain ⟨h5, h6, h7⟩ := h4 h
      obtain ⟨c, P, hc, hcm⟩ := ih _ _ h6 h5 (by omega) (by rw [h1]; exact h2)
        (fun i hi => hidx i (List.mem_cons_of_mem _ hi))
      refine ⟨c, P, by rw [h7, hc], ?_⟩
      rw [h1] at hcm
      exact (low_bits (b := b) hacc hcm).2


theorem unpackStep_mid {b : Nat} (hb : b = 1 ∨ b = 2 ∨ b = 4 ∨ b = 8) (r : BufferReader) (c : Byte)
    {off : Nat} (hob : off + b ≤ 8) :
    IndexedBitmapBlock.unpackStep b ⟨r, c, off⟩ =
      .ok (toUInt8 ((c.val / 2 ^ off) % 2 ^ b), ⟨r, c, off + b⟩) := by
  have h8 : off ≠ 8 := by rcases hb with rfl | rfl | rfl | rfl <;> omega
  simp only [IndexedBitmapBlock.unpackStep, if_neg h8, bind, Except.bind, pure, Except.pure,
    toUInt8_val, unpack_arith hb c.isLt hob]

theorem unpackStep_read {b : Nat} (hb : b = 1 ∨ b = 2 ∨ b = 4 ∨ b = 8) (pre : List Byte)
    (x : Byte) (post : List Byte) (cb : Byte) :
    IndexedBitmapBlock.unpackStep b ⟨BufferReader.between pre (x :: post), cb, 8⟩ =
      .ok (toUInt8 (x.val % 2 ^ b), ⟨BufferReader.between (pre ++ [x]) post, x, b⟩) := by
  have hob : 0 + b ≤ 8 := by rcases hb with rfl | rfl | rfl | rfl <;> omega
  have h := unpack_arith hb x.isLt hob
  simp only [Nat.sub_zero, pow_zero, Nat.div_one] at h
  simp only [IndexedBitmapBlock.unpackStep, if_true, BufferReader.readUInt8_between, bind,
    Except.bind, pure, Except.pure, toUInt8_val, Nat.sub_zero, h, Nat.zero_add]

theorem unpackLoop_packedBytes {b : Nat} (hb : b = 1 ∨ b = 2 ∨ b = 4 ∨ b = 8) :
    ∀ (idxs : List Byte) (acc : Byte) (off : Nat), off % b = 0 → off < 8 → acc.val < 2 ^ off →
      (∀ i ∈ idxs, i.val < 2 ^ b) →
      (off ≠ 0 → ∀ c P, packedBytes b idxs acc off = c :: P → ∀ pre post,
        IndexedBitmapBlock.unpackLoop (fun i => i) b idxs.length
          ⟨BufferReader.between pre (P ++ post), c, off⟩ = .ok idxs) ∧
      (off = 0 → ∀ pre post cb,
        IndexedBitmapBlock.unpackLoop (fun i => i) b idxs.length
          ⟨BufferReader.between pre (packedBytes b idxs acc off ++ post), cb, 8⟩ = .ok idxs) := by
  intro idxs
  induction idxs with
  | nil =>
    intro acc off _ _ _ _
    exact ⟨fun _ _ _ _ _ _ => rfl, fun _ _ _ _ => rfl⟩
  | cons idx rest ih =>
    intro acc off hmod hlt hacc hidx
    have hidx0 := hidx idx (List.mem_cons_self _ _)
    have hrest : ∀ i ∈ rest, i.val < 2 ^ b := fun i hi => hidx i (List.mem_cons_of_mem _ hi)
    obtain ⟨h1, h2, h3, h4⟩ := packedBytes_step hb hmod hlt hacc hidx0 rest
    obtain ⟨hob, _, hbpos⟩ := offset_step hb hmod hlt
    constructor
    · intro h0 c P hcP pre post
      by_cases h : off + b = 8
      · rw [h3 h] at hcP
        obtain ⟨hc, hP⟩ := List.cons.inj hcP
        have hidxc : (c.val / 2 ^ off) % 2 ^ b = idx.val := by
          rw [← hc, h1]
          exact (low_bits (b := b) hacc (Nat.mod_eq_of_lt h2)).1
        have hrec := (ih 0 0 (Nat.zero_mod b) (by decide) (by simp) hrest).2 rfl pre post c
        rw [hP] at hrec
        simp only [List.length_cons, IndexedBitmapBlock.unpackLoop, bind, Except.bind,
          unpackStep_mid hb _ c hob, hidxc, toUInt8_of_val, h, hrec, pure, Except.pure]
      · obtain ⟨h5, h6, h7⟩ := h4 h
        rw [h7] at hcP
        obtain ⟨c', P', hc', hcm⟩ := packedBytes_head hb rest _ _ h6 h5 (by omega)
          (by rw [h1]; exact h2) hrest
        rw [hcP] at hc'
        obtain ⟨hcc, _⟩ := List.cons.inj hc'
        rw [← hcc, h1] at hcm
        have hidxc : (c.val / 2 ^ off) % 2 ^ b = idx.val := (low_bits (b := b) hacc hcm).1
        have hrec := (ih _ _ h6 h5 (by rw [h1]; exact h2) hrest).1 (by omega) c P hcP pre post
        simp only [List.length_cons, IndexedBitmapBlock.unpackLoop, bind, Except.bind,
          unpackStep_mid hb _ c hob, hidxc, toUInt8_of_val, hrec, pure, Except.pure]
    · intro h0 pre post cb
      subst h0
      have hacc0 : acc.val = 0 := by simpa using hacc
      by_cases h : 0 + b = 8
      · rw [h3 h]
        have hx : (toUInt8 (acc.val ||| idx.val <<< 0)).val % 2 ^ b = idx.val := by
          rw [h1, hacc0]
          simp only [pow_zero, Nat.mul_one, Nat.zero_add]
          exact Nat.mod_eq_of_lt hidx0
        have hb8 : b = 8 := by omega
        have hrec := (ih 0 0 (Nat.zero_mod b) (by decide) (by simp) hrest).2 rfl
          (pre ++ [toUInt8 (acc.val ||| idx.val <<< 0)]) post
          (toUInt8 (acc.val ||| idx.val <<< 0))
        rw [hb8] at hrec hx
        subst hb8
        simp only [List.length_cons, IndexedBitmapBlock.unpackLoop, bind, Except.bind,
          List.cons_append, unpackStep_read hb, hx, toUInt8_of_val, hrec, pure, Except.pure]
      · obtain ⟨h5, h6, h7⟩ := h4 h
        rw [h7]
        obtain ⟨c, P, hcP, hcm⟩ := packedBytes_head hb rest _ _ h6 h5 (by omega)
          (by rw [h1]; exact h2) hrest
        have hx : c.val % 2 ^ b = idx.val := by
          rw [h1, hacc0] at hcm
          simpa using hcm
        have hrec := (ih _ _ h6 h5 (by rw [h1]; exact h2) hrest).1 (by omega) c P hcP
          (pre ++ [c]) post
        simp only [Nat.zero_add] at hrec hcP
        simp only [Nat.zero_add, hcP, List.length_cons, IndexedBitmapBlock.unpackLoop, bind,
          Except.bind, List.cons_append, unpackStep_read hb, hx, toUInt8_of_val, hrec, pure,
          Except.pure]


theorem packedBytes_get {b : Nat} (hb : b = 1 ∨ b = 2 ∨ b = 4 ∨ b = 8) :
    ∀ (idxs : List Byte) (acc : Byte) (off : Nat), off % b = 0 → off < 8 → acc.val < 2 ^ off →
      (∀ i ∈ idxs, i.val < 2 ^ b) → ∀ (i : Nat) (hi : i < idxs.length),
      ∃ byte, (packedBytes b idxs acc off)[(off + i * b) / 8]? = some byte ∧
        (byte.val >>> ((off + i * b) % 8)) % 2 ^ b = (idxs[i]).val := by
  intro idxs
  induction idxs with
  | nil => intro _ _ _ _ _ _ i hi; simp at hi
  | cons idx rest ih =>
    intro acc off hmod hlt hacc hidx i hi
    have hidx0 := hidx idx (List.mem_cons_self _ _)
    have hrest : ∀ i ∈ rest, i.val < 2 ^ b := fun i hi => hidx i (List.mem_cons_of_mem _ hi)
    obtain ⟨h1, h2, h3, h4⟩ := packedBytes_step hb hmod hlt hacc hidx0 rest
    cases i with
    | zero =>
      have hp : (off + 0 * b) / 8 = 0 := by omega
      have hm : (off + 0 * b) % 8 = off := by omega
      rw [hp, hm]
      simp only [List.getElem_cons_zero, Nat.shiftRight_eq_div_pow]
      by_cases h : off + b = 8
      · refine ⟨toUInt8 (acc.val ||| idx.val <<< off), by rw [h3 h, List.getElem?_cons_zero], ?_⟩
        rw [h1]
        exact (low_bits (b := b) hacc (Nat.mod_eq_of_lt h2)).1
      · obtain ⟨h5, h6, h7⟩ := h4 h
        obtain ⟨c, P, hcP, hcm⟩ := packedBytes_head hb rest _ _ h6 h5 (by omega)
          (by rw [h1]; exact h2) hrest
        refine ⟨c, by rw [h7, hcP, List.getElem?_cons_zero], ?_⟩
        rw [h1] at hcm
        exact (low_bits (b := b) hacc hcm).1
    | succ j =>
      have hj : j < rest.length := by simpa using hi
      simp only [List.getElem_cons_succ]
      by_cases h : off + b = 8
      · obtain ⟨byte, hg, hv⟩ := ih 0 0 (Nat.zero_mod b) (by decide) (by simp) hrest j hj
        have hp : (off + (j + 1) * b) / 8 = (0 + j * b) / 8 + 1 := by
          rw [Nat.succ_mul]; omega
        have hm : (off + (j + 1) * b) % 8 = (0 + j * b) % 8 := by
          rw [Nat.succ_mul]; omega
        refine ⟨byte, ?_, ?_⟩
        · rw [h3 h, hp, List.getElem?_cons_succ]
          exact hg
        · rw [hm]; exact hv
      · obtain ⟨h5, h6, h7⟩ := h4 h
        obtain ⟨byte, hg, hv⟩ := ih _ _ h6 h5 (by rw [h1]; exact h2) hrest j hj
        have hp : off + (j + 1) * b = off + b + j * b := by
          rw [Nat.succ_mul]; omega
        refine ⟨byte, ?_, ?_⟩
        · rw [h7, hp]; exact hg
        · rw [hp]; exact hv

theorem packedBytes_getLast {b : Nat} (hb : b = 1 ∨ b = 2 ∨ b = 4 ∨ b = 8) :
    ∀ (idxs : List Byte) (acc : Byte) (off : Nat), off % b = 0 → off < 8 → acc.val < 2 ^ off →
      (∀ i ∈ idxs, i.val < 2 ^ b) → (off + idxs.length * b) % 8 ≠ 0 →
      ∃ last, (packedBytes b idxs acc off).getLast? = some last ∧
        last.val < 2 ^ ((off + idxs.length * b) % 8) := by
  intro idxs
  induction idxs with
  | nil =>
    intro acc off _ hlt hacc _ hne
    simp only [List.length_nil, Nat.zero_mul, Nat.add_zero] at hne ⊢
    have h0 : off ≠ 0 := by omega
    refine ⟨acc, by simp [packedBytes, h0], ?_⟩
    rw [Nat.mod_eq_of_lt hlt]
    exact hacc
  | cons idx rest ih =>
    intro acc off hmod hlt hacc hidx hne
    have hidx0 := hidx idx (List.mem_cons_self _ _)
    have hrest : ∀ i ∈ rest, i.val < 2 ^ b := fun i hi => hidx i (List.mem_cons_of_mem _ hi)
    obtain ⟨h1, h2, h3, h4⟩ := packedBytes_step hb hmod hlt hacc hidx0 rest
    simp only [List.length_cons, Nat.succ_mul] at hne ⊢
    by_cases h : off + b = 8
    · have hm : (off + (rest.length * b + b)) % 8 = (0 + rest.length * b) % 8 := by omega
      rw [hm] at hne ⊢
      obtain ⟨last, hl, hv⟩ := ih 0 0 (Nat.zero_mod b) (by decide) (by simp) hrest hne
      refine ⟨last, ?_, hv⟩
      rw [h3 h]
      cases hP : packedBytes b rest 0 0 with
      | nil => rw [hP] at hl; simp at hl
      | cons y ys => rw [List.getLast?_cons_cons, ← hP]; exact hl
    · obtain ⟨h5, h6, h7⟩ := h4 h
      have hm : off + (rest.length * b + b) = off + b + rest.length * b := by omega
      rw [hm] at hne ⊢
      obtain ⟨last, hl, hv⟩ := ih _ _ h6 h5 (by rw [h1]; exact h2) hrest hne
      exact ⟨last, by rw [h7]; exact hl, hv⟩

theorem packLoop_lookup {α : Type} (lookup : α → Except Error Byte) (f : α → Byte) (b : Nat) :
    ∀ (cs : List α) (st : PackState), (∀ c ∈ cs, lookup c = .ok (f c)) →
      IndexedBitmapBlock.packLoop lookup b cs st =
        IndexedBitmapBlock.packLoop (fun i => Except.ok i) b (cs.map f) st := by
  intro cs
  induction cs with
  | nil => intro st _; rfl
  | cons c rest ih =>
    intro st h
    simp only [List.map_cons, IndexedBitmapBlock.packLoop, bind, Except.bind,
      h c (List.mem_cons_self _ _)]
    cases IndexedBitmapBlock.packStep b st (f c) with
    | error err => rfl
    | ok st' => exact ih st' (fun c hc => h c (List.mem_cons_of_mem _ hc))

theorem unpackLoop_map {α : Type} (lookup : Byte → α) (b : Nat) :
    ∀ (n : Nat) (st : UnpackState) (idxs : List Byte),
      IndexedBitmapBlock.unpackLoop (fun i => i) b n st = .ok idxs →
      IndexedBitmapBlock.unpackLoop lookup b n st = .ok (idxs.map lookup) := by
  intro n
  induction n with
  | zero =>
    intro st idxs h
    simp only [IndexedBitmapBlock.unpackLoop, pure, Except.pure] at h ⊢
    cases h
    rfl
  | succ n ih =>
    intro st idxs h
    simp only [IndexedBitmapBlock.unpackLoop, bind, Except.bind] at h ⊢
    cases hs : IndexedBitmapBlock.unpackStep b st with
    | error err => rw [hs] at h; cases h
    | ok p =>
      obtain ⟨i, st'⟩ := p
      rw [hs] at h
      simp only at h ⊢
      cases hr : IndexedBitmapBlock.unpackLoop (fun i => i) b n st' with
      | error err => rw [hr] at h; cases h
      | ok rest =>
        rw [hr] at h
        simp only [pure, Except.pure] at h
        cases h
        rw [ih st' rest hr]
        rfl


/-! ### The colour map -/

theorem colorMapFill_lookup : ∀ (cs : List Color) (k : Nat) (m : List (Color × Byte)) (c : Color),
    (colorMapFill cs k m).lookup c =
      match m.lookup c with
      | some v => some v
      | none => if c ∈ cs then some (toUInt8 (k + cs.indexOf c)) else none := by
  intro cs
  induction cs with
  | nil =>
    intro k m c
    simp only [colorMapFill, List.not_mem_nil, if_false]
    cases m.lookup c <;> rfl
  | cons x cs ih =>
    intro k m c
    simp only [colorMapFill]
    rw [ih]
    unfold colorMapEmplace
    by_cases hx : (m.lookup x).isSome = true
    · rw [if_pos hx]
      cases hc : m.lookup c with
      | some v => rfl
      | none =>
        have hne : x ≠ c := by
          intro h
          subst h
          rw [hc] at hx
          simp at hx
        simp only [List.mem_cons, List.indexOf_cons_ne _ hne, Ne.symm hne, false_or]
        have : k + 1 + List.indexOf c cs = k + (List.indexOf c cs).succ := by omega
        rw [this]
    · rw [if_neg hx, List.lookup_append]
      cases hc : m.lookup c with
      | some v => rfl
      | none =>
        simp only [Option.none_or]
        by_cases hcx : c = x
        · subst hcx
          simp [List.lookup_cons]
        · have hne : x ≠ c := fun h => hcx h.symm
          have hbeq : (c == x) = false := by simpa using hcx
          have hl : List.lookup c [(x, toUInt8 k)] = none := by
            simp [List.lookup_cons, hbeq]
          rw [hl]
          simp only [List.mem_cons, hcx, false_or, List.indexOf_cons_ne _ hne]
          have : k + 1 + List.indexOf c cs = k + (List.indexOf c cs).succ := by omega
          rw [this]

theorem colorMapAt_fill {cs : List Color} {c : Color} (h : c ∈ cs) :
    colorMapAt (colorMapFill cs 0 []) c = .ok (toUInt8 (cs.indexOf c)) := by
  unfold colorMapAt
  rw [colorMapFill_lookup]
  simp [h]

theorem colorMapAt_fill_inv {cs : List Color} {c : Color} {i : Byte}
    (h : colorMapAt (colorMapFill cs 0 []) c = .ok i) :
    c ∈ cs ∧ i = toUInt8 (cs.indexOf c) := by
  unfold colorMapAt at h
  rw [colorMapFill_lookup] at h
  by_cases hc : c ∈ cs
  · simp [hc] at h
    exact ⟨hc, h.symm⟩
  · simp [hc] at h

theorem Palette.bits_inv {p : Palette} {b : Nat} (h : p.bits = .ok b) :
    p.size ≤ 2 ^ b ∧ p.size ≤ 256 ∧ (b = 0 ∨ b = 1 ∨ b = 2 ∨ b = 4 ∨ b = 8) ∧ (b = 0 ↔ p.size ≤ 1) := by
  unfold Palette.bits at h
  split_ifs at h <;> cases h <;> simp <;> omega

/-! ### Bit-packing law and payload layout -/

/-- C7: for a bit width `b` in {1, 2, 4, 8} and palette indices `I` below
`2 ^ b`, the packing loop of `IndexedBitmapBlock::encode` (and the statement
behind it) followed by the unpacking loop of `IndexedBitmapBlock::decode`
returns `I`; when `|I| * b` is not a multiple of 8, the last packed octet has
no bit set at or above position `(|I| * b) mod 8`.  The loops are taken with
the index itself in place of the colour translations `colorMap_.at` and
`palette_[..]`, over a writer that has room for the packed octets. -/
theorem bit_packing_law (b : Nat) (hb : b = 1 ∨ b = 2 ∨ b = 4 ∨ b = 8) (I : List Byte)
    (hI : ∀ i ∈ I, i.val < 2 ^ b) (w : BufferWriter)
    (hcap : w.offset + (I.length * b + 7) / 8 ≤ w.size) :
    ∃ st w' packed,
      IndexedBitmapBlock.packLoop (fun i => Except.ok i) b I ⟨w, 0, 0⟩ = .ok st ∧
      IndexedBitmapBlock.packFlush st = .ok w' ∧
      w'.written = w.written ++ packed ∧
      (∀ (pre post : List Byte) (compressedBitmap : Byte),
        IndexedBitmapBlock.unpackLoop (fun i => i) b I.length
          ⟨BufferReader.between pre (packed ++ post), compressedBitmap, 8⟩ = .ok I) ∧
      ((I.length * b) % 8 ≠ 0 →
        ∃ last, packed.getLast? = some last ∧ last.val >>> ((I.length * b) % 8) = 0) := by
  have hlen := packedBytes_length hb I 0 0 (Nat.zero_mod b) (by decide)
  rw [Nat.zero_add] at hlen
  obtain ⟨st, h1, h2⟩ := packLoop_eq_packedBytes b I ⟨w, 0, 0⟩ (by
    show w.offset + (packedBytes b I 0 0).length ≤ w.size
    rw [hlen]; exact hcap)
  refine ⟨st, _, packedBytes b I 0 0, h1, h2, rfl, ?_, ?_⟩
  · intro pre post cb
    exact (unpackLoop_packedBytes hb I 0 0 (Nat.zero_mod b) (by decide) (by simp) hI).2 rfl
      pre post cb
  · intro hne
    obtain ⟨last, hl, hv⟩ := packedBytes_getLast hb I 0 0 (Nat.zero_mod b) (by decide)
      (by simp) hI (by rw [Nat.zero_add]; exact hne)
    rw [Nat.zero_add] at hv
    exact ⟨last, hl, by rw [Nat.shiftRight_eq_div_pow]; exact Nat.div_eq_of_lt hv⟩

/-- Witness for C7: five 2-bit indices, packed into two octets. -/
theorem bit_packing_law_witness :
    (∀ i ∈ ([1, 2, 3, 0, 1] : List Byte), i.val < 2 ^ 2) ∧
    ∃ st w',
      IndexedBitmapBlock.packLoop (fun i => Except.ok i) 2 ([1, 2, 3, 0, 1] : List Byte)
        ⟨⟨[], 2⟩, 0, 0⟩ = .ok st ∧
      IndexedBitmapBlock.packFlush st = .ok w' ∧
      IndexedBitmapBlock.unpackLoop (fun i => i) 2 5
        ⟨BufferReader.between [] (w'.written ++ []), 0, 8⟩ = .ok [1, 2, 3, 0, 1] :=
  have hI : ∀ i ∈ ([1, 2, 3, 0, 1] : List Byte), i.val < 2 ^ 2 := by
    intro i hi
    simp only [List.mem_cons, List.mem_singleton, List.not_mem_nil, or_false] at hi
    rcases hi with rfl | rfl | rfl | rfl | rfl <;> decide
  ⟨hI,
    match bit_packing_law 2 (by decide) [1, 2, 3, 0, 1] hI ⟨[], 2⟩ (by decide) with
    | ⟨st, w', _, h1, h2, h3, h4, _⟩ => ⟨st, w', h1, h2, by rw [h3]; exact h4 [] [] 0⟩⟩

/-- C8: for an encoder whose palette has bit width `b` in {1, 2, 4, 8}, whose
colour map is the one `PaletteBlock::encode` builds from the palette, whose
frame of `N` pixels uses palette colours only, and whose internal buffer holds
`1 + N` octets, the content `IndexedBitmapBlock::encode` hands to the
compressor is `1 + ceil(N * b / 8)` octets long, starts with the octet `b`,
and the `b` bits from position `(i * b) mod 8` of packed octet `(i * b) div 8`
are the index of the colour of pixel `i` in the palette. -/
theorem indexed_payload_layout (e : Encoder) (b : Nat) (hbits : e.palette.bits = .ok b)
    (hb : b = 1 ∨ b = 2 ∨ b = 4 ∨ b = 8)
    (hmap : e.colorMap = colorMapFill e.palette.colors 0 [])
    (hframe : ∀ c ∈ e.frameBitmap, c ∈ e.palette.colors)
    (hbuf : 1 + e.frameBitmap.length ≤ e.internalBufferSize) :
    ∃ payload, IndexedBitmapBlock.payload e = .ok payload ∧
      payload.length = 1 + (e.frameBitmap.length * b + 7) / 8 ∧
      payload[0]? = some (toUInt8 b) ∧
      ∀ (i : Nat) (hi : i < e.frameBitmap.length),
        ∃ byte, payload[1 + (i * b) / 8]? = some byte ∧
          (byte.val >>> ((i * b) % 8)) % 2 ^ b = e.palette.colors.indexOf (e.frameBitmap[i]) ∧
          e.palette.colors[e.palette.colors.indexOf (e.frameBitmap[i])]? =
            some (e.frameBitmap[i]) := by
  obtain ⟨hsz, h256, _, _⟩ := Palette.bits_inv hbits
  have hidxlt : ∀ c ∈ e.frameBitmap, e.palette.colors.indexOf c < 2 ^ b := fun c hc =>
    Nat.lt_of_lt_of_le (List.indexOf_lt_length.2 (hframe c hc)) hsz
  have hidx256 : ∀ c ∈ e.frameBitmap, e.palette.colors.indexOf c < 256 := fun c hc =>
    Nat.lt_of_lt_of_le (List.indexOf_lt_length.2 (hframe c hc)) h256
  let f : Color → Byte := fun c => toUInt8 (e.palette.colors.indexOf c)
  have hf : ∀ c ∈ e.frameBitmap, (f c).val = e.palette.colors.indexOf c := fun c hc => by
    show (toUInt8 _).val = _
    rw [toUInt8_val, Nat.mod_eq_of_lt (hidx256 c hc)]
  have hI : ∀ i ∈ e.frameBitmap.map f, i.val < 2 ^ b := by
    intro i hi
    obtain ⟨c, hc, rfl⟩ := List.mem_map.1 hi
    rw [hf c hc]
    exact hidxlt c hc
  have hlookup : ∀ c ∈ e.frameBitmap, colorMapAt e.colorMap c = .ok (f c) := fun c hc => by
    rw [hmap]; exact colorMapAt_fill (hframe c hc)
  have hlen := packedBytes_length hb (e.frameBitmap.map f) 0 0 (Nat.zero_mod b) (by decide)
  rw [Nat.zero_add, List.length_map] at hlen
  have hle : (e.frameBitmap.length * b + 7) / 8 ≤ e.frameBitmap.length := by
    rcases hb with rfl | rfl | rfl | rfl <;> omega
  have hw : (⟨[], e.internalBufferSize⟩ : BufferWriter).writeUInt8 b =
      .ok ⟨[toUInt8 b], e.internalBufferSize⟩ :=
    BufferWriter.writeUInt8_ok b (by show 0 + 1 ≤ e.internalBufferSize; omega)
  obtain ⟨st, h1, h2⟩ := packLoop_eq_packedBytes b (e.frameBitmap.map f)
    ⟨⟨[toUInt8 b], e.internalBufferSize⟩, 0, 0⟩ (by
      show 1 + (packedBytes b (e.frameBitmap.map f) 0 0).length ≤ e.internalBufferSize
      rw [hlen]; omega)
  refine ⟨toUInt8 b :: packedBytes b (e.frameBitmap.map f) 0 0, ?_, ?_, ?_, ?_⟩
  · simp only [IndexedBitmapBlock.payload, hbits, bind, Except.bind, hw,
      packLoop_lookup _ f b _ _ hlookup, h1, h2, pure, Except.pure]
    rfl
  · rw [List.length_cons, hlen]; omega
  · exact List.getElem?_cons_zero
  · intro i hi
    obtain ⟨byte, hg, hv⟩ := packedBytes_get hb (e.frameBitmap.map f) 0 0 (Nat.zero_mod b)
      (by decide) (by simp) hI i (by rw [List.length_map]; exact hi)
    rw [Nat.zero_add] at hg hv
    refine ⟨byte, ?_, ?_, ?_⟩
    · rw [Nat.add_comm 1, List.getElem?_cons_succ]; exact hg
    · rw [hv, List.getElem_map, hf _ (List.getElem_mem _)]
    · have hmem := hframe _ (List.getElem_mem hi)
      have hlt := List.indexOf_lt_length.2 hmem
      rw [List.getElem?_eq_getElem hlt, List.getElem_indexOf hlt]


/-- Witness for C8 on `indexedExample`: the payload is `[2, 0b11_01_00_10]`. -/
theorem indexed_payload_layout_witness :
    indexedExample.palette.bits = .ok 2 ∧
    (∀ c ∈ indexedExample.frameBitmap, c ∈ indexedExample.palette.colors) ∧
    1 + indexedExample.frameBitmap.length ≤ indexedExample.internalBufferSize ∧
    ∃ payload, IndexedBitmapBlock.payload indexedExample = .ok payload ∧
      payload.length = 1 + (indexedExample.frameBitmap.length * 2 + 7) / 8 ∧
      payload[0]? = some (toUInt8 2) :=
  ⟨rfl, by decide, by decide,
    match indexed_payload_layout indexedExample 2 rfl (by decide) rfl (by decide) (by decide) with
    | ⟨payload, h1, h2, h3, _⟩ => ⟨payload, h1, h2, h3⟩⟩

/-! ### Safe output buffer size -/

/-- C6, as the code computes it: `safeOutputBufferSize()` is
`1 + max((5 + bound(0)) + (5 + bound(769)) + (5 + bound(1 + N)), 5 + bound(3N), 4)`
with `N = width * height`: the PaletteReset term is sized like an
entropy-coded block with an empty payload (tag, 4-octet length and
`bound(0)`), only the KeyFrame term is the tag octet alone. -/
theorem safeOutputBufferSize_eq (z : Zstd) (e : Encoder) :
    e.safeOutputBufferSize z =
      1 + max (max ((5 + z.compressBound 0) + (5 + z.compressBound 769) +
          (5 + z.compressBound (1 + e.bitmapInfo.width * e.bitmapInfo.height)))
        (5 + z.compressBound (e.bitmapInfo.width * e.bitmapInfo.height * 3))) 4 := by
  simp only [Encoder.safeOutputBufferSize, KeyFrameBlock.maxSize, PaletteResetBlock.maxSize,
    PaletteBlock.maxSize, IndexedBitmapBlock.maxSize, RawBitmapBlock.maxSize,
    SolidColorBitmapBlock.maxSize, Palette.maxColorCount, Nat.mul_one, Nat.reduceMul,
    Nat.reduceAdd]
  omega

/-- C6 as stated fails: for a one-pixel frame and a codec whose bound is the
identity the code reserves 787 octets, the stated formula gives 783. -/
theorem safeOutputBufferSize_ne_spec :
    (Encoder.construct ⟨1, 1⟩).safeOutputBufferSize Zstd.store = 787 ∧
    specSafeOutputBufferSize Zstd.store (1 * 1) = 783 ∧
    (Encoder.construct ⟨1, 1⟩).safeOutputBufferSize Zstd.store ≠
      specSafeOutputBufferSize Zstd.store (1 * 1) := by
  decide


/-! ### The entropy-codec adapters -/

theorem BufferWriter.patch_after_write (w : BufferWriter) (value : Nat) :
    (BufferWriter.patchUInt32 ⟨w.written ++ littleEndian 4 0, w.size⟩ w.offset value) =
      ⟨w.written ++ littleEndian 4 value, w.size⟩ := by
  simp [BufferWriter.patchUInt32, BufferWriter.offset, littleEndian_length]

/-- What `compressBuffer` hands to the library and gets back. -/
theorem Encoder.compressBuffer_ok (z : Zstd) (e : Encoder) (w : BufferWriter) (input : List Byte)
    (hcap : w.offset + 4 +
      (if input = [] then [] else z.compress e.zstdCompressor input).length ≤ w.size) :
    e.compressBuffer z w input = .ok
      (if input = [] then e else { e with zstdCompressor := input :: e.zstdCompressor },
        ⟨w.written ++ littleEndian 4
            ((if input = [] then [] else z.compress e.zstdCompressor input).length % 2 ^ 32) ++
          (if input = [] then [] else z.compress e.zstdCompressor input).take
            ((if input = [] then [] else z.compress e.zstdCompressor input).length % 2 ^ 32),
          w.size⟩) := by
  generalize hchunk : (if input = [] then [] else z.compress e.zstdCompressor input) = chunk
    at hcap ⊢
  have hw : w.writeUInt32 0 = .ok ⟨w.written ++ littleEndian 4 0, w.size⟩ :=
    BufferWriter.write_ok 0 (by omega)
  have hmod : chunk.length % 2 ^ 32 ≤ chunk.length := Nat.mod_le _ _
  unfold Encoder.compressBuffer
  simp only [hw, bind, Except.bind, hchunk, BufferWriter.patch_after_write, pure, Except.pure]
  rw [if_neg (by
    simp only [BufferWriter.offset, List.length_append, littleEndian_length] at hcap ⊢
    omega)]
  unfold BufferWriter.advance
  rw [if_neg (by
    simp only [BufferWriter.offset, List.length_append, littleEndian_length,
      List.length_take] at hcap ⊢
    omega)]

theorem Encoder.compressBuffer_error (z : Zstd) (e : Encoder) (w : BufferWriter)
    (input : List Byte)
    (hcap : ¬ w.offset + 4 +
      (if input = [] then [] else z.compress e.zstdCompressor input).length ≤ w.size) :
    ∃ err, e.compressBuffer z w input = .error err := by
  generalize hchunk : (if input = [] then [] else z.compress e.zstdCompressor input) = chunk
    at hcap
  unfold Encoder.compressBuffer
  by_cases h4 : w.offset + 4 ≤ w.size
  · have hw : w.writeUInt32 0 = .ok ⟨w.written ++ littleEndian 4 0, w.size⟩ :=
      BufferWriter.write_ok 0 h4
    simp only [hw, bind, Except.bind, hchunk]
    rw [if_pos (by
      simp only [BufferWriter.offset, List.length_append, littleEndian_length] at hcap h4 ⊢
      omega)]
    exact ⟨_, rfl⟩
  · have hw : w.writeUInt32 0 = .error .bufferOverflow := by
      unfold BufferWriter.writeUInt32 BufferWriter.write
      rw [if_pos (by omega)]
    simp only [hw, bind, Except.bind]
    exact ⟨_, rfl⟩

theorem Encoder.compressBuffer_inv {z : Zstd} {e e' : Encoder} {w w' : BufferWriter}
    {input : List Byte} (h : e.compressBuffer z w input = .ok (e', w')) :
    w.offset + 4 + (if input = [] then [] else z.compress e.zstdCompressor input).length
      ≤ w.size ∧
    e' = (if input = [] then e else { e with zstdCompressor := input :: e.zstdCompressor }) ∧
    w' = ⟨w.written ++ littleEndian 4
            ((if input = [] then [] else z.compress e.zstdCompressor input).length % 2 ^ 32) ++
          (if input = [] then [] else z.compress e.zstdCompressor input).take
            ((if input = [] then [] else z.compress e.zstdCompressor input).length % 2 ^ 32),
          w.size⟩ := by
  by_cases hcap : w.offset + 4 +
      (if input = [] then [] else z.compress e.zstdCompressor input).length ≤ w.size
  · rw [Encoder.compressBuffer_ok z e w input hcap] at h
    cases h
    exact ⟨hcap, rfl, rfl⟩
  · obtain ⟨err, herr⟩ := Encoder.compressBuffer_error z e w input hcap
    rw [herr] at h
    cases h

/-- A decompression session in step with a compression session returns what
was compressed. -/
theorem Decoder.decompressBuffer_sync {z : Zstd} (hz : z.Lossless)
    (d : Decoder) (history : List (List Byte)) (hne : ∀ earlier ∈ history, earlier ≠ [])
    (hsession : d.zstdDecompressor = z.emitted history) (input : List Byte)
    (hfit : (if input = [] then [] else z.compress history input).length < 2 ^ 32)
    (pre post outputBuffer : List Byte) (hout : input.length ≤ outputBuffer.length) :
    d.decompressBuffer z
      (BufferReader.between pre
        (littleEndian 4 ((if input = [] then [] else z.compress history input).length % 2 ^ 32) ++
          (if input = [] then [] else z.compress history input).take
            ((if input = [] then [] else z.compress history input).length % 2 ^ 32) ++ post))
      outputBuffer =
    .ok ({ d with zstdDecompressor :=
            z.emitted (if input = [] then history else input :: history) },
      BufferReader.between
        (pre ++ (littleEndian 4
            ((if input = [] then [] else z.compress history input).length % 2 ^ 32) ++
          (if input = [] then [] else z.compress history input).take
            ((if input = [] then [] else z.compress history input).length % 2 ^ 32))) post,
      input ++ outputBuffer.drop input.length) := by
  by_cases hin : input = []
  · subst hin
    simp only [if_true, List.length_nil, Nat.zero_mod, List.take_nil, List.append_nil,
      List.nil_append, List.drop_zero]
    unfold Decoder.decompressBuffer
    simp only [BufferReader.readUInt32_between, bind, Except.bind, Nat.zero_mod, if_true,
      List.length_nil, pure, Except.pure]
    rw [if_neg (by omega)]
    have hadv := BufferReader.advance_between (pre ++ littleEndian 4 0) [] post
    simp only [List.length_nil, List.nil_append, List.append_nil] at hadv
    simp only [hadv, List.nil_append, List.drop_zero, ← hsession]
  · simp only [if_neg hin]
    obtain ⟨hne', hround⟩ := hz history input hne hin
    have hlt : (z.compress history input).length < 2 ^ 32 := by
      rw [if_neg hin] at hfit; exact hfit
    have hmod : (z.compress history input).length % 2 ^ 32 = (z.compress history input).length :=
      Nat.mod_eq_of_lt hlt
    have hpos : (z.compress history input).length ≠ 0 := by
      intro h0
      exact hne' (List.length_eq_zero.1 h0)
    rw [hmod, List.take_length, List.append_assoc]
    unfold Decoder.decompressBuffer
    simp only [BufferReader.readUInt32_between, bind, Except.bind, hmod, if_neg hpos,
      BufferReader.between_remaining, List.take_left', hsession, hround, pure, Except.pure]
    rw [if_neg (by omega)]
    simp only [BufferReader.advance_between, Zstd.emitted, List.append_assoc]


/-! ### Dispatch of single blocks -/

theorem make_variant_index (kind : FrameBlock) :
    make_variant (toUInt8 (variant_type_index kind)).val = .ok kind := by
  cases kind <;> rfl

theorem DecodesTo.decodes_refl (z : Zstd) (d : Decoder) : DecodesTo z d [] [] d := by
  intro pre post fuel last more h
  simpa using h

theorem DecodesTo.decodes_trans {z : Zstd} {d₁ d₂ d₃ : Decoder} {b₁ b₂ : List Byte}
    {k₁ k₂ : List FrameBlock} (h₁ : DecodesTo z d₁ b₁ k₁ d₂) (h₂ : DecodesTo z d₂ b₂ k₂ d₃) :
    DecodesTo z d₁ (b₁ ++ b₂) (k₁ ++ k₂) d₃ := by
  intro pre post fuel last more h
  have h2 := h₂ (pre ++ b₁) post fuel last more (by rw [List.append_assoc]; exact h)
  have h1 := h₁ pre (b₂ ++ post) (fuel + k₂.length) last (k₂ ++ more) h2
  rw [List.append_assoc, List.append_assoc, List.length_append, Nat.add_comm k₁.length,
    ← Nat.add_assoc]
  exact h1

theorem DecodesTo.block {z : Zstd} {d d' : Decoder} (kind : FrameBlock) (body : List Byte)
    (hdec : ∀ pre post, d.decodeBlock z
        (BufferReader.between (pre ++ [toUInt8 (variant_type_index kind)]) (body ++ post)) kind =
      .ok (d', BufferReader.between (pre ++ toUInt8 (variant_type_index kind) :: body) post)) :
    DecodesTo z d (toUInt8 (variant_type_index kind) :: body) [kind] d' := by
  intro pre post fuel last more h
  have hne : ¬ (BufferReader.between pre
      (toUInt8 (variant_type_index kind) :: (body ++ post))).offset =
      (BufferReader.between pre (toUInt8 (variant_type_index kind) :: (body ++ post))).size := by
    rw [BufferReader.between_offset_eq_size]
    simp
  simp only [List.length_singleton, Decoder.decodeLoop, List.cons_append, if_neg hne,
    BufferReader.readUInt8_between, bind, Except.bind, make_variant_index, hdec pre post, h,
    pure, Except.pure, List.singleton_append, List.nil_append]

theorem Decoder.decodeLoop_done (z : Zstd) (fuel : Nat) (d : Decoder) (pre : List Byte) :
    Decoder.decodeLoop z fuel d (BufferReader.between pre []) = .ok (d, []) := by
  have h : (BufferReader.between pre []).offset = (BufferReader.between pre []).size :=
    (BufferReader.between_offset_eq_size pre []).2 rfl
  cases fuel <;> simp only [Decoder.decodeLoop, if_pos h, pure, Except.pure]

theorem Decoder.decodeLoop_mono (z : Zstd) : ∀ (fuel : Nat) (d : Decoder) (r : BufferReader)
    (res : Decoder × List FrameBlock), Decoder.decodeLoop z fuel d r = .ok res →
    ∀ fuel', fuel ≤ fuel' → Decoder.decodeLoop z fuel' d r = .ok res := by
  intro fuel
  induction fuel with
  | zero =>
    intro d r res h fuel' _
    simp only [Decoder.decodeLoop] at h
    by_cases hr : r.offset = r.size
    · rw [if_pos hr] at h
      cases fuel' <;> simp only [Decoder.decodeLoop, if_pos hr] <;> exact h
    · rw [if_neg hr] at h
      cases h
  | succ n ih =>
    intro d r res h fuel' hle
    obtain ⟨m, rfl⟩ : ∃ m, fuel' = m + 1 := ⟨fuel' - 1, by omega⟩
    simp only [Decoder.decodeLoop] at h ⊢
    by_cases hr : r.offset = r.size
    · rw [if_pos hr] at h ⊢
      exact h
    · rw [if_neg hr] at h ⊢
      simp only [bind, Except.bind] at h ⊢
      cases h1 : r.readUInt8 with
      | error err => rw [h1] at h; cases h
      | ok p1 =>
        rw [h1] at h
        simp only at h ⊢
        cases h2 : make_variant p1.1.val with
        | error err => rw [h2] at h; cases h
        | ok kind =>
          rw [h2] at h
          simp only at h ⊢
          cases h3 : d.decodeBlock z p1.2 kind with
          | error err => rw [h3] at h; cases h
          | ok p3 =>
            rw [h3] at h
            simp only at h ⊢
            cases h4 : Decoder.decodeLoop z n p3.1 p3.2 with
            | error err => rw [h4] at h; cases h
            | ok p4 =>
              rw [h4] at h
              rw [ih p3.1 p3.2 p4 h4 m (by omega)]
              exact h

/-- A frame that decodes block by block decodes in one `decode` call. -/
theorem Decoder.decode_of_decodesTo {z : Zstd} {d d' : Decoder} {bytes : List Byte}
    {blocks : List FrameBlock} (h : DecodesTo z { d with result := {} } bytes blocks d')
    (hlen : blocks.length ≤ bytes.length) :
    d.decode z bytes =
      .ok ⟨d'.result, d'.frameBitmap, { d' with previousFrameBitmap := d'.frameBitmap }, blocks⟩ := by
  have h0 := h [] [] 0 d' [] (by
    rw [List.nil_append]; exact Decoder.decodeLoop_done z 0 d' bytes)
  rw [List.append_nil, List.append_nil, Nat.zero_add] at h0
  have h1 := Decoder.decodeLoop_mono z _ _ _ _ h0 bytes.length hlen
  have hb : (BufferReader.between [] bytes) = ⟨bytes, 0⟩ := rfl
  rw [hb] at h1
  simp only [Decoder.decode, h1, bind, Except.bind, pure, Except.pure]


/-! ### Blocks without entropy-coded payload -/

theorem writeBlock_ok (kind : FrameBlock) (w : BufferWriter)
    (encode : BufferWriter → Except Error (Encoder × BufferWriter)) (h : w.offset + 1 ≤ w.size) :
    writeBlock kind w encode =
      encode ⟨w.written ++ [toUInt8 (variant_type_index kind)], w.size⟩ := by
  simp only [writeBlock, BufferWriter.writeUInt8_ok _ h, bind, Except.bind]

theorem writeBlock_inv {kind : FrameBlock} {w : BufferWriter}
    {encode : BufferWriter → Except Error (Encoder × BufferWriter)}
    {res : Encoder × BufferWriter} (h : writeBlock kind w encode = .ok res) :
    w.offset + 1 ≤ w.size ∧
      encode ⟨w.written ++ [toUInt8 (variant_type_index kind)], w.size⟩ = .ok res := by
  by_cases hcap : w.offset + 1 ≤ w.size
  · rw [writeBlock_ok kind w encode hcap] at h
    exact ⟨hcap, h⟩
  · simp only [writeBlock, BufferWriter.writeUInt8, BufferWriter.write, bind, Except.bind] at h
    rw [if_pos (by omega)] at h
    cases h

theorem writeColor_ok (w : BufferWriter) (color : Color) (h : w.offset + 3 ≤ w.size) :
    writeColor w color = .ok ⟨w.written ++ [color.r, color.g, color.b], w.size⟩ := by
  have h1 : w.writeByte color.r = .ok ⟨w.written ++ [color.r], w.size⟩ := by
    have := @BufferWriter.write_ok w 1 color.r.val (by omega)
    simpa [littleEndian, toUInt8_of_val] using this
  have h2 : (⟨w.written ++ [color.r], w.size⟩ : BufferWriter).writeByte color.g =
      .ok ⟨w.written ++ [color.r] ++ [color.g], w.size⟩ := by
    have := @BufferWriter.write_ok ⟨w.written ++ [color.r], w.size⟩ 1
      color.g.val (by
        simp only [BufferWriter.offset, List.length_append, List.length_singleton] at h ⊢
        omega)
    simpa [littleEndian, toUInt8_of_val] using this
  have h3 : (⟨w.written ++ [color.r] ++ [color.g], w.size⟩ : BufferWriter).writeByte color.b =
      .ok ⟨w.written ++ [color.r] ++ [color.g] ++ [color.b], w.size⟩ := by
    have := @BufferWriter.write_ok ⟨w.written ++ [color.r] ++ [color.g], w.size⟩
      1 color.b.val (by
        simp only [BufferWriter.offset, List.length_append, List.length_singleton] at h ⊢
        omega)
    simpa [littleEndian, toUInt8_of_val] using this
  simp only [writeColor, h1, h2, h3, bind, Except.bind]
  simp

theorem writeColor_error (w : BufferWriter) (color : Color) (h : ¬ w.offset + 3 ≤ w.size) :
    ∃ err, writeColor w color = .error err := by
  unfold writeColor BufferWriter.writeByte BufferWriter.write
  simp only [bind, Except.bind]
  by_cases h1 : w.offset + 1 > w.size
  · rw [if_pos h1]; exact ⟨_, rfl⟩
  · rw [if_neg h1]
    simp only [BufferWriter.offset, List.length_append, littleEndian_length] at h h1 ⊢
    by_cases h2 : w.written.length + 1 + 1 > w.size
    · rw [if_pos h2]; exact ⟨_, rfl⟩
    · rw [if_neg h2]
      simp only [BufferWriter.offset, List.length_append, littleEndian_length]
      rw [if_pos (by omega)]
      exact ⟨_, rfl⟩

theorem colorsToBytes_length (cs : List Color) : (colorsToBytes cs).length = 3 * cs.length := by
  induction cs with
  | nil => rfl
  | cons c cs ih => simp only [colorsToBytes, List.length_cons, ih]; omega

theorem writeColors_ok : ∀ (cs : List Color) (w : BufferWriter),
    w.offset + 3 * cs.length ≤ w.size →
    writeColors cs w = .ok ⟨w.written ++ colorsToBytes cs, w.size⟩ := by
  intro cs
  induction cs with
  | nil => intro w _; simp [writeColors, colorsToBytes, pure, Except.pure]
  | cons c cs ih =>
    intro w h
    simp only [List.length_cons] at h
    simp only [writeColors, writeColor_ok w c (by omega), bind, Except.bind]
    rw [ih _ (by
      simp only [BufferWriter.offset, List.length_append, List.length_cons, List.length_nil] at h ⊢
      omega)]
    simp [colorsToBytes]

theorem readColor_between (pre : List Byte) (c : Color) (post : List Byte) :
    readColor (BufferReader.between pre (c.r :: c.g :: c.b :: post)) =
      .ok (c, BufferReader.between (pre ++ [c.r, c.g, c.b]) post) := by
  simp only [readColor, BufferReader.readUInt8_between, bind, Except.bind, pure, Except.pure,
    List.append_assoc, List.singleton_append, List.cons_append, List.nil_append]

theorem readColors_between : ∀ (cs : List Color) (pre post : List Byte),
    readColors cs.length (BufferReader.between pre (colorsToBytes cs ++ post)) =
      .ok (cs, BufferReader.between (pre ++ colorsToBytes cs) post) := by
  intro cs
  induction cs with
  | nil => intro pre post; simp [readColors, colorsToBytes, pure, Except.pure]
  | cons c cs ih =>
    intro pre post
    simp only [List.length_cons, readColors, colorsToBytes, List.cons_append, readColor_between,
      bind, Except.bind, ih, pure, Except.pure, List.append_assoc, List.singleton_append,
      List.nil_append]

theorem bytesToColors_colorsToBytes (cs : List Color) : bytesToColors (colorsToBytes cs) = cs := by
  induction cs with
  | nil => rfl
  | cons c cs ih => simp only [colorsToBytes, bytesToColors, ih]

theorem Sync.sync_reset (z : Zstd) (e : Encoder) (d : Decoder) :
    Sync z e.reset { d.reset with result := { d.reset.result with keyFrame := true } } :=
  ⟨rfl, rfl, fun h => absurd rfl h⟩

theorem KeyFrameBlock.keyFrame_decodesTo (z : Zstd) (d : Decoder) :
    DecodesTo z d [toUInt8 (variant_type_index .KeyFrameBlock)] [.KeyFrameBlock]
      { d.reset with result := { d.reset.result with keyFrame := true } } :=
  DecodesTo.block .KeyFrameBlock [] (fun pre post => by
    simp only [Decoder.decodeBlock, KeyFrameBlock.decode, pure, Except.pure, List.nil_append])

theorem PaletteResetBlock.paletteReset_decodesTo (z : Zstd) (d : Decoder) :
    DecodesTo z d [toUInt8 (variant_type_index .PaletteResetBlock)] [.PaletteResetBlock]
      d.resetPalette :=
  DecodesTo.block .PaletteResetBlock [] (fun pre post => by
    simp only [Decoder.decodeBlock, PaletteResetBlock.decode, pure, Except.pure,
      List.nil_append])

theorem NullBitmapBlock.null_decodesTo (z : Zstd) (d : Decoder) :
    DecodesTo z d [toUInt8 (variant_type_index .NullBitmapBlock)] [.NullBitmapBlock]
      { d with frameBitmap := d.previousFrameBitmap } :=
  DecodesTo.block .NullBitmapBlock [] (fun pre post => by
    simp only [Decoder.decodeBlock, NullBitmapBlock.decode, pure, Except.pure, List.nil_append])

theorem SolidColorBitmapBlock.solidColor_decodesTo (z : Zstd) (d : Decoder) (c : Color) :
    DecodesTo z d (toUInt8 (variant_type_index .SolidColorBitmapBlock) :: [c.r, c.g, c.b])
      [.SolidColorBitmapBlock] { d with frameBitmap := List.replicate d.frameBitmap.length c } :=
  DecodesTo.block .SolidColorBitmapBlock [c.r, c.g, c.b] (fun pre post => by
    simp only [Decoder.decodeBlock, SolidColorBitmapBlock.decode, List.cons_append,
      List.nil_append, readColor_between, bind, Except.bind, pure, Except.pure,
      List.append_assoc, List.singleton_append])


/-! ### Entropy-coded blocks -/

theorem Zstd.framed_length_le (z : Zstd) (history : List (List Byte)) (input : List Byte) :
    (z.framed history input).length ≤
      4 + (if input = [] then [] else z.compress history input).length := by
  simp only [Zstd.framed, List.length_append, littleEndian_length, List.length_take]
  omega

theorem Encoder.compressBuffer_framed_ok (z : Zstd) (e : Encoder) (w : BufferWriter)
    (input : List Byte)
    (hcap : w.offset + 4 +
      (if input = [] then [] else z.compress e.zstdCompressor input).length ≤ w.size) :
    e.compressBuffer z w input = .ok
      ({ e with zstdCompressor := Zstd.fed e.zstdCompressor input },
        ⟨w.written ++ z.framed e.zstdCompressor input, w.size⟩) := by
  rw [Encoder.compressBuffer_ok z e w input hcap]
  by_cases h : input = [] <;> simp [Zstd.fed, Zstd.framed, h]

theorem Encoder.compressBuffer_framed_inv {z : Zstd} {e e' : Encoder} {w w' : BufferWriter}
    {input : List Byte} (h : e.compressBuffer z w input = .ok (e', w')) :
    w.offset + 4 + (if input = [] then [] else z.compress e.zstdCompressor input).length
      ≤ w.size ∧
    e' = { e with zstdCompressor := Zstd.fed e.zstdCompressor input } ∧
    w' = ⟨w.written ++ z.framed e.zstdCompressor input, w.size⟩ := by
  obtain ⟨hcap, -, -⟩ := Encoder.compressBuffer_inv h
  rw [Encoder.compressBuffer_framed_ok z e w input hcap] at h
  cases h
  exact ⟨hcap, rfl, rfl⟩

theorem Decoder.decompressBuffer_framed {z : Zstd} (hz : z.Lossless)
    (d : Decoder) (history : List (List Byte)) (hne : ∀ earlier ∈ history, earlier ≠ [])
    (hsession : d.zstdDecompressor = z.emitted history) (input : List Byte)
    (hfit : (if input = [] then [] else z.compress history input).length < 2 ^ 32)
    (pre post outputBuffer : List Byte) (hout : input.length ≤ outputBuffer.length) :
    d.decompressBuffer z (BufferReader.between pre (z.framed history input ++ post))
      outputBuffer =
    .ok ({ d with zstdDecompressor := z.emitted (Zstd.fed history input) },
      BufferReader.between (pre ++ z.framed history input) post,
      input ++ outputBuffer.drop input.length) :=
  Decoder.decompressBuffer_sync hz d history hne hsession input hfit pre post outputBuffer hout

theorem Zstd.fed_nonempty {history : List (List Byte)} (input : List Byte)
    (hne : ∀ earlier ∈ history, earlier ≠ []) : ∀ earlier ∈ Zstd.fed history input, earlier ≠ [] := by
  unfold Zstd.fed
  by_cases h : input = []
  · rw [if_pos h]; exact hne
  · rw [if_neg h]
    intro earlier hmem
    rcases List.mem_cons.1 hmem with h1 | h1
    · rw [h1]; exact h
    · exact hne earlier h1

theorem PaletteBlock.palette_payload_eq (e : Encoder) (palette : Palette)
    (hsize : palette.size ≤ Palette.maxColorCount)
    (hbuf : PaletteBlock.maxSize ≤ e.internalBufferSize) :
    PaletteBlock.payload e palette =
      .ok (toUInt8 (palette.size - 1) :: colorsToBytes palette.colors) := by
  simp only [Palette.maxColorCount, PaletteBlock.maxSize, Palette.size] at hsize hbuf
  have h1 : (⟨[], e.internalBufferSize⟩ : BufferWriter).writeUInt8 (palette.size - 1) =
      .ok ⟨[toUInt8 (palette.size - 1)], e.internalBufferSize⟩ :=
    BufferWriter.writeUInt8_ok _ (by show 0 + 1 ≤ e.internalBufferSize; omega)
  have h2 := writeColors_ok palette.colors ⟨[toUInt8 (palette.size - 1)], e.internalBufferSize⟩
    (by show 1 + 3 * palette.colors.length ≤ e.internalBufferSize; omega)
  simp only [PaletteBlock.payload, h1, h2, bind, Except.bind, pure, Except.pure,
    List.singleton_append]

theorem PaletteBlock.palette_decodesTo {z : Zstd} (hz : z.Lossless)
    (d : Decoder) (history : List (List Byte)) (hne : ∀ earlier ∈ history, earlier ≠ [])
    (hsession : d.zstdDecompressor = z.emitted history) (palette : Palette)
    (hfit : (z.compress history
      (toUInt8 (palette.size - 1) :: colorsToBytes palette.colors)).length < 2 ^ 32)
    (hpos : palette.size ≠ 0) (hsize : palette.size ≤ Palette.maxColorCount)
    (hbuf : PaletteBlock.maxSize ≤ d.internalBuffer.length) :
    DecodesTo z d
      (toUInt8 (variant_type_index .PaletteBlock) ::
        z.framed history (toUInt8 (palette.size - 1) :: colorsToBytes palette.colors))
      [.PaletteBlock]
      { d with
        zstdDecompressor :=
          z.emitted ((toUInt8 (palette.size - 1) :: colorsToBytes palette.colors) :: history)
        internalBuffer := (toUInt8 (palette.size - 1) :: colorsToBytes palette.colors) ++
          d.internalBuffer.drop (1 + 3 * palette.size)
        palette := d.palette.merge
          ⟨palette.colors, List.replicate (Palette.maxColorCount - palette.size) Color.zero⟩ } := by
  refine DecodesTo.block .PaletteBlock _ (fun pre post => ?_)
  simp only [Palette.maxColorCount, PaletteBlock.maxSize, Palette.size] at hpos hsize hbuf
  have hlen : (toUInt8 (palette.size - 1) :: colorsToBytes palette.colors).length =
      1 + 3 * palette.size := by
    simp only [List.length_cons, colorsToBytes_length, Palette.size]; omega
  have hdec := Decoder.decompressBuffer_framed hz d history hne hsession
    (toUInt8 (palette.size - 1) :: colorsToBytes palette.colors)
    (by rw [if_neg (List.cons_ne_nil _ _)]; exact hfit)
    (pre ++ [toUInt8 (variant_type_index .PaletteBlock)]) post d.internalBuffer
    (by rw [hlen]; simp only [Palette.size]; omega)
  have hcount : (toUInt8 (palette.size - 1)).val + 1 = palette.colors.length := by
    rw [toUInt8_val, Nat.mod_eq_of_lt (by simp only [Palette.size]; omega)]
    simp only [Palette.size]; omega
  have hrd : (⟨toUInt8 (palette.colors.length - 1) :: (colorsToBytes palette.colors ++
        d.internalBuffer.drop (1 + 3 * palette.colors.length)), 0⟩ : BufferReader) =
      BufferReader.between [] (toUInt8 (palette.colors.length - 1) ::
        (colorsToBytes palette.colors ++
          d.internalBuffer.drop (1 + 3 * palette.colors.length))) := rfl
  simp only [Palette.size] at hlen hdec hcount hrd ⊢
  simp only [Decoder.decodeBlock, PaletteBlock.decode, hdec, bind, Except.bind, hrd,
    BufferReader.readUInt8_between, hcount, readColors_between, pure, Except.pure,
    Zstd.fed, if_neg (List.cons_ne_nil _ _), hlen, Palette.ofSize,
    Palette.maxColorCount, List.append_assoc, List.singleton_append, List.cons_append,
    List.nil_append]

theorem RawBitmapBlock.raw_decodesTo {z : Zstd} (hz : z.Lossless)
    (d : Decoder) (history : List (List Byte)) (hne : ∀ earlier ∈ history, earlier ≠ [])
    (hsession : d.zstdDecompressor = z.emitted history) (frame : List Color)
    (hfit : (if colorsToBytes frame = [] then []
      else z.compress history (colorsToBytes frame)).length < 2 ^ 32)
    (hlen : frame.length = d.frameBitmap.length) :
    DecodesTo z d
      (toUInt8 (variant_type_index .RawBitmapBlock) :: z.framed history (colorsToBytes frame))
      [.RawBitmapBlock]
      { d with
        zstdDecompressor := z.emitted (Zstd.fed history (colorsToBytes frame))
        frameBitmap := frame } := by
  refine DecodesTo.block .RawBitmapBlock _ (fun pre post => ?_)
  have hdec := Decoder.decompressBuffer_framed hz d history hne hsession
    (colorsToBytes frame) hfit (pre ++ [toUInt8 (variant_type_index .RawBitmapBlock)]) post
    (colorsToBytes d.frameBitmap) (by simp only [colorsToBytes_length, hlen]; omega)
  have hdrop : List.drop (colorsToBytes frame).length (colorsToBytes d.frameBitmap) = [] := by
    apply List.drop_eq_nil_of_le
    simp only [colorsToBytes_length, hlen]; omega
  simp only [Decoder.decodeBlock, RawBitmapBlock.decode, hdec, bind, Except.bind, hdrop,
    List.append_nil, bytesToColors_colorsToBytes, pure, Except.pure, List.append_assoc,
    List.singleton_append, List.cons_append, List.nil_append]


theorem packedBytes_length_le {b : Nat} {idxs : List Byte}
    (hb : idxs = [] ∨ (b = 1 ∨ b = 2 ∨ b = 4 ∨ b = 8)) :
    (packedBytes b idxs 0 0).length ≤ idxs.length := by
  rcases hb with rfl | hb
  · simp [packedBytes]
  · rw [packedBytes_length hb idxs 0 0 (Nat.zero_mod b) (by decide)]
    rcases hb with rfl | rfl | rfl | rfl <;> omega

theorem Palette.indexByte_val {p : Palette} {c : Color} (hc : c ∈ p.colors)
    (hsize : p.size ≤ 256) : (p.indexByte c).val = p.colors.indexOf c := by
  have := List.indexOf_lt_length.2 hc
  simp only [Palette.size] at hsize
  rw [Palette.indexByte, toUInt8_val, Nat.mod_eq_of_lt (by omega)]

theorem Palette.get_indexByte {p : Palette} {c : Color} (hc : c ∈ p.colors)
    (hsize : p.size ≤ 256) : p.get (p.indexByte c).val = c := by
  have hlt := List.indexOf_lt_length.2 hc
  rw [Palette.indexByte_val hc hsize, Palette.get, List.getD_eq_getElem?_getD,
    List.getElem?_append_left hlt, List.getElem?_eq_getElem hlt, List.getElem_indexOf hlt]
  rfl

theorem IndexedBitmapBlock.indexed_payload_eq (e : Encoder) (b : Nat) (hbits : e.palette.bits = .ok b)
    (hb : e.frameBitmap = [] ∨ (b = 1 ∨ b = 2 ∨ b = 4 ∨ b = 8))
    (hmap : e.colorMap = colorMapFill e.palette.colors 0 [])
    (hframe : ∀ c ∈ e.frameBitmap, c ∈ e.palette.colors)
    (hbuf : 1 + e.frameBitmap.length ≤ e.internalBufferSize) :
    IndexedBitmapBlock.payload e =
      .ok (toUInt8 b :: packedBytes b (e.frameBitmap.map e.palette.indexByte) 0 0) := by
  have hlookup : ∀ c ∈ e.frameBitmap, colorMapAt e.colorMap c = .ok (e.palette.indexByte c) :=
    fun c hc => by rw [hmap]; exact colorMapAt_fill (hframe c hc)
  have hle : (packedBytes b (e.frameBitmap.map e.palette.indexByte) 0 0).length ≤
      e.frameBitmap.length := by
    have := @packedBytes_length_le b (e.frameBitmap.map e.palette.indexByte)
      (by rcases hb with h | h
          · left; rw [h]; rfl
          · right; exact h)
    rwa [List.length_map] at this
  have hw : (⟨[], e.internalBufferSize⟩ : BufferWriter).writeUInt8 b =
      .ok ⟨[toUInt8 b], e.internalBufferSize⟩ :=
    BufferWriter.writeUInt8_ok b (by show 0 + 1 ≤ e.internalBufferSize; omega)
  obtain ⟨st, h1, h2⟩ := packLoop_eq_packedBytes b (e.frameBitmap.map e.palette.indexByte)
    ⟨⟨[toUInt8 b], e.internalBufferSize⟩, 0, 0⟩ (by
      show 1 + (packedBytes b (e.frameBitmap.map e.palette.indexByte) 0 0).length ≤
        e.internalBufferSize
      omega)
  simp only [IndexedBitmapBlock.payload, hbits, bind, Except.bind, hw,
    packLoop_lookup _ e.palette.indexByte b _ _ hlookup, h1, h2, pure, Except.pure]
  rfl

theorem IndexedBitmapBlock.indexed_decodesTo {z : Zstd} (hz : z.Lossless)
    (d : Decoder) (history : List (List Byte)) (hne : ∀ earlier ∈ history, earlier ≠ [])
    (hsession : d.zstdDecompressor = z.emitted history) (b : Nat) (idxs : List Byte)
    (hfit : (z.compress history (toUInt8 b :: packedBytes b idxs 0 0)).length < 2 ^ 32)
    (hb : idxs = [] ∨ ((b = 1 ∨ b = 2 ∨ b = 4 ∨ b = 8) ∧ ∀ i ∈ idxs, i.val < 2 ^ b))
    (hb256 : b < 256) (hlen : idxs.length = d.frameBitmap.length)
    (hbuf : 1 + idxs.length ≤ d.internalBuffer.length) :
    DecodesTo z d
      (toUInt8 (variant_type_index .IndexedBitmapBlock) ::
        z.framed history (toUInt8 b :: packedBytes b idxs 0 0))
      [.IndexedBitmapBlock]
      { d with
        zstdDecompressor := z.emitted ((toUInt8 b :: packedBytes b idxs 0 0) :: history)
        internalBuffer := (toUInt8 b :: packedBytes b idxs 0 0) ++
          d.internalBuffer.drop (1 + (packedBytes b idxs 0 0).length)
        frameBitmap := idxs.map (fun i => d.palette.get i.val) } := by
  refine DecodesTo.block .IndexedBitmapBlock _ (fun pre post => ?_)
  have hle : (packedBytes b idxs 0 0).length ≤ idxs.length :=
    packedBytes_length_le (by rcases hb with h | h
                              · exact Or.inl h
                              · exact Or.inr h.1)
  have hplen : (toUInt8 b :: packedBytes b idxs 0 0).length =
      1 + (packedBytes b idxs 0 0).length := by
    rw [List.length_cons]; omega
  have hdec := Decoder.decompressBuffer_framed hz d history hne hsession
    (toUInt8 b :: packedBytes b idxs 0 0)
    (by rw [if_neg (List.cons_ne_nil _ _)]; exact hfit)
    (pre ++ [toUInt8 (variant_type_index .IndexedBitmapBlock)]) post d.internalBuffer
    (by rw [hplen]; omega)
  have hbval : (toUInt8 b).val = b := by rw [toUInt8_val, Nat.mod_eq_of_lt hb256]
  have hrd : (⟨toUInt8 b :: (packedBytes b idxs 0 0 ++
        d.internalBuffer.drop (1 + (packedBytes b idxs 0 0).length)), 0⟩ : BufferReader) =
      BufferReader.between [] (toUInt8 b :: (packedBytes b idxs 0 0 ++
        d.internalBuffer.drop (1 + (packedBytes b idxs 0 0).length))) := rfl
  have hun : IndexedBitmapBlock.unpackLoop (fun i => d.palette.get i.val) b d.frameBitmap.length
      ⟨BufferReader.between [toUInt8 b] (packedBytes b idxs 0 0 ++
        d.internalBuffer.drop (1 + (packedBytes b idxs 0 0).length)), 0, 8⟩ =
      .ok (idxs.map (fun i => d.palette.get i.val)) := by
    rw [← hlen]
    rcases hb with h | ⟨hb, hidx⟩
    · subst h; rfl
    · exact unpackLoop_map _ b _ _ _
        ((unpackLoop_packedBytes hb idxs 0 0 (Nat.zero_mod b) (by decide) (by simp) hidx).2 rfl
          _ _ 0)
  simp only [Decoder.decodeBlock, IndexedBitmapBlock.decode, hdec, bind, Except.bind, hplen,
    List.cons_append, hrd, BufferReader.readUInt8_between, hbval, hun, pure, Except.pure,
    Zstd.fed, if_neg (List.cons_ne_nil _ _), List.append_assoc, List.singleton_append,
    List.nil_append]


/-! ### Building the palette of a frame -/

theorem colorSetInsert_spec (c : Color) : ∀ (s : List Color), Increasing s →
    Increasing (colorSetInsert c s) ∧ (∀ x, x ∈ colorSetInsert c s ↔ x = c ∨ x ∈ s) ∧
    (colorSetInsert c s).length ≤ s.length + 1 := by
  intro s
  induction s with
  | nil =>
    intro _
    simp [colorSetInsert, Increasing]
  | cons y ys ih =>
    intro hs
    obtain ⟨hi, hm, hl⟩ := ih hs.tail
    simp only [colorSetInsert]
    by_cases hcy : ColorOrdering c y = true
    · rw [if_pos hcy]
      have hlt := (ColorOrdering_iff c y).1 hcy
      refine ⟨?_, fun x => by simp, by simp⟩
      refine List.pairwise_cons.2 ⟨?_, hs⟩
      intro x hx
      rw [ColorOrdering_iff]
      rcases List.mem_cons.1 hx with h | h
      · subst h; exact hlt
      · have := hs.head_lt h; omega
    · rw [if_neg hcy]
      have hge := (ColorOrdering_eq_false_iff c y).1 (by simpa using hcy)
      by_cases hyc : ColorOrdering y c = true
      · rw [if_pos hyc]
        have hlt := (ColorOrdering_iff y c).1 hyc
        refine ⟨?_, ?_, by simp only [List.length_cons]; omega⟩
        · refine List.pairwise_cons.2 ⟨?_, hi⟩
          intro x hx
          rw [ColorOrdering_iff]
          rcases (hm x).1 hx with h | h
          · subst h; exact hlt
          · exact hs.head_lt h
        · intro x
          simp only [List.mem_cons, hm]
          constructor
          · rintro (h | h | h) <;> simp [h]
          · rintro (h | h | h) <;> simp [h]
      · rw [if_neg hyc]
        have hle := (ColorOrdering_eq_false_iff y c).1 (by simpa using hyc)
        have heq : c = y := Color.key_inj (by omega)
        subst heq
        exact ⟨hs, fun x => by simp, by simp⟩

theorem makePaletteLoop_spec : ∀ (l s : List Color) (s' : List Color), Increasing s →
    s.length ≤ Palette.maxColorCount → Encoder.makePaletteLoop l s = some s' →
    Increasing s' ∧ (∀ x, x ∈ s' ↔ x ∈ l ∨ x ∈ s) ∧ s'.length ≤ Palette.maxColorCount := by
  intro l
  induction l with
  | nil =>
    intro s s' hs hlen h
    simp only [Encoder.makePaletteLoop, Option.some.injEq] at h
    subst h
    exact ⟨hs, fun x => by simp, hlen⟩
  | cons c l ih =>
    intro s s' hs _ h
    obtain ⟨hi, hm, _⟩ := colorSetInsert_spec c s hs
    simp only [Encoder.makePaletteLoop] at h
    by_cases hgt : (colorSetInsert c s).length > Palette.maxColorCount
    · rw [if_pos hgt] at h; cases h
    · rw [if_neg hgt] at h
      obtain ⟨hi', hm', hl'⟩ := ih _ s' hi (by omega) h
      refine ⟨hi', ?_, hl'⟩
      intro x
      rw [hm' x, hm x, List.mem_cons]
      constructor
      · rintro (h | h | h) <;> simp [h]
      · rintro ((h | h) | h) <;> simp [h]

theorem Encoder.makePalette_spec (e : Encoder) (bitmap : List Color) :
    e.makePalette bitmap = .ok none ∨
    ∃ p, e.makePalette bitmap = .ok (some p) ∧ p.Sorted ∧ p.size ≤ Palette.maxColorCount ∧
      ∀ x, x ∈ p.colors ↔ x ∈ bitmap.take (e.bitmapInfo.width * e.bitmapInfo.height) := by
  unfold Encoder.makePalette
  cases h : Encoder.makePaletteLoop (bitmap.take (e.bitmapInfo.width * e.bitmapInfo.height)) [] with
  | none => exact Or.inl rfl
  | some s =>
    right
    obtain ⟨hi, hm, hl⟩ := makePaletteLoop_spec _ [] s List.Pairwise.nil (by simp) h
    refine ⟨⟨s, List.replicate (Palette.maxColorCount - s.length) Color.zero⟩, ?_, hi, hl, ?_⟩
    · simp only [Palette.ofRange]
      rw [if_neg (by omega)]
    · intro x
      rw [hm x]
      simp

theorem setDifferenceAux_length_le (comp : Color → Color → Bool) (n : Nat) :
    ∀ (xs ys : List Color), (setDifferenceAux comp n xs ys).length ≤ xs.length := by
  induction n with
  | zero => intro xs ys; simp [setDifferenceAux]
  | succ n ih =>
    intro xs ys
    cases xs with
    | nil => simp [setDifferenceAux]
    | cons x xs =>
      cases ys with
      | nil => simp [setDifferenceAux]
      | cons y ys =>
        simp only [setDifferenceAux]
        split_ifs
        · simp only [List.length_cons]
          have := ih xs (y :: ys)
          omega
        · exact ih (x :: xs) ys
        · have := ih xs ys
          simp only [List.length_cons]
          omega

theorem Palette.difference_size_le (self other : Palette) :
    (self.difference other).size ≤ other.size :=
  setDifferenceAux_length_le _ _ _ _


/-! ### The Palette block and the palette update -/

theorem Encoder.SameConfig.refl (e : Encoder) : e.SameConfig e := ⟨rfl, rfl, rfl, rfl, rfl⟩

theorem Encoder.SameConfig.trans {e₁ e₂ e₃ : Encoder} (h₁ : e₁.SameConfig e₂)
    (h₂ : e₂.SameConfig e₃) : e₁.SameConfig e₃ :=
  ⟨h₂.bitmapInfo.trans h₁.bitmapInfo, h₂.settings.trans h₁.settings,
    h₂.buffer.trans h₁.buffer, h₂.firstFrame.trans h₁.firstFrame,
    h₂.previous.trans h₁.previous⟩

theorem safeInternal_ge (bitmapInfo : BitmapInfo) :
    PaletteBlock.maxSize ≤ safeInternalOutpuBufferSize bitmapInfo ∧
    1 + bitmapInfo.pixelCount ≤ safeInternalOutpuBufferSize bitmapInfo := by
  simp only [safeInternalOutpuBufferSize, IndexedBitmapBlock.maxSize, BitmapInfo.pixelCount,
    Nat.mul_one]
  omega

theorem PaletteBlock.content_length (palette : Palette) :
    (PaletteBlock.content palette).length = 1 + 3 * palette.size := by
  simp only [PaletteBlock.content, List.length_cons, colorsToBytes_length, Palette.size]
  omega

theorem PaletteBlock.palette_encode_ok (z : Zstd) (e : Encoder) (w : BufferWriter) (palette : Palette)
    (hpos : palette.size ≠ 0) (hsize : palette.size ≤ Palette.maxColorCount)
    (hbuf : PaletteBlock.maxSize ≤ e.internalBufferSize)
    (hcap : w.offset + 4 +
      (z.compress e.zstdCompressor (PaletteBlock.content palette)).length ≤ w.size) :
    PaletteBlock.encode z e w palette = .ok
      ({ e with
          zstdCompressor := PaletteBlock.content palette :: e.zstdCompressor
          palette := e.palette.merge palette
          colorMap := colorMapFill (e.palette.merge palette).colors 0 [] },
        ⟨w.written ++ z.framed e.zstdCompressor (PaletteBlock.content palette), w.size⟩) := by
  have hne : PaletteBlock.content palette ≠ [] := List.cons_ne_nil _ _
  have hc := Encoder.compressBuffer_framed_ok z e w (PaletteBlock.content palette)
    (by rw [if_neg hne]; exact hcap)
  unfold PaletteBlock.encode
  rw [if_neg hpos]
  simp only [PaletteBlock.palette_payload_eq e palette hsize hbuf, bind, Except.bind]
  unfold PaletteBlock.content at hc hne
  simp only [hc, pure, Except.pure, Zstd.fed, if_neg hne]
  rfl

theorem PaletteBlock.palette_encode_inv {z : Zstd} {e e' : Encoder} {w w' : BufferWriter}
    {palette : Palette} (hsize : palette.size ≤ Palette.maxColorCount)
    (hbuf : PaletteBlock.maxSize ≤ e.internalBufferSize)
    (h : PaletteBlock.encode z e w palette = .ok (e', w')) :
    palette.size ≠ 0 ∧
    w.offset + 4 + (z.compress e.zstdCompressor (PaletteBlock.content palette)).length
      ≤ w.size ∧
    e' = { e with
          zstdCompressor := PaletteBlock.content palette :: e.zstdCompressor
          palette := e.palette.merge palette
          colorMap := colorMapFill (e.palette.merge palette).colors 0 [] } ∧
    w' = ⟨w.written ++ z.framed e.zstdCompressor (PaletteBlock.content palette), w.size⟩ := by
  have hne : PaletteBlock.content palette ≠ [] := List.cons_ne_nil _ _
  by_cases hpos : palette.size = 0
  · unfold PaletteBlock.encode at h
    rw [if_pos hpos] at h
    cases h
  · by_cases hcap : w.offset + 4 +
        (z.compress e.zstdCompressor (PaletteBlock.content palette)).length ≤ w.size
    · rw [PaletteBlock.palette_encode_ok z e w palette hpos hsize hbuf hcap] at h
      cases h
      exact ⟨hpos, hcap, rfl, rfl⟩
    · obtain ⟨err, herr⟩ := Encoder.compressBuffer_error z e w (PaletteBlock.content palette)
        (by rw [if_neg hne]; exact hcap)
      unfold PaletteBlock.encode at h
      rw [if_neg hpos] at h
      simp only [PaletteBlock.palette_payload_eq e palette hsize hbuf, bind, Except.bind] at h
      unfold PaletteBlock.content at herr
      rw [herr] at h
      cases h


theorem setUnion_nil_right (xs : List Color) : setUnion ColorOrdering xs [] = xs := by
  cases xs <;> simp [setUnion, setUnionAux]

theorem Zstd.framed_bounded {z : Zstd} (hb : z.Bounded) (history : List (List Byte))
    (input : List Byte) {n : Nat} (hn : input.length ≤ n) :
    (z.framed history input).length ≤ 4 + z.compressBound n := by
  have h1 := z.framed_length_le history input
  have h2 : (if input = [] then [] else z.compress history input).length ≤
      z.compressBound n := by
    by_cases h : input = []
    · simp [h]
    · rw [if_neg h]
      exact Nat.le_trans (hb.1 history input) (hb.2 _ _ hn)
  omega

theorem Encoder.Inv.resetPalette {e : Encoder} (h : e.Inv) : e.resetPalette.Inv :=
  ⟨h.frame, h.previous, h.buffer, List.Pairwise.nil, Nat.zero_le _, rfl, h.session⟩

theorem Encoder.Inv.reset {e : Encoder} (h : e.Inv) : e.reset.Inv :=
  ⟨h.frame, Or.inl rfl, h.buffer, List.Pairwise.nil, Nat.zero_le _, rfl,
    fun _ hm => absurd hm (List.not_mem_nil _)⟩

/-- One Palette block, as the encoder writes it and as the decoder reads it. -/
theorem PaletteBlock.palette_step {z : Zstd} {e e' : Encoder} {w w' : BufferWriter} {palette : Palette}
    (hinv : e.Inv) (hs : palette.Sorted) (hsize : palette.size ≤ Palette.maxColorCount)
    (h : writeBlock .PaletteBlock w (fun w => PaletteBlock.encode z e w palette) = .ok (e', w')) :
    w' = ⟨w.written ++ (toUInt8 (variant_type_index .PaletteBlock) ::
        z.framed e.zstdCompressor (PaletteBlock.content palette)), w.size⟩ ∧
    w.offset + (1 + (z.framed e.zstdCompressor (PaletteBlock.content palette)).length)
      ≤ w.size ∧
    palette.size ≠ 0 ∧
    e'.palette.colors = setUnion ColorOrdering palette.colors e.palette.colors ∧
    e.SameConfig e' ∧ e'.frameBitmap = e.frameBitmap ∧
    (e'.palette.size ≤ Palette.maxColorCount → e'.Inv) ∧
    (z.Bounded → (z.framed e.zstdCompressor (PaletteBlock.content palette)).length ≤
      4 + z.compressBound PaletteBlock.maxSize) ∧
    (z.Lossless → w.size < 2 ^ 32 → ∀ d, Sync z e d → d.Inv e.bitmapInfo →
      ∃ d', DecodesTo z d (toUInt8 (variant_type_index .PaletteBlock) ::
          z.framed e.zstdCompressor (PaletteBlock.content palette)) [.PaletteBlock] d' ∧
        Sync z e' d' ∧ d'.Inv e.bitmapInfo ∧ d'.result = d.result) := by
  have hbuf : PaletteBlock.maxSize ≤ e.internalBufferSize := by
    rw [hinv.buffer]; exact (safeInternal_ge _).1
  obtain ⟨hcap1, h1⟩ := writeBlock_inv h
  obtain ⟨hpos, hcap, he, hw⟩ := PaletteBlock.palette_encode_inv hsize hbuf h1
  have hfl := z.framed_length_le e.zstdCompressor (PaletteBlock.content palette)
  have hne : PaletteBlock.content palette ≠ [] := List.cons_ne_nil _ _
  rw [if_neg hne] at hfl
  have hclen : (PaletteBlock.content palette).length ≤ PaletteBlock.maxSize := by
    rw [PaletteBlock.content_length]
    simp only [PaletteBlock.maxSize, Palette.maxColorCount] at hsize ⊢
    omega
  subst he hw
  refine ⟨by simp, ?_, hpos, rfl, ⟨rfl, rfl, rfl, rfl, rfl⟩, rfl, ?_, ?_, ?_⟩
  · simp only [BufferWriter.offset, List.length_append, List.length_singleton] at hcap hcap1 ⊢
    omega
  · intro hsz
    exact ⟨hinv.frame, hinv.previous, hinv.buffer, (setUnion_spec hs hinv.sorted).2.1, hsz, rfl,
      fun p hp => by
        rcases List.mem_cons.1 hp with h | h
        · rw [h]; exact List.cons_ne_nil _ _
        · exact hinv.session p h⟩
  · intro hb
    exact Zstd.framed_bounded hb _ _ hclen
  · intro hz hfit d hsync hd
    have hdbuf : PaletteBlock.maxSize ≤ d.internalBuffer.length := by
      rw [hd.buffer]; exact (safeInternal_ge _).1
    have hchunk : (z.compress e.zstdCompressor
        (toUInt8 (palette.size - 1) :: colorsToBytes palette.colors)).length < 2 ^ 32 := by
      have hcc := hcap
      simp only [BufferWriter.offset, List.length_append, List.length_singleton,
        PaletteBlock.content, if_neg hne] at hcc hfl
      omega
    refine ⟨_, PaletteBlock.palette_decodesTo hz d e.zstdCompressor hinv.session hsync.session
      palette hchunk hpos hsize hdbuf, ⟨?_, rfl, hsync.previous⟩, ⟨hd.frame, ?_⟩, rfl⟩
    · show setUnion ColorOrdering palette.colors d.palette.colors =
        setUnion ColorOrdering palette.colors e.palette.colors
      rw [hsync.palette]
    · show ((toUInt8 (palette.size - 1) :: colorsToBytes palette.colors) ++
        d.internalBuffer.drop (1 + 3 * palette.size)).length = _
      rw [← hd.buffer]
      have := PaletteBlock.content_length palette
      unfold PaletteBlock.content at this
      rw [List.length_append, this, List.length_drop]
      unfold PaletteBlock.content at hclen
      omega


theorem Palette.bits_ok {p : Palette} (h : p.size ≤ Palette.maxColorCount) :
    ∃ b, p.bits = .ok b := by
  unfold Palette.bits
  simp only [Palette.maxColorCount] at h
  split_ifs <;> exact ⟨_, rfl⟩

theorem Palette.difference_colors {self other : Palette} (hs : self.Sorted) (ho : other.Sorted) :
    (self.difference other).colors = other.colors.filter (fun c => decide (c ∉ self.colors)) :=
  setDifference_eq_filter ho hs

theorem Palette.difference_sorted {self other : Palette} (hs : self.Sorted) (ho : other.Sorted) :
    (self.difference other).Sorted := by
  unfold Palette.Sorted Increasing
  rw [Palette.difference_colors hs ho]
  exact List.Pairwise.filter _ ho

/-- The octets start with the tag of the first of the blocks (both are empty
together). -/
theorem Tagged.head {bytes : List Byte} {blocks : List FrameBlock} (h : Tagged bytes blocks) :
    (bytes = [] ∧ blocks = []) ∨
    ∃ block more rest, blocks = block :: more ∧
      bytes = toUInt8 (variant_type_index block) :: rest := by
  cases h with
  | nil => exact Or.inl ⟨rfl, rfl⟩
  | cons block payload rest more _ _ => exact Or.inr ⟨block, more, payload ++ rest, rfl, rfl⟩

theorem Tagged.single {block : FrameBlock} {payload : List Byte} (h : block.Payload payload) :
    Tagged (toUInt8 (variant_type_index block) :: payload) [block] := by
  have := Tagged.cons block payload [] [] h Tagged.nil
  rwa [List.append_nil] at this

theorem Tagged.append {b₁ b₂ : List Byte} {k₁ k₂ : List FrameBlock} (h₁ : Tagged b₁ k₁)
    (h₂ : Tagged b₂ k₂) : Tagged (b₁ ++ b₂) (k₁ ++ k₂) := by
  induction h₁ with
  | nil => exact h₂
  | cons block payload rest more hp _ ih =>
    have := Tagged.cons block payload (rest ++ b₂) (more ++ k₂) hp ih
    rwa [← List.append_assoc] at this

/-- What `compressBuffer` writes is a 32-bit length and as many octets. -/
theorem Zstd.framed_chunk (z : Zstd) (history : List (List Byte)) (input : List Byte) :
    ∃ chunk, chunk.length < 2 ^ 32 ∧
      z.framed history input = littleEndian 4 chunk.length ++ chunk := by
  have hlt : (if input = [] then [] else z.compress history input).length % 2 ^ 32 < 2 ^ 32 :=
    Nat.mod_lt _ (by decide)
  have hle := Nat.mod_le (if input = [] then [] else z.compress history input).length (2 ^ 32)
  have hlen : ((if input = [] then [] else z.compress history input).take
      ((if input = [] then [] else z.compress history input).length % 2 ^ 32)).length =
      (if input = [] then [] else z.compress history input).length % 2 ^ 32 := by
    rw [List.length_take]; omega
  exact ⟨(if input = [] then [] else z.compress history input).take
      ((if input = [] then [] else z.compress history input).length % 2 ^ 32),
    by rw [hlen]; exact hlt, by rw [hlen]; rfl⟩

/-- The palette update, as the encoder writes it and as the decoder reads it:
nothing, one Palette block, or a PaletteReset block and a Palette block. -/
theorem Encoder.updatePalette_inv {z : Zstd} {e e' : Encoder} {w w' : BufferWriter}
    {newPalette : Palette} (hinv : e.Inv) (hs : newPalette.Sorted)
    (hsize : newPalette.size ≤ Palette.maxColorCount) (hw0 : w.offset ≤ w.size)
    (h : e.updatePalette z w newPalette = .ok (e', w')) :
    ∃ bytes blocks, w' = ⟨w.written ++ bytes, w.size⟩ ∧ blocks.length ≤ bytes.length ∧
      Tagged bytes blocks ∧
      (∀ k ∈ blocks, k = .PaletteBlock ∨ k = .PaletteResetBlock) ∧
      e'.Inv ∧ e.SameConfig e' ∧ e'.frameBitmap = e.frameBitmap ∧
      (∀ c ∈ newPalette.colors, c ∈ e'.palette.colors) ∧
      w.offset + bytes.length ≤ w.size ∧
      (z.Bounded → bytes.length ≤ 2 + (4 + z.compressBound PaletteBlock.maxSize)) ∧
      (z.Lossless → w.size < 2 ^ 32 → ∀ d, Sync z e d → d.Inv e.bitmapInfo →
        ∃ d', DecodesTo z d bytes blocks d' ∧ Sync z e' d' ∧ d'.Inv e.bitmapInfo ∧
          d'.result = d.result) := by
  unfold Encoder.updatePalette at h
  simp only [] at h
  by_cases hnew : (e.palette.difference newPalette).size > 0
  · rw [if_pos hnew] at h
    obtain ⟨b, hbits⟩ := Palette.bits_ok hsize
    obtain ⟨hb1, -, hb3, -⟩ := Palette.bits_inv hbits
    have hpow : 1 <<< b ≤ 256 := by
      rw [Nat.one_shiftLeft]
      rcases hb3 with rfl | rfl | rfl | rfl | rfl <;> decide
    simp only [hbits, bind, Except.bind] at h
    by_cases hgt : e.palette.size + (e.palette.difference newPalette).size > 1 <<< b
    · rw [if_pos hgt] at h
      by_cases hz0 : e.palette.size ≠ 0
      · rw [if_pos hz0] at h
        cases hr : writeBlock .PaletteResetBlock w (PaletteResetBlock.encode e) with
        | error err => rw [hr] at h; cases h
        | ok p =>
          rw [hr] at h
          obtain ⟨hcap0, hr1⟩ := writeBlock_inv hr
          simp only [PaletteResetBlock.encode, pure, Except.pure] at hr1
          cases hr1
          simp only at h
          obtain ⟨hw, hcap, _, hcol, hsame, hfr, hI, hB, hS⟩ :=
            PaletteBlock.palette_step hinv.resetPalette hs hsize h
          have hcol' : e'.palette.colors = newPalette.colors := by
            rw [hcol]; exact setUnion_nil_right _
          refine ⟨toUInt8 (variant_type_index .PaletteResetBlock) ::
            toUInt8 (variant_type_index .PaletteBlock) ::
              z.framed e.zstdCompressor (PaletteBlock.content newPalette),
            [.PaletteResetBlock, .PaletteBlock], ?_, ?_, ?_, ?_, ?_,
            ⟨hsame.bitmapInfo, hsame.settings, hsame.buffer, hsame.firstFrame, hsame.previous⟩,
            hfr, ?_, ?_, ?_, ?_⟩
          · rw [hw]; simp [Encoder.resetPalette]
          · simp
          · exact Tagged.cons .PaletteResetBlock [] _ _ rfl
              (@Tagged.single .PaletteBlock _ (z.framed_chunk _ _))
          · intro k hk
            simp only [List.mem_cons, List.mem_singleton, List.not_mem_nil, or_false] at hk
            rcases hk with rfl | rfl
            · exact Or.inr rfl
            · exact Or.inl rfl
          · exact hI (by simp only [Palette.size, hcol']; exact hsize)
          · intro c hc; rw [hcol']; exact hc
          · simp only [BufferWriter.offset, List.length_append, List.length_singleton,
              List.length_cons, Encoder.resetPalette] at hcap ⊢
            omega
          · intro hb
            have := hB hb
            simp only [List.length_cons, Encoder.resetPalette] at this ⊢
            omega
          · intro hz hfit d hsync hd
            have hsync1 : Sync z e.resetPalette d.resetPalette :=
              ⟨rfl, hsync.session, hsync.previous⟩
            obtain ⟨d', hdec, hs', hd', hres⟩ := hS hz hfit d.resetPalette hsync1
              ⟨hd.frame, hd.buffer⟩
            exact ⟨d', DecodesTo.decodes_trans (PaletteResetBlock.paletteReset_decodesTo z d) hdec, hs', hd', hres⟩
      · rw [if_neg hz0] at h
        simp only [pure, Except.pure] at h
        obtain ⟨hw, hcap, _, hcol, hsame, hfr, hI, hB, hS⟩ := PaletteBlock.palette_step hinv hs hsize h
        have hnil : e.palette.colors = [] := by
          have : e.palette.size = 0 := by simpa using hz0
          exact List.length_eq_zero.1 this
        have hcol' : e'.palette.colors = newPalette.colors := by
          rw [hcol, hnil]; exact setUnion_nil_right _
        refine ⟨toUInt8 (variant_type_index .PaletteBlock) ::
            z.framed e.zstdCompressor (PaletteBlock.content newPalette),
          [.PaletteBlock], hw, by simp, @Tagged.single .PaletteBlock _ (z.framed_chunk _ _), ?_,
          ?_, hsame, hfr, ?_, ?_, ?_, hS⟩
        · intro k hk
          simp only [List.mem_singleton] at hk
          exact Or.inl hk
        · exact hI (by simp only [Palette.size, hcol']; exact hsize)
        · intro c hc; rw [hcol']; exact hc
        · simp only [List.length_cons]; omega
        · intro hb
          have := hB hb
          simp only [List.length_cons]
          omega
    · rw [if_neg hgt] at h
      have hds := Palette.difference_sorted hinv.sorted hs
      have hdsize : (e.palette.difference newPalette).size ≤ Palette.maxColorCount :=
        Nat.le_trans (Palette.difference_size_le _ _) hsize
      obtain ⟨hw, hcap, _, hcol, hsame, hfr, hI, hB, hS⟩ := PaletteBlock.palette_step hinv hds hdsize h
      obtain ⟨hm, _, hl, _⟩ := setUnion_spec hds hinv.sorted
      refine ⟨toUInt8 (variant_type_index .PaletteBlock) ::
          z.framed e.zstdCompressor (PaletteBlock.content (e.palette.difference newPalette)),
        [.PaletteBlock], hw, by simp, @Tagged.single .PaletteBlock _ (z.framed_chunk _ _), ?_, ?_,
        hsame, hfr, ?_, ?_, ?_, hS⟩
      · intro k hk
        simp only [List.mem_singleton] at hk
        exact Or.inl hk
      · apply hI
        simp only [Palette.size, hcol, Palette.maxColorCount] at hgt hl ⊢
        omega
      · intro c hc
        rw [hcol, hm c, Palette.difference_colors hinv.sorted hs]
        by_cases hcc : c ∈ e.palette.colors
        · exact Or.inr hcc
        · exact Or.inl (List.mem_filter.2 ⟨hc, by simpa using hcc⟩)
      · simp only [List.length_cons]; omega
      · intro hb
        have := hB hb
        simp only [List.length_cons]
        omega
  · rw [if_neg hnew] at h
    simp only [pure, Except.pure] at h
    cases h
    refine ⟨[], [], by simp, by simp, Tagged.nil, by simp, hinv, Encoder.SameConfig.refl e,
      rfl, ?_, by simpa using hw0, by simp, ?_⟩
    · intro c hc
      have h0 : (e.palette.difference newPalette).colors = [] := by
        have : (e.palette.difference newPalette).size = 0 := by omega
        exact List.length_eq_zero.1 this
      rw [Palette.difference_colors hinv.sorted hs, List.filter_eq_nil_iff] at h0
      have := h0 c hc
      simpa using this
    · intro _ _ d hsync hd
      exact ⟨d, DecodesTo.decodes_refl z d, hsync, hd, rfl⟩


theorem PaletteBlock.palette_write_ok {z : Zstd} (hb : z.Bounded) (e : Encoder) (w : BufferWriter)
    (palette : Palette) (hbuf : PaletteBlock.maxSize ≤ e.internalBufferSize)
    (hpos : palette.size ≠ 0) (hsize : palette.size ≤ Palette.maxColorCount)
    (hcap : w.offset + (1 + (4 + z.compressBound PaletteBlock.maxSize)) ≤ w.size) :
    ∃ r, writeBlock .PaletteBlock w (fun w => PaletteBlock.encode z e w palette) = .ok r := by
  have hclen : (PaletteBlock.content palette).length ≤ PaletteBlock.maxSize := by
    rw [PaletteBlock.content_length]
    simp only [PaletteBlock.maxSize, Palette.maxColorCount] at hsize ⊢
    omega
  have hchunk : (z.compress e.zstdCompressor (PaletteBlock.content palette)).length ≤
      z.compressBound PaletteBlock.maxSize :=
    Nat.le_trans (hb.1 _ _) (hb.2 _ _ hclen)
  rw [writeBlock_ok _ _ _ (by omega)]
  exact ⟨_, PaletteBlock.palette_encode_ok z e _ palette hpos hsize hbuf (by
    simp only [BufferWriter.offset, List.length_append, List.length_singleton] at hcap ⊢
    omega)⟩

theorem Encoder.updatePalette_ok {z : Zstd} (hb : z.Bounded) (e : Encoder) (w : BufferWriter)
    (newPalette : Palette) (hinv : e.Inv) (hsize : newPalette.size ≤ Palette.maxColorCount)
    (hcap : w.offset + (2 + (4 + z.compressBound PaletteBlock.maxSize)) ≤ w.size) :
    ∃ r, e.updatePalette z w newPalette = .ok r := by
  have hbuf : PaletteBlock.maxSize ≤ e.internalBufferSize := by
    rw [hinv.buffer]; exact (safeInternal_ge _).1
  unfold Encoder.updatePalette
  simp only []
  by_cases hnew : (e.palette.difference newPalette).size > 0
  · rw [if_pos hnew]
    obtain ⟨b, hbits⟩ := Palette.bits_ok hsize
    have hle := Palette.difference_size_le e.palette newPalette
    simp only [hbits, bind, Except.bind]
    by_cases hgt : e.palette.size + (e.palette.difference newPalette).size > 1 <<< b
    · rw [if_pos hgt]
      by_cases hz0 : e.palette.size ≠ 0
      · rw [if_pos hz0, writeBlock_ok _ _ _ (by omega)]
        simp only [PaletteResetBlock.encode, pure, Except.pure]
        exact PaletteBlock.palette_write_ok hb _ _ newPalette hbuf (by omega) hsize (by
          simp only [BufferWriter.offset, List.length_append, List.length_singleton] at hcap ⊢
          omega)
      · rw [if_neg hz0]
        simp only [pure, Except.pure]
        exact PaletteBlock.palette_write_ok hb _ _ newPalette hbuf (by omega) hsize (by omega)
    · rw [if_neg hgt]
      exact PaletteBlock.palette_write_ok hb _ _ _ hbuf (by omega) (Nat.le_trans hle hsize) (by omega)
  · rw [if_neg hnew]
    exact ⟨_, rfl⟩

/-! ### The bitmap blocks -/

theorem Encoder.compressBuffer_total {z : Zstd} (hb : z.Bounded) (e : Encoder) (w : BufferWriter)
    (input : List Byte) {n : Nat} (hn : input.length ≤ n)
    (hcap : w.offset + (4 + z.compressBound n) ≤ w.size) :
    ∃ r, e.compressBuffer z w input = .ok r := by
  refine ⟨_, Encoder.compressBuffer_framed_ok z e w input ?_⟩
  have h2 : (if input = [] then [] else z.compress e.zstdCompressor input).length ≤
      z.compressBound n := by
    by_cases h : input = []
    · simp [h]
    · rw [if_neg h]
      exact Nat.le_trans (hb.1 _ input) (hb.2 _ _ hn)
  omega

/-- One block whose payload goes through the compressor, on the encoder side:
what is written and how large it is. -/
theorem Encoder.compressBuffer_step {z : Zstd} {e e' : Encoder} {w w' : BufferWriter}
    {input : List Byte} (hinv : e.Inv) (h : e.compressBuffer z w input = .ok (e', w')) :
    w' = ⟨w.written ++ z.framed e.zstdCompressor input, w.size⟩ ∧
    w.offset + (z.framed e.zstdCompressor input).length ≤ w.size ∧
    e' = { e with zstdCompressor := Zstd.fed e.zstdCompressor input } ∧
    e'.Inv ∧
    (z.Bounded → ∀ n, input.length ≤ n →
      (z.framed e.zstdCompressor input).length ≤ 4 + z.compressBound n) := by
  obtain ⟨hcap, he, hw⟩ := Encoder.compressBuffer_framed_inv h
  have hfl := z.framed_length_le e.zstdCompressor input
  subst he hw
  exact ⟨rfl, by omega, rfl,
    ⟨hinv.frame, hinv.previous, hinv.buffer, hinv.sorted, hinv.size, hinv.colorMap,
      Zstd.fed_nonempty input hinv.session⟩,
    fun hb n hn => Zstd.framed_bounded hb _ _ hn⟩


theorem Encoder.compressBuffer_chunk {z : Zstd} {e e' : Encoder} {w w' : BufferWriter}
    {input : List Byte} (h : e.compressBuffer z w input = .ok (e', w')) :
    (if input = [] then [] else z.compress e.zstdCompressor input).length < w.size := by
  obtain ⟨hcap, -, -⟩ := Encoder.compressBuffer_framed_inv h
  omega

theorem Palette.get_indexByte_of_colors {p q : Palette} {c : Color} (hcol : p.colors = q.colors)
    (hc : c ∈ q.colors) (hsize : q.size ≤ 256) : p.get (q.indexByte c).val = c := by
  have hlt := List.indexOf_lt_length.2 hc
  have hlt' : List.indexOf c q.colors < p.colors.length := by rw [hcol]; exact hlt
  rw [Palette.indexByte_val hc hsize, Palette.get, List.getD_eq_getElem?_getD,
    List.getElem?_append_left hlt', List.getElem?_eq_getElem hlt']
  simp only [hcol, List.getElem_indexOf hlt]
  rfl

theorem Encoder.Inv.copyFrameBitmap {e : Encoder} (h : e.Inv) {bitmap : List Color}
    (hlen : bitmap.length = e.bitmapInfo.pixelCount) :
    (e.copyFrameBitmap bitmap).Inv ∧ (e.copyFrameBitmap bitmap).frameBitmap = bitmap := by
  have htake : bitmap.take (e.bitmapInfo.width * e.bitmapInfo.height) = bitmap :=
    List.take_of_length_le (by rw [hlen]; exact Nat.le_refl _)
  refine ⟨⟨?_, h.previous, h.buffer, h.sorted, h.size, h.colorMap, h.session⟩, htake⟩
  show (bitmap.take _).length = _
  rw [htake, hlen]
  rfl

theorem SolidColorBitmapBlock.solidColor_step {z : Zstd} {e e' : Encoder} {w w' : BufferWriter}
    {bitmap : List Color} {c : Color} (hinv : e.Inv)
    (hlen : bitmap.length = e.bitmapInfo.pixelCount) (hall : ∀ x ∈ bitmap, x = c)
    (h : writeBlock .SolidColorBitmapBlock w
      (fun w => SolidColorBitmapBlock.encode e w c) = .ok (e', w')) :
    BitmapStep z e w bitmap e' w'
      (toUInt8 (variant_type_index .SolidColorBitmapBlock) :: [c.r, c.g, c.b])
      [.SolidColorBitmapBlock] := by
  obtain ⟨hcap1, h1⟩ := writeBlock_inv h
  have hrep : ∀ n, n = e.bitmapInfo.pixelCount → List.replicate n c = bitmap := by
    intro n hn
    symm
    exact List.eq_replicate_iff.2 ⟨by rw [hlen, hn], hall⟩
  by_cases hcap : (⟨w.written ++ [toUInt8 (variant_type_index .SolidColorBitmapBlock)],
      w.size⟩ : BufferWriter).offset + 3 ≤ w.size
  · simp only [SolidColorBitmapBlock.encode, writeColor_ok _ c hcap, bind, Except.bind, pure,
      Except.pure] at h1
    cases h1
    refine ⟨by simp, ?_, ?_, ⟨rfl, rfl, rfl, rfl, rfl⟩, hrep _ hinv.frame, ?_⟩
    · simp only [BufferWriter.offset, List.length_append, List.length_singleton,
        List.length_cons, List.length_nil] at hcap ⊢
      omega
    · refine ⟨?_, hinv.previous, hinv.buffer, hinv.sorted, hinv.size, hinv.colorMap,
        hinv.session⟩
      show (List.replicate e.frameBitmap.length c).length = _
      rw [List.length_replicate, hinv.frame]
    · intro _ _ d hsync hd
      exact ⟨_, SolidColorBitmapBlock.solidColor_decodesTo z d c,
        ⟨hsync.palette, hsync.session, hsync.previous⟩,
        ⟨by show (List.replicate d.frameBitmap.length c).length = _
            rw [List.length_replicate, hd.frame], hd.buffer⟩,
        rfl, hrep _ hd.frame⟩
  · obtain ⟨err, herr⟩ := writeColor_error _ c hcap
    simp only [SolidColorBitmapBlock.encode, herr, bind, Except.bind] at h1
    cases h1

theorem RawBitmapBlock.raw_step {z : Zstd} {e e' : Encoder} {w w' : BufferWriter}
    {bitmap : List Color} (hinv : e.Inv) (hlen : bitmap.length = e.bitmapInfo.pixelCount)
    (h : writeBlock .RawBitmapBlock w
      (RawBitmapBlock.encode z (e.copyFrameBitmap bitmap)) = .ok (e', w')) :
    BitmapStep z e w bitmap e' w'
      (toUInt8 (variant_type_index .RawBitmapBlock) ::
        z.framed e.zstdCompressor (colorsToBytes bitmap))
      [.RawBitmapBlock] := by
  obtain ⟨hcap1, h1⟩ := writeBlock_inv h
  obtain ⟨hinv2, hfr⟩ := hinv.copyFrameBitmap hlen
  unfold RawBitmapBlock.encode at h1
  rw [hfr] at h1
  obtain ⟨hw, hcap, he, hinv', _⟩ := Encoder.compressBuffer_step hinv2 h1
  subst hw
  refine ⟨by simp [Encoder.copyFrameBitmap], ?_, hinv', ?_, ?_, ?_⟩
  · simp only [BufferWriter.offset, List.length_append, List.length_singleton,
      List.length_cons, Encoder.copyFrameBitmap] at hcap ⊢
    omega
  · subst he; exact ⟨rfl, rfl, rfl, rfl, rfl⟩
  · subst he; exact hfr
  · intro hz hfit d hsync hd
    have hchunk : (if colorsToBytes bitmap = [] then []
        else z.compress e.zstdCompressor (colorsToBytes bitmap)).length < 2 ^ 32 := by
      have hck := Encoder.compressBuffer_chunk h1
      exact Nat.lt_trans hck hfit
    refine ⟨_, RawBitmapBlock.raw_decodesTo hz d e.zstdCompressor hinv.session hsync.session
      bitmap hchunk (by rw [hlen, hd.frame]), ?_, ⟨by show bitmap.length = _; exact hlen, hd.buffer⟩,
      rfl, rfl⟩
    subst he
    exact ⟨hsync.palette, rfl, hsync.previous⟩


theorem IndexedBitmapBlock.indexed_step {z : Zstd} {e e' : Encoder} {w w' : BufferWriter}
    (hinv : e.Inv) (hframe : ∀ c ∈ e.frameBitmap, c ∈ e.palette.colors)
    (hb : e.frameBitmap = [] ∨ 2 ≤ e.palette.size)
    (h : writeBlock .IndexedBitmapBlock w (IndexedBitmapBlock.encode z e) = .ok (e', w')) :
    ∃ b, e.palette.bits = .ok b ∧
      BitmapStep z e w e.frameBitmap e' w'
        (toUInt8 (variant_type_index .IndexedBitmapBlock) ::
          z.framed e.zstdCompressor (IndexedBitmapBlock.content e b))
        [.IndexedBitmapBlock] := by
  obtain ⟨hcap1, h1⟩ := writeBlock_inv h
  obtain ⟨b, hbits⟩ := Palette.bits_ok hinv.size
  obtain ⟨hb1, hb2, hb3, hb4⟩ := Palette.bits_inv hbits
  have hb' : e.frameBitmap = [] ∨ (b = 1 ∨ b = 2 ∨ b = 4 ∨ b = 8) := by
    rcases hb with h0 | h2
    · exact Or.inl h0
    · right
      rcases hb3 with h | h
      · have := hb4.1 h; omega
      · exact h
  have hbuf := (safeInternal_ge e.bitmapInfo).2
  have hpay := IndexedBitmapBlock.indexed_payload_eq e b hbits hb' hinv.colorMap hframe
    (by rw [hinv.buffer, hinv.frame]; exact hbuf)
  unfold IndexedBitmapBlock.encode at h1
  simp only [hpay, bind, Except.bind] at h1
  obtain ⟨hw, hcap, he, hinv', _⟩ := Encoder.compressBuffer_step hinv h1
  have hne : (toUInt8 b :: packedBytes b (e.frameBitmap.map e.palette.indexByte) 0 0) ≠ [] :=
    List.cons_ne_nil _ _
  subst hw he
  refine ⟨b, hbits, by simp [IndexedBitmapBlock.content], ?_, hinv', ⟨rfl, rfl, rfl, rfl, rfl⟩,
    rfl, ?_⟩
  · simp only [BufferWriter.offset, List.length_append, List.length_singleton,
      List.length_cons, IndexedBitmapBlock.content] at hcap ⊢
    omega
  · intro hz hfit d hsync hd
    have hple := @packedBytes_length_le b
      (e.frameBitmap.map e.palette.indexByte) (by
        rcases hb' with h0 | h0
        · left; rw [h0]; rfl
        · right; exact h0)
    rw [List.length_map] at hple
    have hidx : e.frameBitmap.map e.palette.indexByte = [] ∨
        ((b = 1 ∨ b = 2 ∨ b = 4 ∨ b = 8) ∧
          ∀ i ∈ e.frameBitmap.map e.palette.indexByte, i.val < 2 ^ b) := by
      rcases hb' with h0 | h0
      · left; rw [h0]; rfl
      · right
        refine ⟨h0, ?_⟩
        intro i hi
        obtain ⟨c, hc, rfl⟩ := List.mem_map.1 hi
        rw [Palette.indexByte_val (hframe c hc) hb2]
        exact Nat.lt_of_lt_of_le (List.indexOf_lt_length.2 (hframe c hc)) hb1
    have hchunk : (z.compress e.zstdCompressor
        (toUInt8 b :: packedBytes b (e.frameBitmap.map e.palette.indexByte) 0 0)).length
          < 2 ^ 32 := by
      have hck := Encoder.compressBuffer_chunk h1
      rw [if_neg hne] at hck
      exact Nat.lt_trans hck hfit
    have hdec := IndexedBitmapBlock.indexed_decodesTo hz d e.zstdCompressor hinv.session
      hsync.session b (e.frameBitmap.map e.palette.indexByte) hchunk hidx
      (by rcases hb3 with rfl | rfl | rfl | rfl | rfl <;> decide)
      (by rw [List.length_map, hinv.frame, hd.frame])
      (by rw [List.length_map, hinv.frame, hd.buffer]; exact hbuf)
    have hmap : (e.frameBitmap.map e.palette.indexByte).map (fun i => d.palette.get i.val) =
        e.frameBitmap := by
      rw [List.map_map]
      conv => rhs; rw [← List.map_id e.frameBitmap]
      apply List.map_congr_left
      intro c hc
      exact Palette.get_indexByte_of_colors hsync.palette (hframe c hc) hb2
    refine ⟨_, hdec, ⟨hsync.palette, ?_, hsync.previous⟩, ⟨?_, ?_⟩, rfl, hmap⟩
    · simp only [IndexedBitmapBlock.content, Zstd.fed, if_neg hne]
    · show ((e.frameBitmap.map e.palette.indexByte).map (fun i => d.palette.get i.val)).length = _
      rw [hmap, hinv.frame]
    · show ((toUInt8 b :: packedBytes b (e.frameBitmap.map e.palette.indexByte) 0 0) ++
        d.internalBuffer.drop
          (1 + (packedBytes b (e.frameBitmap.map e.palette.indexByte) 0 0).length)).length = _
      have hdb := hd.buffer
      rw [hinv.frame] at hple
      rw [List.length_append, List.length_cons, List.length_drop]
      omega


/-- The branch of `encode` that sends a bitmap block, as the encoder writes
it and as the decoder reads it. -/
theorem Encoder.encodeBitmap_inv {z : Zstd} {e e' : Encoder} {w w' : BufferWriter}
    {bitmap : List Color} (hinv : e.Inv) (hlen : bitmap.length = e.bitmapInfo.pixelCount)
    (hw0 : w.offset ≤ w.size) (h : e.encodeBitmap z w bitmap = .ok (e', w')) :
    ∃ bytes blocks, BitmapStep z e w bitmap e' w' bytes blocks ∧ Tagged bytes blocks ∧
      blocks ≠ [] ∧ blocks.length ≤ bytes.length ∧
      (∀ k ∈ blocks, k ≠ .KeyFrameBlock ∧ k ≠ .NullBitmapBlock) := by
  have hraw : ∀ {e' w'}, writeBlock .RawBitmapBlock w
      (RawBitmapBlock.encode z (e.copyFrameBitmap bitmap)) = .ok (e', w') →
      ∃ bytes blocks, BitmapStep z e w bitmap e' w' bytes blocks ∧ Tagged bytes blocks ∧
        blocks ≠ [] ∧ blocks.length ≤ bytes.length ∧
        (∀ k ∈ blocks, k ≠ .KeyFrameBlock ∧ k ≠ .NullBitmapBlock) := by
    intro e' w' h
    refine ⟨_, _, RawBitmapBlock.raw_step hinv hlen h,
      @Tagged.single .RawBitmapBlock _ (z.framed_chunk _ _), by simp, by simp, ?_⟩
    intro k hk
    simp only [List.mem_singleton] at hk
    subst hk
    exact ⟨by decide, by decide⟩
  unfold Encoder.encodeBitmap at h
  by_cases hpal : e.settings.usePalette = true
  · rw [if_pos hpal] at h
    have htake : bitmap.take (e.bitmapInfo.width * e.bitmapInfo.height) = bitmap :=
      List.take_of_length_le (by rw [hlen]; exact Nat.le_refl _)
    rcases e.makePalette_spec bitmap with hnone | ⟨p, hsome, hps, hpsize, hpmem⟩
    · simp only [hnone, bind, Except.bind] at h
      exact hraw h
    · rw [htake] at hpmem
      simp only [hsome, bind, Except.bind] at h
      by_cases h1 : p.size = 1
      · rw [if_pos h1] at h
        obtain ⟨c, hc⟩ : ∃ c, p.colors = [c] := List.length_eq_one.1 h1
        have hget : p.get 0 = c := by simp [Palette.get, hc]
        rw [hget] at h
        have hall : ∀ x ∈ bitmap, x = c := by
          intro x hx
          have := (hpmem x).2 hx
          rw [hc] at this
          simpa using this
        refine ⟨_, _, SolidColorBitmapBlock.solidColor_step hinv hlen hall h,
          @Tagged.single .SolidColorBitmapBlock _ ⟨c, rfl⟩, by simp,
          by simp, ?_⟩
        intro k hk
        simp only [List.mem_singleton] at hk
        subst hk
        exact ⟨by decide, by decide⟩
      · rw [if_neg h1] at h
        cases hu : e.updatePalette z w p with
        | error err => rw [hu] at h; cases h
        | ok r =>
          obtain ⟨e1, w1⟩ := r
          rw [hu] at h
          simp only at h
          obtain ⟨bytes1, blocks1, hw1, hlen1, htag1, hk1, hinv1, hsame1, hfr1, hmem1, hfit1, -,
            hsim1⟩ := Encoder.updatePalette_inv hinv hps hpsize hw0 hu
          have hlen2 : bitmap.length = e1.bitmapInfo.pixelCount := by
            rw [hsame1.bitmapInfo]; exact hlen
          obtain ⟨hinv2, hfr2⟩ := hinv1.copyFrameBitmap hlen2
          have hframe : ∀ c ∈ (e1.copyFrameBitmap bitmap).frameBitmap,
              c ∈ (e1.copyFrameBitmap bitmap).palette.colors := by
            intro c hc
            rw [hfr2] at hc
            exact hmem1 c ((hpmem c).2 hc)
          have hb : (e1.copyFrameBitmap bitmap).frameBitmap = [] ∨
              2 ≤ (e1.copyFrameBitmap bitmap).palette.size := by
            rw [hfr2]
            by_cases hnil : bitmap = []
            · exact Or.inl hnil
            · right
              obtain ⟨x, hx⟩ := List.exists_mem_of_ne_nil _ hnil
              have hpne : p.colors ≠ [] := List.ne_nil_of_mem ((hpmem x).2 hx)
              have hp2 : 2 ≤ p.colors.length := by
                have h0 : p.colors.length ≠ 0 := fun h => hpne (List.length_eq_zero.1 h)
                simp only [Palette.size] at h1
                omega
              have hsub : p.colors ⊆ e1.palette.colors := fun c hc => hmem1 c hc
              have := (List.subperm_of_subset (Increasing.nodup hps) hsub).length_le
              show 2 ≤ e1.palette.colors.length
              omega
          obtain ⟨b, -, hstep⟩ := IndexedBitmapBlock.indexed_step hinv2 hframe hb h
          rw [hfr2] at hstep
          refine ⟨bytes1 ++ (toUInt8 (variant_type_index .IndexedBitmapBlock) ::
              z.framed e1.zstdCompressor (IndexedBitmapBlock.content (e1.copyFrameBitmap bitmap) b)),
            blocks1 ++ [.IndexedBitmapBlock], ?_, Tagged.append htag1
              (@Tagged.single .IndexedBitmapBlock _ (z.framed_chunk _ _)), by simp,
            ?_, ?_⟩
          · refine ⟨?_, ?_, hstep.inv, ?_, hstep.frame, ?_⟩
            · rw [hstep.writer, hw1]; simp [Encoder.copyFrameBitmap]
            · have := hstep.fits
              rw [hw1] at this
              simp only [BufferWriter.offset, List.length_append, List.length_cons,
                Encoder.copyFrameBitmap] at this ⊢
              omega
            · exact hsame1.trans ⟨hstep.config.bitmapInfo, hstep.config.settings,
                hstep.config.buffer, hstep.config.firstFrame, hstep.config.previous⟩
            · intro hz hfit d hsync hd
              obtain ⟨d1, hdec1, hsync1, hd1, hres1⟩ := hsim1 hz hfit d hsync hd
              have hsync2 : Sync z (e1.copyFrameBitmap bitmap) d1 :=
                ⟨hsync1.palette, hsync1.session, hsync1.previous⟩
              have hd2 : d1.Inv (e1.copyFrameBitmap bitmap).bitmapInfo := by
                show d1.Inv e1.bitmapInfo
                rw [hsame1.bitmapInfo]; exact hd1
              obtain ⟨d2, hdec2, hsync', hd', hres2, hfr'⟩ := hstep.decoder hz
                (by rw [hw1]; exact hfit) d1 hsync2 hd2
              refine ⟨d2, DecodesTo.decodes_trans hdec1 hdec2, hsync', ?_, hres2.trans hres1, hfr'⟩
              have : (e1.copyFrameBitmap bitmap).bitmapInfo = e.bitmapInfo := hsame1.bitmapInfo
              rw [this] at hd'
              exact hd'
          · simp only [List.length_append, List.length_singleton, List.length_cons,
              List.length_nil]
            omega
          · intro k hk
            rcases List.mem_append.1 hk with hk | hk
            · rcases hk1 k hk with rfl | rfl <;> exact ⟨by decide, by decide⟩
            · simp only [List.mem_singleton] at hk
              subst hk
              exact ⟨by decide, by decide⟩
  · rw [if_neg hpal] at h
    exact hraw h


/-! ### One frame -/

theorem variant_type_index_eq_zero (k : FrameBlock) :
    toUInt8 (variant_type_index k) = 0 ↔ k = .KeyFrameBlock := by
  cases k <;> decide

/-- The part of `encode` behind the optional KeyFrame block. -/
theorem Encoder.encode_tail {z : Zstd} {e e' : Encoder} {w w' : BufferWriter}
    {bitmap : List Color} (hinv : e.Inv) (hlen : bitmap.length = e.bitmapInfo.pixelCount)
    (hw0 : w.offset ≤ w.size)
    (h : ((e.previousFrameBitmap ≠ [] ∧
          e.previousFrameBitmap = bitmap.take e.previousFrameBitmap.length) ∧
        writeBlock .NullBitmapBlock w (NullBitmapBlock.encode e) = .ok (e', w')) ∨
      (¬ (e.previousFrameBitmap ≠ [] ∧
          e.previousFrameBitmap = bitmap.take e.previousFrameBitmap.length) ∧
        ∃ e1, e.encodeBitmap z w bitmap = .ok (e1, w') ∧
          e' = { e1 with previousFrameBitmap := e1.frameBitmap })) :
    ∃ bytes blocks, w' = ⟨w.written ++ bytes, w.size⟩ ∧ w.offset + bytes.length ≤ w.size ∧
      Tagged bytes blocks ∧ blocks ≠ [] ∧ blocks.length ≤ bytes.length ∧
      (∀ k ∈ blocks, k ≠ .KeyFrameBlock) ∧
      e'.Inv ∧ e'.bitmapInfo = e.bitmapInfo ∧ e'.settings = e.settings ∧
      e'.firstFrame = e.firstFrame ∧ e'.previousFrameBitmap = bitmap ∧
      (z.Lossless → w.size < 2 ^ 32 → ∀ d, Sync z e d → d.Inv e.bitmapInfo →
        ∃ d', DecodesTo z d bytes blocks d' ∧ d'.Inv e.bitmapInfo ∧ d'.result = d.result ∧
          d'.frameBitmap = bitmap ∧
          Sync z e' { d' with previousFrameBitmap := d'.frameBitmap }) := by
  rcases h with ⟨hnull, h⟩ | ⟨hnull, e1, hb, he⟩
  · obtain ⟨hcap, h1⟩ := writeBlock_inv h
    simp only [NullBitmapBlock.encode, pure, Except.pure] at h1
    cases h1
    have hprev : e.previousFrameBitmap = bitmap := by
      rcases hinv.previous with h0 | h0
      · exact absurd h0 hnull.1
      · rw [hnull.2, h0, ← hlen, List.take_length]
    refine ⟨[toUInt8 (variant_type_index .NullBitmapBlock)], [.NullBitmapBlock], rfl,
      by simpa using hcap, @Tagged.single .NullBitmapBlock _ rfl, by simp, by simp, ?_,
      hinv, rfl, rfl, rfl, hprev, ?_⟩
    · intro k hk
      simp only [List.mem_singleton] at hk
      subst hk
      decide
    · intro _ _ d hsync hd
      have hdprev : d.previousFrameBitmap = bitmap := by
        rw [hsync.previous hnull.1]; exact hprev
      refine ⟨_, NullBitmapBlock.null_decodesTo z d, ⟨?_, hd.buffer⟩, rfl, hdprev,
        ⟨hsync.palette, hsync.session, fun _ => ?_⟩⟩
      · show d.previousFrameBitmap.length = _
        rw [hdprev, hlen]
      · show d.previousFrameBitmap = e.previousFrameBitmap
        rw [hdprev, hprev]
  · subst he
    obtain ⟨bytes, blocks, hstep, htag, hne, hle, hk⟩ :=
      Encoder.encodeBitmap_inv hinv hlen hw0 hb
    have hi := hstep.inv
    refine ⟨bytes, blocks, hstep.writer, hstep.fits, htag, hne, hle, fun k hk' => (hk k hk').1,
      ⟨hi.frame, Or.inr ?_, hi.buffer, hi.sorted, hi.size, hi.colorMap, hi.session⟩,
      hstep.config.bitmapInfo, hstep.config.settings, hstep.config.firstFrame, hstep.frame, ?_⟩
    · show e1.frameBitmap.length = e1.bitmapInfo.pixelCount
      exact hi.frame
    · intro hz hfit d hsync hd
      obtain ⟨d', hdec, hsync', hd', hres, hfr⟩ := hstep.decoder hz hfit d hsync hd
      refine ⟨d', hdec, hd', hres, hfr, ⟨hsync'.palette, hsync'.session, fun _ => ?_⟩⟩
      show d'.frameBitmap = e1.frameBitmap
      rw [hfr, hstep.frame]


theorem Except.bind_eq_ok {ε α β : Type} {x : Except ε α} {f : α → Except ε β} {b : β}
    (h : x >>= f = .ok b) : ∃ a, x = .ok a ∧ f a = .ok b := by
  cases x with
  | error err => cases h
  | ok a => exact ⟨a, rfl, h⟩

theorem Encoder.encode_core {z : Zstd} {e : Encoder} {kf : Bool} {safe : Nat}
    {bitmap : List Color} {enc : Encoded} (hinv : e.Inv)
    (hlen : bitmap.length = e.bitmapInfo.pixelCount)
    (h : (do
      let (e, bufferWriter) ←
        if kf = true then writeBlock .KeyFrameBlock ⟨[], safe⟩ (KeyFrameBlock.encode e)
        else pure (e, (⟨[], safe⟩ : BufferWriter))
      let (e, bufferWriter) ←
        if e.previousFrameBitmap ≠ [] ∧
            e.previousFrameBitmap = bitmap.take e.previousFrameBitmap.length then
          writeBlock .NullBitmapBlock bufferWriter (NullBitmapBlock.encode e)
        else do
          let (e, bufferWriter) ← e.encodeBitmap z bufferWriter bitmap
          pure ({ e with previousFrameBitmap := e.frameBitmap }, bufferWriter)
      pure (⟨⟨bufferWriter.offset, kf⟩, bufferWriter.written, e⟩ : Encoded)) = .ok enc) :
    ∃ blocks, enc.encoder.Inv ∧ enc.encoder.bitmapInfo = e.bitmapInfo ∧
      enc.encoder.settings = e.settings ∧ enc.encoder.firstFrame = e.firstFrame ∧
      enc.encoder.previousFrameBitmap = bitmap ∧ enc.result.keyFrame = kf ∧
      enc.result.bytesWritten = enc.output.length ∧ enc.output.length ≤ safe ∧
      Tagged enc.output blocks ∧ blocks ≠ [] ∧ blocks.length ≤ enc.output.length ∧
      (kf = true ↔ blocks.head? = some .KeyFrameBlock) ∧
      (∀ k ∈ blocks.tail, k ≠ .KeyFrameBlock) ∧
      (z.Lossless → safe < 2 ^ 32 → ∀ d, d.Inv e.bitmapInfo → (kf = true ∨ Sync z e d) →
        ∃ dec, d.decode z enc.output = .ok dec ∧ dec.bitmap = bitmap ∧
          dec.result.keyFrame = kf ∧ dec.blocks = blocks ∧
          Sync z enc.encoder dec.decoder ∧ dec.decoder.Inv e.bitmapInfo) := by
  by_cases hkf : kf = true
  · simp only [if_pos hkf] at h
    obtain ⟨⟨e1, w1⟩, hA, h⟩ := Except.bind_eq_ok h
    obtain ⟨hcap, hk1⟩ := writeBlock_inv hA
    simp only [KeyFrameBlock.encode, pure, Except.pure] at hk1
    cases hk1
    dsimp only at h
    obtain ⟨⟨e2, w2⟩, ht, h⟩ : ∃ r : Encoder × BufferWriter,
        (((e.reset.previousFrameBitmap ≠ [] ∧
              e.reset.previousFrameBitmap = bitmap.take e.reset.previousFrameBitmap.length) ∧
            writeBlock .NullBitmapBlock (⟨[] ++ [toUInt8 (variant_type_index .KeyFrameBlock)], safe⟩ : BufferWriter) (NullBitmapBlock.encode e.reset) = .ok r) ∨
          (¬ (e.reset.previousFrameBitmap ≠ [] ∧
              e.reset.previousFrameBitmap = bitmap.take e.reset.previousFrameBitmap.length) ∧
            ∃ e1, e.reset.encodeBitmap z (⟨[] ++ [toUInt8 (variant_type_index .KeyFrameBlock)], safe⟩ : BufferWriter) bitmap = .ok (e1, r.2) ∧
              r.1 = { e1 with previousFrameBitmap := e1.frameBitmap })) ∧
        enc = ⟨⟨r.2.offset, kf⟩, r.2.written, r.1⟩ := by
      by_cases hnull : e.reset.previousFrameBitmap ≠ [] ∧
          e.reset.previousFrameBitmap = bitmap.take e.reset.previousFrameBitmap.length
      · simp only [if_pos hnull] at h
        obtain ⟨r, hB, h⟩ := Except.bind_eq_ok h
        simp only [pure, Except.pure] at h
        cases h
        exact ⟨r, Or.inl ⟨hnull, hB⟩, rfl⟩
      · simp only [if_neg hnull] at h
        obtain ⟨r, hB, h⟩ := Except.bind_eq_ok h
        simp only [pure, Except.pure, bind, Except.bind] at h
        cases h
        exact ⟨({ r.1 with previousFrameBitmap := r.1.frameBitmap }, r.2),
          Or.inr ⟨hnull, r.1, hB, rfl⟩, rfl⟩
    subst h
    obtain ⟨bytes, blocks, hw, hfit, htag, hne, hle, hnk, hi, hbi, hset, hff, hprev, hsim⟩ :=
      Encoder.encode_tail (e := e.reset) hinv.reset hlen (by simpa using hcap) ht
    dsimp only at hw
    subst hw
    simp only [BufferWriter.offset, List.length_append, List.length_cons, List.length_nil,
      List.nil_append] at hcap hfit
    refine ⟨.KeyFrameBlock :: blocks, hi, hbi, hset, hff, hprev, rfl, rfl, ?_, ?_, by simp, ?_,
      ?_, hnk, ?_⟩
    · show ([] ++ [toUInt8 (variant_type_index .KeyFrameBlock)] ++ bytes).length ≤ safe
      simp only [List.length_append, List.length_cons, List.length_nil]
      omega
    · exact Tagged.cons .KeyFrameBlock [] bytes blocks rfl htag
    · show (FrameBlock.KeyFrameBlock :: blocks).length ≤
        ([] ++ [toUInt8 (variant_type_index .KeyFrameBlock)] ++ bytes).length
      simp only [List.length_append, List.length_cons, List.length_nil]
      omega
    · simp [hkf]
    · intro hz hfit' d hd _
      obtain ⟨d', hdec, hd', hres, hfr, hsync'⟩ := hsim hz hfit'
        { ({ d with result := {} } : Decoder).reset with
          result := { ({ d with result := {} } : Decoder).reset.result with keyFrame := true } }
        (Sync.sync_reset z e _) ⟨hd.frame, hd.buffer⟩
      have hall := DecodesTo.decodes_trans (KeyFrameBlock.keyFrame_decodesTo z { d with result := {} }) hdec
      refine ⟨_, Decoder.decode_of_decodesTo hall (by
        simp only [List.length_append, List.length_cons, List.length_nil]
        omega), hfr, ?_, rfl, hsync', ?_⟩
      · show d'.result.keyFrame = kf
        rw [hres, hkf]
      · exact ⟨by show d'.frameBitmap.length = _; exact hd'.frame, hd'.buffer⟩
  · simp only [if_neg hkf] at h
    obtain ⟨⟨e1, w1⟩, hA, h⟩ := Except.bind_eq_ok h
    simp only [pure, Except.pure] at hA
    cases hA
    dsimp only at h
    obtain ⟨⟨e2, w2⟩, ht, h⟩ : ∃ r : Encoder × BufferWriter,
        (((e.previousFrameBitmap ≠ [] ∧
              e.previousFrameBitmap = bitmap.take e.previousFrameBitmap.length) ∧
            writeBlock .NullBitmapBlock (⟨[], safe⟩ : BufferWriter) (NullBitmapBlock.encode e) = .ok r) ∨
          (¬ (e.previousFrameBitmap ≠ [] ∧
              e.previousFrameBitmap = bitmap.take e.previousFrameBitmap.length) ∧
            ∃ e1, e.encodeBitmap z (⟨[], safe⟩ : BufferWriter) bitmap = .ok (e1, r.2) ∧
              r.1 = { e1 with previousFrameBitmap := e1.frameBitmap })) ∧
        enc = ⟨⟨r.2.offset, kf⟩, r.2.written, r.1⟩ := by
      by_cases hnull : e.previousFrameBitmap ≠ [] ∧
          e.previousFrameBitmap = bitmap.take e.previousFrameBitmap.length
      · simp only [if_pos hnull] at h
        obtain ⟨r, hB, h⟩ := Except.bind_eq_ok h
        simp only [pure, Except.pure] at h
        cases h
        exact ⟨r, Or.inl ⟨hnull, hB⟩, rfl⟩
      · simp only [if_neg hnull] at h
        obtain ⟨r, hB, h⟩ := Except.bind_eq_ok h
        simp only [pure, Except.pure, bind, Except.bind] at h
        cases h
        exact ⟨({ r.1 with previousFrameBitmap := r.1.frameBitmap }, r.2),
          Or.inr ⟨hnull, r.1, hB, rfl⟩, rfl⟩
    subst h
    obtain ⟨bytes, blocks, hw, hfit, htag, hne, hle, hnk, hi, hbi, hset, hff, hprev, hsim⟩ :=
      Encoder.encode_tail (e := e) hinv hlen (Nat.zero_le _) ht
    dsimp only at hw
    subst hw
    simp only [BufferWriter.offset, List.length_nil, Nat.zero_add] at hfit
    have hhead : ¬ blocks.head? = some .KeyFrameBlock := by
      intro hh
      cases blocks with
      | nil => exact hne rfl
      | cons k ks =>
        simp only [List.head?_cons, Option.some.injEq] at hh
        exact hnk k (List.mem_cons_self _ _) hh
    refine ⟨blocks, hi, hbi, hset, hff, hprev, rfl, by simp [BufferWriter.offset],
      by simpa using hfit, by simpa using htag, hne, by simpa using hle, ?_, ?_, ?_⟩
    · simp [hkf, hhead]
    · intro k hk
      exact hnk k (List.mem_of_mem_tail hk)
    · intro hz hfit' d hd hor
      have hsync : Sync z e d := by
        rcases hor with h1 | h1
        · exact absurd h1 hkf
        · exact h1
      obtain ⟨d', hdec, hd', hres, hfr, hsync'⟩ := hsim hz hfit' { d with result := {} }
        ⟨hsync.palette, hsync.session, hsync.previous⟩ ⟨hd.frame, hd.buffer⟩
      refine ⟨_, Decoder.decode_of_decodesTo (by simpa using hdec) (by simpa using hle), hfr, ?_,
        rfl, hsync', ?_⟩
      · show d'.result.keyFrame = kf
        rw [hres]
        simpa using hkf
      · exact ⟨by show d'.frameBitmap.length = _; exact hd'.frame, hd'.buffer⟩

/-- Every successful `encode` call is a `FrameStep`. -/
theorem Encoder.encode_inv {z : Zstd} {e : Encoder} {bitmap : List Color} {keyFrame : Bool}
    {enc : Encoded} (hinv : e.Inv) (hlen : bitmap.length = e.bitmapInfo.pixelCount)
    (h : e.encode z bitmap keyFrame = .ok enc) :
    ∃ blocks, FrameStep z e bitmap keyFrame enc blocks := by
  unfold Encoder.encode at h
  cases hff : e.firstFrame with
  | false =>
    simp only [hff, Bool.false_eq_true, if_false] at h
    obtain ⟨blocks, h1, h2, h3, h4, h5, h6, h7, h8, h9, h10, h11, h12, h13, h14⟩ :=
      @Encoder.encode_core z e keyFrame (e.safeOutputBufferSize z) bitmap enc hinv hlen h
    refine ⟨blocks, h1, h2, h3, by rw [h4, hff], h5, by rw [h6, hff]; simp, h7, h8, h9, h10, h11,
      by rw [h6]; exact h12, h13, ?_⟩
    intro hz hfit d hd hor
    rw [h6] at hor ⊢
    exact h14 hz hfit d hd hor
  | true =>
    simp only [hff, if_true] at h
    have hinv0 : ({ e with firstFrame := false } : Encoder).Inv :=
      ⟨hinv.frame, hinv.previous, hinv.buffer, hinv.sorted, hinv.size, hinv.colorMap,
        hinv.session⟩
    obtain ⟨blocks, h1, h2, h3, h4, h5, h6, h7, h8, h9, h10, h11, h12, h13, h14⟩ :=
      @Encoder.encode_core z { e with firstFrame := false } true
        (e.safeOutputBufferSize z) bitmap enc hinv0 hlen h
    refine ⟨blocks, h1, h2, h3, h4, h5, by rw [h6, hff]; simp, h7, h8, h9, h10, h11,
      by rw [h6]; exact h12, h13, ?_⟩
    intro hz hfit d hd _
    rw [h6]
    exact h14 hz hfit d hd (Or.inl rfl)


/-! ### Streams of frames -/

theorem Encoder.construct_inv (bitmapInfo : BitmapInfo) (settings : EncoderSettings) :
    (Encoder.construct bitmapInfo settings).Inv :=
  ⟨by simp [Encoder.construct, BitmapInfo.pixelCount], Or.inl rfl, rfl, List.Pairwise.nil,
    Nat.zero_le _, rfl, fun _ hm => absurd hm (List.not_mem_nil _)⟩

theorem Decoder.construct_decoder_inv (bitmapInfo : BitmapInfo) :
    (Decoder.construct bitmapInfo).Inv bitmapInfo :=
  ⟨by simp [Decoder.construct, BitmapInfo.pixelCount], by simp [Decoder.construct]⟩

theorem Sync.construct (z : Zstd) (bitmapInfo : BitmapInfo) (settings : EncoderSettings) :
    Sync z (Encoder.construct bitmapInfo settings) (Decoder.construct bitmapInfo) :=
  ⟨rfl, rfl, fun h => absurd rfl h⟩

theorem encodeAll_cons_inv {z : Zstd} {e : Encoder} {bitmap : List Color} {keyFrame : Bool}
    {rest : List (List Color × Bool)} {encs : List Encoded}
    (h : encodeAll z e ((bitmap, keyFrame) :: rest) = .ok encs) :
    ∃ enc more, e.encode z bitmap keyFrame = .ok enc ∧ encodeAll z enc.encoder rest = .ok more ∧
      encs = enc :: more := by
  simp only [encodeAll] at h
  obtain ⟨enc, h1, h⟩ := Except.bind_eq_ok h
  obtain ⟨more, h2, h⟩ := Except.bind_eq_ok h
  simp only [pure, Except.pure] at h
  cases h
  exact ⟨enc, more, h1, h2, rfl⟩

theorem Encoder.safeOutputBufferSize_congr (z : Zstd) {e e' : Encoder}
    (h : e'.bitmapInfo = e.bitmapInfo) :
    e'.safeOutputBufferSize z = e.safeOutputBufferSize z := by
  simp only [Encoder.safeOutputBufferSize, h]

/-- A decoder that is in step with the encoder, or that starts at a key frame,
reproduces the frames and the key-frame flags of a stream. -/
theorem stream_sync {z : Zstd} (hz : z.Lossless) :
    ∀ (frames : List (List Color × Bool)) (e : Encoder) (d : Decoder) (encs : List Encoded),
      e.Inv → e.safeOutputBufferSize z < 2 ^ 32 → d.Inv e.bitmapInfo →
      (∀ f ∈ frames, f.1.length = e.bitmapInfo.pixelCount) →
      (Sync z e d ∨ ∀ first, encs.head? = some first → first.result.keyFrame = true) →
      encodeAll z e frames = .ok encs →
      ∃ decs, decodeAll z d (encs.map (fun enc => enc.output)) = .ok decs ∧
        decs.map (fun dec => dec.bitmap) = frames.map (fun f => f.1) ∧
        decs.map (fun dec => dec.result.keyFrame) = encs.map (fun enc => enc.result.keyFrame) := by
  intro frames
  induction frames with
  | nil =>
    intro e d encs _ _ _ _ _ h
    simp only [encodeAll, pure, Except.pure] at h
    cases h
    exact ⟨[], rfl, rfl, rfl⟩
  | cons f rest ih =>
    intro e d encs hinv hfit hd hframes hstart h
    obtain ⟨bitmap, keyFrame⟩ := f
    obtain ⟨enc, more, h1, h2, rfl⟩ := encodeAll_cons_inv h
    obtain ⟨blocks, hstep⟩ := Encoder.encode_inv hinv (hframes _ (List.mem_cons_self _ _)) h1
    have hor : enc.result.keyFrame = true ∨ Sync z e d := by
      rcases hstart with hs | hk
      · exact Or.inr hs
      · exact Or.inl (hk enc rfl)
    obtain ⟨dec, hdec, hbm, hkf, -, hsync, hdinv⟩ := hstep.decoder hz hfit d hd hor
    obtain ⟨decs, hdecs, hbms, hkfs⟩ := ih enc.encoder dec.decoder more hstep.inv
      (by rw [Encoder.safeOutputBufferSize_congr z hstep.bitmapInfo]; exact hfit)
      (by rw [hstep.bitmapInfo]; exact hdinv)
      (fun f hf => by rw [hstep.bitmapInfo]; exact hframes f (List.mem_cons_of_mem _ hf))
      (Or.inl hsync) h2
    refine ⟨dec :: decs, ?_, ?_, ?_⟩
    · simp only [List.map_cons, decodeAll, hdec, hdecs, bind, Except.bind, pure, Except.pure]
    · simp only [List.map_cons, hbm, hbms]
    · simp only [List.map_cons, hkf, hkfs]

/-- The encoder after the first `j` frames of a stream, and the rest of the
stream from there. -/
theorem encodeAll_drop {z : Zstd} : ∀ (j : Nat) (frames : List (List Color × Bool))
    (e : Encoder) (encs : List Encoded), e.Inv →
    (∀ f ∈ frames, f.1.length = e.bitmapInfo.pixelCount) → encodeAll z e frames = .ok encs →
    ∃ e', e'.Inv ∧ e'.bitmapInfo = e.bitmapInfo ∧ e'.settings = e.settings ∧
      encodeAll z e' (frames.drop j) = .ok (encs.drop j) := by
  intro j
  induction j with
  | zero =>
    intro frames e encs hinv _ h
    exact ⟨e, hinv, rfl, rfl, h⟩
  | succ j ih =>
    intro frames e encs hinv hframes h
    cases frames with
    | nil =>
      simp only [encodeAll, pure, Except.pure] at h
      cases h
      exact ⟨e, hinv, rfl, rfl, rfl⟩
    | cons f rest =>
      obtain ⟨bitmap, keyFrame⟩ := f
      obtain ⟨enc, more, h1, h2, rfl⟩ := encodeAll_cons_inv h
      obtain ⟨blocks, hstep⟩ := Encoder.encode_inv hinv (hframes _ (List.mem_cons_self _ _)) h1
      obtain ⟨e', hinv', hbi, hset, hrest⟩ := ih rest enc.encoder more hstep.inv
        (fun f hf => by rw [hstep.bitmapInfo]; exact hframes f (List.mem_cons_of_mem _ hf)) h2
      exact ⟨e', hinv', hbi.trans hstep.bitmapInfo, hset.trans hstep.settings, hrest⟩

theorem FrameStep.head_zero {z : Zstd} {e : Encoder} {bitmap : List Color} {keyFrame : Bool}
    {enc : Encoded} {blocks : List FrameBlock} (h : FrameStep z e bitmap keyFrame enc blocks) :
    enc.output.head? = some 0 ↔ enc.result.keyFrame = true := by
  rw [h.head]
  rcases h.tagged.head with ⟨_, hb⟩ | ⟨k, more, rest, hb, ho⟩
  · exact absurd hb h.nonempty
  · rw [hb, ho]
    simp only [List.head?_cons, Option.some.injEq]
    exact variant_type_index_eq_zero k

/-- Frame by frame: the key-frame flag each `encode` call of a stream returns,
the first octet it writes and the number of octets it reports. -/
theorem encodeAll_keyFrames {z : Zstd} : ∀ (frames : List (List Color × Bool)) (e : Encoder)
    (encs : List Encoded), e.Inv → (∀ f ∈ frames, f.1.length = e.bitmapInfo.pixelCount) →
    encodeAll z e frames = .ok encs →
    encs.length = frames.length ∧
    ∀ (i : Nat) (h1 : i < encs.length) (h2 : i < frames.length),
      (encs[i]).result.keyFrame = ((decide (i = 0) && e.firstFrame) || (frames[i]).2) ∧
      ((encs[i]).output.head? = some 0 ↔ (encs[i]).result.keyFrame = true) ∧
      (encs[i]).result.bytesWritten = (encs[i]).output.length ∧
      (encs[i]).output.length ≤ e.safeOutputBufferSize z := by
  intro frames
  induction frames with
  | nil =>
    intro e encs _ _ h
    simp only [encodeAll, pure, Except.pure] at h
    cases h
    exact ⟨rfl, fun i h1 _ => absurd h1 (Nat.not_lt_zero i)⟩
  | cons f rest ih =>
    intro e encs hinv hframes h
    obtain ⟨bitmap, keyFrame⟩ := f
    obtain ⟨enc, more, h1, h2, rfl⟩ := encodeAll_cons_inv h
    obtain ⟨blocks, hstep⟩ := Encoder.encode_inv hinv (hframes _ (List.mem_cons_self _ _)) h1
    obtain ⟨hlen, hrest⟩ := ih enc.encoder more hstep.inv
      (fun f hf => by rw [hstep.bitmapInfo]; exact hframes f (List.mem_cons_of_mem _ hf)) h2
    refine ⟨by simp only [List.length_cons, hlen], ?_⟩
    intro i hi1 hi2
    cases i with
    | zero =>
      simp only [List.getElem_cons_zero, decide_True, Bool.true_and]
      exact ⟨hstep.keyFrame, hstep.head_zero, hstep.bytesWritten, hstep.fits⟩
    | succ i =>
      simp only [List.getElem_cons_succ]
      have := hrest i (by simpa using hi1) (by simpa using hi2)
      rw [hstep.firstFrame, Encoder.safeOutputBufferSize_congr z hstep.bitmapInfo] at this
      simpa using this
/-! ### The witness codecs -/

theorem Zstd.store_lossless : Zstd.store.Lossless := by
  intro history input _ hin
  exact ⟨hin, rfl⟩

theorem Zstd.counting_lossless : Zstd.counting.Lossless := by
  intro history input _ _
  exact ⟨List.cons_ne_nil _ _, rfl⟩

theorem Zstd.store_bounded : Zstd.store.Bounded :=
  ⟨fun _ _ => Nat.le_refl _, fun _ _ h => h⟩

theorem Zstd.counting_bounded : Zstd.counting.Bounded :=
  ⟨fun _ input => by show (toUInt8 _ :: input).length ≤ input.length + 1; simp,
    fun _ _ h => Nat.succ_le_succ h⟩

/-! ### Round trip, key frames -/

/-- C1: with the entropy codec a lossless streaming codec and an output buffer
below 4 GiB (so that every block length fits its 32-bit prefix), for every
`BitmapInfo`, every `EncoderSettings` and every sequence of frames of
`width * height` colours with their key-frame requests: if a freshly
constructed encoder produces the byte frames of `encs` by successive `encode`
calls, each is `bytesWritten` octets long, and a freshly constructed decoder
fed these byte frames in order succeeds on each and outputs bitmaps equal to
the input frames. -/
theorem round_trip (z : Zstd) (hz : z.Lossless) (bitmapInfo : BitmapInfo)
    (settings : EncoderSettings)
    (hfit : (Encoder.construct bitmapInfo settings).safeOutputBufferSize z < 2 ^ 32)
    (frames : List (List Color × Bool))
    (hframes : ∀ f ∈ frames, f.1.length = bitmapInfo.width * bitmapInfo.height)
    (encs : List Encoded)
    (henc : encodeAll z (Encoder.construct bitmapInfo settings) frames = .ok encs) :
    (∀ enc ∈ encs, enc.result.bytesWritten = enc.output.length) ∧
    ∃ decs, decodeAll z (Decoder.construct bitmapInfo) (encs.map (fun enc => enc.output)) =
        .ok decs ∧
      decs.map (fun dec => dec.bitmap) = frames.map (fun f => f.1) := by
  have hinv := Encoder.construct_inv bitmapInfo settings
  constructor
  · intro enc hmem
    obtain ⟨i, hi, rfl⟩ := List.getElem_of_mem hmem
    obtain ⟨hlen, hall⟩ := encodeAll_keyFrames frames _ encs hinv hframes henc
    exact (hall i hi (by rw [← hlen]; exact hi)).2.2.1
  · obtain ⟨decs, h1, h2, _⟩ := stream_sync hz frames _ (Decoder.construct bitmapInfo) encs
      hinv hfit (Decoder.construct_decoder_inv bitmapInfo) hframes
      (Or.inl (Sync.construct z bitmapInfo settings)) henc
    exact ⟨decs, h1, h2⟩

/-- Witness for C1: the four frames of `streamExample` through the codec
`Zstd.counting`. -/
theorem round_trip_witness :
    (encodedStream Zstd.counting ⟨2, 1⟩ {} streamExample).map (fun enc => enc.output) =
      [[0, 1, 8, 0, 0, 0, 0, 1, 0, 0, 255, 255, 0, 0, 3, 3, 0, 0, 0, 1, 1, 1], [6],
       [0, 5, 0, 255, 0],
       [1, 8, 0, 0, 0, 0, 1, 0, 255, 0, 1, 2, 3, 3, 3, 0, 0, 0, 1, 1, 1]] ∧
    (∀ enc ∈ encodedStream Zstd.counting ⟨2, 1⟩ {} streamExample,
      enc.result.bytesWritten = enc.output.length) ∧
    ∃ decs, decodeAll Zstd.counting (Decoder.construct ⟨2, 1⟩)
        ((encodedStream Zstd.counting ⟨2, 1⟩ {} streamExample).map (fun enc => enc.output)) =
          .ok decs ∧
      decs.map (fun dec => dec.bitmap) = streamExample.map (fun f => f.1) :=
  ⟨by decide,
    round_trip Zstd.counting Zstd.counting_lossless ⟨2, 1⟩ {} (by decide) streamExample
      (by decide) (encodedStream Zstd.counting ⟨2, 1⟩ {} streamExample) rfl⟩

/-- C2: with the entropy codec a lossless streaming codec whose session is
reset by the KeyFrame block, and an output buffer below 4 GiB, for every frame
sequence encoded by one encoder into the byte frames of `encs` and every `j`
for which `encode` returned `keyFrame = true`, a freshly constructed decoder
fed only the byte frames from the `j`-th on succeeds on each and outputs
exactly the frames from the `j`-th on. -/
theorem key_frame_independence (z : Zstd) (hz : z.Lossless) (bitmapInfo : BitmapInfo)
    (settings : EncoderSettings)
    (hfit : (Encoder.construct bitmapInfo settings).safeOutputBufferSize z < 2 ^ 32)
    (frames : List (List Color × Bool))
    (hframes : ∀ f ∈ frames, f.1.length = bitmapInfo.width * bitmapInfo.height)
    (encs : List Encoded)
    (henc : encodeAll z (Encoder.construct bitmapInfo settings) frames = .ok encs)
    (j : Nat) (hj : j < encs.length) (hkey : (encs[j]).result.keyFrame = true) :
    ∃ decs, decodeAll z (Decoder.construct bitmapInfo)
        ((encs.drop j).map (fun enc => enc.output)) = .ok decs ∧
      decs.map (fun dec => dec.bitmap) = (frames.drop j).map (fun f => f.1) := by
  have hinv := Encoder.construct_inv bitmapInfo settings
  obtain ⟨e', hinv', hbi, -, hrest⟩ := encodeAll_drop j frames _ encs hinv hframes henc
  have hbi' : e'.bitmapInfo = bitmapInfo := hbi
  obtain ⟨decs, h1, h2, _⟩ := stream_sync hz (frames.drop j) e'
    (Decoder.construct bitmapInfo) (encs.drop j) hinv'
    (by rw [Encoder.safeOutputBufferSize_congr z hbi]; exact hfit)
    (by rw [hbi']; exact Decoder.construct_decoder_inv bitmapInfo)
    (fun f hf => by rw [hbi']; exact hframes f (List.mem_of_mem_drop hf))
    (Or.inr (fun first hfirst => by
      rw [List.head?_drop, List.getElem?_eq_getElem hj] at hfirst
      cases hfirst
      exact hkey))
    hrest
  exact ⟨decs, h1, h2⟩

/-- Witness for C2: decoding `streamExample` from its third frame, the
requested key frame, with the codec `Zstd.store`. -/
theorem key_frame_independence_witness :
    ((encodedStream Zstd.store ⟨2, 1⟩ {} streamExample).drop 2).map (fun enc => enc.output) =
      [[0, 5, 0, 255, 0], [1, 7, 0, 0, 0, 1, 0, 255, 0, 1, 2, 3, 3, 2, 0, 0, 0, 1, 1]] ∧
    ∃ decs, decodeAll Zstd.store (Decoder.construct ⟨2, 1⟩)
        (((encodedStream Zstd.store ⟨2, 1⟩ {} streamExample).drop 2).map
          (fun enc => enc.output)) = .ok decs ∧
      decs.map (fun dec => dec.bitmap) =
        [[⟨0, 255, 0⟩, ⟨0, 255, 0⟩], [⟨1, 2, 3⟩, ⟨0, 255, 0⟩]] :=
  ⟨by decide,
    key_frame_independence Zstd.store Zstd.store_lossless ⟨2, 1⟩ {} (by decide) streamExample
      (by decide) (encodedStream Zstd.store ⟨2, 1⟩ {} streamExample) rfl 2 (by decide)
      (by decide)⟩

/-- C3: in a stream of `encode` calls on a freshly constructed encoder, the
first call returns `keyFrame = true` whatever was requested and its output
starts with the KeyFrame tag octet 0; every later call returns the requested
flag, and its output starts with the octet 0 exactly when that flag is
true. -/
theorem first_frame_promotion (z : Zstd) (bitmapInfo : BitmapInfo) (settings : EncoderSettings)
    (frames : List (List Color × Bool))
    (hframes : ∀ f ∈ frames, f.1.length = bitmapInfo.width * bitmapInfo.height)
    (encs : List Encoded)
    (henc : encodeAll z (Encoder.construct bitmapInfo settings) frames = .ok encs) :
    encs.length = frames.length ∧
    ∀ (i : Nat) (h1 : i < encs.length) (h2 : i < frames.length),
      (i = 0 → (encs[i]).result.keyFrame = true ∧ (encs[i]).output.head? = some 0) ∧
      (0 < i → (encs[i]).result.keyFrame = (frames[i]).2 ∧
        ((encs[i]).output.head? = some 0 ↔ (frames[i]).2 = true)) := by
  obtain ⟨hlen, hall⟩ := encodeAll_keyFrames frames _ encs
    (Encoder.construct_inv bitmapInfo settings) hframes henc
  refine ⟨hlen, fun i h1 h2 => ?_⟩
  obtain ⟨hk, hh, -, -⟩ := hall i h1 h2
  constructor
  · intro hi
    have hk' : (encs[i]).result.keyFrame = true := by
      rw [hk]; simp [hi, Encoder.construct]
    exact ⟨hk', hh.2 hk'⟩
  · intro hi
    have hk' : (encs[i]).result.keyFrame = (frames[i]).2 := by
      rw [hk]
      have : i ≠ 0 := by omega
      simp [this]
    exact ⟨hk', by rw [← hk']; exact hh⟩

/-- Witness for C3 on `streamExample`: the first frame is promoted to a key
frame although none was requested. -/
theorem first_frame_promotion_witness :
    (streamExample.map (fun f => f.2) = [false, false, true, false]) ∧
    ((encodedStream Zstd.store ⟨2, 1⟩ {} streamExample).map
      (fun enc => (enc.result.keyFrame, enc.output.head?)) =
        [(true, some 0), (false, some 6), (true, some 0), (false, some 1)]) ∧
    (encodedStream Zstd.store ⟨2, 1⟩ {} streamExample).length = streamExample.length ∧
    ∀ (i : Nat) (_ : i < (encodedStream Zstd.store ⟨2, 1⟩ {} streamExample).length)
      (h2 : i < streamExample.length),
      (i = 0 → ((encodedStream Zstd.store ⟨2, 1⟩ {} streamExample)[i]).result.keyFrame = true ∧
        ((encodedStream Zstd.store ⟨2, 1⟩ {} streamExample)[i]).output.head? = some 0) ∧
      (0 < i → ((encodedStream Zstd.store ⟨2, 1⟩ {} streamExample)[i]).result.keyFrame =
          (streamExample[i]).2 ∧
        (((encodedStream Zstd.store ⟨2, 1⟩ {} streamExample)[i]).output.head? = some 0 ↔
          (streamExample[i]).2 = true)) :=
  ⟨by decide, by decide,
    first_frame_promotion Zstd.store ⟨2, 1⟩ {} streamExample (by decide)
      (encodedStream Zstd.store ⟨2, 1⟩ {} streamExample) rfl⟩
/-! ### The key-frame flag of `decode` -/

theorem Decoder.decompressBuffer_result {z : Zstd} {d d' : Decoder} {r r' : BufferReader}
    {outputBuffer out : List Byte}
    (h : d.decompressBuffer z r outputBuffer = .ok (d', r', out)) : d'.result = d.result := by
  unfold Decoder.decompressBuffer at h
  obtain ⟨⟨compressedSize, r1⟩, h1, h⟩ := Except.bind_eq_ok h
  dsimp only at h
  by_cases hc : compressedSize = 0
  · simp only [if_pos hc] at h
    split at h
    · cases h
    · obtain ⟨r2, h2, h⟩ := Except.bind_eq_ok h
      simp only [pure, Except.pure, Except.ok.injEq, Prod.mk.injEq] at h
      obtain ⟨hd, -, -⟩ := h
      subst hd
      rfl
  · simp only [if_neg hc] at h
    split at h
    · cases h
    · obtain ⟨r2, h2, h⟩ := Except.bind_eq_ok h
      simp only [pure, Except.pure, Except.ok.injEq, Prod.mk.injEq] at h
      obtain ⟨hd, -, -⟩ := h
      subst hd
      rfl

/-- Only the KeyFrame block raises the key-frame flag; no block clears it. -/
theorem Decoder.decodeBlock_keyFrame {z : Zstd} {d d' : Decoder} {r r' : BufferReader}
    {block : FrameBlock} (h : d.decodeBlock z r block = .ok (d', r')) :
    d'.result.keyFrame = (d.result.keyFrame || decide (block = .KeyFrameBlock)) := by
  cases block with
  | KeyFrameBlock =>
    simp only [Decoder.decodeBlock, KeyFrameBlock.decode, pure, Except.pure, Except.ok.injEq,
      Prod.mk.injEq] at h
    obtain ⟨hd, -⟩ := h
    subst hd
    simp
  | PaletteBlock =>
    simp only [Decoder.decodeBlock, PaletteBlock.decode] at h
    obtain ⟨⟨d1, r1, buf⟩, h1, h⟩ := Except.bind_eq_ok h
    dsimp only at h
    obtain ⟨⟨count, r2⟩, h2, h⟩ := Except.bind_eq_ok h
    dsimp only at h
    obtain ⟨⟨colors, r3⟩, h3, h⟩ := Except.bind_eq_ok h
    simp only [pure, Except.pure, Except.ok.injEq, Prod.mk.injEq] at h
    obtain ⟨hd, -⟩ := h
    subst hd
    have := Decoder.decompressBuffer_result h1
    simp [this]
  | PaletteResetBlock =>
    simp only [Decoder.decodeBlock, PaletteResetBlock.decode, pure, Except.pure,
      Except.ok.injEq, Prod.mk.injEq] at h
    obtain ⟨hd, -⟩ := h
    subst hd
    simp [Decoder.resetPalette]
  | IndexedBitmapBlock =>
    simp only [Decoder.decodeBlock, IndexedBitmapBlock.decode] at h
    obtain ⟨⟨d1, r1, buf⟩, h1, h⟩ := Except.bind_eq_ok h
    dsimp only at h
    obtain ⟨⟨bits, r2⟩, h2, h⟩ := Except.bind_eq_ok h
    dsimp only at h
    obtain ⟨frame, h3, h⟩ := Except.bind_eq_ok h
    simp only [pure, Except.pure, Except.ok.injEq, Prod.mk.injEq] at h
    obtain ⟨hd, -⟩ := h
    subst hd
    have := Decoder.decompressBuffer_result h1
    simp [this]
  | RawBitmapBlock =>
    simp only [Decoder.decodeBlock, RawBitmapBlock.decode] at h
    obtain ⟨⟨d1, r1, buf⟩, h1, h⟩ := Except.bind_eq_ok h
    simp only [pure, Except.pure, Except.ok.injEq, Prod.mk.injEq] at h
    obtain ⟨hd, -⟩ := h
    subst hd
    have := Decoder.decompressBuffer_result h1
    simp [this]
  | SolidColorBitmapBlock =>
    simp only [Decoder.decodeBlock, SolidColorBitmapBlock.decode] at h
    obtain ⟨⟨color, r1⟩, h1, h⟩ := Except.bind_eq_ok h
    simp only [pure, Except.pure, Except.ok.injEq, Prod.mk.injEq] at h
    obtain ⟨hd, -⟩ := h
    subst hd
    simp
  | NullBitmapBlock =>
    simp only [Decoder.decodeBlock, NullBitmapBlock.decode, pure, Except.pure,
      Except.ok.injEq, Prod.mk.injEq] at h
    obtain ⟨hd, -⟩ := h
    subst hd
    simp

theorem Decoder.decodeLoop_keyFrame {z : Zstd} : ∀ (fuel : Nat) (d : Decoder) (r : BufferReader)
    (d' : Decoder) (blocks : List FrameBlock),
    Decoder.decodeLoop z fuel d r = .ok (d', blocks) →
    d'.result.keyFrame = (d.result.keyFrame || decide (FrameBlock.KeyFrameBlock ∈ blocks)) := by
  intro fuel
  induction fuel with
  | zero =>
    intro d r d' blocks h
    unfold Decoder.decodeLoop at h
    split at h
    · simp only [pure, Except.pure, Except.ok.injEq, Prod.mk.injEq] at h
      obtain ⟨rfl, rfl⟩ := h
      simp
    · cases h
  | succ fuel ih =>
    intro d r d' blocks h
    unfold Decoder.decodeLoop at h
    split at h
    · simp only [pure, Except.pure, Except.ok.injEq, Prod.mk.injEq] at h
      obtain ⟨rfl, rfl⟩ := h
      simp
    · obtain ⟨⟨id, r1⟩, h1, h⟩ := Except.bind_eq_ok h
      dsimp only at h
      obtain ⟨block, h2, h⟩ := Except.bind_eq_ok h
      obtain ⟨⟨d1, r2⟩, h3, h⟩ := Except.bind_eq_ok h
      dsimp only at h
      obtain ⟨⟨d2, more⟩, h4, h⟩ := Except.bind_eq_ok h
      simp only [pure, Except.pure, Except.ok.injEq, Prod.mk.injEq] at h
      obtain ⟨rfl, rfl⟩ := h
      rw [ih d1 r2 d2 more h4, Decoder.decodeBlock_keyFrame h3]
      cases d.result.keyFrame <;> cases block <;> simp

/-- The flag `decode` returns tells whether a KeyFrame block was dispatched. -/
theorem Decoder.decode_keyFrame {z : Zstd} {d : Decoder} {inputBuffer : List Byte}
    {dec : Decoded} (h : d.decode z inputBuffer = .ok dec) :
    dec.result.keyFrame = true ↔ FrameBlock.KeyFrameBlock ∈ dec.blocks := by
  unfold Decoder.decode at h
  obtain ⟨⟨d1, blocks⟩, h1, h⟩ := Except.bind_eq_ok h
  simp only [pure, Except.pure, Except.ok.injEq] at h
  subst h
  have := Decoder.decodeLoop_keyFrame _ _ _ _ _ h1
  simp only [this]
  simp

/-! ### `encode` does not fail -/

theorem Encoder.encodeBitmap_ok {z : Zstd} (hb : z.Bounded) {e : Encoder} (w : BufferWriter)
    {bitmap : List Color} (hinv : e.Inv) (hlen : bitmap.length = e.bitmapInfo.pixelCount)
    (hcapI : w.offset + (2 + (4 + z.compressBound PaletteBlock.maxSize)) +
      (1 + (4 + z.compressBound (IndexedBitmapBlock.maxSize e.bitmapInfo))) ≤ w.size)
    (hcapR : w.offset + (1 + (4 + z.compressBound (RawBitmapBlock.maxSize e.bitmapInfo)))
      ≤ w.size)
    (hcapS : w.offset + (1 + SolidColorBitmapBlock.maxSize) ≤ w.size) :
    ∃ r, e.encodeBitmap z w bitmap = .ok r := by
  have htake : bitmap.take (e.bitmapInfo.width * e.bitmapInfo.height) = bitmap :=
    List.take_of_length_le (by rw [hlen]; exact Nat.le_refl _)
  have hraw : ∃ r, writeBlock .RawBitmapBlock w
      (RawBitmapBlock.encode z (e.copyFrameBitmap bitmap)) = .ok r := by
    rw [writeBlock_ok _ _ _ (by omega)]
    unfold RawBitmapBlock.encode
    refine Encoder.compressBuffer_total hb _ _ _ (n := RawBitmapBlock.maxSize e.bitmapInfo) ?_ ?_
    · simp only [colorsToBytes_length, Encoder.copyFrameBitmap, htake, hlen,
        RawBitmapBlock.maxSize, BitmapInfo.pixelCount]
      omega
    · simp only [BufferWriter.offset, List.length_append, List.length_singleton] at hcapR ⊢
      omega
  unfold Encoder.encodeBitmap
  by_cases hpal : e.settings.usePalette = true
  · rw [if_pos hpal]
    rcases e.makePalette_spec bitmap with hnone | ⟨p, hsome, hps, hpsize, hpmem⟩
    · simp only [hnone, bind, Except.bind]
      exact hraw
    · rw [htake] at hpmem
      simp only [hsome, bind, Except.bind]
      by_cases h1 : p.size = 1
      · rw [if_pos h1, writeBlock_ok _ _ _ (by omega)]
        unfold SolidColorBitmapBlock.encode
        rw [writeColor_ok _ _ (by
          simp only [BufferWriter.offset, List.length_append, List.length_singleton,
            SolidColorBitmapBlock.maxSize] at hcapS ⊢
          omega)]
        exact ⟨_, rfl⟩
      · rw [if_neg h1]
        obtain ⟨⟨e1, w1⟩, hu⟩ := Encoder.updatePalette_ok hb e w p hinv hpsize (by omega)
        obtain ⟨bytes1, blocks1, hw1, -, -, -, hinv1, hsame1, hfr1, hmem1, hfit1, hbound1, -⟩ :=
          Encoder.updatePalette_inv hinv hps hpsize (by omega) hu
        have hbd := hbound1 hb
        rw [hu]
        simp only
        have hlen2 : bitmap.length = e1.bitmapInfo.pixelCount := by
          rw [hsame1.bitmapInfo]; exact hlen
        obtain ⟨hinv2, hfr2⟩ := hinv1.copyFrameBitmap hlen2
        have hframe : ∀ c ∈ (e1.copyFrameBitmap bitmap).frameBitmap,
            c ∈ (e1.copyFrameBitmap bitmap).palette.colors := by
          intro c hc
          rw [hfr2] at hc
          exact hmem1 c ((hpmem c).2 hc)
        obtain ⟨b, hbits⟩ := Palette.bits_ok hinv2.size
        obtain ⟨hb1, hb2, hb3, hb4⟩ := Palette.bits_inv hbits
        have hb' : (e1.copyFrameBitmap bitmap).frameBitmap = [] ∨
            (b = 1 ∨ b = 2 ∨ b = 4 ∨ b = 8) := by
          rw [hfr2]
          by_cases hnil : bitmap = []
          · exact Or.inl hnil
          · right
            obtain ⟨x, hx⟩ := List.exists_mem_of_ne_nil _ hnil
            have hpne : p.colors ≠ [] := List.ne_nil_of_mem ((hpmem x).2 hx)
            have hp2 : 2 ≤ p.colors.length := by
              have h0 : p.colors.length ≠ 0 := fun h => hpne (List.length_eq_zero.1 h)
              simp only [Palette.size] at h1
              omega
            have hsub : p.colors ⊆ e1.palette.colors := fun c hc => hmem1 c hc
            have hle := (List.subperm_of_subset (Increasing.nodup hps) hsub).length_le
            have h2 : 2 ≤ (e1.copyFrameBitmap bitmap).palette.size := by
              show 2 ≤ e1.palette.colors.length
              omega
            rcases hb3 with h | h
            · have := hb4.1 h; omega
            · exact h
        have hbuf : 1 + (e1.copyFrameBitmap bitmap).frameBitmap.length ≤
            (e1.copyFrameBitmap bitmap).internalBufferSize := by
          rw [hinv2.buffer, hinv2.frame]
          exact (safeInternal_ge _).2
        have hple := @packedBytes_length_le b
          ((e1.copyFrameBitmap bitmap).frameBitmap.map
            (e1.copyFrameBitmap bitmap).palette.indexByte) (by
            rcases hb' with h0 | h0
            · left; rw [h0]; rfl
            · right; exact h0)
        rw [List.length_map] at hple
        have hfl : (e1.copyFrameBitmap bitmap).frameBitmap.length =
            e.bitmapInfo.width * e.bitmapInfo.height := by
          rw [hfr2]; exact hlen
        subst hw1
        rw [writeBlock_ok _ _ _ (by
          simp only [BufferWriter.offset, List.length_append] at hfit1 hcapI ⊢
          omega)]
        unfold IndexedBitmapBlock.encode
        rw [IndexedBitmapBlock.indexed_payload_eq _ b hbits hb' hinv2.colorMap hframe hbuf]
        simp only [bind, Except.bind]
        refine Encoder.compressBuffer_total hb _ _ _
          (n := IndexedBitmapBlock.maxSize e.bitmapInfo) ?_ ?_
        · simp only [List.length_cons, IndexedBitmapBlock.maxSize, Nat.mul_one]
          omega
        · simp only [BufferWriter.offset, List.length_append, List.length_singleton] at hcapI ⊢
          omega
  · rw [if_neg hpal]
    exact hraw

theorem Encoder.encode_core_ok {z : Zstd} (hb : z.Bounded) {e : Encoder} (kf : Bool) {safe : Nat}
    {bitmap : List Color} (hinv : e.Inv) (hlen : bitmap.length = e.bitmapInfo.pixelCount)
    (hsafe : e.safeOutputBufferSize z ≤ safe) :
    ∃ enc : Encoded, (do
      let (e, bufferWriter) ←
        if kf = true then writeBlock .KeyFrameBlock ⟨[], safe⟩ (KeyFrameBlock.encode e)
        else pure (e, (⟨[], safe⟩ : BufferWriter))
      let (e, bufferWriter) ←
        if e.previousFrameBitmap ≠ [] ∧
            e.previousFrameBitmap = bitmap.take e.previousFrameBitmap.length then
          writeBlock .NullBitmapBlock bufferWriter (NullBitmapBlock.encode e)
        else do
          let (e, bufferWriter) ← e.encodeBitmap z bufferWriter bitmap
          pure ({ e with previousFrameBitmap := e.frameBitmap }, bufferWriter)
      pure (⟨⟨bufferWriter.offset, kf⟩, bufferWriter.written, e⟩ : Encoded)) = .ok enc := by
  simp only [Encoder.safeOutputBufferSize, KeyFrameBlock.maxSize, PaletteResetBlock.maxSize]
    at hsafe
  have hm1 := Nat.le_max_left
    (max (1 + (4 + z.compressBound 0) + (1 + (4 + z.compressBound PaletteBlock.maxSize)) +
        (1 + (4 + z.compressBound (IndexedBitmapBlock.maxSize e.bitmapInfo))))
      (1 + (4 + z.compressBound (RawBitmapBlock.maxSize e.bitmapInfo))))
    (1 + SolidColorBitmapBlock.maxSize)
  have hm2 := Nat.le_max_right
    (max (1 + (4 + z.compressBound 0) + (1 + (4 + z.compressBound PaletteBlock.maxSize)) +
        (1 + (4 + z.compressBound (IndexedBitmapBlock.maxSize e.bitmapInfo))))
      (1 + (4 + z.compressBound (RawBitmapBlock.maxSize e.bitmapInfo))))
    (1 + SolidColorBitmapBlock.maxSize)
  have hm3 := Nat.le_max_left
    (1 + (4 + z.compressBound 0) + (1 + (4 + z.compressBound PaletteBlock.maxSize)) +
        (1 + (4 + z.compressBound (IndexedBitmapBlock.maxSize e.bitmapInfo))))
    (1 + (4 + z.compressBound (RawBitmapBlock.maxSize e.bitmapInfo)))
  have hm4 := Nat.le_max_right
    (1 + (4 + z.compressBound 0) + (1 + (4 + z.compressBound PaletteBlock.maxSize)) +
        (1 + (4 + z.compressBound (IndexedBitmapBlock.maxSize e.bitmapInfo))))
    (1 + (4 + z.compressBound (RawBitmapBlock.maxSize e.bitmapInfo)))
  have hS : 1 + (1 + SolidColorBitmapBlock.maxSize) ≤ safe := by omega
  have hR : 1 + (1 + (4 + z.compressBound (RawBitmapBlock.maxSize e.bitmapInfo))) ≤ safe := by
    omega
  have hI : 1 + (2 + (4 + z.compressBound PaletteBlock.maxSize)) +
      (1 + (4 + z.compressBound (IndexedBitmapBlock.maxSize e.bitmapInfo))) ≤ safe := by omega
  have hfin : ∀ (e1 : Encoder) (w : BufferWriter), e1.Inv →
      bitmap.length = e1.bitmapInfo.pixelCount → e1.bitmapInfo = e.bitmapInfo →
      w.size = safe → w.offset ≤ 1 →
      ∃ enc : Encoded, (do
        let (e, bufferWriter) ←
          if e1.previousFrameBitmap ≠ [] ∧
              e1.previousFrameBitmap = bitmap.take e1.previousFrameBitmap.length then
            writeBlock .NullBitmapBlock w (NullBitmapBlock.encode e1)
          else do
            let (e, bufferWriter) ← e1.encodeBitmap z w bitmap
            pure ({ e with previousFrameBitmap := e.frameBitmap }, bufferWriter)
        pure (⟨⟨bufferWriter.offset, kf⟩, bufferWriter.written, e⟩ : Encoded)) = .ok enc := by
    intro e1 w hinv1 hlen1 hbi hsize hoff
    by_cases hnull : e1.previousFrameBitmap ≠ [] ∧
        e1.previousFrameBitmap = bitmap.take e1.previousFrameBitmap.length
    · simp only [if_pos hnull]
      rw [writeBlock_ok _ _ _ (by omega)]
      exact ⟨_, rfl⟩
    · simp only [if_neg hnull]
      obtain ⟨r, hr⟩ := Encoder.encodeBitmap_ok hb w hinv1 hlen1
        (by rw [hbi]; omega) (by rw [hbi]; omega) (by omega)
      simp only [hr, bind, Except.bind, pure, Except.pure]
      exact ⟨_, rfl⟩
  by_cases hkf : kf = true
  · simp only [if_pos hkf]
    rw [writeBlock_ok _ _ _ (by simp only [BufferWriter.offset, List.length_nil]; omega)]
    simp only [KeyFrameBlock.encode, pure, Except.pure, bind, Except.bind]
    exact hfin e.reset _ hinv.reset hlen rfl rfl (by simp [BufferWriter.offset])
  · simp only [if_neg hkf]
    simp only [pure, Except.pure, bind, Except.bind]
    exact hfin e _ hinv hlen rfl rfl (by simp [BufferWriter.offset])

/-- With a bounded compressor, `encode` returns. -/
theorem Encoder.encode_ok {z : Zstd} (hb : z.Bounded) {e : Encoder} {bitmap : List Color}
    (keyFrame : Bool) (hinv : e.Inv) (hlen : bitmap.length = e.bitmapInfo.pixelCount) :
    ∃ enc, e.encode z bitmap keyFrame = .ok enc := by
  unfold Encoder.encode
  cases hff : e.firstFrame with
  | false =>
    simp only [Bool.false_eq_true, if_false]
    exact Encoder.encode_core_ok hb keyFrame hinv hlen (Nat.le_refl _)
  | true =>
    simp only [if_true]
    have hinv0 : ({ e with firstFrame := false } : Encoder).Inv :=
      ⟨hinv.frame, hinv.previous, hinv.buffer, hinv.sorted, hinv.size, hinv.colorMap,
        hinv.session⟩
    exact Encoder.encode_core_ok (e := { e with firstFrame := false }) hb true hinv0 hlen
      (Nat.le_refl _)

/-- With a bounded compressor, every `encode` call of a stream returns, and
reports no more octets than the output buffer holds. -/
theorem encodeAll_ok {z : Zstd} (hb : z.Bounded) : ∀ (frames : List (List Color × Bool))
    (e : Encoder), e.Inv → (∀ f ∈ frames, f.1.length = e.bitmapInfo.pixelCount) →
    ∃ encs, encodeAll z e frames = .ok encs ∧ encs.length = frames.length ∧
      ∀ enc ∈ encs, enc.result.bytesWritten = enc.output.length ∧
        enc.result.bytesWritten ≤ e.safeOutputBufferSize z := by
  intro frames
  induction frames with
  | nil =>
    intro e _ _
    exact ⟨[], rfl, rfl, fun _ h => absurd h (List.not_mem_nil _)⟩
  | cons f rest ih =>
    intro e hinv hframes
    obtain ⟨bitmap, keyFrame⟩ := f
    have hlen := hframes _ (List.mem_cons_self _ _)
    obtain ⟨enc, henc⟩ := Encoder.encode_ok hb keyFrame hinv hlen
    obtain ⟨blocks, hstep⟩ := Encoder.encode_inv hinv hlen henc
    obtain ⟨more, hmore, hlen', hall⟩ := ih enc.encoder hstep.inv
      (fun f hf => by rw [hstep.bitmapInfo]; exact hframes f (List.mem_cons_of_mem _ hf))
    refine ⟨enc :: more, ?_, by simp only [List.length_cons, hlen'], ?_⟩
    · simp only [encodeAll, henc, hmore, bind, Except.bind, pure, Except.pure]
    · intro x hx
      rcases List.mem_cons.1 hx with rfl | hx
      · exact ⟨hstep.bytesWritten, by rw [hstep.bytesWritten]; exact hstep.fits⟩
      · have := hall x hx
        rw [Encoder.safeOutputBufferSize_congr z hstep.bitmapInfo] at this
        exact this

/-- C5: with a compressor that writes at most `compressBound k` octets for a
payload of `k` octets, `compressBound` being monotone, for every `BitmapInfo`,
every `EncoderSettings` and every sequence of frames and key-frame requests
fed to a freshly constructed encoder (so for every reachable encoder state),
every `encode` call returns, no write through the output `BufferWriter` of
`safeOutputBufferSize()` octets hits its overflow check, and the
`bytesWritten` it reports, the number of octets written, is at most
`safeOutputBufferSize()`. -/
theorem buffer_size_safety (z : Zstd) (hb : z.Bounded) (bitmapInfo : BitmapInfo)
    (settings : EncoderSettings) (frames : List (List Color × Bool))
    (hframes : ∀ f ∈ frames, f.1.length = bitmapInfo.width * bitmapInfo.height) :
    ∃ encs, encodeAll z (Encoder.construct bitmapInfo settings) frames = .ok encs ∧
      encs.length = frames.length ∧
      ∀ enc ∈ encs, enc.result.bytesWritten = enc.output.length ∧
        enc.result.bytesWritten ≤
          (Encoder.construct bitmapInfo settings).safeOutputBufferSize z :=
  encodeAll_ok hb frames (Encoder.construct bitmapInfo settings)
    (Encoder.construct_inv bitmapInfo settings) hframes

/-- Witness for C5 on `streamExample` with the codec `Zstd.counting`: the four
calls report 22, 1, 5 and 21 octets, the buffer has 791. -/
theorem buffer_size_safety_witness :
    (encodedStream Zstd.counting ⟨2, 1⟩ {} streamExample).map
      (fun enc => enc.result.bytesWritten) = [22, 1, 5, 21] ∧
    (Encoder.construct ⟨2, 1⟩ {}).safeOutputBufferSize Zstd.counting = 791 ∧
    ∃ encs, encodeAll Zstd.counting (Encoder.construct ⟨2, 1⟩ {}) streamExample = .ok encs ∧
      encs.length = streamExample.length ∧
      ∀ enc ∈ encs, enc.result.bytesWritten = enc.output.length ∧
        enc.result.bytesWritten ≤
          (Encoder.construct ⟨2, 1⟩ {}).safeOutputBufferSize Zstd.counting :=
  ⟨by decide, by decide,
    buffer_size_safety Zstd.counting Zstd.counting_bounded ⟨2, 1⟩ {} streamExample
      (by decide)⟩

/-! ### The iteration budget of `decode` suffices -/

theorem Except.bind_eq_error {ε α β : Type} {x : Except ε α} {f : α → Except ε β} {err : ε}
    (h : x >>= f = .error err) : x = .error err ∨ ∃ a, x = .ok a ∧ f a = .error err := by
  cases x with
  | error e =>
    left
    simp only [bind, Except.bind, Except.error.injEq] at h
    rw [h]
  | ok a => right; exact ⟨a, rfl, h⟩

theorem BufferReader.Advanced.advanced_trans {r r' r'' : BufferReader} (h : r.Advanced r')
    (h' : r'.Advanced r'') : r.Advanced r'' :=
  ⟨h'.1.trans h.1, Nat.le_trans h.2.1 h'.2.1, h'.2.2⟩

theorem BufferReader.read_inv {r r' : BufferReader} {width value : Nat}
    (h : r.read width = .ok (value, r')) :
    r'.data = r.data ∧ r'.offset = r.offset + width ∧ r'.offset ≤ r'.size := by
  unfold BufferReader.read at h
  split at h
  · cases h
  · rename_i hle
    simp only [Except.ok.injEq, Prod.mk.injEq] at h
    obtain ⟨-, rfl⟩ := h
    exact ⟨rfl, rfl, by simp only [BufferReader.size] at hle ⊢; omega⟩

theorem BufferReader.read_error {r : BufferReader} {width : Nat} {err : Error}
    (h : r.read width = .error err) : err = .bufferOverflow := by
  unfold BufferReader.read at h
  split at h
  · cases h; rfl
  · cases h

theorem BufferReader.readUInt8_inv {r r' : BufferReader} {value : Byte}
    (h : r.readUInt8 = .ok (value, r')) :
    r'.data = r.data ∧ r'.offset = r.offset + 1 ∧ r'.offset ≤ r'.size := by
  unfold BufferReader.readUInt8 at h
  cases hr : r.read 1 with
  | error e => rw [hr] at h; cases h
  | ok p =>
    obtain ⟨v, r1⟩ := p
    rw [hr] at h
    simp only [Except.ok.injEq, Prod.mk.injEq] at h
    obtain ⟨-, rfl⟩ := h
    exact BufferReader.read_inv hr

theorem BufferReader.readUInt8_error {r : BufferReader} {err : Error}
    (h : r.readUInt8 = .error err) : err = .bufferOverflow := by
  unfold BufferReader.readUInt8 at h
  cases hr : r.read 1 with
  | error e =>
    rw [hr] at h
    simp only [Except.error.injEq] at h
    subst h
    exact BufferReader.read_error hr
  | ok p => rw [hr] at h; cases h

theorem BufferReader.advance_inv {r r' : BufferReader} {count : Nat}
    (h : r.advance count = .ok r') :
    r'.data = r.data ∧ r'.offset = r.offset + count ∧ r'.offset ≤ r'.size := by
  unfold BufferReader.advance at h
  split at h
  · cases h
  · rename_i hle
    simp only [Except.ok.injEq] at h
    subst h
    exact ⟨rfl, rfl, by simp only [BufferReader.size] at hle ⊢; omega⟩

theorem BufferReader.advance_error {r : BufferReader} {count : Nat} {err : Error}
    (h : r.advance count = .error err) : err = .bufferOverflow := by
  unfold BufferReader.advance at h
  split at h
  · cases h; rfl
  · cases h

theorem readColor_inv {r r' : BufferReader} {color : Color}
    (h : readColor r = .ok (color, r')) : r.Advanced r' := by
  unfold readColor at h
  obtain ⟨⟨x1, r1⟩, h1, h⟩ := Except.bind_eq_ok h
  dsimp only at h
  obtain ⟨⟨x2, r2⟩, h2, h⟩ := Except.bind_eq_ok h
  dsimp only at h
  obtain ⟨⟨x3, r3⟩, h3, h⟩ := Except.bind_eq_ok h
  simp only [pure, Except.pure, Except.ok.injEq, Prod.mk.injEq] at h
  obtain ⟨-, rfl⟩ := h
  obtain ⟨a1, b1, -⟩ := BufferReader.readUInt8_inv h1
  obtain ⟨a2, b2, -⟩ := BufferReader.readUInt8_inv h2
  obtain ⟨a3, b3, c3⟩ := BufferReader.readUInt8_inv h3
  exact ⟨by rw [a3, a2, a1], by omega, c3⟩

theorem readColor_error {r : BufferReader} {err : Error}
    (h : readColor r = .error err) : err = .bufferOverflow := by
  unfold readColor at h
  rcases Except.bind_eq_error h with h1 | ⟨⟨x1, r1⟩, -, h⟩
  · exact BufferReader.readUInt8_error h1
  dsimp only at h
  rcases Except.bind_eq_error h with h1 | ⟨⟨x2, r2⟩, -, h⟩
  · exact BufferReader.readUInt8_error h1
  dsimp only at h
  rcases Except.bind_eq_error h with h1 | ⟨⟨x3, r3⟩, -, h⟩
  · exact BufferReader.readUInt8_error h1
  cases h

theorem readColors_error : ∀ (count : Nat) (r : BufferReader) (err : Error),
    readColors count r = .error err → err = .bufferOverflow := by
  intro count
  induction count with
  | zero => intro r err h; cases h
  | succ count ih =>
    intro r err h
    unfold readColors at h
    rcases Except.bind_eq_error h with h1 | ⟨⟨c, r1⟩, -, h⟩
    · exact readColor_error h1
    dsimp only at h
    rcases Except.bind_eq_error h with h1 | ⟨⟨cs, r2⟩, -, h⟩
    · exact ih _ _ h1
    cases h

theorem IndexedBitmapBlock.unpackStep_error {paletteBits : Nat} {st : UnpackState} {err : Error}
    (h : IndexedBitmapBlock.unpackStep paletteBits st = .error err) : err = .bufferOverflow := by
  unfold IndexedBitmapBlock.unpackStep at h
  by_cases h8 : st.compressedOffset = 8
  · simp only [if_pos h8] at h
    rcases Except.bind_eq_error h with h2 | ⟨⟨x, r1⟩, -, h3⟩
    · exact BufferReader.readUInt8_error h2
    · cases h3
  · simp only [if_neg h8] at h
    cases h

theorem IndexedBitmapBlock.unpackLoop_error {α : Type} (lookup : Byte → α) (paletteBits : Nat) :
    ∀ (count : Nat) (st : UnpackState) (err : Error),
      IndexedBitmapBlock.unpackLoop lookup paletteBits count st = .error err →
      err = .bufferOverflow := by
  intro count
  induction count with
  | zero => intro st err h; cases h
  | succ count ih =>
    intro st err h
    unfold IndexedBitmapBlock.unpackLoop at h
    rcases Except.bind_eq_error h with h1 | ⟨⟨x, st1⟩, -, h⟩
    · exact IndexedBitmapBlock.unpackStep_error h1
    dsimp only at h
    rcases Except.bind_eq_error h with h1 | ⟨rest, -, h⟩
    · exact ih _ _ h1
    cases h

theorem make_variant_impl_error : ∀ (alternatives : List FrameBlock) (current index : Nat)
    (err : Error), make_variant_impl current alternatives index = .error err →
    err = .invalidVariantIndex := by
  intro alternatives
  induction alternatives with
  | nil => intro current index err h; cases h; rfl
  | cons a rest ih =>
    intro current index err h
    unfold make_variant_impl at h
    split at h
    · cases h
    · exact ih _ _ _ h

theorem Decoder.decompressBuffer_inv {z : Zstd} {d d' : Decoder} {r r' : BufferReader}
    {outputBuffer out : List Byte}
    (h : d.decompressBuffer z r outputBuffer = .ok (d', r', out)) : r.Advanced r' := by
  unfold Decoder.decompressBuffer at h
  obtain ⟨⟨compressedSize, r1⟩, h1, h⟩ := Except.bind_eq_ok h
  dsimp only at h
  obtain ⟨a1, b1, -⟩ := BufferReader.read_inv h1
  have hfin : ∀ (dd : Decoder) (output : List Byte),
      (if output.length > outputBuffer.length then
          (.error .zstdDstTooSmall : Except Error (Decoder × BufferReader × List Byte))
        else do
          let r ← r1.advance compressedSize
          pure (dd, r, output ++ outputBuffer.drop output.length)) = .ok (d', r', out) →
      r.Advanced r' := by
    intro dd output h
    split at h
    · cases h
    · obtain ⟨r2, h2, h⟩ := Except.bind_eq_ok h
      simp only [pure, Except.pure, Except.ok.injEq, Prod.mk.injEq] at h
      obtain ⟨-, rfl, -⟩ := h
      obtain ⟨a2, b2, c2⟩ := BufferReader.advance_inv h2
      exact ⟨by rw [a2, a1], by omega, c2⟩
  exact hfin _ _ h

theorem Decoder.decompressBuffer_error {z : Zstd} {d : Decoder} {r : BufferReader}
    {outputBuffer : List Byte} {err : Error}
    (h : d.decompressBuffer z r outputBuffer = .error err) :
    err = .bufferOverflow ∨ err = .zstdDstTooSmall := by
  unfold Decoder.decompressBuffer at h
  rcases Except.bind_eq_error h with h1 | ⟨⟨compressedSize, r1⟩, -, h⟩
  · exact Or.inl (BufferReader.read_error h1)
  dsimp only at h
  have hfin : ∀ (dd : Decoder) (output : List Byte),
      (if output.length > outputBuffer.length then
          (.error .zstdDstTooSmall : Except Error (Decoder × BufferReader × List Byte))
        else do
          let r ← r1.advance compressedSize
          pure (dd, r, output ++ outputBuffer.drop output.length)) = .error err →
      err = .bufferOverflow ∨ err = .zstdDstTooSmall := by
    intro dd output h
    split at h
    · cases h; exact Or.inr rfl
    · rcases Except.bind_eq_error h with h1 | ⟨r2, -, h⟩
      · exact Or.inl (BufferReader.advance_error h1)
      · cases h
  exact hfin _ _ h

/-- A block decoder moves the cursor forward only, within the buffer. -/
theorem Decoder.decodeBlock_inv {z : Zstd} {d d' : Decoder} {r r' : BufferReader}
    {block : FrameBlock} (hr : r.offset ≤ r.size)
    (h : d.decodeBlock z r block = .ok (d', r')) : r.Advanced r' := by
  have hrefl : r.Advanced r := ⟨rfl, Nat.le_refl _, hr⟩
  cases block with
  | KeyFrameBlock =>
    simp only [Decoder.decodeBlock, KeyFrameBlock.decode, pure, Except.pure, Except.ok.injEq,
      Prod.mk.injEq] at h
    obtain ⟨-, rfl⟩ := h
    exact hrefl
  | PaletteBlock =>
    simp only [Decoder.decodeBlock, PaletteBlock.decode] at h
    obtain ⟨⟨d1, r1, buf⟩, h1, h⟩ := Except.bind_eq_ok h
    dsimp only at h
    obtain ⟨⟨count, r2⟩, h2, h⟩ := Except.bind_eq_ok h
    dsimp only at h
    obtain ⟨⟨colors, r3⟩, h3, h⟩ := Except.bind_eq_ok h
    simp only [pure, Except.pure, Except.ok.injEq, Prod.mk.injEq] at h
    obtain ⟨-, rfl⟩ := h
    exact Decoder.decompressBuffer_inv h1
  | PaletteResetBlock =>
    simp only [Decoder.decodeBlock, PaletteResetBlock.decode, pure, Except.pure,
      Except.ok.injEq, Prod.mk.injEq] at h
    obtain ⟨-, rfl⟩ := h
    exact hrefl
  | IndexedBitmapBlock =>
    simp only [Decoder.decodeBlock, IndexedBitmapBlock.decode] at h
    obtain ⟨⟨d1, r1, buf⟩, h1, h⟩ := Except.bind_eq_ok h
    dsimp only at h
    obtain ⟨⟨bits, r2⟩, h2, h⟩ := Except.bind_eq_ok h
    dsimp only at h
    obtain ⟨frame, h3, h⟩ := Except.bind_eq_ok h
    simp only [pure, Except.pure, Except.ok.injEq, Prod.mk.injEq] at h
    obtain ⟨-, rfl⟩ := h
    exact Decoder.decompressBuffer_inv h1
  | RawBitmapBlock =>
    simp only [Decoder.decodeBlock, RawBitmapBlock.decode] at h
    obtain ⟨⟨d1, r1, buf⟩, h1, h⟩ := Except.bind_eq_ok h
    simp only [pure, Except.pure, Except.ok.injEq, Prod.mk.injEq] at h
    obtain ⟨-, rfl⟩ := h
    exact Decoder.decompressBuffer_inv h1
  | SolidColorBitmapBlock =>
    simp only [Decoder.decodeBlock, SolidColorBitmapBlock.decode] at h
    obtain ⟨⟨color, r1⟩, h1, h⟩ := Except.bind_eq_ok h
    simp only [pure, Except.pure, Except.ok.injEq, Prod.mk.injEq] at h
    obtain ⟨-, rfl⟩ := h
    exact readColor_inv h1
  | NullBitmapBlock =>
    simp only [Decoder.decodeBlock, NullBitmapBlock.decode, pure, Except.pure,
      Except.ok.injEq, Prod.mk.injEq] at h
    obtain ⟨-, rfl⟩ := h
    exact hrefl

/-- No block decoder reports a used-up budget: that error is the loop's. -/
theorem Decoder.decodeBlock_error {z : Zstd} {d : Decoder} {r : BufferReader}
    {block : FrameBlock} {err : Error} (h : d.decodeBlock z r block = .error err) :
    err = .bufferOverflow ∨ err = .zstdDstTooSmall := by
  cases block with
  | KeyFrameBlock => cases h
  | PaletteBlock =>
    simp only [Decoder.decodeBlock, PaletteBlock.decode] at h
    rcases Except.bind_eq_error h with h1 | ⟨⟨d1, r1, buf⟩, -, h⟩
    · exact Decoder.decompressBuffer_error h1
    dsimp only at h
    rcases Except.bind_eq_error h with h1 | ⟨⟨count, r2⟩, -, h⟩
    · exact Or.inl (BufferReader.readUInt8_error h1)
    dsimp only at h
    rcases Except.bind_eq_error h with h1 | ⟨⟨colors, r3⟩, -, h⟩
    · exact Or.inl (readColors_error _ _ _ h1)
    cases h
  | PaletteResetBlock => cases h
  | IndexedBitmapBlock =>
    simp only [Decoder.decodeBlock, IndexedBitmapBlock.decode] at h
    rcases Except.bind_eq_error h with h1 | ⟨⟨d1, r1, buf⟩, -, h⟩
    · exact Decoder.decompressBuffer_error h1
    dsimp only at h
    rcases Except.bind_eq_error h with h1 | ⟨⟨bits, r2⟩, -, h⟩
    · exact Or.inl (BufferReader.readUInt8_error h1)
    dsimp only at h
    rcases Except.bind_eq_error h with h1 | ⟨frame, -, h⟩
    · exact Or.inl (IndexedBitmapBlock.unpackLoop_error _ _ _ _ _ h1)
    cases h
  | RawBitmapBlock =>
    simp only [Decoder.decodeBlock, RawBitmapBlock.decode] at h
    rcases Except.bind_eq_error h with h1 | ⟨⟨d1, r1, buf⟩, -, h⟩
    · exact Decoder.decompressBuffer_error h1
    cases h
  | SolidColorBitmapBlock =>
    simp only [Decoder.decodeBlock, SolidColorBitmapBlock.decode] at h
    rcases Except.bind_eq_error h with h1 | ⟨⟨color, r1⟩, -, h⟩
    · exact Or.inl (readColor_error h1)
    cases h
  | NullBitmapBlock => cases h

/-- With a budget of as many iterations as octets are left, the loop of
`Decoder::decode` never stops for lack of budget. -/
theorem Decoder.decodeLoop_ne_outOfFuel {z : Zstd} : ∀ (fuel : Nat) (d : Decoder)
    (r : BufferReader), r.offset ≤ r.size → r.size - r.offset ≤ fuel →
    Decoder.decodeLoop z fuel d r ≠ .error .outOfFuel := by
  intro fuel
  induction fuel with
  | zero =>
    intro d r hr hf h
    unfold Decoder.decodeLoop at h
    rw [if_pos (by omega)] at h
    cases h
  | succ fuel ih =>
    intro d r hr hf h
    unfold Decoder.decodeLoop at h
    split at h
    · cases h
    · rcases Except.bind_eq_error h with h1 | ⟨⟨id, r1⟩, h1, h⟩
      · cases BufferReader.readUInt8_error h1
      dsimp only at h
      obtain ⟨a1, b1, c1⟩ := BufferReader.readUInt8_inv h1
      rcases Except.bind_eq_error h with h2 | ⟨block, -, h⟩
      · cases make_variant_impl_error _ _ _ _ h2
      rcases Except.bind_eq_error h with h3 | ⟨⟨d1, r2⟩, h3, h⟩
      · rcases Decoder.decodeBlock_error h3 with h4 | h4 <;> cases h4
      dsimp only at h
      obtain ⟨a2, b2, c2⟩ := Decoder.decodeBlock_inv c1 h3
      rcases Except.bind_eq_error h with h4 | ⟨⟨d2, more⟩, -, h⟩
      · refine ih d1 r2 c2 ?_ h4
        have hs : r2.size = r.size := by simp only [BufferReader.size, a2, a1]
        omega
      · cases h

/-- The call `decode` never fails for lack of iteration budget. -/
theorem Decoder.decode_ne_outOfFuel (z : Zstd) (d : Decoder) (inputBuffer : List Byte) :
    d.decode z inputBuffer ≠ .error .outOfFuel := by
  intro h
  unfold Decoder.decode at h
  rcases Except.bind_eq_error h with h1 | ⟨⟨d1, blocks⟩, -, h⟩
  · exact Decoder.decodeLoop_ne_outOfFuel inputBuffer.length _ ⟨inputBuffer, 0⟩
      (Nat.zero_le _) (by simp [BufferReader.size]) h1
  · cases h


/-! ### Block boundaries do not depend on the state of the decoder -/

theorem Decoder.decompressBuffer_reader {z : Zstd} {d d' : Decoder} {r' : BufferReader}
    {outputBuffer out : List Byte} (chunk : List Byte) (hlen : chunk.length < 2 ^ 32)
    (pre post : List Byte)
    (h : d.decompressBuffer z
      (BufferReader.between pre (littleEndian 4 chunk.length ++ chunk ++ post)) outputBuffer =
        .ok (d', r', out)) :
    r' = BufferReader.between (pre ++ (littleEndian 4 chunk.length ++ chunk)) post := by
  unfold Decoder.decompressBuffer at h
  rw [List.append_assoc, BufferReader.readUInt32_between, Nat.mod_eq_of_lt hlen] at h
  simp only [bind, Except.bind, BufferReader.advance_between] at h
  by_cases hc : chunk.length = 0
  · simp only [if_pos hc] at h
    split at h
    · cases h
    · simp only [pure, Except.pure, Except.ok.injEq, Prod.mk.injEq] at h
      obtain ⟨-, rfl, -⟩ := h
      rw [List.append_assoc]
  · simp only [if_neg hc] at h
    split at h
    · cases h
    · simp only [pure, Except.pure, Except.ok.injEq, Prod.mk.injEq] at h
      obtain ⟨-, rfl, -⟩ := h
      rw [List.append_assoc]

/-- A block decoder that returns leaves the cursor behind the payload of the
block, whatever the decoder holds. -/
theorem Decoder.decodeBlock_reader {z : Zstd} {d d' : Decoder} {r' : BufferReader}
    {block : FrameBlock} {payload : List Byte} (hp : block.Payload payload)
    (pre post : List Byte)
    (h : d.decodeBlock z (BufferReader.between pre (payload ++ post)) block = .ok (d', r')) :
    r' = BufferReader.between (pre ++ payload) post := by
  cases block with
  | KeyFrameBlock =>
    simp only [FrameBlock.Payload] at hp
    subst hp
    simp only [Decoder.decodeBlock, KeyFrameBlock.decode, pure, Except.pure, Except.ok.injEq,
      Prod.mk.injEq] at h
    obtain ⟨-, rfl⟩ := h
    simp
  | PaletteBlock =>
    obtain ⟨chunk, hlen, rfl⟩ := hp
    simp only [Decoder.decodeBlock, PaletteBlock.decode] at h
    obtain ⟨⟨d1, r1, buf⟩, h1, h⟩ := Except.bind_eq_ok h
    dsimp only at h
    obtain ⟨⟨count, r2⟩, h2, h⟩ := Except.bind_eq_ok h
    dsimp only at h
    obtain ⟨⟨colors, r3⟩, h3, h⟩ := Except.bind_eq_ok h
    simp only [pure, Except.pure, Except.ok.injEq, Prod.mk.injEq] at h
    obtain ⟨-, rfl⟩ := h
    exact Decoder.decompressBuffer_reader chunk hlen pre post h1
  | PaletteResetBlock =>
    simp only [FrameBlock.Payload] at hp
    subst hp
    simp only [Decoder.decodeBlock, PaletteResetBlock.decode, pure, Except.pure,
      Except.ok.injEq, Prod.mk.injEq] at h
    obtain ⟨-, rfl⟩ := h
    simp
  | IndexedBitmapBlock =>
    obtain ⟨chunk, hlen, rfl⟩ := hp
    simp only [Decoder.decodeBlock, IndexedBitmapBlock.decode] at h
    obtain ⟨⟨d1, r1, buf⟩, h1, h⟩ := Except.bind_eq_ok h
    dsimp only at h
    obtain ⟨⟨bits, r2⟩, h2, h⟩ := Except.bind_eq_ok h
    dsimp only at h
    obtain ⟨frame, h3, h⟩ := Except.bind_eq_ok h
    simp only [pure, Except.pure, Except.ok.injEq, Prod.mk.injEq] at h
    obtain ⟨-, rfl⟩ := h
    exact Decoder.decompressBuffer_reader chunk hlen pre post h1
  | RawBitmapBlock =>
    obtain ⟨chunk, hlen, rfl⟩ := hp
    simp only [Decoder.decodeBlock, RawBitmapBlock.decode] at h
    obtain ⟨⟨d1, r1, buf⟩, h1, h⟩ := Except.bind_eq_ok h
    simp only [pure, Except.pure, Except.ok.injEq, Prod.mk.injEq] at h
    obtain ⟨-, rfl⟩ := h
    exact Decoder.decompressBuffer_reader chunk hlen pre post h1
  | SolidColorBitmapBlock =>
    obtain ⟨color, rfl⟩ := hp
    simp only [Decoder.decodeBlock, SolidColorBitmapBlock.decode, List.cons_append,
      List.nil_append, readColor_between, bind, Except.bind, pure, Except.pure,
      Except.ok.injEq, Prod.mk.injEq] at h
    obtain ⟨-, rfl⟩ := h
    rfl
  | NullBitmapBlock =>
    simp only [FrameBlock.Payload] at hp
    subst hp
    simp only [Decoder.decodeBlock, NullBitmapBlock.decode, pure, Except.pure,
      Except.ok.injEq, Prod.mk.injEq] at h
    obtain ⟨-, rfl⟩ := h
    simp

/-- On well-formed octets the loop of `decode`, when it returns, has
dispatched exactly the blocks they are made of, whatever the decoder held. -/
theorem Decoder.decodeLoop_tagged {z : Zstd} {bytes : List Byte} {blocks : List FrameBlock}
    (ht : Tagged bytes blocks) : ∀ (fuel : Nat) (d : Decoder) (pre : List Byte) (last : Decoder)
    (all : List FrameBlock),
    Decoder.decodeLoop z fuel d (BufferReader.between pre bytes) = .ok (last, all) →
    all = blocks := by
  induction ht with
  | nil =>
    intro fuel d pre last all h
    rw [Decoder.decodeLoop_done] at h
    simp only [Except.ok.injEq, Prod.mk.injEq] at h
    exact h.2.symm
  | cons block payload rest more hp _ ih =>
    intro fuel d pre last all h
    have hne : ¬ (BufferReader.between pre
        (toUInt8 (variant_type_index block) :: (payload ++ rest))).offset =
        (BufferReader.between pre (toUInt8 (variant_type_index block) :: (payload ++ rest))).size := by
      rw [BufferReader.between_offset_eq_size]
      simp
    cases fuel with
    | zero =>
      simp only [Decoder.decodeLoop, if_neg hne] at h
      cases h
    | succ fuel =>
      simp only [Decoder.decodeLoop, if_neg hne, BufferReader.readUInt8_between, bind,
        Except.bind, make_variant_index] at h
      cases hb : d.decodeBlock z
          (BufferReader.between (pre ++ [toUInt8 (variant_type_index block)]) (payload ++ rest))
          block with
      | error err => rw [hb] at h; cases h
      | ok p =>
        obtain ⟨d1, r1⟩ := p
        rw [hb] at h
        simp only at h
        have hr := Decoder.decodeBlock_reader hp _ _ hb
        subst hr
        cases hl : Decoder.decodeLoop z fuel d1
            (BufferReader.between (pre ++ [toUInt8 (variant_type_index block)] ++ payload) rest) with
        | error err => rw [hl] at h; cases h
        | ok q =>
          obtain ⟨d2, bs⟩ := q
          rw [hl] at h
          simp only [pure, Except.pure, Except.ok.injEq, Prod.mk.injEq] at h
          obtain ⟨-, rfl⟩ := h
          rw [ih fuel d1 _ d2 bs hl]

/-- Whatever a decoder holds, when `decode` returns on the output of an
`encode` call it has dispatched the blocks that call wrote and returns the
key-frame flag that call returned. -/
theorem FrameStep.decode_same_keyFrame {z : Zstd} {e : Encoder} {bitmap : List Color}
    {keyFrame : Bool} {enc : Encoded} {blocks : List FrameBlock}
    (hstep : FrameStep z e bitmap keyFrame enc blocks) {d : Decoder} {dec : Decoded}
    (h : d.decode z enc.output = .ok dec) :
    dec.blocks = blocks ∧ dec.result.keyFrame = enc.result.keyFrame := by
  have hblocks : dec.blocks = blocks := by
    have h' := h
    unfold Decoder.decode at h'
    obtain ⟨⟨d1, bs⟩, h1, h'⟩ := Except.bind_eq_ok h'
    simp only [pure, Except.pure, Except.ok.injEq] at h'
    subst h'
    exact Decoder.decodeLoop_tagged hstep.tagged _ _ [] _ _ h1
  refine ⟨hblocks, ?_⟩
  have hiff := Decoder.decode_keyFrame h
  rw [hblocks] at hiff
  have hhead := hstep.head
  have htail := hstep.tail
  cases hb : blocks with
  | nil => exact absurd hb hstep.nonempty
  | cons k more =>
    rw [hb] at hiff hhead htail
    simp only [List.head?_cons, Option.some.injEq, List.tail_cons, List.mem_cons] at hiff hhead htail
    have hmore : FrameBlock.KeyFrameBlock ∉ more := fun hm => htail _ hm rfl
    cases hd : dec.result.keyFrame <;> cases he : enc.result.keyFrame
    · rfl
    · exfalso
      have hk := hhead.1 he
      have := hiff.2 (Or.inl hk.symm)
      rw [hd] at this
      cases this
    · exfalso
      rcases hiff.1 hd with hk | hm
      · have := hhead.2 hk.symm
        rw [he] at this
        cases this
      · exact hmore hm
    · rfl

theorem encodeAll_steps {z : Zstd} : ∀ (frames : List (List Color × Bool)) (e : Encoder)
    (encs : List Encoded), e.Inv → (∀ f ∈ frames, f.1.length = e.bitmapInfo.pixelCount) →
    encodeAll z e frames = .ok encs →
    ∀ enc ∈ encs, ∃ e' bitmap keyFrame blocks, FrameStep z e' bitmap keyFrame enc blocks := by
  intro frames
  induction frames with
  | nil =>
    intro e encs _ _ h
    simp only [encodeAll, pure, Except.pure] at h
    cases h
    exact fun _ hm => absurd hm (List.not_mem_nil _)
  | cons f rest ih =>
    intro e encs hinv hframes h
    obtain ⟨bitmap, keyFrame⟩ := f
    obtain ⟨enc, more, h1, h2, rfl⟩ := encodeAll_cons_inv h
    obtain ⟨blocks, hstep⟩ := Encoder.encode_inv hinv (hframes _ (List.mem_cons_self _ _)) h1
    intro x hx
    rcases List.mem_cons.1 hx with rfl | hx
    · exact ⟨e, bitmap, keyFrame, blocks, hstep⟩
    · exact ih enc.encoder more hstep.inv
        (fun f hf => by rw [hstep.bitmapInfo]; exact hframes f (List.mem_cons_of_mem _ hf)) h2 x hx

/-- C4: the `keyFrame` field returned by `decode` is true exactly when a
KeyFrame block was dispatched while decoding that buffer, whatever the result
of the previous call was; hence for every byte frame produced by `encode` (in
any stream of calls on a fresh encoder), the `keyFrame` returned by `decode`
on that frame, by a decoder in any state, equals the `keyFrame` returned by
`encode`.  With a lossless codec and an output buffer below 4 GiB, a fresh
decoder fed the frames in order does return on each. -/
theorem decode_key_frame (z : Zstd) (bitmapInfo : BitmapInfo) (settings : EncoderSettings)
    (frames : List (List Color × Bool))
    (hframes : ∀ f ∈ frames, f.1.length = bitmapInfo.width * bitmapInfo.height)
    (encs : List Encoded)
    (henc : encodeAll z (Encoder.construct bitmapInfo settings) frames = .ok encs) :
    (∀ (d : Decoder) (inputBuffer : List Byte) (dec : Decoded),
      d.decode z inputBuffer = .ok dec →
      (dec.result.keyFrame = true ↔ FrameBlock.KeyFrameBlock ∈ dec.blocks)) ∧
    (∀ enc ∈ encs, ∀ (d : Decoder) (dec : Decoded), d.decode z enc.output = .ok dec →
      dec.result.keyFrame = enc.result.keyFrame) ∧
    (z.Lossless → (Encoder.construct bitmapInfo settings).safeOutputBufferSize z < 2 ^ 32 →
      ∃ decs, decodeAll z (Decoder.construct bitmapInfo) (encs.map (fun enc => enc.output)) =
          .ok decs ∧
        decs.map (fun dec => dec.result.keyFrame) =
          encs.map (fun enc => enc.result.keyFrame)) := by
  refine ⟨fun d inputBuffer dec h => Decoder.decode_keyFrame h, ?_, ?_⟩
  · intro enc hmem d dec h
    obtain ⟨e', bitmap, keyFrame, blocks, hstep⟩ := encodeAll_steps frames _ encs
      (Encoder.construct_inv bitmapInfo settings) hframes henc enc hmem
    exact (hstep.decode_same_keyFrame h).2
  · intro hz hfit
    obtain ⟨decs, h1, -, h3⟩ := stream_sync hz frames _ (Decoder.construct bitmapInfo) encs
      (Encoder.construct_inv bitmapInfo settings) hfit (Decoder.construct_decoder_inv bitmapInfo)
      hframes (Or.inl (Sync.construct z bitmapInfo settings)) henc
    exact ⟨decs, h1, h3⟩

/-- Witness for C4 on `streamExample` without a palette: the blocks each
`decode` call dispatches and the flag it returns. -/
theorem decode_key_frame_witness :
    (match decodeAll Zstd.store (Decoder.construct ⟨2, 1⟩)
        ((encodedStream Zstd.store ⟨2, 1⟩ ⟨false, 18, 1⟩ streamExample).map
          (fun enc => enc.output)) with
      | .ok decs => decs.map (fun dec => (dec.result.keyFrame, dec.blocks))
      | .error _ => []) =
      [(true, [.KeyFrameBlock, .RawBitmapBlock]), (false, [.NullBitmapBlock]),
       (true, [.KeyFrameBlock, .RawBitmapBlock]), (false, [.RawBitmapBlock])] ∧
    (encodedStream Zstd.store ⟨2, 1⟩ ⟨false, 18, 1⟩ streamExample).map
      (fun enc => enc.result.keyFrame) = [true, false, true, false] ∧
    (∀ (d : Decoder) (inputBuffer : List Byte) (dec : Decoded),
      d.decode Zstd.store inputBuffer = .ok dec →
      (dec.result.keyFrame = true ↔ FrameBlock.KeyFrameBlock ∈ dec.blocks)) ∧
    (∀ enc ∈ encodedStream Zstd.store ⟨2, 1⟩ ⟨false, 18, 1⟩ streamExample,
      ∀ (d : Decoder) (dec : Decoded), d.decode Zstd.store enc.output = .ok dec →
      dec.result.keyFrame = enc.result.keyFrame) ∧
    (Zstd.store.Lossless →
      (Encoder.construct ⟨2, 1⟩ ⟨false, 18, 1⟩).safeOutputBufferSize Zstd.store < 2 ^ 32 →
      ∃ decs, decodeAll Zstd.store (Decoder.construct ⟨2, 1⟩)
          ((encodedStream Zstd.store ⟨2, 1⟩ ⟨false, 18, 1⟩ streamExample).map
            (fun enc => enc.output)) = .ok decs ∧
        decs.map (fun dec => dec.result.keyFrame) =
          (encodedStream Zstd.store ⟨2, 1⟩ ⟨false, 18, 1⟩ streamExample).map
            (fun enc => enc.result.keyFrame)) :=
  ⟨by decide, by decide,
    decode_key_frame Zstd.store ⟨2, 1⟩ ⟨false, 18, 1⟩ streamExample (by decide)
      (encodedStream Zstd.store ⟨2, 1⟩ ⟨false, 18, 1⟩ streamExample) rfl⟩

/-! ### Blocks of 4 GiB and more -/

/-- A Raw block as any decoder reads it, lossless codec or not. -/
theorem RawBitmapBlock.decodesTo_chunk (z : Zstd) (d : Decoder) (chunk : List Byte)
    (hlen : chunk.length < 2 ^ 32) (hne : chunk ≠ [])
    (hout : (z.decompress d.zstdDecompressor chunk).length ≤
      (colorsToBytes d.frameBitmap).length) :
    DecodesTo z d
      (toUInt8 (variant_type_index .RawBitmapBlock) :: (littleEndian 4 chunk.length ++ chunk))
      [.RawBitmapBlock]
      { d with
        zstdDecompressor := chunk :: d.zstdDecompressor
        frameBitmap := bytesToColors (z.decompress d.zstdDecompressor chunk ++
          (colorsToBytes d.frameBitmap).drop (z.decompress d.zstdDecompressor chunk).length) } := by
  refine DecodesTo.block .RawBitmapBlock _ (fun pre post => ?_)
  have hpos : chunk.length ≠ 0 := fun h => hne (List.length_eq_zero.1 h)
  have htake : List.take chunk.length (chunk ++ post) = chunk := by
    rw [List.take_append_of_le_length (Nat.le_refl _), List.take_length]
  simp only [Decoder.decodeBlock, RawBitmapBlock.decode, Decoder.decompressBuffer,
    List.append_assoc, BufferReader.readUInt32_between, Nat.mod_eq_of_lt hlen, bind, Except.bind,
    BufferReader.between_remaining, htake, if_neg hpos, if_neg (Nat.not_lt.2 hout),
    BufferReader.advance_between, pure, Except.pure, List.singleton_append, List.cons_append,
    List.nil_append]

/-- The first frame of a stream without palette: a KeyFrame block and a Raw
block. -/
theorem Encoder.encode_first_raw (z : Zstd) (bitmapInfo : BitmapInfo)
    (settings : EncoderSettings) (hpal : settings.usePalette = false) (frame : List Color)
    (keyFrame : Bool) (hlen : frame.length = bitmapInfo.width * bitmapInfo.height)
    (hcap : 2 + 4 + (if colorsToBytes frame = [] then []
        else z.compress [] (colorsToBytes frame)).length ≤
      (Encoder.construct bitmapInfo settings).safeOutputBufferSize z) :
    ∃ enc, (Encoder.construct bitmapInfo settings).encode z frame keyFrame = .ok enc ∧
      enc.result.keyFrame = true ∧
      enc.output = toUInt8 (variant_type_index .KeyFrameBlock) ::
        toUInt8 (variant_type_index .RawBitmapBlock) :: z.framed [] (colorsToBytes frame) := by
  have htake : frame.take (bitmapInfo.width * bitmapInfo.height) = frame :=
    List.take_of_length_le (Nat.le_of_eq hlen)
  generalize hS : (Encoder.construct bitmapInfo settings).safeOutputBufferSize z = safe at hcap
  have hbi : ∀ e : Encoder, e.bitmapInfo = bitmapInfo → e.safeOutputBufferSize z = safe := by
    intro e he
    rw [← hS]
    simp only [Encoder.safeOutputBufferSize, he, Encoder.construct]
  unfold Encoder.encode
  rw [hbi _ rfl]
  simp only [Encoder.construct, if_true]
  rw [writeBlock_ok _ _ _ (by simp only [BufferWriter.offset, List.length_nil]; omega)]
  simp only [KeyFrameBlock.encode, pure, Except.pure, bind, Except.bind, Encoder.reset,
    Encoder.resetPalette, ne_eq, not_true_eq_false, false_and, if_false,
    Encoder.encodeBitmap, hpal, Bool.false_eq_true, Encoder.copyFrameBitmap, htake]
  rw [writeBlock_ok _ _ _ (by
    simp only [BufferWriter.offset, List.length_nil, List.nil_append, List.length_singleton]
    omega)]
  unfold RawBitmapBlock.encode
  rw [Encoder.compressBuffer_framed_ok _ _ _ _ (by
    simp only [BufferWriter.offset, List.length_nil, List.nil_append, List.length_singleton,
      List.length_append]
    omega)]
  exact ⟨_, rfl, rfl, rfl⟩

/-- A frame without palette whose `3 * N` octets compress to `2 ^ 32 + 2`
octets: the 32-bit length in front of the block is 2, two octets follow, and
the decoder returns a frame of its own. -/
theorem raw_block_truncated (N M : Nat) (hN : N = M + 1) (h3 : 3 * N = 2 ^ 32 + 2)
    (c : Color) (keyFrame : Bool) :
    ∃ encs decs,
      encodeAll Zstd.store (Encoder.construct ⟨N, 1⟩ ⟨false, 18, 1⟩)
        [(List.replicate N c, keyFrame)] = .ok encs ∧
      encs.map (fun enc => enc.output) = [[0, 4, 2, 0, 0, 0, c.r, c.g]] ∧
      encs.map (fun enc => enc.result.keyFrame) = [true] ∧
      decodeAll Zstd.store (Decoder.construct ⟨N, 1⟩) (encs.map (fun enc => enc.output)) =
        .ok decs ∧
      decs.map (fun dec => dec.bitmap) = [⟨c.r, c.g, 0⟩ :: List.replicate M Color.zero] := by
  subst hN
  have hbytes : colorsToBytes (List.replicate (M + 1) c) =
      c.r :: c.g :: c.b :: colorsToBytes (List.replicate M c) := by
    rw [List.replicate_succ, colorsToBytes]
  have hblen : (colorsToBytes (List.replicate (M + 1) c)).length = 2 ^ 32 + 2 := by
    rw [colorsToBytes_length, List.length_replicate, h3]
  have hne : colorsToBytes (List.replicate (M + 1) c) ≠ [] := by
    rw [hbytes]; exact List.cons_ne_nil _ _
  have hframed : Zstd.store.framed [] (colorsToBytes (List.replicate (M + 1) c)) =
      [2, 0, 0, 0, c.r, c.g] := by
    have hmod : (2 ^ 32 + 2) % 2 ^ 32 = 2 := by norm_num
    have hle : littleEndian 4 2 = [2, 0, 0, 0] := by decide
    simp only [Zstd.framed, Zstd.store, if_neg hne, hblen, hmod, hle]
    rw [hbytes]
    rfl
  have hsafe : 2 + 4 + (if colorsToBytes (List.replicate (M + 1) c) = [] then []
        else Zstd.store.compress [] (colorsToBytes (List.replicate (M + 1) c))).length ≤
      (Encoder.construct ⟨M + 1, 1⟩ ⟨false, 18, 1⟩).safeOutputBufferSize Zstd.store := by
    rw [if_neg hne]
    have hc : (Zstd.store.compress [] (colorsToBytes (List.replicate (M + 1) c))).length =
        2 ^ 32 + 2 := hblen
    rw [hc]
    simp only [Encoder.safeOutputBufferSize, Encoder.construct, RawBitmapBlock.maxSize,
      Zstd.store, Nat.mul_one]
    have h1 := Nat.le_max_left
      (max (1 + (4 + PaletteResetBlock.maxSize) + (1 + (4 + PaletteBlock.maxSize)) +
          (1 + (4 + IndexedBitmapBlock.maxSize ⟨M + 1, 1⟩)))
        (1 + (4 + (M + 1) * 3)))
      (1 + SolidColorBitmapBlock.maxSize)
    have h2 := Nat.le_max_right
      (1 + (4 + PaletteResetBlock.maxSize) + (1 + (4 + PaletteBlock.maxSize)) +
          (1 + (4 + IndexedBitmapBlock.maxSize ⟨M + 1, 1⟩)))
      (1 + (4 + (M + 1) * 3))
    omega
  obtain ⟨enc, henc, hkf, hout⟩ := Encoder.encode_first_raw Zstd.store ⟨M + 1, 1⟩ ⟨false, 18, 1⟩
    rfl (List.replicate (M + 1) c) keyFrame
    (by simp only [List.length_replicate, Nat.mul_one]) hsafe
  rw [hframed] at hout
  have hout' : enc.output = [0, 4, 2, 0, 0, 0, c.r, c.g] := hout
  have hdfb : (colorsToBytes (Decoder.construct ⟨M + 1, 1⟩).frameBitmap) =
      0 :: 0 :: 0 :: colorsToBytes (List.replicate M Color.zero) := by
    show colorsToBytes (List.replicate ((M + 1) * 1) Color.zero) = _
    rw [Nat.mul_one, List.replicate_succ]
    rfl
  have hraw := RawBitmapBlock.decodesTo_chunk Zstd.store
    ({ ({ Decoder.construct ⟨M + 1, 1⟩ with result := {} } : Decoder).reset with
      result := { ({ Decoder.construct ⟨M + 1, 1⟩ with result := {} } : Decoder).reset.result with
        keyFrame := true } })
    [c.r, c.g] (by norm_num) (List.cons_ne_nil _ _) (by
      show (2 : Nat) ≤ (colorsToBytes (Decoder.construct ⟨M + 1, 1⟩).frameBitmap).length
      rw [hdfb]
      simp only [List.length_cons]
      omega)
  have hall := DecodesTo.decodes_trans
    (KeyFrameBlock.keyFrame_decodesTo Zstd.store { Decoder.construct ⟨M + 1, 1⟩ with result := {} }) hraw
  have hdec := Decoder.decode_of_decodesTo hall (by
    simp only [List.length_append, List.length_cons, List.length_nil, littleEndian_length]
    omega)
  have hbs : ([toUInt8 (variant_type_index .KeyFrameBlock)] ++
      (toUInt8 (variant_type_index .RawBitmapBlock) ::
        (littleEndian 4 [c.r, c.g].length ++ [c.r, c.g]))) = [0, 4, 2, 0, 0, 0, c.r, c.g] := by
    have hle : littleEndian 4 2 = [2, 0, 0, 0] := by decide
    simp only [List.length_cons, List.length_nil, Nat.zero_add, Nat.reduceAdd, hle]
    rfl
  rw [hbs] at hdec
  obtain ⟨dec, hdec1, hbm⟩ : ∃ dec,
      (Decoder.construct ⟨M + 1, 1⟩).decode Zstd.store [0, 4, 2, 0, 0, 0, c.r, c.g] = .ok dec ∧
      dec.bitmap = ⟨c.r, c.g, 0⟩ :: List.replicate M Color.zero := by
    refine ⟨_, hdec, ?_⟩
    show bytesToColors (([c.r, c.g] : List Byte) ++
      (colorsToBytes (Decoder.construct ⟨M + 1, 1⟩).frameBitmap).drop 2) = _
    rw [hdfb]
    show bytesToColors (c.r :: c.g :: 0 :: colorsToBytes (List.replicate M Color.zero)) = _
    rw [bytesToColors, bytesToColors_colorsToBytes]
  refine ⟨[enc], [dec], ?_, ?_, ?_, ?_, ?_⟩
  · simp only [encodeAll, henc, bind, Except.bind, pure, Except.pure]
  · simp only [List.map_cons, List.map_nil, hout']
  · simp only [List.map_cons, List.map_nil, hkf]
  · simp only [List.map_cons, List.map_nil, hout', decodeAll, hdec1, bind, Except.bind, pure,
      Except.pure]
  · simp only [List.map_cons, List.map_nil, hbm]

/-- Counterexample to C1 as stated: with the lossless codec `Zstd.store`, one
frame of 1431655766 pixels of colour (1, 1, 1) without palette, 4294967298
octets, is written with 2 as its 32-bit length, and a fresh decoder fed the
byte frame returns a frame that starts with the colour (1, 1, 0). -/
theorem round_trip_fails_beyond_4GiB :
    Zstd.store.Lossless ∧
    (List.replicate 1431655766 (⟨1, 1, 1⟩ : Color)).length = 1431655766 * 1 ∧
    ∃ encs decs,
      encodeAll Zstd.store (Encoder.construct ⟨1431655766, 1⟩ ⟨false, 18, 1⟩)
        [(List.replicate 1431655766 ⟨1, 1, 1⟩, false)] = .ok encs ∧
      encs.map (fun enc => enc.output) = [[0, 4, 2, 0, 0, 0, 1, 1]] ∧
      decodeAll Zstd.store (Decoder.construct ⟨1431655766, 1⟩)
        (encs.map (fun enc => enc.output)) = .ok decs ∧
      decs.map (fun dec => dec.bitmap) ≠
        [(List.replicate 1431655766 (⟨1, 1, 1⟩ : Color), false)].map (fun f => f.1) := by
  refine ⟨Zstd.store_lossless, by rw [List.length_replicate], ?_⟩
  obtain ⟨encs, decs, h1, h2, -, h4, h5⟩ :=
    raw_block_truncated 1431655766 1431655765 rfl (by norm_num) ⟨1, 1, 1⟩ false
  refine ⟨encs, decs, h1, h2, h4, ?_⟩
  rw [h5]
  intro h
  have hh := congrArg (fun l => (l.head?.bind (fun f => f.head?)).map (fun x => x.b)) h
  have hr : (List.replicate 1431655766 (⟨1, 1, 1⟩ : Color)).head? = some ⟨1, 1, 1⟩ := by
    rw [List.head?_replicate, if_neg (by norm_num)]
  simp only [List.map_cons, List.map_nil, List.head?_cons, Option.bind_some, Option.map_some',
    hr] at hh
  exact absurd hh (by decide)

/-- Counterexample to C2 as stated: with the lossless codec `Zstd.store`, a
stream of one requested key frame of 1431655766 pixels of colour (2, 3, 4)
without palette; `encode` returns `keyFrame = true` for it, and a fresh
decoder fed the byte frames from this one on returns a frame that starts with
the colour (2, 3, 0). -/
theorem key_frame_independence_fails_beyond_4GiB :
    Zstd.store.Lossless ∧
    (List.replicate 1431655766 (⟨2, 3, 4⟩ : Color)).length = 1431655766 * 1 ∧
    ∃ encs decs,
      encodeAll Zstd.store (Encoder.construct ⟨1431655766, 1⟩ ⟨false, 18, 1⟩)
        [(List.replicate 1431655766 ⟨2, 3, 4⟩, true)] = .ok encs ∧
      (encs.drop 0).head?.map (fun enc => enc.result.keyFrame) = some true ∧
      decodeAll Zstd.store (Decoder.construct ⟨1431655766, 1⟩)
        ((encs.drop 0).map (fun enc => enc.output)) = .ok decs ∧
      decs.map (fun dec => dec.bitmap) ≠
        ([(List.replicate 1431655766 (⟨2, 3, 4⟩ : Color), true)].drop 0).map (fun f => f.1) := by
  refine ⟨Zstd.store_lossless, by rw [List.length_replicate], ?_⟩
  obtain ⟨encs, decs, h1, -, h3, h4, h5⟩ :=
    raw_block_truncated 1431655766 1431655765 rfl (by norm_num) ⟨2, 3, 4⟩ true
  refine ⟨encs, decs, h1, ?_, h4, ?_⟩
  · cases encs with
    | nil => cases h3
    | cons enc more =>
      simp only [List.map_cons, List.cons.injEq] at h3
      simp only [List.drop_zero, List.head?_cons, Option.map_some', h3.1]
  · rw [h5]
    intro h
    have hh := congrArg (fun l => (l.head?.bind (fun f => f.head?)).map (fun x => x.b)) h
    have hr : (List.replicate 1431655766 (⟨2, 3, 4⟩ : Color)).head? = some ⟨2, 3, 4⟩ := by
      rw [List.head?_replicate, if_neg (by norm_num)]
    simp only [List.drop_zero, List.map_cons, List.map_nil, List.head?_cons, Option.bind_some,
      Option.map_some', hr] at hh
    exact absurd hh (by decide)

/-! ### `Palette::bits`, block tags, cursors, the range constructor -/

/-- C11: for a palette of size `s ≤ 256`, `Palette::bits` returns the smallest
`b` in {0, 1, 2, 4, 8} with `2 ^ b ≥ s` (0 for `s ≤ 1`, 1 for `s = 2`, 2 for
`s` in 3..4, 4 for `s` in 5..16, 8 for `s` in 17..256); for `s > 256` it fails
with the invalid-palette error instead of returning a value. -/
theorem palette_bits (p : Palette) :
    (p.size ≤ 256 → ∃ b, p.bits = .ok b ∧
      (b = 0 ∨ b = 1 ∨ b = 2 ∨ b = 4 ∨ b = 8) ∧ p.size ≤ 2 ^ b ∧
      (∀ b', (b' = 0 ∨ b' = 1 ∨ b' = 2 ∨ b' = 4 ∨ b' = 8) → p.size ≤ 2 ^ b' → b ≤ b') ∧
      (p.size ≤ 1 → b = 0) ∧ (p.size = 2 → b = 1) ∧ (3 ≤ p.size → p.size ≤ 4 → b = 2) ∧
      (5 ≤ p.size → p.size ≤ 16 → b = 4) ∧ (17 ≤ p.size → b = 8)) ∧
    (256 < p.size → p.bits = .error .invalidPalette) := by
  constructor
  · intro hs
    unfold Palette.bits
    split_ifs with h1 h2 h3 h4
    · refine ⟨0, rfl, Or.inl rfl, by simpa using h1, fun b' _ _ => Nat.zero_le _, ?_, ?_, ?_, ?_,
        ?_⟩
      all_goals intros; omega
    · refine ⟨1, rfl, Or.inr (Or.inl rfl), by simpa using h2, ?_, ?_, ?_, ?_, ?_, ?_⟩
      · rintro b' (rfl | rfl | rfl | rfl | rfl) hb' <;> omega
      all_goals intros; omega
    · refine ⟨2, rfl, Or.inr (Or.inr (Or.inl rfl)), by simpa using h3, ?_, ?_, ?_, ?_, ?_, ?_⟩
      · rintro b' (rfl | rfl | rfl | rfl | rfl) hb' <;> omega
      all_goals intros; omega
    · refine ⟨4, rfl, Or.inr (Or.inr (Or.inr (Or.inl rfl))), by simpa using h4, ?_, ?_, ?_, ?_, ?_,
        ?_⟩
      · rintro b' (rfl | rfl | rfl | rfl | rfl) hb' <;> omega
      all_goals intros; omega
    · refine ⟨8, rfl, Or.inr (Or.inr (Or.inr (Or.inr rfl))), by simpa using hs, ?_, ?_, ?_, ?_, ?_,
        ?_⟩
      · rintro b' (rfl | rfl | rfl | rfl | rfl) hb' <;> omega
      all_goals intros; omega
  · intro hs
    unfold Palette.bits
    rw [if_neg (by omega), if_neg (by omega), if_neg (by omega), if_neg (by omega),
      if_neg (by omega)]

/-- Witness for C11: five colours need 4 bits, 257 colours are refused. -/
theorem palette_bits_witness :
    (Palette.ofSize 5).bits = .ok 4 ∧
    (∃ b, (Palette.ofSize 5).bits = .ok b ∧
      (b = 0 ∨ b = 1 ∨ b = 2 ∨ b = 4 ∨ b = 8) ∧ (Palette.ofSize 5).size ≤ 2 ^ b ∧
      (∀ b', (b' = 0 ∨ b' = 1 ∨ b' = 2 ∨ b' = 4 ∨ b' = 8) →
        (Palette.ofSize 5).size ≤ 2 ^ b' → b ≤ b') ∧
      ((Palette.ofSize 5).size ≤ 1 → b = 0) ∧ ((Palette.ofSize 5).size = 2 → b = 1) ∧
      (3 ≤ (Palette.ofSize 5).size → (Palette.ofSize 5).size ≤ 4 → b = 2) ∧
      (5 ≤ (Palette.ofSize 5).size → (Palette.ofSize 5).size ≤ 16 → b = 4) ∧
      (17 ≤ (Palette.ofSize 5).size → b = 8)) ∧
    (Palette.ofSize 257).bits = .error .invalidPalette :=
  ⟨rfl, (palette_bits (Palette.ofSize 5)).1 (by simp [Palette.size, Palette.ofSize]),
    (palette_bits (Palette.ofSize 257)).2 (by
      show 256 < (List.replicate 257 Color.zero).length
      rw [List.length_replicate]; decide)⟩

theorem make_variant_impl_none : ∀ (alternatives : List FrameBlock) (current index : Nat),
    current + alternatives.length ≤ index →
    make_variant_impl current alternatives index = .error .invalidVariantIndex := by
  intro alternatives
  induction alternatives with
  | nil => intro current index _; rfl
  | cons a rest ih =>
    intro current index h
    simp only [List.length_cons] at h
    unfold make_variant_impl
    rw [if_neg (by omega)]
    exact ih _ _ (by omega)

/-- A tag above 6 names no block kind. -/
theorem make_variant_unknown (index : Nat) (h : 6 < index) :
    make_variant index = .error .invalidVariantIndex := by
  apply make_variant_impl_none
  simp only [FrameBlock.alternatives, List.length_cons, List.length_nil]
  omega

/-- C12: the tag of a block kind is its zero-based position in the list
KeyFrame, Palette, PaletteReset, IndexedBitmap, RawBitmap, SolidColorBitmap,
NullBitmap; `writeBlock` writes that octet in front of the block; the
decoder's `make_variant` at a tag `t` in 0..6 builds the kind at position `t`,
in particular the kind itself at `variant_type_index` of a kind, and the
visitor runs the `decode` routine of that kind. -/
theorem block_tags :
    FrameBlock.alternatives = [.KeyFrameBlock, .PaletteBlock, .PaletteResetBlock,
      .IndexedBitmapBlock, .RawBitmapBlock, .SolidColorBitmapBlock, .NullBitmapBlock] ∧
    FrameBlock.alternatives.map variant_type_index = [0, 1, 2, 3, 4, 5, 6] ∧
    (∀ kind : FrameBlock, FrameBlock.alternatives[variant_type_index kind]? = some kind) ∧
    (∀ (kind : FrameBlock) (w : BufferWriter)
        (encode : BufferWriter → Except Error (Encoder × BufferWriter)),
      writeBlock kind w encode =
        if w.offset + 1 > w.size then .error .bufferOverflow
        else encode ⟨w.written ++ [toUInt8 (variant_type_index kind)], w.size⟩) ∧
    (List.range 7).map make_variant = FrameBlock.alternatives.map Except.ok ∧
    (∀ kind : FrameBlock, make_variant (variant_type_index kind) = .ok kind) ∧
    (∀ kind : FrameBlock, make_variant (toUInt8 (variant_type_index kind)).val = .ok kind) ∧
    (∀ (z : Zstd) (d : Decoder) (r : BufferReader),
      d.decodeBlock z r .KeyFrameBlock = KeyFrameBlock.decode d r ∧
      d.decodeBlock z r .PaletteBlock = PaletteBlock.decode z d r ∧
      d.decodeBlock z r .PaletteResetBlock = PaletteResetBlock.decode d r ∧
      d.decodeBlock z r .IndexedBitmapBlock = IndexedBitmapBlock.decode z d r ∧
      d.decodeBlock z r .RawBitmapBlock = RawBitmapBlock.decode z d r ∧
      d.decodeBlock z r .SolidColorBitmapBlock = SolidColorBitmapBlock.decode d r ∧
      d.decodeBlock z r .NullBitmapBlock = NullBitmapBlock.decode d r) := by
  refine ⟨rfl, rfl, fun kind => by cases kind <;> rfl, ?_, rfl, fun kind => by cases kind <;> rfl,
    make_variant_index, fun z d r => ⟨rfl, rfl, rfl, rfl, rfl, rfl, rfl⟩⟩
  intro kind w encode
  unfold writeBlock BufferWriter.writeUInt8 BufferWriter.write
  by_cases h : w.offset + 1 > w.size
  · simp only [if_pos h, bind, Except.bind]
  · simp only [if_neg h, bind, Except.bind, littleEndian]

/-- C19: a `BufferWriter` or `BufferReader` over `S` octets at offset `o`
writes or reads an integer of `w` octets (1, 2, 4 or 8, and any other width)
exactly when `o + w ≤ S`; the offset then advances by `w`, what was written
before stays, and the octets read are the `w` octets at the cursor.  When
`o + w > S` the call fails with the out-of-range error before anything is
changed: no new cursor or buffer results. -/
theorem cursor_bounds (width value : Nat) (w : BufferWriter) (r : BufferReader) :
    (w.offset + width ≤ w.size →
      ∃ w', w.write width value = .ok w' ∧ w'.offset = w.offset + width ∧ w'.size = w.size ∧
        w'.written.take w.offset = w.written ∧
        w'.written.drop w.offset = littleEndian width value) ∧
    (w.offset + width > w.size → w.write width value = .error .bufferOverflow) ∧
    (r.offset + width ≤ r.size →
      ∃ v r', r.read width = .ok (v, r') ∧ r'.offset = r.offset + width ∧ r'.data = r.data ∧
        v = fromLittleEndian ((r.data.drop r.offset).take width)) ∧
    (r.offset + width > r.size → r.read width = .error .bufferOverflow) := by
  refine ⟨fun h => ?_, fun h => ?_, fun h => ?_, fun h => ?_⟩
  · refine ⟨_, BufferWriter.write_ok value h, ?_, rfl, ?_, ?_⟩
    · simp only [BufferWriter.offset, List.length_append, littleEndian_length]
    · simp only [BufferWriter.offset, List.take_left']
    · simp only [BufferWriter.offset, List.drop_left']
  · unfold BufferWriter.write
    rw [if_pos h]
  · unfold BufferReader.read
    rw [if_neg (by omega)]
    exact ⟨_, _, rfl, rfl, rfl, rfl⟩
  · unfold BufferReader.read
    rw [if_pos h]

/-- Witness for C19: a 4-octet write and read that fit, and ones that do
not. -/
theorem cursor_bounds_witness :
    (∃ w', (⟨[1, 2], 6⟩ : BufferWriter).write 4 258 = .ok w' ∧
      w'.offset = (⟨[1, 2], 6⟩ : BufferWriter).offset + 4 ∧
      w'.size = (⟨[1, 2], 6⟩ : BufferWriter).size ∧
      w'.written.take (⟨[1, 2], 6⟩ : BufferWriter).offset = [1, 2] ∧
      w'.written.drop (⟨[1, 2], 6⟩ : BufferWriter).offset = littleEndian 4 258) ∧
    (⟨[1, 2, 3], 6⟩ : BufferWriter).write 4 258 = .error .bufferOverflow ∧
    (∃ v r', (⟨[9, 2, 1, 0, 0, 7], 1⟩ : BufferReader).read 4 = .ok (v, r') ∧
      r'.offset = (⟨[9, 2, 1, 0, 0, 7], 1⟩ : BufferReader).offset + 4 ∧
      r'.data = [9, 2, 1, 0, 0, 7] ∧
      v = fromLittleEndian (([9, 2, 1, 0, 0, 7] : List Byte).drop 1 |>.take 4)) ∧
    (⟨[9, 2, 1, 0, 0, 7], 3⟩ : BufferReader).read 4 = .error .bufferOverflow :=
  ⟨(cursor_bounds 4 258 ⟨[1, 2], 6⟩ ⟨[9, 2, 1, 0, 0, 7], 1⟩).1 (by decide),
    (cursor_bounds 4 258 ⟨[1, 2, 3], 6⟩ ⟨[9, 2, 1, 0, 0, 7], 1⟩).2.1 (by decide),
    (cursor_bounds 4 258 ⟨[1, 2], 6⟩ ⟨[9, 2, 1, 0, 0, 7], 1⟩).2.2.1 (by decide),
    (cursor_bounds 4 258 ⟨[1, 2], 6⟩ ⟨[9, 2, 1, 0, 0, 7], 3⟩).2.2.2 (by decide)⟩

/-- C20, as the code has it: the range constructor of `Palette` fails with
the too-many-colours error exactly when the sequence it is given has more
than 256 elements, repeated colours counted as often as they occur; so it
fails whenever there are more than 256 distinct colours, and it succeeds,
keeping the sequence as it is, on every sequence of at most 256 elements. -/
theorem palette_range_constructor (range : List Color) :
    (Palette.ofRange range = .error .tooManyColors ↔ 256 < range.length) ∧
    (256 < range.toFinset.card → Palette.ofRange range = .error .tooManyColors) ∧
    (range.length ≤ 256 → ∃ p, Palette.ofRange range = .ok p ∧ p.colors = range ∧
      p.size = range.length) := by
  have hiff : Palette.ofRange range = .error .tooManyColors ↔ 256 < range.length := by
    unfold Palette.ofRange
    simp only [Palette.maxColorCount]
    by_cases h : range.length > 256
    · rw [if_pos h]
      exact ⟨fun _ => h, fun _ => rfl⟩
    · rw [if_neg h]
      exact ⟨fun hh => Except.noConfusion hh, fun hh => absurd hh h⟩
  refine ⟨hiff, fun h => hiff.2 (Nat.lt_of_lt_of_le h (List.toFinset_card_le range)), fun h => ?_⟩
  unfold Palette.ofRange
  simp only [Palette.maxColorCount]
  rw [if_neg (by omega)]
  exact ⟨_, rfl, rfl, rfl⟩

/-- Witness for C20: three colours, one of them twice, and 257 colours. -/
theorem palette_range_constructor_witness :
    (∃ p, Palette.ofRange [⟨1, 2, 3⟩, ⟨9, 9, 9⟩, ⟨1, 2, 3⟩] = .ok p ∧
      p.colors = [⟨1, 2, 3⟩, ⟨9, 9, 9⟩, ⟨1, 2, 3⟩] ∧
      p.size = ([⟨1, 2, 3⟩, ⟨9, 9, 9⟩, ⟨1, 2, 3⟩] : List Color).length) ∧
    Palette.ofRange ((List.range 257).map (fun i => (⟨toUInt8 i, toUInt8 (i / 256), 0⟩ : Color))) =
      .error .tooManyColors :=
  ⟨(palette_range_constructor [⟨1, 2, 3⟩, ⟨9, 9, 9⟩, ⟨1, 2, 3⟩]).2.2 (by decide),
    (palette_range_constructor _).1.2 (by simp)⟩

/-- Counterexample to C20 as stated: 257 times the same colour is one distinct
colour, and the range constructor refuses the sequence. -/
theorem palette_range_constructor_counts_repeats :
    (List.replicate 257 (⟨7, 7, 7⟩ : Color)).toFinset.card = 1 ∧
    ¬ 256 < (List.replicate 257 (⟨7, 7, 7⟩ : Color)).toFinset.card ∧
    Palette.ofRange (List.replicate 257 ⟨7, 7, 7⟩) = .error .tooManyColors := by
  have hc : (List.replicate 257 (⟨7, 7, 7⟩ : Color)).toFinset.card = 1 := by
    rw [List.toFinset_replicate_of_ne_zero (by decide)]
    rfl
  refine ⟨hc, by rw [hc]; decide, ?_⟩
  unfold Palette.ofRange
  rw [if_pos (by rw [List.length_replicate]; decide)]

/-! ### The shape of one `encode` call -/

theorem Encoder.safeOutputBufferSize_ge (z : Zstd) (e : Encoder) :
    5 ≤ e.safeOutputBufferSize z := by
  simp only [Encoder.safeOutputBufferSize, KeyFrameBlock.maxSize, SolidColorBitmapBlock.maxSize]
  have := Nat.le_max_right
    (max (1 + (4 + z.compressBound PaletteResetBlock.maxSize) +
        (1 + (4 + z.compressBound PaletteBlock.maxSize)) +
        (1 + (4 + z.compressBound (IndexedBitmapBlock.maxSize e.bitmapInfo))))
      (1 + (4 + z.compressBound (RawBitmapBlock.maxSize e.bitmapInfo))))
    (1 + 3)
  omega

/-- The call `encode` in two steps: the optional KeyFrame block, then the
NullBitmap block or the bitmap branch. -/
theorem Encoder.encode_eq (z : Zstd) (e : Encoder) (bitmap : List Color) (keyFrame : Bool) :
    e.encode z bitmap keyFrame =
      if (e.afterKeyFrame keyFrame).previousFrameBitmap ≠ [] ∧
          (e.afterKeyFrame keyFrame).previousFrameBitmap =
            bitmap.take (e.afterKeyFrame keyFrame).previousFrameBitmap.length then
        .ok ⟨⟨(e.keyTag keyFrame).length + 1, e.firstFrame || keyFrame⟩,
          e.keyTag keyFrame ++ [toUInt8 (variant_type_index .NullBitmapBlock)],
          e.afterKeyFrame keyFrame⟩
      else
        match (e.afterKeyFrame keyFrame).encodeBitmap z
            ⟨e.keyTag keyFrame, e.safeOutputBufferSize z⟩ bitmap with
        | .ok (e2, w2) =>
          .ok ⟨⟨w2.offset, e.firstFrame || keyFrame⟩, w2.written,
            { e2 with previousFrameBitmap := e2.frameBitmap }⟩
        | .error err => .error err := by
  have hsafe := Encoder.safeOutputBufferSize_ge z e
  have hfin : ∀ (kf : Bool) (e1 : Encoder) (w1 : BufferWriter), w1.offset + 1 ≤ w1.size →
      (do
        let (e, bufferWriter) ←
          if e1.previousFrameBitmap ≠ [] ∧
              e1.previousFrameBitmap = bitmap.take e1.previousFrameBitmap.length then
            writeBlock .NullBitmapBlock w1 (NullBitmapBlock.encode e1)
          else do
            let (e, bufferWriter) ← e1.encodeBitmap z w1 bitmap
            pure ({ e with previousFrameBitmap := e.frameBitmap }, bufferWriter)
        pure (⟨⟨bufferWriter.offset, kf⟩, bufferWriter.written, e⟩ : Encoded)) =
      if e1.previousFrameBitmap ≠ [] ∧
          e1.previousFrameBitmap = bitmap.take e1.previousFrameBitmap.length then
        .ok ⟨⟨w1.written.length + 1, kf⟩,
          w1.written ++ [toUInt8 (variant_type_index .NullBitmapBlock)], e1⟩
      else
        match e1.encodeBitmap z w1 bitmap with
        | .ok (e2, w2) =>
          .ok ⟨⟨w2.offset, kf⟩, w2.written, { e2 with previousFrameBitmap := e2.frameBitmap }⟩
        | .error err => .error err := by
    intro kf e1 w1 hcap
    by_cases hnull : e1.previousFrameBitmap ≠ [] ∧
        e1.previousFrameBitmap = bitmap.take e1.previousFrameBitmap.length
    · simp only [if_pos hnull]
      rw [writeBlock_ok _ _ _ hcap]
      simp only [NullBitmapBlock.encode, pure, Except.pure, bind, Except.bind,
        BufferWriter.offset, List.length_append, List.length_singleton]
    · simp only [if_neg hnull]
      cases hb : e1.encodeBitmap z w1 bitmap with
      | error err => simp only [bind, Except.bind]
      | ok p =>
        obtain ⟨e2, w2⟩ := p
        simp only [bind, Except.bind, pure, Except.pure]
  unfold Encoder.encode
  cases hff : e.firstFrame with
  | true =>
    simp only [if_true, Encoder.afterKeyFrame, Encoder.keyTag, hff, Bool.true_or]
    rw [writeBlock_ok _ _ _ (by simp only [BufferWriter.offset, List.length_nil]; omega)]
    simp only [KeyFrameBlock.encode, pure, Except.pure, bind, Except.bind, List.nil_append]
    exact hfin true _ _ (by simp only [BufferWriter.offset, List.length_singleton]; omega)
  | false =>
    have he : ({ e with firstFrame := false } : Encoder) = e := by
      cases e
      simp only at hff
      simp only [hff]
    cases keyFrame with
    | true =>
      simp only [Bool.false_eq_true, if_false, if_true, Encoder.afterKeyFrame, Encoder.keyTag, hff,
        Bool.or_true, he]
      rw [writeBlock_ok _ _ _ (by simp only [BufferWriter.offset, List.length_nil]; omega)]
      simp only [KeyFrameBlock.encode, pure, Except.pure, bind, Except.bind, List.nil_append]
      exact hfin true _ _ (by simp only [BufferWriter.offset, List.length_singleton]; omega)
    | false =>
      simp only [Bool.false_eq_true, if_false, Encoder.afterKeyFrame, Encoder.keyTag, hff,
        Bool.or_false, he]
      simp only [pure, Except.pure, bind, Except.bind]
      exact hfin false _ _ (by simp only [BufferWriter.offset, List.length_nil]; omega)

/-- What holds of every encoder reached by `encode` calls: the invariant, its
configuration, and that it keeps the frame of the latest call. -/
theorem Encoder.After.inv {z : Zstd} {bitmapInfo : BitmapInfo} {settings : EncoderSettings}
    {last : Option (List Color)} {e : Encoder} (h : Encoder.After z bitmapInfo settings last e) :
    e.Inv ∧ e.bitmapInfo = bitmapInfo ∧ e.settings = settings ∧
    e.firstFrame = last.isNone ∧ e.previousFrameBitmap = last.getD [] := by
  induction h with
  | fresh => exact ⟨Encoder.construct_inv bitmapInfo settings, rfl, rfl, rfl, rfl⟩
  | call last e bitmap keyFrame enc _ hlen henc ih =>
    obtain ⟨hinv, hbi, hset, -, -⟩ := ih
    obtain ⟨blocks, hstep⟩ := Encoder.encode_inv hinv (by
      rw [hbi]; exact hlen) henc
    exact ⟨hstep.inv, hstep.bitmapInfo.trans hbi, hstep.settings.trans hset, hstep.firstFrame,
      hstep.previous⟩

/-! ### The palette of a frame and its number of colours -/

theorem makePaletteLoop_none : ∀ (l s : List Color), Increasing s →
    Encoder.makePaletteLoop l s = none → 256 < (s ++ l).toFinset.card := by
  intro l
  induction l with
  | nil => intro s _ h; cases h
  | cons c l ih =>
    intro s hs h
    obtain ⟨hi, hm, _⟩ := colorSetInsert_spec c s hs
    have hset : (colorSetInsert c s ++ l).toFinset = (s ++ c :: l).toFinset := by
      ext x
      simp only [List.mem_toFinset, List.mem_append, List.mem_cons, hm x]
      constructor
      · rintro ((h | h) | h)
        · exact Or.inr (Or.inl h)
        · exact Or.inl h
        · exact Or.inr (Or.inr h)
      · rintro (h | h | h)
        · exact Or.inl (Or.inr h)
        · exact Or.inl (Or.inl h)
        · exact Or.inr h
    simp only [Encoder.makePaletteLoop] at h
    by_cases hgt : (colorSetInsert c s).length > Palette.maxColorCount
    · rw [← hset]
      have hcard : (colorSetInsert c s).toFinset.card = (colorSetInsert c s).length :=
        List.toFinset_card_of_nodup (Increasing.nodup hi)
      have hsub : (colorSetInsert c s).toFinset ⊆ (colorSetInsert c s ++ l).toFinset := by
        intro x hx
        simp only [List.mem_toFinset, List.mem_append] at hx ⊢
        exact Or.inl hx
      have := Finset.card_le_card hsub
      simp only [Palette.maxColorCount] at hgt
      omega
    · rw [if_neg hgt] at h
      rw [← hset]
      exact ih _ hi h

/-- The method `makePalette` gives up exactly on frames of more than 256
distinct colours; otherwise it returns the colours of the frame, each once,
in increasing order. -/
theorem Encoder.makePalette_iff (e : Encoder) (bitmap : List Color) :
    (e.makePalette bitmap = .ok none ↔
      256 < (bitmap.take (e.bitmapInfo.width * e.bitmapInfo.height)).toFinset.card) ∧
    ((bitmap.take (e.bitmapInfo.width * e.bitmapInfo.height)).toFinset.card ≤ 256 →
      ∃ p, e.makePalette bitmap = .ok (some p) ∧ p.Sorted ∧ p.size ≤ Palette.maxColorCount ∧
        (∀ x, x ∈ p.colors ↔ x ∈ bitmap.take (e.bitmapInfo.width * e.bitmapInfo.height)) ∧
        p.size = (bitmap.take (e.bitmapInfo.width * e.bitmapInfo.height)).toFinset.card) := by
  have hsome : ∀ p, e.makePalette bitmap = .ok (some p) → p.Sorted →
      (∀ x, x ∈ p.colors ↔ x ∈ bitmap.take (e.bitmapInfo.width * e.bitmapInfo.height)) →
      p.size = (bitmap.take (e.bitmapInfo.width * e.bitmapInfo.height)).toFinset.card := by
    intro p _ hs hm
    have hset : p.colors.toFinset =
        (bitmap.take (e.bitmapInfo.width * e.bitmapInfo.height)).toFinset := by
      ext x
      simp only [List.mem_toFinset, hm x]
    rw [← hset, List.toFinset_card_of_nodup (Increasing.nodup hs)]
    rfl
  have hnone : e.makePalette bitmap = .ok none →
      256 < (bitmap.take (e.bitmapInfo.width * e.bitmapInfo.height)).toFinset.card := by
    intro h
    unfold Encoder.makePalette at h
    cases hl : Encoder.makePaletteLoop
        (bitmap.take (e.bitmapInfo.width * e.bitmapInfo.height)) [] with
    | none =>
      have := makePaletteLoop_none _ [] List.Pairwise.nil hl
      simpa using this
    | some s =>
      rw [hl] at h
      simp only at h
      cases hr : Palette.ofRange s with
      | error err => rw [hr] at h; cases h
      | ok p => rw [hr] at h; cases h
  constructor
  · constructor
    · exact hnone
    · intro hgt
      rcases e.makePalette_spec bitmap with h | ⟨p, hp, hs, hsize, hm⟩
      · exact h
      · have := hsome p hp hs hm
        simp only [Palette.maxColorCount] at hsize
        omega
  · intro hle
    rcases e.makePalette_spec bitmap with h | ⟨p, hp, hs, hsize, hm⟩
    · have := hnone h
      omega
    · exact ⟨p, hp, hs, hsize, hm, hsome p hp hs hm⟩

/-- The palette of a frame of one colour. -/
theorem Encoder.makePalette_solid (e : Encoder) {bitmap : List Color} {c : Color}
    (hlen : bitmap.length = e.bitmapInfo.width * e.bitmapInfo.height) (hne : bitmap ≠ [])
    (hall : ∀ x ∈ bitmap, x = c) :
    ∃ p, e.makePalette bitmap = .ok (some p) ∧ p.colors = [c] := by
  have htake : bitmap.take (e.bitmapInfo.width * e.bitmapInfo.height) = bitmap :=
    List.take_of_length_le (Nat.le_of_eq hlen)
  obtain ⟨x, hx⟩ := List.exists_mem_of_ne_nil _ hne
  have hc : c ∈ bitmap := by rw [← hall x hx]; exact hx
  have hset : bitmap.toFinset = {c} := by
    ext y
    simp only [List.mem_toFinset, Finset.mem_singleton]
    exact ⟨hall y, fun h => by rw [h]; exact hc⟩
  obtain ⟨p, hp, hs, -, hm, hsz⟩ := (e.makePalette_iff bitmap).2 (by
    rw [htake, hset]; simp)
  rw [htake, hset, Finset.card_singleton] at hsz
  refine ⟨p, hp, ?_⟩
  obtain ⟨y, hy⟩ := List.length_eq_one.1 hsz
  have : y ∈ p.colors := by rw [hy]; exact List.mem_singleton_self y
  rw [hm y, htake] at this
  rw [hy, hall y this]

/-! ### The branches of `encodeBitmap` -/

/-- Without palette, or on a frame of more than 256 colours, the bitmap branch
is one Raw block. -/
theorem Encoder.encodeBitmap_raw (z : Zstd) (e : Encoder) (w : BufferWriter)
    (bitmap : List Color)
    (h : e.settings.usePalette = false ∨ e.makePalette bitmap = .ok none) :
    e.encodeBitmap z w bitmap =
      writeBlock .RawBitmapBlock w (RawBitmapBlock.encode z (e.copyFrameBitmap bitmap)) := by
  unfold Encoder.encodeBitmap
  by_cases hpal : e.settings.usePalette = true
  · rcases h with h | h
    · rw [h] at hpal; cases hpal
    · rw [if_pos hpal]
      simp only [h, bind, Except.bind]
  · rw [if_neg hpal]

theorem Encoder.encodeBitmap_raw_inv {z : Zstd} {e e' : Encoder} {w w' : BufferWriter}
    {bitmap : List Color}
    (h : e.settings.usePalette = false ∨ e.makePalette bitmap = .ok none)
    (hlen : bitmap.length = e.bitmapInfo.width * e.bitmapInfo.height)
    (hok : e.encodeBitmap z w bitmap = .ok (e', w')) :
    w' = ⟨w.written ++ toUInt8 (variant_type_index .RawBitmapBlock) ::
        z.framed e.zstdCompressor (colorsToBytes bitmap), w.size⟩ ∧
    e'.palette = e.palette ∧ e'.frameBitmap = bitmap := by
  have htake : bitmap.take (e.bitmapInfo.width * e.bitmapInfo.height) = bitmap :=
    List.take_of_length_le (Nat.le_of_eq hlen)
  rw [Encoder.encodeBitmap_raw z e w bitmap h] at hok
  obtain ⟨-, h1⟩ := writeBlock_inv hok
  unfold RawBitmapBlock.encode at h1
  obtain ⟨-, he, hw⟩ := Encoder.compressBuffer_framed_inv h1
  subst he hw
  simp only [Encoder.copyFrameBitmap, htake, List.append_assoc, List.singleton_append]
  exact ⟨trivial, trivial, trivial⟩

/-- With palette, a frame of one colour is one SolidColorBitmap block. -/
theorem Encoder.encodeBitmap_solid (z : Zstd) (e : Encoder) (w : BufferWriter)
    {bitmap : List Color} {c : Color} (hpal : e.settings.usePalette = true)
    (hlen : bitmap.length = e.bitmapInfo.width * e.bitmapInfo.height) (hne : bitmap ≠ [])
    (hall : ∀ x ∈ bitmap, x = c) (hcap : w.offset + 4 ≤ w.size) :
    e.encodeBitmap z w bitmap =
      .ok ({ e with frameBitmap := List.replicate e.frameBitmap.length c },
        ⟨w.written ++ [toUInt8 (variant_type_index .SolidColorBitmapBlock), c.r, c.g, c.b],
          w.size⟩) := by
  obtain ⟨p, hp, hc⟩ := e.makePalette_solid hlen hne hall
  have h1 : p.size = 1 := by simp only [Palette.size, hc, List.length_singleton]
  have hget : p.get 0 = c := by simp [Palette.get, hc]
  unfold Encoder.encodeBitmap
  rw [if_pos hpal]
  simp only [hp, bind, Except.bind, if_pos h1, hget]
  rw [writeBlock_ok _ _ _ (by omega)]
  unfold SolidColorBitmapBlock.encode
  rw [writeColor_ok _ _ (by
    simp only [BufferWriter.offset, List.length_append, List.length_singleton] at hcap ⊢
    omega)]
  simp only [bind, Except.bind, pure, Except.pure, List.append_assoc, List.singleton_append]

/-- With palette, a frame of at most 256 colours is written without a Raw
block: a SolidColorBitmap block, or Palette and PaletteReset blocks and an
IndexedBitmap block. -/
theorem Encoder.encodeBitmap_palette_inv {z : Zstd} {e e' : Encoder} {w w' : BufferWriter}
    {bitmap : List Color} {p : Palette} (hinv : e.Inv)
    (hpal : e.settings.usePalette = true) (hsome : e.makePalette bitmap = .ok (some p))
    (hw0 : w.offset ≤ w.size) (hok : e.encodeBitmap z w bitmap = .ok (e', w')) :
    ∃ bytes blocks, w' = ⟨w.written ++ bytes, w.size⟩ ∧ Tagged bytes blocks ∧
      4 ≤ bytes.length ∧
      ∀ k ∈ blocks, k = .PaletteBlock ∨ k = .PaletteResetBlock ∨ k = .IndexedBitmapBlock ∨
        k = .SolidColorBitmapBlock := by
  rcases e.makePalette_spec bitmap with hnone | ⟨p', hp', hps, hpsize, -⟩
  · rw [hnone] at hsome; cases hsome
  rw [hp'] at hsome
  simp only [Except.ok.injEq, Option.some.injEq] at hsome
  subst hsome
  unfold Encoder.encodeBitmap at hok
  rw [if_pos hpal] at hok
  simp only [hp', bind, Except.bind] at hok
  by_cases h1 : p'.size = 1
  · rw [if_pos h1] at hok
    obtain ⟨hcap, hs⟩ := writeBlock_inv hok
    unfold SolidColorBitmapBlock.encode at hs
    obtain ⟨w1, hwc, hs⟩ := Except.bind_eq_ok hs
    simp only [pure, Except.pure, Except.ok.injEq, Prod.mk.injEq] at hs
    obtain ⟨-, rfl⟩ := hs
    by_cases hc3 : (⟨w.written ++ [toUInt8 (variant_type_index .SolidColorBitmapBlock)],
        w.size⟩ : BufferWriter).offset + 3 ≤ w.size
    · rw [writeColor_ok _ _ hc3] at hwc
      cases hwc
      refine ⟨toUInt8 (variant_type_index .SolidColorBitmapBlock) ::
          [(p'.get 0).r, (p'.get 0).g, (p'.get 0).b], [.SolidColorBitmapBlock], ?_,
        @Tagged.single .SolidColorBitmapBlock _ ⟨p'.get 0, rfl⟩, by simp, ?_⟩
      · simp only [List.append_assoc, List.singleton_append]
      · intro k hk
        simp only [List.mem_singleton] at hk
        exact Or.inr (Or.inr (Or.inr hk))
    · obtain ⟨err, herr⟩ := writeColor_error (⟨w.written ++
          [toUInt8 (variant_type_index .SolidColorBitmapBlock)], w.size⟩ : BufferWriter)
        (p'.get 0) hc3
      rw [herr] at hwc
      cases hwc
  · rw [if_neg h1] at hok
    cases hu : e.updatePalette z w p' with
    | error err => rw [hu] at hok; cases hok
    | ok r =>
      obtain ⟨e1, w1⟩ := r
      rw [hu] at hok
      simp only at hok
      obtain ⟨bytes1, blocks1, hw1, -, htag1, hk1, -, -, -, -, -, -, -⟩ :=
        Encoder.updatePalette_inv hinv hps hpsize hw0 hu
      subst hw1
      obtain ⟨-, hi⟩ := writeBlock_inv hok
      unfold IndexedBitmapBlock.encode at hi
      obtain ⟨payload, -, hi⟩ := Except.bind_eq_ok hi
      obtain ⟨-, -, hw⟩ := Encoder.compressBuffer_framed_inv hi
      subst hw
      obtain ⟨chunk, hclen, hchunk⟩ := z.framed_chunk (e1.copyFrameBitmap bitmap).zstdCompressor
        payload
      refine ⟨bytes1 ++ toUInt8 (variant_type_index .IndexedBitmapBlock) ::
          z.framed (e1.copyFrameBitmap bitmap).zstdCompressor payload,
        blocks1 ++ [.IndexedBitmapBlock], ?_,
        Tagged.append htag1 (@Tagged.single .IndexedBitmapBlock _ ⟨chunk, hclen, hchunk⟩), ?_, ?_⟩
      · simp only [List.append_assoc, List.singleton_append]
      · rw [hchunk]
        simp only [List.length_append, List.length_cons, littleEndian_length]
        omega
      · intro k hk
        rcases List.mem_append.1 hk with hk | hk
        · rcases hk1 k hk with h | h
          · exact Or.inl h
          · exact Or.inr (Or.inl h)
        · simp only [List.mem_singleton] at hk
          exact Or.inr (Or.inr (Or.inl hk))

/-! ### When the null path is taken -/

theorem Encoder.After.last_length {z : Zstd} {bitmapInfo : BitmapInfo}
    {settings : EncoderSettings} {last : Option (List Color)} {e : Encoder}
    (h : Encoder.After z bitmapInfo settings last e) :
    ∀ b, last = some b → b.length = bitmapInfo.width * bitmapInfo.height := by
  cases h with
  | fresh => intro b hb; cases hb
  | call last e bitmap keyFrame enc _ hlen _ =>
    intro b hb
    simp only [Option.some.injEq] at hb
    subst hb
    exact hlen

theorem Encoder.firstFrame_false_eq {e : Encoder} (h : e.firstFrame = false) :
    ({ e with firstFrame := false } : Encoder) = e := by
  cases e
  simp only at h
  simp only [h]

/-- For an encoder reached by `encode` calls, the test in front of the
NullBitmap block holds exactly when the call is not the first, asks for no
key frame, and is given the frame of the call before, which is not empty. -/
theorem Encoder.After.null_iff {z : Zstd} {bitmapInfo : BitmapInfo}
    {settings : EncoderSettings} {last : Option (List Color)} {e : Encoder}
    (h : Encoder.After z bitmapInfo settings last e) {bitmap : List Color}
    (hlen : bitmap.length = bitmapInfo.width * bitmapInfo.height) (keyFrame : Bool) :
    ((e.afterKeyFrame keyFrame).previousFrameBitmap ≠ [] ∧
      (e.afterKeyFrame keyFrame).previousFrameBitmap =
        bitmap.take (e.afterKeyFrame keyFrame).previousFrameBitmap.length) ↔
    (last = some bitmap ∧ keyFrame = false ∧ bitmap ≠ []) := by
  obtain ⟨-, -, -, hff, hprev⟩ := h.inv
  have hll := h.last_length
  cases last with
  | none =>
    simp only [Option.isNone_none] at hff
    simp only [Encoder.afterKeyFrame, hff, Bool.true_or, if_true, Encoder.reset, ne_eq,
      not_true_eq_false, false_and, false_iff]
    rintro ⟨h1, -, -⟩
    cases h1
  | some b0 =>
    simp only [Option.isNone_some] at hff
    simp only [Option.getD_some] at hprev
    have hb0 := hll b0 rfl
    cases keyFrame with
    | true =>
      simp only [Encoder.afterKeyFrame, hff, Bool.or_true, if_true, Encoder.reset, ne_eq,
        not_true_eq_false, false_and, false_iff]
      rintro ⟨-, h2, -⟩
      cases h2
    | false =>
      have htake : bitmap.take b0.length = bitmap :=
        List.take_of_length_le (by rw [hlen, hb0])
      simp only [Encoder.afterKeyFrame, hff, Bool.or_false, Bool.false_eq_true, if_false, hprev,
        htake, Option.some.injEq, true_and]
      constructor
      · rintro ⟨h1, h2⟩
        exact ⟨h2, by rw [← h2]; exact h1⟩
      · rintro ⟨h1, h2⟩
        exact ⟨by rw [h1]; exact h2, h1⟩

theorem Encoder.After.afterKeyFrame_inv {z : Zstd} {bitmapInfo : BitmapInfo}
    {settings : EncoderSettings} {last : Option (List Color)} {e : Encoder}
    (h : Encoder.After z bitmapInfo settings last e) (keyFrame : Bool) :
    (e.afterKeyFrame keyFrame).Inv ∧ (e.afterKeyFrame keyFrame).bitmapInfo = bitmapInfo ∧
    (e.afterKeyFrame keyFrame).settings = settings ∧
    (e.afterKeyFrame keyFrame).palette =
      (if (last.isNone || keyFrame) = true then e.palette.clear else e.palette) ∧
    (e.afterKeyFrame keyFrame).zstdCompressor =
      (if (last.isNone || keyFrame) = true then [] else e.zstdCompressor) ∧
    e.keyTag keyFrame = (if (last.isNone || keyFrame) = true then [0] else []) := by
  obtain ⟨hinv, hbi, hset, hff, -⟩ := h.inv
  have hinv0 : ({ e with firstFrame := false } : Encoder).Inv :=
    ⟨hinv.frame, hinv.previous, hinv.buffer, hinv.sorted, hinv.size, hinv.colorMap,
      hinv.session⟩
  unfold Encoder.afterKeyFrame Encoder.keyTag
  rw [hff]
  by_cases hk : (last.isNone || keyFrame) = true
  · simp only [if_pos hk]
    exact ⟨hinv0.reset, hbi, hset, rfl, rfl, rfl⟩
  · simp only [if_neg hk]
    exact ⟨hinv0, hbi, hset, trivial, trivial, trivial⟩

/-- The call `encode` on an encoder reached by `encode` calls, in the terms of
its caller. -/
theorem Encoder.After.encode_cases {z : Zstd} {bitmapInfo : BitmapInfo}
    {settings : EncoderSettings} {last : Option (List Color)} {e : Encoder}
    (h : Encoder.After z bitmapInfo settings last e) {bitmap : List Color}
    (hlen : bitmap.length = bitmapInfo.width * bitmapInfo.height) (keyFrame : Bool) :
    (last = some bitmap ∧ keyFrame = false ∧ bitmap ≠ [] →
      e.encode z bitmap keyFrame = .ok ⟨⟨1, false⟩, [6], e⟩) ∧
    (¬ (last = some bitmap ∧ keyFrame = false ∧ bitmap ≠ []) →
      e.encode z bitmap keyFrame =
        match (e.afterKeyFrame keyFrame).encodeBitmap z
          ⟨if (last.isNone || keyFrame) = true then [0] else [], e.safeOutputBufferSize z⟩
          bitmap with
        | .ok (e2, w2) =>
          .ok ⟨⟨w2.offset, last.isNone || keyFrame⟩, w2.written,
            { e2 with previousFrameBitmap := e2.frameBitmap }⟩
        | .error err => .error err) := by
  obtain ⟨-, -, -, hff, -⟩ := h.inv
  obtain ⟨-, -, -, -, -, htag⟩ := h.afterKeyFrame_inv keyFrame
  have hiff := h.null_iff hlen keyFrame
  constructor
  · intro hn
    rw [Encoder.encode_eq, if_pos (hiff.2 hn)]
    obtain ⟨h1, h2, -⟩ := hn
    subst h1 h2
    simp only [Option.isNone_some] at hff
    simp only [Encoder.keyTag, Encoder.afterKeyFrame, hff, Bool.or_false, Bool.false_eq_true,
      if_false, List.length_nil, Nat.zero_add, List.nil_append,
      Encoder.firstFrame_false_eq hff]
    rfl
  · intro hn
    rw [Encoder.encode_eq, if_neg (fun hc => hn (hiff.1 hc)), htag, hff]

/-! ### Null frames, single-colour frames, raw frames -/

/-- C14: for `width * height ≥ 1`, an `encode` call that is not the first, asks
for no key frame and is given the frame of the call before it (whatever that
call wrote, the encoder `e` being any encoder reached by calls of which the
latest got `bitmap`) writes the one octet 6, the NullBitmap tag, reports one
octet, and leaves the encoder as it was, palette and previous frame
included. -/
theorem null_frame (z : Zstd) (bitmapInfo : BitmapInfo) (settings : EncoderSettings)
    (hN : 1 ≤ bitmapInfo.width * bitmapInfo.height) (bitmap : List Color) (e : Encoder)
    (hafter : Encoder.After z bitmapInfo settings (some bitmap) e) :
    e.encode z bitmap false = .ok ⟨⟨1, false⟩, [6], e⟩ ∧ e.previousFrameBitmap = bitmap := by
  have hlen := hafter.last_length bitmap rfl
  have hne : bitmap ≠ [] := by
    intro h
    rw [h] at hlen
    simp only [List.length_nil] at hlen
    omega
  exact ⟨(hafter.encode_cases hlen false).1 ⟨rfl, rfl, hne⟩, hafter.inv.2.2.2.2⟩

/-- Witness for C14: the frame `solidExample` twice, first as a
SolidColorBitmap block. -/
theorem null_frame_witness :
    ((Encoder.construct ⟨2, 1⟩ {}).encoded Zstd.store solidExample false).output =
      [0, 5, 7, 8, 9] ∧
    ((Encoder.construct ⟨2, 1⟩ {}).encoded Zstd.store solidExample false).encoder.encode
        Zstd.store solidExample false =
      .ok ⟨⟨1, false⟩, [6],
        ((Encoder.construct ⟨2, 1⟩ {}).encoded Zstd.store solidExample false).encoder⟩ ∧
    ((Encoder.construct ⟨2, 1⟩ {}).encoded Zstd.store solidExample
      false).encoder.previousFrameBitmap = solidExample :=
  ⟨by decide,
    null_frame Zstd.store ⟨2, 1⟩ {} (by decide) solidExample _
      (Encoder.After.call none (Encoder.construct ⟨2, 1⟩ {}) solidExample false
        ((Encoder.construct ⟨2, 1⟩ {}).encoded Zstd.store solidExample false)
        Encoder.After.fresh rfl rfl)⟩

/-- What the bitmap branch writes, in every case: at least four octets, made
of blocks none of which is a KeyFrame or NullBitmap block. -/
theorem Encoder.encodeBitmap_written {z : Zstd} {e e' : Encoder} {w w' : BufferWriter}
    {bitmap : List Color} (hinv : e.Inv)
    (hlen : bitmap.length = e.bitmapInfo.width * e.bitmapInfo.height)
    (hw0 : w.offset ≤ w.size) (hok : e.encodeBitmap z w bitmap = .ok (e', w')) :
    ∃ bytes blocks, w' = ⟨w.written ++ bytes, w.size⟩ ∧ Tagged bytes blocks ∧
      4 ≤ bytes.length ∧
      (∀ k ∈ blocks, k ≠ .KeyFrameBlock ∧ k ≠ .NullBitmapBlock) ∧
      ((e.settings.usePalette = false ∨ e.makePalette bitmap = .ok none) →
        bytes = toUInt8 (variant_type_index .RawBitmapBlock) ::
          z.framed e.zstdCompressor (colorsToBytes bitmap) ∧ e'.palette = e.palette) ∧
      (e.settings.usePalette = true → e.makePalette bitmap ≠ .ok none →
        FrameBlock.RawBitmapBlock ∉ blocks) := by
  by_cases hraw : e.settings.usePalette = false ∨ e.makePalette bitmap = .ok none
  · obtain ⟨hw, hp, -⟩ := Encoder.encodeBitmap_raw_inv hraw hlen hok
    obtain ⟨chunk, hclen, hchunk⟩ := z.framed_chunk e.zstdCompressor (colorsToBytes bitmap)
    refine ⟨_, [.RawBitmapBlock], hw, @Tagged.single .RawBitmapBlock _ ⟨chunk, hclen, hchunk⟩,
      ?_, ?_, fun _ => ⟨rfl, hp⟩, ?_⟩
    · rw [hchunk]
      simp only [List.length_cons, List.length_append, littleEndian_length]
      omega
    · intro k hk
      simp only [List.mem_singleton] at hk
      subst hk
      exact ⟨by decide, by decide⟩
    · intro hpal hnn
      rcases hraw with h | h
      · rw [h] at hpal; cases hpal
      · exact absurd h hnn
  · have hpal : e.settings.usePalette = true := by
      cases hu : e.settings.usePalette with
      | true => rfl
      | false => exact absurd (Or.inl hu) hraw
    have hnn : e.makePalette bitmap ≠ .ok none := fun h => hraw (Or.inr h)
    rcases e.makePalette_spec bitmap with hnone | ⟨p, hp, -, -, -⟩
    · exact absurd hnone hnn
    obtain ⟨bytes, blocks, hw, htag, h4, hk⟩ :=
      Encoder.encodeBitmap_palette_inv hinv hpal hp hw0 hok
    refine ⟨bytes, blocks, hw, htag, h4, ?_, fun h => absurd h hraw, ?_⟩
    · intro k hmem
      rcases hk k hmem with rfl | rfl | rfl | rfl <;> exact ⟨by decide, by decide⟩
    · intro _ _ hmem
      rcases hk _ hmem with h | h | h | h <;> cases h

/-- Counterexample to C15 as stated: the 2×1 frame `twoColourExample` passed
to two consecutive `encode` calls; the second call reports one octet when it
asks for no key frame and 20 octets when it asks for one, never two. -/
theorem repeated_frame_is_not_two_bytes :
    ((Encoder.construct ⟨2, 1⟩ {}).encode Zstd.store twoColourExample false).toOption.map
      (fun enc => enc.result.bytesWritten) = some 20 ∧
    (((Encoder.construct ⟨2, 1⟩ {}).encoded Zstd.store twoColourExample false).encoder.encode
      Zstd.store twoColourExample false).toOption.map
        (fun enc => (enc.result.bytesWritten, enc.output)) = some (1, [6]) ∧
    (((Encoder.construct ⟨2, 1⟩ {}).encoded Zstd.store twoColourExample false).encoder.encode
      Zstd.store twoColourExample true).toOption.map
        (fun enc => enc.result.bytesWritten) = some 20 ∧
    (1 : Nat) ≠ 2 ∧ (20 : Nat) ≠ 2 := by
  decide

/-! ### The blocks of a byte frame are determined by its octets -/

theorem variant_type_index_inj {k k' : FrameBlock}
    (h : toUInt8 (variant_type_index k) = toUInt8 (variant_type_index k')) : k = k' := by
  cases k <;> cases k' <;> first | rfl | exact absurd h (by decide)

theorem FrameBlock.Payload.split {block : FrameBlock} {p p' rest rest' : List Byte}
    (hp : block.Payload p) (hp' : block.Payload p') (h : p ++ rest = p' ++ rest') :
    p = p' ∧ rest = rest' := by
  have hchunk : (∃ chunk, chunk.length < 2 ^ 32 ∧ p = littleEndian 4 chunk.length ++ chunk) →
      (∃ chunk, chunk.length < 2 ^ 32 ∧ p' = littleEndian 4 chunk.length ++ chunk) →
      p = p' ∧ rest = rest' := by
    rintro ⟨c, hc, rfl⟩ ⟨c', hc', rfl⟩
    rw [List.append_assoc, List.append_assoc] at h
    obtain ⟨h1, h2⟩ := List.append_inj h (by rw [littleEndian_length, littleEndian_length])
    have hn : c.length = c'.length := by
      have := congrArg fromLittleEndian h1
      rw [fromLittleEndian_littleEndian, fromLittleEndian_littleEndian] at this
      have e1 : c.length % 256 ^ 4 = c.length := Nat.mod_eq_of_lt (by norm_num; omega)
      have e2 : c'.length % 256 ^ 4 = c'.length := Nat.mod_eq_of_lt (by norm_num; omega)
      rw [e1, e2] at this
      exact this
    obtain ⟨h3, h4⟩ := List.append_inj h2 hn
    exact ⟨by rw [h3], h4⟩
  have hnil : p = [] → p' = [] → p = p' ∧ rest = rest' := by
    rintro rfl rfl
    exact ⟨rfl, h⟩
  cases block with
  | KeyFrameBlock => exact hnil hp hp'
  | PaletteBlock => exact hchunk hp hp'
  | PaletteResetBlock => exact hnil hp hp'
  | IndexedBitmapBlock => exact hchunk hp hp'
  | RawBitmapBlock => exact hchunk hp hp'
  | SolidColorBitmapBlock =>
    obtain ⟨c, rfl⟩ := hp
    obtain ⟨c', rfl⟩ := hp'
    exact List.append_inj h rfl
  | NullBitmapBlock => exact hnil hp hp'

theorem Tagged.cons_inv {t : Byte} {bs : List Byte} {blocks : List FrameBlock}
    (h : Tagged (t :: bs) blocks) :
    ∃ block payload rest more, t = toUInt8 (variant_type_index block) ∧ bs = payload ++ rest ∧
      blocks = block :: more ∧ block.Payload payload ∧ Tagged rest more := by
  generalize hb : t :: bs = l at h
  cases h with
  | nil => cases hb
  | cons block payload rest more hp ht =>
    simp only [List.cons.injEq] at hb
    exact ⟨block, payload, rest, more, hb.1, hb.2, rfl, hp, ht⟩

/-- A byte frame is made of blocks in one way only. -/
theorem Tagged.unique {bytes : List Byte} {blocks blocks' : List FrameBlock}
    (h : Tagged bytes blocks) (h' : Tagged bytes blocks') : blocks = blocks' := by
  induction h generalizing blocks' with
  | nil =>
    generalize hb : ([] : List Byte) = l at h'
    cases h' with
    | nil => rfl
    | cons block payload rest more hp ht => cases hb
  | cons block payload rest more hp _ ih =>
    obtain ⟨block', payload', rest', more', ht, hbs, rfl, hp', htag'⟩ := h'.cons_inv
    have hk := variant_type_index_inj ht
    subst hk
    obtain ⟨-, hr⟩ := hp.split hp' hbs
    subst hr
    rw [ih htag']

theorem colorsToBytes_eq_bind (cs : List Color) :
    colorsToBytes cs = cs.flatMap (fun c => [c.r, c.g, c.b]) := by
  induction cs with
  | nil => rfl
  | cons c cs ih =>
    rw [List.flatMap_cons, ← ih]
    rfl

/-- C16: with palette mode on and `width * height ≥ 1`, for a frame whose
pixels all have the colour `c` and for which the null path is not taken
(first call, key frame requested, or a frame other than that of the call
before), `encode` returns and writes exactly `[5, r, g, b]`, behind the octet
0 when the frame is a key frame and behind nothing otherwise; so no Palette,
PaletteReset or entropy-coded block is written, and the palette of the
encoder is what the optional KeyFrame block left: it is not changed by the
SolidColorBitmap block. -/
theorem solid_colour_frame (z : Zstd) (bitmapInfo : BitmapInfo) (settings : EncoderSettings)
    (hpal : settings.usePalette = true) (hN : 1 ≤ bitmapInfo.width * bitmapInfo.height)
    (last : Option (List Color)) (e : Encoder)
    (hafter : Encoder.After z bitmapInfo settings last e) (bitmap : List Color) (c : Color)
    (hlen : bitmap.length = bitmapInfo.width * bitmapInfo.height)
    (hall : ∀ x ∈ bitmap, x = c) (keyFrame : Bool)
    (hnull : last = none ∨ keyFrame = true ∨ last ≠ some bitmap) :
    ∃ enc, e.encode z bitmap keyFrame = .ok enc ∧
      enc.result.keyFrame = (last.isNone || keyFrame) ∧
      enc.output = (if enc.result.keyFrame = true then [0] else []) ++ [5, c.r, c.g, c.b] ∧
      enc.result.bytesWritten = enc.output.length ∧
      enc.encoder.palette = (if enc.result.keyFrame = true then e.palette.clear else e.palette) ∧
      enc.encoder.previousFrameBitmap = bitmap := by
  have hne : bitmap ≠ [] := by
    intro h
    rw [h] at hlen
    simp only [List.length_nil] at hlen
    omega
  have hnot : ¬ (last = some bitmap ∧ keyFrame = false ∧ bitmap ≠ []) := by
    rintro ⟨h1, h2, -⟩
    rcases hnull with h | h | h
    · rw [h] at h1; cases h1
    · rw [h] at h2; cases h2
    · exact h h1
  obtain ⟨hinv, hbi, hset, hpalette, -, -⟩ := hafter.afterKeyFrame_inv keyFrame
  have hsafe := Encoder.safeOutputBufferSize_ge z e
  have hsolid := Encoder.encodeBitmap_solid z (e.afterKeyFrame keyFrame)
    ⟨if (last.isNone || keyFrame) = true then [0] else [], e.safeOutputBufferSize z⟩
    (by rw [hset]; exact hpal) (by rw [hbi]; exact hlen) hne hall (by
      show (if (last.isNone || keyFrame) = true then ([0] : List Byte) else []).length + 4 ≤
        e.safeOutputBufferSize z
      split <;> simp only [List.length_singleton, List.length_nil] <;> omega)
  have hrep : List.replicate (e.afterKeyFrame keyFrame).frameBitmap.length c = bitmap := by
    symm
    refine List.eq_replicate_iff.2 ⟨?_, hall⟩
    rw [hinv.frame, BitmapInfo.pixelCount, hbi, hlen]
  rw [hrep] at hsolid
  refine ⟨⟨⟨(if (last.isNone || keyFrame) = true then ([0] : List Byte) else []).length + 4,
        last.isNone || keyFrame⟩,
      (if (last.isNone || keyFrame) = true then [0] else []) ++ [5, c.r, c.g, c.b],
      { ({ e.afterKeyFrame keyFrame with frameBitmap := bitmap } : Encoder) with
        previousFrameBitmap := bitmap }⟩, ?_, ?_⟩
  · rw [(hafter.encode_cases hlen keyFrame).2 hnot, hsolid]
    simp only [BufferWriter.offset, List.length_append, List.length_cons, List.length_nil]
    rfl
  · refine ⟨rfl, rfl, ?_, hpalette, rfl⟩
    simp only [List.length_append, List.length_cons, List.length_nil]

/-- Witness for C16: `solidExample` as first frame, and as a later frame
behind `twoColourExample`. -/
theorem solid_colour_frame_witness :
    (∃ enc, (Encoder.construct ⟨2, 1⟩ {}).encode Zstd.store solidExample false = .ok enc ∧
      enc.result.keyFrame = ((none : Option (List Color)).isNone || false) ∧
      enc.output = (if enc.result.keyFrame = true then [0] else []) ++ [5, 7, 8, 9] ∧
      enc.result.bytesWritten = enc.output.length ∧
      enc.encoder.palette = (if enc.result.keyFrame = true
        then (Encoder.construct ⟨2, 1⟩ {}).palette.clear
        else (Encoder.construct ⟨2, 1⟩ {}).palette) ∧
      enc.encoder.previousFrameBitmap = solidExample) ∧
    (((Encoder.construct ⟨2, 1⟩ {}).encoded Zstd.store twoColourExample false).encoder.encoded
      Zstd.store solidExample false).output = [5, 7, 8, 9] ∧
    (((Encoder.construct ⟨2, 1⟩ {}).encoded Zstd.store twoColourExample false).encoder.encoded
      Zstd.store solidExample false).encoder.palette.colors = [⟨0, 0, 255⟩, ⟨255, 0, 0⟩] :=
  ⟨solid_colour_frame Zstd.store ⟨2, 1⟩ {} rfl (by decide) none _ Encoder.After.fresh
      solidExample ⟨7, 8, 9⟩ rfl (by decide) false (Or.inl rfl),
    by decide, by decide⟩

/-- C17: on an encoder reached by `encode` calls, for a call that returns:
if the null path is not taken and palette mode is off or the frame has more
than 256 distinct colours, the output is the optional KeyFrame tag and one
RawBitmap block, tag 4 and the entropy-coded `3 * N` octets of the frame,
pixel by pixel as (r, g, b), and the palette is what the optional KeyFrame
block left.  So with palette mode off every output is the optional KeyFrame
tag followed by one NullBitmap block or one RawBitmap block, and with palette
mode on and at most 256 distinct colours the output has no RawBitmap
block. -/
theorem raw_fallback (z : Zstd) (bitmapInfo : BitmapInfo) (settings : EncoderSettings)
    (last : Option (List Color)) (e : Encoder)
    (hafter : Encoder.After z bitmapInfo settings last e) (bitmap : List Color)
    (hlen : bitmap.length = bitmapInfo.width * bitmapInfo.height) (keyFrame : Bool)
    (enc : Encoded) (henc : e.encode z bitmap keyFrame = .ok enc) :
    (¬ (last = some bitmap ∧ keyFrame = false ∧ bitmap ≠ []) →
      (settings.usePalette = false ∨ 256 < bitmap.toFinset.card) →
      enc.result.keyFrame = (last.isNone || keyFrame) ∧
      enc.output = (if enc.result.keyFrame = true then [0] else []) ++
        4 :: z.framed (if enc.result.keyFrame = true then [] else e.zstdCompressor)
          (colorsToBytes bitmap) ∧
      colorsToBytes bitmap = bitmap.flatMap (fun c => [c.r, c.g, c.b]) ∧
      (colorsToBytes bitmap).length = bitmapInfo.width * bitmapInfo.height * 3 ∧
      enc.encoder.palette =
        (if enc.result.keyFrame = true then e.palette.clear else e.palette)) ∧
    (settings.usePalette = false →
      enc.output = (if enc.result.keyFrame = true then [0] else []) ++ [6] ∨
      enc.output = (if enc.result.keyFrame = true then [0] else []) ++
        4 :: z.framed (if enc.result.keyFrame = true then [] else e.zstdCompressor)
          (colorsToBytes bitmap)) ∧
    (settings.usePalette = true → bitmap.toFinset.card ≤ 256 →
      ∃ blocks, Tagged enc.output blocks ∧ FrameBlock.RawBitmapBlock ∉ blocks ∧
        ∀ blocks', Tagged enc.output blocks' → blocks' = blocks) := by
  have htake : bitmap.take (bitmapInfo.width * bitmapInfo.height) = bitmap :=
    List.take_of_length_le (Nat.le_of_eq hlen)
  obtain ⟨hinv, hbi, hset, hpalette, hsession, -⟩ := hafter.afterKeyFrame_inv keyFrame
  have hsafe := Encoder.safeOutputBufferSize_ge z e
  have hw0 : (⟨if (last.isNone || keyFrame) = true then [0] else [],
      e.safeOutputBufferSize z⟩ : BufferWriter).offset ≤ e.safeOutputBufferSize z := by
    show (if (last.isNone || keyFrame) = true then ([0] : List Byte) else []).length ≤ _
    split <;> simp only [List.length_singleton, List.length_nil] <;> omega
  -- the call when the null path is not taken
  have hbranch : ¬ (last = some bitmap ∧ keyFrame = false ∧ bitmap ≠ []) →
      ∃ e2 bytes blocks, (e.afterKeyFrame keyFrame).encodeBitmap z
          ⟨if (last.isNone || keyFrame) = true then [0] else [], e.safeOutputBufferSize z⟩
          bitmap = .ok (e2, ⟨(if (last.isNone || keyFrame) = true then [0] else []) ++ bytes,
            e.safeOutputBufferSize z⟩) ∧
        enc = ⟨⟨((if (last.isNone || keyFrame) = true then ([0] : List Byte) else []) ++
            bytes).length, last.isNone || keyFrame⟩,
          (if (last.isNone || keyFrame) = true then [0] else []) ++ bytes,
          { e2 with previousFrameBitmap := e2.frameBitmap }⟩ ∧
        Tagged bytes blocks ∧
        ((settings.usePalette = false ∨
            (e.afterKeyFrame keyFrame).makePalette bitmap = .ok none) →
          bytes = toUInt8 (variant_type_index .RawBitmapBlock) ::
            z.framed (e.afterKeyFrame keyFrame).zstdCompressor (colorsToBytes bitmap) ∧
          e2.palette = (e.afterKeyFrame keyFrame).palette) ∧
        (settings.usePalette = true →
          (e.afterKeyFrame keyFrame).makePalette bitmap ≠ .ok none →
          FrameBlock.RawBitmapBlock ∉ blocks) := by
    intro hnot
    have h := henc
    rw [(hafter.encode_cases hlen keyFrame).2 hnot] at h
    cases hb : (e.afterKeyFrame keyFrame).encodeBitmap z
        ⟨if (last.isNone || keyFrame) = true then [0] else [], e.safeOutputBufferSize z⟩
        bitmap with
    | error err => rw [hb] at h; cases h
    | ok r =>
      obtain ⟨e2, w2⟩ := r
      rw [hb] at h
      simp only [Except.ok.injEq] at h
      obtain ⟨bytes, blocks, hw, htag, -, -, hraw, hnoraw⟩ :=
        Encoder.encodeBitmap_written hinv (by rw [hbi]; exact hlen) hw0 hb
      subst hw
      refine ⟨e2, bytes, blocks, rfl, h.symm, htag, ?_, ?_⟩
      · rw [← hset]; exact hraw
      · rw [← hset]; exact hnoraw
  have hkey : ∀ bytes blocks, Tagged bytes blocks →
      ∃ all, Tagged ((if (last.isNone || keyFrame) = true then [0] else []) ++ bytes) all ∧
        (FrameBlock.RawBitmapBlock ∉ blocks → FrameBlock.RawBitmapBlock ∉ all) := by
    intro bytes blocks htag
    by_cases hk : (last.isNone || keyFrame) = true
    · rw [if_pos hk]
      refine ⟨.KeyFrameBlock :: blocks, Tagged.cons .KeyFrameBlock [] bytes blocks rfl htag, ?_⟩
      intro hn hm
      rcases List.mem_cons.1 hm with h | h
      · cases h
      · exact hn h
    · rw [if_neg hk]
      exact ⟨blocks, htag, fun hn => hn⟩
  have hmake : (e.afterKeyFrame keyFrame).makePalette bitmap = .ok none ↔
      256 < bitmap.toFinset.card := by
    have := ((e.afterKeyFrame keyFrame).makePalette_iff bitmap).1
    rw [hbi, htake] at this
    exact this
  refine ⟨?_, ?_, ?_⟩
  · intro hnot hcase
    obtain ⟨e2, bytes, blocks, -, henc', -, hraw, -⟩ := hbranch hnot
    obtain ⟨hbytes, hp2⟩ := hraw (by
      rcases hcase with h | h
      · exact Or.inl h
      · exact Or.inr (hmake.2 h))
    subst henc'
    refine ⟨rfl, ?_, colorsToBytes_eq_bind bitmap, ?_, ?_⟩
    · show _ ++ bytes = _
      rw [hbytes, hsession]
      rfl
    · rw [colorsToBytes_length, hlen, Nat.mul_comm]
    · show e2.palette = _
      rw [hp2, hpalette]
  · intro hoff
    by_cases hnull : last = some bitmap ∧ keyFrame = false ∧ bitmap ≠ []
    · left
      have h := henc
      rw [(hafter.encode_cases hlen keyFrame).1 hnull] at h
      cases h
      rfl
    · right
      obtain ⟨e2, bytes, blocks, -, henc', -, hraw, -⟩ := hbranch hnull
      obtain ⟨hbytes, -⟩ := hraw (Or.inl hoff)
      subst henc'
      show _ ++ bytes = _
      rw [hbytes, hsession]
      rfl
  · intro hon hcard
    have hex : ∃ blocks, Tagged enc.output blocks ∧ FrameBlock.RawBitmapBlock ∉ blocks := by
      by_cases hnull : last = some bitmap ∧ keyFrame = false ∧ bitmap ≠ []
      · have h := henc
        rw [(hafter.encode_cases hlen keyFrame).1 hnull] at h
        cases h
        exact ⟨[.NullBitmapBlock], @Tagged.single .NullBitmapBlock _ rfl, by decide⟩
      · obtain ⟨e2, bytes, blocks, -, henc', htag, -, hnoraw⟩ := hbranch hnull
        obtain ⟨all, hall, hno⟩ := hkey bytes blocks htag
        subst henc'
        exact ⟨all, hall, hno (hnoraw hon (fun h => by
          have := hmake.1 h
          omega))⟩
    obtain ⟨blocks, htag, hno⟩ := hex
    exact ⟨blocks, htag, hno, fun blocks' h' => Tagged.unique h' htag⟩

/-- Witness for C17: the frame `twoColourExample` as first frame, with palette
mode off (one RawBitmap block behind the KeyFrame tag) and with palette mode
on (no RawBitmap block). -/
theorem raw_fallback_witness :
    ((Encoder.construct ⟨2, 1⟩ ⟨false, 18, 1⟩).encoded Zstd.store twoColourExample false).output =
      [0, 4, 6, 0, 0, 0, 255, 0, 0, 0, 0, 255] ∧
    ∃ blocks,
      Tagged ((Encoder.construct ⟨2, 1⟩ {}).encoded Zstd.store twoColourExample false).output
        blocks ∧
      FrameBlock.RawBitmapBlock ∉ blocks ∧
      ∀ blocks',
        Tagged ((Encoder.construct ⟨2, 1⟩ {}).encoded Zstd.store twoColourExample false).output
          blocks' → blocks' = blocks :=
  ⟨((raw_fallback Zstd.store ⟨2, 1⟩ ⟨false, 18, 1⟩ none (Encoder.construct ⟨2, 1⟩ ⟨false, 18, 1⟩)
      Encoder.After.fresh twoColourExample rfl false
      ((Encoder.construct ⟨2, 1⟩ ⟨false, 18, 1⟩).encoded Zstd.store twoColourExample false)
      rfl).1 (by rintro ⟨h, -⟩; cases h) (Or.inl rfl)).2.1.trans (by decide),
    (raw_fallback Zstd.store ⟨2, 1⟩ {} none (Encoder.construct ⟨2, 1⟩ {})
      Encoder.After.fresh twoColourExample rfl false
      ((Encoder.construct ⟨2, 1⟩ {}).encoded Zstd.store twoColourExample false)
      rfl).2.2 rfl (by decide)⟩

/-! ### Unknown tags -/

theorem Decoder.decodeLoop_unknown {z : Zstd} {d d' : Decoder} {r r' r0 : BufferReader}
    {tag : Byte} (hd : Decoder.Dispatched z d r d' r')
    (hread : r'.readUInt8 = .ok (tag, r0)) (htag : 6 < tag.val) :
    ∀ fuel : Nat, r.offset ≤ r.size → r.size - r.offset ≤ fuel →
      Decoder.decodeLoop z fuel d r = .error .invalidVariantIndex := by
  induction hd with
  | start d r =>
    intro fuel hr hf
    obtain ⟨-, b1, c1⟩ := BufferReader.readUInt8_inv hread
    have hs : r0.size = r.size := by
      simp only [BufferReader.size, (BufferReader.readUInt8_inv hread).1]
    cases fuel with
    | zero => omega
    | succ fuel =>
      unfold Decoder.decodeLoop
      rw [if_neg (by omega)]
      simp only [bind, Except.bind, hread, make_variant_unknown tag.val htag]
  | block d r frameBlockId r1 block d1 r2 d' r' hne h1 h2 h3 _ ih =>
    intro fuel hr hf
    obtain ⟨a1, b1, c1⟩ := BufferReader.readUInt8_inv h1
    obtain ⟨a2, b2, c2⟩ := Decoder.decodeBlock_inv c1 h3
    have hs : r2.size = r.size := by simp only [BufferReader.size, a2, a1]
    cases fuel with
    | zero => omega
    | succ fuel =>
      unfold Decoder.decodeLoop
      rw [if_neg hne]
      simp only [bind, Except.bind, h1, h2, h3, ih hread (fuel) c2 (by omega)]

/-- C13: when the loop of `decode`, having dispatched whole blocks of the
input buffer, reads at a block boundary an octet greater than 6, the call
fails with the error of `make_variant` ("Invalid variant index"), whatever
the decoder: it returns no record and no pixels, the copy of the frame to the
output being behind the loop.  In particular every input whose first octet is
greater than 6 is refused. -/
theorem unknown_tag_fatal (z : Zstd) (d : Decoder) (inputBuffer : List Byte) (d' : Decoder)
    (r' r0 : BufferReader) (tag : Byte)
    (hboundary : Decoder.Dispatched z { d with result := {} } ⟨inputBuffer, 0⟩ d' r')
    (hread : r'.readUInt8 = .ok (tag, r0)) (htag : 6 < tag.val) :
    d.decode z inputBuffer = .error .invalidVariantIndex ∧
    (∀ decoded : Decoded, d.decode z inputBuffer ≠ .ok decoded) ∧
    ∀ rest : List Byte, d.decode z (tag :: rest) = .error .invalidVariantIndex := by
  have hmain : d.decode z inputBuffer = .error .invalidVariantIndex := by
    unfold Decoder.decode
    simp only [bind, Except.bind,
      Decoder.decodeLoop_unknown hboundary hread htag inputBuffer.length (Nat.zero_le _)
        (by simp only [BufferReader.size]; omega)]
  refine ⟨hmain, ?_, ?_⟩
  · intro decoded h
    rw [hmain] at h
    cases h
  · intro rest
    have hfirst : (⟨tag :: rest, 0⟩ : BufferReader).readUInt8 = .ok (tag, ⟨tag :: rest, 1⟩) :=
      BufferReader.readUInt8_between [] tag rest
    unfold Decoder.decode
    simp only [bind, Except.bind,
      Decoder.decodeLoop_unknown (Decoder.Dispatched.start _ _) hfirst htag
        (tag :: rest).length (Nat.zero_le _) (by simp only [BufferReader.size]; omega)]

/-- Witness for C13: behind a NullBitmap block, the octet 9. -/
theorem unknown_tag_fatal_witness :
    (Decoder.construct ⟨2, 1⟩).decode Zstd.store [6, 9] = .error .invalidVariantIndex ∧
    (∀ decoded : Decoded, (Decoder.construct ⟨2, 1⟩).decode Zstd.store [6, 9] ≠ .ok decoded) ∧
    ∀ rest : List Byte,
      (Decoder.construct ⟨2, 1⟩).decode Zstd.store (9 :: rest) = .error .invalidVariantIndex :=
  unknown_tag_fatal Zstd.store (Decoder.construct ⟨2, 1⟩) [6, 9]
    { Decoder.construct ⟨2, 1⟩ with frameBitmap := [] } ⟨[6, 9], 1⟩ ⟨[6, 9], 2⟩ 9
    (Decoder.Dispatched.block _ _ 6 ⟨[6, 9], 1⟩ .NullBitmapBlock _ _ _ _ (by decide) rfl rfl
      rfl (Decoder.Dispatched.start _ _))
    rfl (by decide)

/-! ### The content of a Palette block -/

/-- The three ways of `Encoder::updatePalette`, with the octets written and
the encoder left by each. -/
theorem Encoder.updatePalette_cases {z : Zstd} {e e' : Encoder} {w w' : BufferWriter}
    {newPalette : Palette} (hinv : e.Inv)
    (hsize : newPalette.size ≤ Palette.maxColorCount)
    (h : e.updatePalette z w newPalette = .ok (e', w')) :
    ∃ b, newPalette.bits = .ok b ∧
      (((e.palette.difference newPalette).size = 0 ∧ e' = e ∧ w' = w) ∨
       (0 < (e.palette.difference newPalette).size ∧
        2 ^ b < e.palette.size + (e.palette.difference newPalette).size ∧
        e.palette.size ≠ 0 ∧
        w' = ⟨w.written ++ toUInt8 (variant_type_index .PaletteResetBlock) ::
          toUInt8 (variant_type_index .PaletteBlock) ::
            z.framed e.zstdCompressor (PaletteBlock.content newPalette), w.size⟩ ∧
        e' = { e with
          zstdCompressor := PaletteBlock.content newPalette :: e.zstdCompressor
          palette := e.palette.clear.merge newPalette
          colorMap := colorMapFill (e.palette.clear.merge newPalette).colors 0 [] } ∧
        (e.palette.clear.merge newPalette).colors = newPalette.colors) ∨
       (0 < (e.palette.difference newPalette).size ∧
        e.palette.size + (e.palette.difference newPalette).size ≤ 2 ^ b ∧
        w' = ⟨w.written ++ toUInt8 (variant_type_index .PaletteBlock) ::
            z.framed e.zstdCompressor
              (PaletteBlock.content (e.palette.difference newPalette)), w.size⟩ ∧
        e' = { e with
          zstdCompressor :=
            PaletteBlock.content (e.palette.difference newPalette) :: e.zstdCompressor
          palette := e.palette.merge (e.palette.difference newPalette)
          colorMap :=
            colorMapFill (e.palette.merge (e.palette.difference newPalette)).colors 0 [] })) := by
  obtain ⟨b, hbits⟩ := Palette.bits_ok hsize
  obtain ⟨hb1, -, -, -⟩ := Palette.bits_inv hbits
  refine ⟨b, hbits, ?_⟩
  have hbuf : PaletteBlock.maxSize ≤ e.internalBufferSize := by
    rw [hinv.buffer]; exact (safeInternal_ge e.bitmapInfo).1
  unfold Encoder.updatePalette at h
  simp only [] at h
  by_cases hnew : (e.palette.difference newPalette).size > 0
  · rw [if_pos hnew] at h
    simp only [hbits, bind, Except.bind, Nat.one_shiftLeft] at h
    by_cases hgt : e.palette.size + (e.palette.difference newPalette).size > 2 ^ b
    · rw [if_pos hgt] at h
      have hz0 : e.palette.size ≠ 0 := by
        intro h0
        have hle := Palette.difference_size_le e.palette newPalette
        omega
      rw [if_pos hz0] at h
      cases hr : writeBlock .PaletteResetBlock w (PaletteResetBlock.encode e) with
      | error err => rw [hr] at h; cases h
      | ok p =>
        rw [hr] at h
        obtain ⟨hcap0, hr1⟩ := writeBlock_inv hr
        simp only [PaletteResetBlock.encode, pure, Except.pure] at hr1
        cases hr1
        simp only at h
        obtain ⟨-, h1⟩ := writeBlock_inv h
        obtain ⟨-, -, he, hw⟩ := PaletteBlock.palette_encode_inv hsize
          (by exact hbuf) h1
        refine Or.inr (Or.inl ⟨hnew, hgt, hz0, ?_, ?_, ?_⟩)
        · rw [hw]
          simp [Encoder.resetPalette]
        · rw [he]
          rfl
        · exact setUnion_nil_right _
    · rw [if_neg hgt] at h
      have hdsize : (e.palette.difference newPalette).size ≤ Palette.maxColorCount :=
        Nat.le_trans (Palette.difference_size_le _ _) hsize
      obtain ⟨-, h1⟩ := writeBlock_inv h
      obtain ⟨-, -, he, hw⟩ := PaletteBlock.palette_encode_inv hdsize hbuf h1
      refine Or.inr (Or.inr ⟨hnew, by omega, ?_, he⟩)
      rw [hw]
      simp
  · rw [if_neg hnew] at h
    simp only [pure, Except.pure, Except.ok.injEq, Prod.mk.injEq] at h
    exact Or.inl ⟨by omega, h.1.symm, h.2.symm⟩

/-- The branch of `Encoder::encode` for a frame of 2 to 256 colours (or of no
pixel): `makePalette`, `updatePalette`, `copyFrameBitmap` and the
IndexedBitmap block, with the states in between. -/
theorem Encoder.encodeBitmap_indexed {z : Zstd} {e e' : Encoder} {w w' : BufferWriter}
    {bitmap : List Color} (hinv : e.Inv)
    (hlen : bitmap.length = e.bitmapInfo.width * e.bitmapInfo.height)
    (hpal : e.settings.usePalette = true) (hcard : bitmap.toFinset.card ≤ 256)
    (h1 : bitmap.toFinset.card ≠ 1) (hw0 : w.offset ≤ w.size)
    (hok : e.encodeBitmap z w bitmap = .ok (e', w')) :
    ∃ new e1 w1 b, e.makePalette bitmap = .ok (some new) ∧ new.Sorted ∧
      new.size = bitmap.toFinset.card ∧ (∀ x, x ∈ new.colors ↔ x ∈ bitmap) ∧
      e.updatePalette z w new = .ok (e1, w1) ∧ e1.Inv ∧
      (∀ c ∈ bitmap, c ∈ e1.palette.colors) ∧
      e1.palette.bits = .ok b ∧ (bitmap = [] ∨ (b = 1 ∨ b = 2 ∨ b = 4 ∨ b = 8)) ∧
      IndexedBitmapBlock.payload (e1.copyFrameBitmap bitmap) =
        .ok (IndexedBitmapBlock.content (e1.copyFrameBitmap bitmap) b) ∧
      w' = ⟨w1.written ++ toUInt8 (variant_type_index .IndexedBitmapBlock) ::
        z.framed e1.zstdCompressor (IndexedBitmapBlock.content (e1.copyFrameBitmap bitmap) b),
        w1.size⟩ ∧
      e' = { e1.copyFrameBitmap bitmap with
        zstdCompressor := Zstd.fed e1.zstdCompressor
          (IndexedBitmapBlock.content (e1.copyFrameBitmap bitmap) b) } := by
  have htake : bitmap.take (e.bitmapInfo.width * e.bitmapInfo.height) = bitmap :=
    List.take_of_length_le (Nat.le_of_eq hlen)
  obtain ⟨p, hsome, hps, hpsize, hpmem, hpcard⟩ :=
    (e.makePalette_iff bitmap).2 (by rw [htake]; exact hcard)
  rw [htake] at hpmem hpcard
  have h := hok
  unfold Encoder.encodeBitmap at h
  rw [if_pos hpal] at h
  simp only [hsome, bind, Except.bind] at h
  rw [if_neg (by rw [hpcard]; exact h1)] at h
  cases hu : e.updatePalette z w p with
  | error err => rw [hu] at h; cases h
  | ok r =>
    obtain ⟨e1, w1⟩ := r
    rw [hu] at h
    simp only at h
    obtain ⟨bytes1, blocks1, hw1, -, -, -, hinv1, hsame1, -, hmem1, -, -, -⟩ :=
      Encoder.updatePalette_inv hinv hps hpsize hw0 hu
    have hlen2 : bitmap.length = e1.bitmapInfo.pixelCount := by
      rw [hsame1.bitmapInfo]; exact hlen
    obtain ⟨hinv2, hfr2⟩ := hinv1.copyFrameBitmap hlen2
    have hframe : ∀ c ∈ bitmap, c ∈ e1.palette.colors := fun c hc => hmem1 c ((hpmem c).2 hc)
    obtain ⟨b, hbits⟩ := Palette.bits_ok hinv1.size
    obtain ⟨hb1, hb2, hb3, hb4⟩ := Palette.bits_inv hbits
    have hb : bitmap = [] ∨ (b = 1 ∨ b = 2 ∨ b = 4 ∨ b = 8) := by
      by_cases hnil : bitmap = []
      · exact Or.inl hnil
      · right
        have hpos : 0 < bitmap.toFinset.card := by
          obtain ⟨x, hx⟩ := List.exists_mem_of_ne_nil _ hnil
          exact Finset.card_pos.2 ⟨x, List.mem_toFinset.2 hx⟩
        have hsub : p.colors ⊆ e1.palette.colors := fun c hc => hmem1 c hc
        have hle := (List.subperm_of_subset (Increasing.nodup hps) hsub).length_le
        have hp2 : 2 ≤ e1.palette.size := by
          simp only [Palette.size] at hpcard ⊢
          omega
        rcases hb3 with h0 | h0
        · have := hb4.1 h0; omega
        · exact h0
    have hpay := IndexedBitmapBlock.indexed_payload_eq (e1.copyFrameBitmap bitmap) b hbits
      (by rw [hfr2]; exact hb) hinv2.colorMap (by rw [hfr2]; exact hframe)
      (by rw [hinv2.buffer, hinv2.frame]; exact (safeInternal_ge _).2)
    obtain ⟨-, h2⟩ := writeBlock_inv h
    unfold IndexedBitmapBlock.encode at h2
    simp only [hpay, bind, Except.bind] at h2
    obtain ⟨-, he, hw⟩ := Encoder.compressBuffer_framed_inv h2
    refine ⟨p, e1, w1, b, hsome, hps, hpcard, hpmem, hu, hinv1, hframe, hbits, hb, hpay, ?_, ?_⟩
    · rw [hw]
      simp [IndexedBitmapBlock.content, Encoder.copyFrameBitmap]
    · rw [he]
      rfl

/-- What a returning `encode` call on a reachable encoder wrote and left, by
the branch it took: the NullBitmap block, the SolidColorBitmap block, the
RawBitmap block, or the palette update followed by the IndexedBitmap
block. -/
theorem Encoder.After.encode_shape {z : Zstd} {bitmapInfo : BitmapInfo}
    {settings : EncoderSettings} {last : Option (List Color)} {e : Encoder}
    (hafter : Encoder.After z bitmapInfo settings last e) {bitmap : List Color}
    (hlen : bitmap.length = bitmapInfo.width * bitmapInfo.height) {keyFrame : Bool}
    {enc : Encoded} (henc : e.encode z bitmap keyFrame = .ok enc) :
    (last = some bitmap ∧ keyFrame = false ∧ bitmap ≠ [] ∧ enc = ⟨⟨1, false⟩, [6], e⟩) ∨
    (¬ (last = some bitmap ∧ keyFrame = false ∧ bitmap ≠ []) ∧
      enc.result = ⟨enc.output.length, last.isNone || keyFrame⟩ ∧
      ((settings.usePalette = true ∧ bitmap.toFinset.card = 1 ∧
          ∃ c, (∀ x ∈ bitmap, x = c) ∧
            enc.output = (if (last.isNone || keyFrame) = true then [0] else []) ++
              [5, c.r, c.g, c.b] ∧
            enc.encoder.palette = (e.afterKeyFrame keyFrame).palette) ∨
       ((settings.usePalette = false ∨ 256 < bitmap.toFinset.card) ∧
          enc.output = (if (last.isNone || keyFrame) = true then [0] else []) ++
            4 :: z.framed (e.afterKeyFrame keyFrame).zstdCompressor (colorsToBytes bitmap) ∧
          enc.encoder.palette = (e.afterKeyFrame keyFrame).palette) ∨
       (settings.usePalette = true ∧ bitmap.toFinset.card ≤ 256 ∧ bitmap.toFinset.card ≠ 1 ∧
          ∃ new e1 palBytes b,
            (e.afterKeyFrame keyFrame).makePalette bitmap = .ok (some new) ∧ new.Sorted ∧
            new.size = bitmap.toFinset.card ∧ (∀ x, x ∈ new.colors ↔ x ∈ bitmap) ∧
            (e.afterKeyFrame keyFrame).updatePalette z
              ⟨if (last.isNone || keyFrame) = true then [0] else [], e.safeOutputBufferSize z⟩
              new = .ok (e1, ⟨(if (last.isNone || keyFrame) = true then [0] else []) ++
                palBytes, e.safeOutputBufferSize z⟩) ∧
            e1.Inv ∧ (∀ c ∈ bitmap, c ∈ e1.palette.colors) ∧
            e1.palette.bits = .ok b ∧ (bitmap = [] ∨ (b = 1 ∨ b = 2 ∨ b = 4 ∨ b = 8)) ∧
            IndexedBitmapBlock.payload (e1.copyFrameBitmap bitmap) =
              .ok (IndexedBitmapBlock.content (e1.copyFrameBitmap bitmap) b) ∧
            enc.output = (if (last.isNone || keyFrame) = true then [0] else []) ++ palBytes ++
              3 :: z.framed e1.zstdCompressor
                (IndexedBitmapBlock.content (e1.copyFrameBitmap bitmap) b) ∧
            enc.encoder.palette = e1.palette))) := by
  by_cases hnull : last = some bitmap ∧ keyFrame = false ∧ bitmap ≠ []
  · left
    have h := henc
    rw [(hafter.encode_cases hlen keyFrame).1 hnull] at h
    cases h
    exact ⟨hnull.1, hnull.2.1, hnull.2.2, rfl⟩
  · right
    obtain ⟨hinv, hbi, hset, -, -, -⟩ := hafter.afterKeyFrame_inv keyFrame
    have hsafe := Encoder.safeOutputBufferSize_ge z e
    have hlen' : bitmap.length =
        (e.afterKeyFrame keyFrame).bitmapInfo.width *
          (e.afterKeyFrame keyFrame).bitmapInfo.height := by rw [hbi]; exact hlen
    have htake : bitmap.take ((e.afterKeyFrame keyFrame).bitmapInfo.width *
        (e.afterKeyFrame keyFrame).bitmapInfo.height) = bitmap :=
      List.take_of_length_le (Nat.le_of_eq hlen')
    have hw0 : (⟨if (last.isNone || keyFrame) = true then [0] else [],
        e.safeOutputBufferSize z⟩ : BufferWriter).offset + 4 ≤ e.safeOutputBufferSize z := by
      show (if (last.isNone || keyFrame) = true then ([0] : List Byte) else []).length + 4 ≤ _
      split <;> simp only [List.length_singleton, List.length_nil] <;> omega
    have hw0' : (⟨if (last.isNone || keyFrame) = true then [0] else [],
        e.safeOutputBufferSize z⟩ : BufferWriter).offset ≤
        (⟨if (last.isNone || keyFrame) = true then [0] else [],
          e.safeOutputBufferSize z⟩ : BufferWriter).size :=
      Nat.le_trans (Nat.le_add_right _ 4) hw0
    have hmake : (e.afterKeyFrame keyFrame).makePalette bitmap = .ok none ↔
        256 < bitmap.toFinset.card := by
      have := ((e.afterKeyFrame keyFrame).makePalette_iff bitmap).1
      rw [htake] at this
      exact this
    have h := henc
    rw [(hafter.encode_cases hlen keyFrame).2 hnull] at h
    cases hb : (e.afterKeyFrame keyFrame).encodeBitmap z
        ⟨if (last.isNone || keyFrame) = true then [0] else [], e.safeOutputBufferSize z⟩
        bitmap with
    | error err => rw [hb] at h; cases h
    | ok r =>
      obtain ⟨e2, w2⟩ := r
      rw [hb] at h
      simp only [Except.ok.injEq] at h
      subst h
      refine ⟨hnull, ?_⟩
      by_cases hraw : settings.usePalette = false ∨ 256 < bitmap.toFinset.card
      · obtain ⟨hw, hp, -⟩ := Encoder.encodeBitmap_raw_inv (by
          rcases hraw with h | h
          · exact Or.inl (by rw [hset]; exact h)
          · exact Or.inr (hmake.2 h)) hlen' hb
        subst hw
        exact ⟨rfl, Or.inr (Or.inl ⟨hraw, rfl, hp⟩)⟩
      · have hpal : settings.usePalette = true := by
          cases hu : settings.usePalette
          · exact absurd (Or.inl hu) hraw
          · rfl
        have hcard : bitmap.toFinset.card ≤ 256 := by
          by_contra hc
          exact hraw (Or.inr (by omega))
        by_cases h1 : bitmap.toFinset.card = 1
        · obtain ⟨c, hc⟩ := Finset.card_eq_one.1 h1
          have hall : ∀ x ∈ bitmap, x = c := by
            intro x hx
            have : x ∈ bitmap.toFinset := List.mem_toFinset.2 hx
            rw [hc] at this
            exact Finset.mem_singleton.1 this
          have hne : bitmap ≠ [] := by
            intro h0
            rw [h0] at h1
            simp at h1
          have hsolid := Encoder.encodeBitmap_solid z (e.afterKeyFrame keyFrame)
            ⟨if (last.isNone || keyFrame) = true then [0] else [], e.safeOutputBufferSize z⟩
            (by rw [hset]; exact hpal) hlen' hne hall hw0
          rw [hsolid] at hb
          simp only [Except.ok.injEq, Prod.mk.injEq] at hb
          obtain ⟨he2, hw2⟩ := hb
          subst he2 hw2
          exact ⟨rfl, Or.inl ⟨hpal, h1, c, hall, rfl, rfl⟩⟩
        · obtain ⟨new, e1, w1, b, hsome, hs, hsz, hmem, hu, hinv1, hfr, hbits, hbb, hpay, hw,
            he⟩ := Encoder.encodeBitmap_indexed hinv hlen' (by rw [hset]; exact hpal) hcard h1
              hw0' hb
          obtain ⟨palBytes, -, hw1, -⟩ := Encoder.updatePalette_inv hinv hs
            (by rw [hsz]; exact hcard) hw0' hu
          subst hw1 hw he
          refine ⟨?_, Or.inr (Or.inr ⟨hpal, hcard, h1, new, e1, palBytes, b, hsome, hs, hsz,
            hmem, hu, hinv1, hfr, hbits, hbb, hpay, ?_, rfl⟩)⟩
          · rfl
          · show ((if (last.isNone || keyFrame) = true then ([0] : List Byte) else []) ++
              palBytes) ++ _ = _
            rfl

/-- The palette branch of a returning `encode` call on a reachable encoder,
with the way `updatePalette` took: `delta` empty, replacement, or
increment. -/
theorem Encoder.After.encode_indexed {z : Zstd} {bitmapInfo : BitmapInfo}
    {settings : EncoderSettings} {last : Option (List Color)} {e : Encoder}
    (hafter : Encoder.After z bitmapInfo settings last e) {bitmap : List Color}
    (hlen : bitmap.length = bitmapInfo.width * bitmapInfo.height) {keyFrame : Bool}
    {enc : Encoded} (henc : e.encode z bitmap keyFrame = .ok enc)
    (hpal : settings.usePalette = true)
    (hnull : ¬ (last = some bitmap ∧ keyFrame = false ∧ bitmap ≠ []))
    (hcard : bitmap.toFinset.card ≤ 256) (h1 : bitmap.toFinset.card ≠ 1) :
    ∃ (new : Palette) (bn : Nat) (e1 : Encoder) (b : Nat),
      new.Sorted ∧ (∀ x, x ∈ new.colors ↔ x ∈ bitmap) ∧ new.size = bitmap.toFinset.card ∧
      new.bits = .ok bn ∧
      ((e.afterKeyFrame keyFrame).palette.difference new).colors =
        new.colors.filter (fun c => decide (c ∉ (e.afterKeyFrame keyFrame).palette.colors)) ∧
      e1.Inv ∧ (∀ c ∈ bitmap, c ∈ e1.palette.colors) ∧
      e1.palette.bits = .ok b ∧ (bitmap = [] ∨ (b = 1 ∨ b = 2 ∨ b = 4 ∨ b = 8)) ∧
      IndexedBitmapBlock.payload (e1.copyFrameBitmap bitmap) =
        .ok (IndexedBitmapBlock.content (e1.copyFrameBitmap bitmap) b) ∧
      enc.result = ⟨enc.output.length, last.isNone || keyFrame⟩ ∧
      enc.encoder.palette = e1.palette ∧
      ((((e.afterKeyFrame keyFrame).palette.difference new).size = 0 ∧
          e1 = e.afterKeyFrame keyFrame ∧
          enc.output = (if (last.isNone || keyFrame) = true then [0] else []) ++
            3 :: z.framed e1.zstdCompressor
              (IndexedBitmapBlock.content (e1.copyFrameBitmap bitmap) b)) ∨
       (0 < ((e.afterKeyFrame keyFrame).palette.difference new).size ∧
          2 ^ bn < (e.afterKeyFrame keyFrame).palette.size +
            ((e.afterKeyFrame keyFrame).palette.difference new).size ∧
          (e.afterKeyFrame keyFrame).palette.size ≠ 0 ∧
          e1.palette = (e.afterKeyFrame keyFrame).palette.clear.merge new ∧
          e1.palette.colors = new.colors ∧
          enc.output = (if (last.isNone || keyFrame) = true then [0] else []) ++
            (2 :: 1 :: z.framed (e.afterKeyFrame keyFrame).zstdCompressor
              (PaletteBlock.content new)) ++
            3 :: z.framed e1.zstdCompressor
              (IndexedBitmapBlock.content (e1.copyFrameBitmap bitmap) b)) ∨
       (0 < ((e.afterKeyFrame keyFrame).palette.difference new).size ∧
          (e.afterKeyFrame keyFrame).palette.size +
            ((e.afterKeyFrame keyFrame).palette.difference new).size ≤ 2 ^ bn ∧
          e1.palette = (e.afterKeyFrame keyFrame).palette.merge
            ((e.afterKeyFrame keyFrame).palette.difference new) ∧
          enc.output = (if (last.isNone || keyFrame) = true then [0] else []) ++
            (1 :: z.framed (e.afterKeyFrame keyFrame).zstdCompressor
              (PaletteBlock.content ((e.afterKeyFrame keyFrame).palette.difference new))) ++
            3 :: z.framed e1.zstdCompressor
              (IndexedBitmapBlock.content (e1.copyFrameBitmap bitmap) b))) := by
  obtain ⟨hinv, -, hset, -, -, -⟩ := hafter.afterKeyFrame_inv keyFrame
  rcases hafter.encode_shape hlen henc with ⟨h1', h2', h3', -⟩ | ⟨-, hres, hcase⟩
  · exact absurd ⟨h1', h2', h3'⟩ hnull
  rcases hcase with ⟨-, hc1, -⟩ | ⟨hraw, -⟩ | ⟨-, -, -, new, e1, palBytes, b, -, hs, hsz, hmem,
    hu, hinv1, hfr, hbits, hbb, hpay, hout, hp⟩
  · exact absurd hc1 h1
  · rcases hraw with h | h
    · rw [hpal] at h; cases h
    · omega
  obtain ⟨bn, hbn, hcases⟩ := Encoder.updatePalette_cases hinv (by rw [hsz]; exact hcard) hu
  refine ⟨new, bn, e1, b, hs, hmem, hsz, hbn, Palette.difference_colors hinv.sorted hs, hinv1,
    hfr, hbits, hbb, hpay, hres, hp, ?_⟩
  rcases hcases with ⟨h0, he, hw⟩ | ⟨hpos, hgt, hz0, hw, he, hcol⟩ | ⟨hpos, hle, hw, he⟩
  · left
    simp only [BufferWriter.mk.injEq, and_true] at hw
    have hnil : palBytes = [] := by
      have := congrArg List.length hw
      simp only [List.length_append] at this
      exact List.length_eq_zero.1 (by omega)
    refine ⟨h0, he, ?_⟩
    rw [hout, hnil, List.append_nil]
  · right; left
    simp only [BufferWriter.mk.injEq, and_true] at hw
    have hpb := List.append_cancel_left hw
    refine ⟨hpos, hgt, hz0, by rw [he], by rw [he]; exact hcol, ?_⟩
    rw [hout, hpb]
    rfl
  · right; right
    simp only [BufferWriter.mk.injEq, and_true] at hw
    have hpb := List.append_cancel_left hw
    refine ⟨hpos, hle, by rw [he], ?_⟩
    rw [hout, hpb]
    rfl

theorem Tagged.keyTag (k : Bool) {bytes : List Byte} {blocks : List FrameBlock}
    (h : Tagged bytes blocks) :
    Tagged ((if k = true then [0] else []) ++ bytes)
      ((if k = true then [FrameBlock.KeyFrameBlock] else []) ++ blocks) := by
  cases k
  · exact h
  · exact Tagged.cons .KeyFrameBlock [] bytes blocks rfl h

theorem Tagged.chunk (z : Zstd) (block : FrameBlock)
    (hb : block = .PaletteBlock ∨ block = .IndexedBitmapBlock ∨ block = .RawBitmapBlock)
    (history : List (List Byte)) (input : List Byte) {rest : List Byte}
    {more : List FrameBlock} (h : Tagged rest more) :
    Tagged (toUInt8 (variant_type_index block) :: (z.framed history input ++ rest))
      (block :: more) := by
  refine Tagged.cons block _ rest more ?_ h
  rcases hb with rfl | rfl | rfl <;> exact z.framed_chunk _ _

/-- C21: on a reachable encoder with palette mode on, for a frame of 2 to 256
distinct colours on which the null path is not taken, `encode` returns when
the codec keeps to its bound, and a returning call writes, behind the
optional KeyFrame tag and in front of the one IndexedBitmap block, what the
palette update procedure prescribes.  With
`cur` the palette of the encoder behind the optional KeyFrame block, `new`
the strictly increasing palette of the colours of the frame and `delta` the
colours of `new` that `cur` lacks: nothing when `delta` is empty; a
PaletteReset block and a Palette block whose content is all of `new` when
`|cur| + |delta| > 2 ^ bits(new)`; otherwise one Palette block whose content
is `delta`.  So a PaletteReset block is written exactly when `delta` is not
empty and `|cur| + |delta| > 2 ^ bits(new)`. -/
theorem palette_update_procedure (z : Zstd) (bitmapInfo : BitmapInfo)
    (settings : EncoderSettings) (hpal : settings.usePalette = true)
    (last : Option (List Color)) (e : Encoder)
    (hafter : Encoder.After z bitmapInfo settings last e) (bitmap : List Color)
    (hlen : bitmap.length = bitmapInfo.width * bitmapInfo.height) (keyFrame : Bool)
    (hnull : last = none ∨ keyFrame = true ∨ last ≠ some bitmap)
    (h2 : 2 ≤ bitmap.toFinset.card) (h256 : bitmap.toFinset.card ≤ 256) :
    (z.Bounded → ∃ enc, e.encode z bitmap keyFrame = .ok enc) ∧
    ∀ enc : Encoded, e.encode z bitmap keyFrame = .ok enc →
    ∃ (new : Palette) (bits : Nat) (delta : List Color) (indexed : List Byte)
      (blocks : List FrameBlock),
      new.Sorted ∧ (∀ x, x ∈ new.colors ↔ x ∈ bitmap) ∧ new.size = bitmap.toFinset.card ∧
      new.bits = .ok bits ∧
      (e.afterKeyFrame keyFrame).palette =
        (if enc.result.keyFrame = true then e.palette.clear else e.palette) ∧
      delta = new.colors.filter
        (fun c => decide (c ∉ (e.afterKeyFrame keyFrame).palette.colors)) ∧
      FrameBlock.Payload .IndexedBitmapBlock indexed ∧
      Tagged enc.output blocks ∧ (∀ blocks', Tagged enc.output blocks' → blocks' = blocks) ∧
      ((delta = [] ∧
          enc.output = (if enc.result.keyFrame = true then [0] else []) ++ 3 :: indexed ∧
          blocks = (if enc.result.keyFrame = true then [FrameBlock.KeyFrameBlock] else []) ++
            [.IndexedBitmapBlock]) ∨
       (delta ≠ [] ∧ 2 ^ bits < (e.afterKeyFrame keyFrame).palette.size + delta.length ∧
          enc.output = (if enc.result.keyFrame = true then [0] else []) ++
            (2 :: 1 :: z.framed (e.afterKeyFrame keyFrame).zstdCompressor
              (PaletteBlock.content new)) ++ 3 :: indexed ∧
          blocks = (if enc.result.keyFrame = true then [FrameBlock.KeyFrameBlock] else []) ++
            [.PaletteResetBlock, .PaletteBlock, .IndexedBitmapBlock]) ∨
       (delta ≠ [] ∧ (e.afterKeyFrame keyFrame).palette.size + delta.length ≤ 2 ^ bits ∧
          enc.output = (if enc.result.keyFrame = true then [0] else []) ++
            (1 :: z.framed (e.afterKeyFrame keyFrame).zstdCompressor
              (toUInt8 (delta.length - 1) :: colorsToBytes delta)) ++ 3 :: indexed ∧
          blocks = (if enc.result.keyFrame = true then [FrameBlock.KeyFrameBlock] else []) ++
            [.PaletteBlock, .IndexedBitmapBlock])) ∧
      (FrameBlock.PaletteResetBlock ∈ blocks ↔
        delta ≠ [] ∧ 2 ^ bits < (e.afterKeyFrame keyFrame).palette.size + delta.length) := by
  refine ⟨fun hb => Encoder.encode_ok hb keyFrame hafter.inv.1
    (by rw [hafter.inv.2.1]; exact hlen), ?_⟩
  intro enc henc
  have hnot : ¬ (last = some bitmap ∧ keyFrame = false ∧ bitmap ≠ []) := by
    rintro ⟨h1, h2, -⟩
    rcases hnull with h | h | h
    · rw [h] at h1; cases h1
    · rw [h] at h2; cases h2
    · exact h h1
  obtain ⟨new, bn, e1, b, hs, hmem, hsz, hbn, hdiff, -, -, -, -, -, hres, -, hcases⟩ :=
    hafter.encode_indexed hlen henc hpal hnot h256 (by omega)
  obtain ⟨-, -, -, hpalette, -, -⟩ := hafter.afterKeyFrame_inv keyFrame
  have hk : enc.result.keyFrame = (last.isNone || keyFrame) := by rw [hres]
  have hlenD : ((e.afterKeyFrame keyFrame).palette.difference new).size =
      (new.colors.filter
        (fun c => decide (c ∉ (e.afterKeyFrame keyFrame).palette.colors))).length := by
    rw [Palette.size, hdiff]
  have hcontent : PaletteBlock.content ((e.afterKeyFrame keyFrame).palette.difference new) =
      toUInt8 ((new.colors.filter
        (fun c => decide (c ∉ (e.afterKeyFrame keyFrame).palette.colors))).length - 1) ::
        colorsToBytes (new.colors.filter
          (fun c => decide (c ∉ (e.afterKeyFrame keyFrame).palette.colors))) := by
    rw [PaletteBlock.content, hlenD, hdiff]
  have hI : Tagged (3 :: (z.framed e1.zstdCompressor
      (IndexedBitmapBlock.content (e1.copyFrameBitmap bitmap) b) ++ []))
      [.IndexedBitmapBlock] :=
    Tagged.chunk z .IndexedBitmapBlock (Or.inr (Or.inl rfl)) _ _ Tagged.nil
  rw [List.append_nil] at hI
  have hnoKey : FrameBlock.PaletteResetBlock ∉
      (if (last.isNone || keyFrame) = true then [FrameBlock.KeyFrameBlock] else []) := by
    split <;> simp
  rw [hk]
  refine ⟨new, bn, _, z.framed e1.zstdCompressor
      (IndexedBitmapBlock.content (e1.copyFrameBitmap bitmap) b), ?_, hs, hmem, hsz, hbn,
    hpalette, rfl, z.framed_chunk _ _, ?_⟩
  · exact (if (last.isNone || keyFrame) = true then [FrameBlock.KeyFrameBlock] else []) ++
      (if new.colors.filter
          (fun c => decide (c ∉ (e.afterKeyFrame keyFrame).palette.colors)) = [] then []
        else if 2 ^ bn < (e.afterKeyFrame keyFrame).palette.size + (new.colors.filter
          (fun c => decide (c ∉ (e.afterKeyFrame keyFrame).palette.colors))).length
        then [.PaletteResetBlock, .PaletteBlock] else [.PaletteBlock]) ++
      [.IndexedBitmapBlock]
  rcases hcases with ⟨h0, -, hout⟩ | ⟨hpos, hgt, -, -, -, hout⟩ | ⟨hpos, hle, -, hout⟩
  · have hnil : new.colors.filter
        (fun c => decide (c ∉ (e.afterKeyFrame keyFrame).palette.colors)) = [] :=
      List.length_eq_zero.1 (by omega)
    have htag : Tagged enc.output
        ((if (last.isNone || keyFrame) = true then [FrameBlock.KeyFrameBlock] else []) ++
          [.IndexedBitmapBlock]) := by
      rw [hout]; exact Tagged.keyTag _ hI
    simp only [hnil, if_true, List.append_nil, List.length_nil, ne_eq, not_true_eq_false,
      false_and, or_false, false_or, true_and, iff_false]
    refine ⟨htag, fun blocks' h' => Tagged.unique h' htag, ⟨hout, trivial⟩, ?_⟩
    intro hm
    rcases List.mem_append.1 hm with h | h
    · exact hnoKey h
    · simp at h
  · have hne : new.colors.filter
        (fun c => decide (c ∉ (e.afterKeyFrame keyFrame).palette.colors)) ≠ [] := by
      intro h
      rw [h] at hlenD
      simp only [List.length_nil] at hlenD
      omega
    rw [hlenD] at hgt
    have htag : Tagged enc.output
        ((if (last.isNone || keyFrame) = true then [FrameBlock.KeyFrameBlock] else []) ++
          [.PaletteResetBlock, .PaletteBlock, .IndexedBitmapBlock]) := by
      rw [hout, List.append_assoc]
      exact Tagged.keyTag _ (Tagged.cons .PaletteResetBlock [] _ _ rfl
        (Tagged.chunk z .PaletteBlock (Or.inl rfl) _ _ hI))
    simp only [if_neg hne, if_pos hgt, List.append_assoc, List.cons_append, List.nil_append]
    refine ⟨htag, fun blocks' h' => Tagged.unique h' htag, Or.inr (Or.inl ⟨hne, hgt, ?_, trivial⟩),
      fun _ => ⟨hne, hgt⟩, fun _ => ?_⟩
    · rw [hout]
      simp only [List.append_assoc, List.cons_append, List.nil_append]
    · exact List.mem_append_right _ (List.mem_cons_self _ _)
  · have hne : new.colors.filter
        (fun c => decide (c ∉ (e.afterKeyFrame keyFrame).palette.colors)) ≠ [] := by
      intro h
      rw [h] at hlenD
      simp only [List.length_nil] at hlenD
      omega
    rw [hlenD] at hle
    rw [hcontent] at hout
    have htag : Tagged enc.output
        ((if (last.isNone || keyFrame) = true then [FrameBlock.KeyFrameBlock] else []) ++
          [.PaletteBlock, .IndexedBitmapBlock]) := by
      rw [hout, List.append_assoc]
      exact Tagged.keyTag _ (Tagged.chunk z .PaletteBlock (Or.inl rfl) _ _ hI)
    simp only [if_neg hne, if_neg (Nat.not_lt.2 hle), List.append_assoc, List.cons_append,
      List.nil_append]
    refine ⟨htag, fun blocks' h' => Tagged.unique h' htag,
      Or.inr (Or.inr ⟨hne, hle, ?_, trivial⟩), ?_, fun h => absurd h.2 (Nat.not_lt.2 hle)⟩
    · rw [hout]
      simp only [List.append_assoc, List.cons_append, List.nil_append]
    · intro hm
      rcases List.mem_append.1 hm with h | h
      · exact absurd h hnoKey
      · simp at h

theorem twoColourEncoder_after :
    Encoder.After Zstd.store ⟨2, 1⟩ {} (some twoColourExample) twoColourEncoder :=
  Encoder.After.call none (Encoder.construct ⟨2, 1⟩ {}) twoColourExample false
    ((Encoder.construct ⟨2, 1⟩ {}).encoded Zstd.store twoColourExample false)
    Encoder.After.fresh rfl rfl

/-- Witness for C21: behind `twoColourExample`, a frame with two other colours
is sent with a PaletteReset block, a Palette block and an IndexedBitmap
block. -/
theorem palette_update_procedure_witness :
    (twoColourEncoder.encoded Zstd.store [⟨1, 2, 3⟩, ⟨0, 255, 0⟩] false).output =
      [2, 1, 7, 0, 0, 0, 1, 0, 255, 0, 1, 2, 3, 3, 2, 0, 0, 0, 1, 1] ∧
    ∃ blocks,
      Tagged (twoColourEncoder.encoded Zstd.store [⟨1, 2, 3⟩, ⟨0, 255, 0⟩] false).output
        blocks ∧
      ∀ blocks',
        Tagged (twoColourEncoder.encoded Zstd.store [⟨1, 2, 3⟩, ⟨0, 255, 0⟩] false).output
          blocks' → blocks' = blocks :=
  have ⟨_, _, _, _, blocks, _, _, _, _, _, _, _, htag, huniq, _⟩ :=
    (palette_update_procedure Zstd.store ⟨2, 1⟩ {} rfl (some twoColourExample)
      twoColourEncoder twoColourEncoder_after [⟨1, 2, 3⟩, ⟨0, 255, 0⟩] rfl false
      (Or.inr (Or.inr (by decide))) (by decide) (by decide)).2
      (twoColourEncoder.encoded Zstd.store [⟨1, 2, 3⟩, ⟨0, 255, 0⟩] false) rfl
  ⟨by decide, blocks, htag, huniq⟩

/-- C22: for an encoder in a state between blocks (palette `cur` strictly
increasing, at most 256 colours, colour map built from it) and a strictly
increasing palette `new` of at most 256 colours, `updatePalette` returns when
the output buffer has room, and when it returns, with `delta` the colours of
`new` that `cur` lacks: if `delta` is empty the encoder is unchanged; on the
replacement path (`|cur| + |delta| > 2 ^ bits(new)`) `cur` is not empty, the
PaletteReset block is written in front of the Palette block and the palette
becomes `new`; on the incremental path it becomes the strictly increasing
sequence of the colours of `cur` and `delta`, `|cur| + |delta|` in number.  In
all three cases every colour of `new` is in the palette, which is strictly
increasing with at most 256 colours, and the colour map is built from it. -/
theorem palette_state_after_update (z : Zstd) (e : Encoder) (w : BufferWriter)
    (new : Palette) (hinv : e.Inv) (hs : new.Sorted) (hsize : new.size ≤ 256) :
    (z.Bounded → w.offset + (2 + (4 + z.compressBound PaletteBlock.maxSize)) ≤ w.size →
      ∃ r, e.updatePalette z w new = .ok r) ∧
    ∀ (e' : Encoder) (w' : BufferWriter), e.updatePalette z w new = .ok (e', w') →
      ∃ (bits : Nat) (delta : List Color), new.bits = .ok bits ∧
        delta = new.colors.filter (fun c => decide (c ∉ e.palette.colors)) ∧
        (e.palette.difference new).colors = delta ∧
        ((delta = [] ∧ e' = e ∧ w' = w) ∨
         (delta ≠ [] ∧ 2 ^ bits < e.palette.size + delta.length ∧ e.palette.size ≠ 0 ∧
            w'.written = w.written ++
              2 :: 1 :: z.framed e.zstdCompressor (PaletteBlock.content new) ∧
            e'.palette = e.resetPalette.palette.merge new ∧
            e'.palette.colors = new.colors ∧
            (new.spare = List.replicate (Palette.maxColorCount - new.size) Color.zero →
              e'.palette = new)) ∨
         (delta ≠ [] ∧ e.palette.size + delta.length ≤ 2 ^ bits ∧
            w'.written = w.written ++
              1 :: z.framed e.zstdCompressor
                (toUInt8 (delta.length - 1) :: colorsToBytes delta) ∧
            e'.palette = e.palette.merge (e.palette.difference new) ∧
            (∀ c, c ∈ e'.palette.colors ↔ c ∈ e.palette.colors ∨ c ∈ delta) ∧
            e'.palette.size = e.palette.size + delta.length)) ∧
        (∀ c ∈ new.colors, c ∈ e'.palette.colors) ∧
        e'.palette.Sorted ∧ e'.palette.size ≤ 256 ∧
        e'.colorMap = colorMapFill e'.palette.colors 0 [] := by
  refine ⟨fun hb hcap => Encoder.updatePalette_ok hb e w new hinv hsize hcap, ?_⟩
  intro e' w' h
  obtain ⟨bits, hbits, hcases⟩ := Encoder.updatePalette_cases hinv hsize h
  have hdiff := Palette.difference_colors hinv.sorted hs
  have hlenD : (e.palette.difference new).size =
      (new.colors.filter (fun c => decide (c ∉ e.palette.colors))).length := by
    rw [Palette.size, hdiff]
  have hds := Palette.difference_sorted hinv.sorted hs
  refine ⟨bits, _, hbits, rfl, hdiff, ?_⟩
  rcases hcases with ⟨h0, he, hw⟩ | ⟨hpos, hgt, hz0, hw, he, hcol⟩ | ⟨hpos, hle, hw, he⟩
  · have hnil : new.colors.filter (fun c => decide (c ∉ e.palette.colors)) = [] :=
      List.length_eq_zero.1 (by omega)
    subst he
    refine ⟨Or.inl ⟨hnil, rfl, hw⟩, ?_, hinv.sorted, hinv.size, hinv.colorMap⟩
    intro c hc
    have := List.filter_eq_nil_iff.1 hnil c hc
    simpa using this
  · have hne : new.colors.filter (fun c => decide (c ∉ e.palette.colors)) ≠ [] := by
      intro h'
      rw [h'] at hlenD
      simp only [List.length_nil] at hlenD
      omega
    rw [hlenD] at hgt
    have hpal : e'.palette = e.palette.clear.merge new := by rw [he]
    have hcol' : e'.palette.colors = new.colors := by rw [hpal]; exact hcol
    refine ⟨Or.inr (Or.inl ⟨hne, hgt, hz0, by rw [hw]; rfl, hpal, hcol', ?_⟩), ?_, ?_, ?_, ?_⟩
    · intro hspare
      rw [hpal]
      have hm : e.palette.clear.merge new =
          ⟨(e.palette.clear.merge new).colors,
            List.replicate (Palette.maxColorCount - (e.palette.clear.merge new).colors.length)
              Color.zero⟩ := rfl
      rw [hm, hcol]
      cases new with
      | mk colors spare =>
        simp only [Palette.size] at hspare ⊢
        rw [← hspare]
    · intro c hc; rw [hcol']; exact hc
    · show Increasing e'.palette.colors
      rw [hcol']; exact hs
    · rw [Palette.size, hcol']; exact hsize
    · rw [he]
  · have hne : new.colors.filter (fun c => decide (c ∉ e.palette.colors)) ≠ [] := by
      intro h'
      rw [h'] at hlenD
      simp only [List.length_nil] at hlenD
      omega
    rw [hlenD] at hle
    have hpal : e'.palette = e.palette.merge (e.palette.difference new) := by rw [he]
    have hcolors : e'.palette.colors =
        setUnion ColorOrdering (e.palette.difference new).colors e.palette.colors := by
      rw [hpal]; rfl
    obtain ⟨hm, hsorted, -, hdisj⟩ := setUnion_spec hds hinv.sorted
    have hmem : ∀ c, c ∈ e'.palette.colors ↔
        c ∈ e.palette.colors ∨
          c ∈ new.colors.filter (fun c => decide (c ∉ e.palette.colors)) := by
      intro c
      rw [hcolors, hm c, hdiff]
      exact Or.comm
    have hsz : e'.palette.size = e.palette.size +
        (new.colors.filter (fun c => decide (c ∉ e.palette.colors))).length := by
      rw [Palette.size, hcolors, hdisj (by
        intro c hc
        rw [hdiff] at hc
        simpa using (List.mem_filter.1 hc).2), ← hdiff]
      simp only [Palette.size]
      omega
    have hpow : 2 ^ bits ≤ 256 := by
      obtain ⟨-, -, hb3, -⟩ := Palette.bits_inv hbits
      rcases hb3 with rfl | rfl | rfl | rfl | rfl <;> decide
    refine ⟨Or.inr (Or.inr ⟨hne, hle, ?_, hpal, hmem, hsz⟩), ?_, ?_, by omega, ?_⟩
    · rw [hw, PaletteBlock.content, hlenD, hdiff]
      rfl
    · intro c hc
      rw [hmem c]
      by_cases hcc : c ∈ e.palette.colors
      · exact Or.inl hcc
      · exact Or.inr (List.mem_filter.2 ⟨hc, by simpa using hcc⟩)
    · show Increasing e'.palette.colors
      rw [hcolors]; exact hsorted
    · rw [he]

/-- Witness for C22: the encoder that holds the colours of `twoColourExample`
is given the palette (1, 2, 3), (255, 0, 0). -/
theorem palette_state_after_update_witness :
    ∃ r, twoColourEncoder.updatePalette Zstd.store ⟨[], 1000⟩
        ⟨[⟨1, 2, 3⟩, ⟨255, 0, 0⟩], []⟩ = .ok r ∧
      (∀ c ∈ ([⟨1, 2, 3⟩, ⟨255, 0, 0⟩] : List Color), c ∈ r.1.palette.colors) ∧
      r.1.palette.Sorted ∧ r.1.palette.size ≤ 256 ∧
      r.1.colorMap = colorMapFill r.1.palette.colors 0 [] :=
  have h := palette_state_after_update Zstd.store twoColourEncoder ⟨[], 1000⟩
    ⟨[⟨1, 2, 3⟩, ⟨255, 0, 0⟩], []⟩ twoColourEncoder_after.inv.1 (by decide) (by decide)
  have ⟨r, hr⟩ := h.1 Zstd.store_bounded (by decide)
  have ⟨_, _, _, _, _, _, h5⟩ := h.2 r.1 r.2 hr
  ⟨r, hr, h5⟩

/-! ### The blocks of one frame -/

/-- The block kinds a returning `encode` call on a reachable encoder wrote,
with the palette it leaves: `cur` is the palette behind the optional KeyFrame
block. -/
theorem Encoder.After.encode_grammar {z : Zstd} {bitmapInfo : BitmapInfo}
    {settings : EncoderSettings} {last : Option (List Color)} {e : Encoder}
    (hafter : Encoder.After z bitmapInfo settings last e) {bitmap : List Color}
    (hlen : bitmap.length = bitmapInfo.width * bitmapInfo.height) {keyFrame : Bool}
    {enc : Encoded} (henc : e.encode z bitmap keyFrame = .ok enc) :
    ∃ body : List FrameBlock,
      Tagged enc.output
        ((if (last.isNone || keyFrame) = true then [FrameBlock.KeyFrameBlock] else []) ++
          body) ∧
      enc.result.keyFrame = (last.isNone || keyFrame) ∧
      (e.afterKeyFrame keyFrame).palette =
        (if (last.isNone || keyFrame) = true then e.palette.clear else e.palette) ∧
      ((body = [.NullBitmapBlock] ∧ (last.isNone || keyFrame) = false ∧ enc.encoder = e) ∨
       (body = [.SolidColorBitmapBlock] ∧
          enc.encoder.palette = (e.afterKeyFrame keyFrame).palette) ∨
       (body = [.RawBitmapBlock] ∧
          enc.encoder.palette = (e.afterKeyFrame keyFrame).palette) ∨
       (body = [.IndexedBitmapBlock] ∧
          enc.encoder.palette = (e.afterKeyFrame keyFrame).palette) ∨
       (body = [.PaletteResetBlock, .PaletteBlock, .IndexedBitmapBlock] ∧
          (e.afterKeyFrame keyFrame).palette.size ≠ 0) ∨
       (body = [.PaletteBlock, .IndexedBitmapBlock] ∧
          (e.afterKeyFrame keyFrame).palette.size ≤ enc.encoder.palette.size ∧
          ∀ c ∈ (e.afterKeyFrame keyFrame).palette.colors, c ∈ enc.encoder.palette.colors)) := by
  obtain ⟨hinv, -, -, hpalette, -, -⟩ := hafter.afterKeyFrame_inv keyFrame
  rcases hafter.encode_shape hlen henc with ⟨h1, h2, h3, rfl⟩ | ⟨hnull, hres, hcase⟩
  · have hk : (last.isNone || keyFrame) = false := by rw [h1, h2]; rfl
    refine ⟨[.NullBitmapBlock], ?_, hk.symm, hpalette, Or.inl ⟨rfl, hk, rfl⟩⟩
    rw [hk]
    exact @Tagged.single .NullBitmapBlock _ rfl
  have hk : enc.result.keyFrame = (last.isNone || keyFrame) := by rw [hres]
  rcases hcase with ⟨-, -, c, -, hout, hp⟩ | ⟨-, hout, hp⟩ | ⟨hpal, hcard, hc1, -⟩
  · refine ⟨[.SolidColorBitmapBlock], ?_, hk, hpalette, Or.inr (Or.inl ⟨rfl, hp⟩)⟩
    rw [hout]
    exact Tagged.keyTag _ (@Tagged.single .SolidColorBitmapBlock _ ⟨c, rfl⟩)
  · refine ⟨[.RawBitmapBlock], ?_, hk, hpalette, Or.inr (Or.inr (Or.inl ⟨rfl, hp⟩))⟩
    rw [hout]
    have := Tagged.chunk z .RawBitmapBlock (Or.inr (Or.inr rfl))
      (e.afterKeyFrame keyFrame).zstdCompressor (colorsToBytes bitmap) Tagged.nil
    rw [List.append_nil] at this
    exact Tagged.keyTag _ this
  obtain ⟨new, bn, e1, b, hs, -, -, -, hdiff, -, -, -, -, -, -, hp, hcases⟩ :=
    hafter.encode_indexed hlen henc hpal hnull hcard hc1
  have hI : Tagged (3 :: (z.framed e1.zstdCompressor
      (IndexedBitmapBlock.content (e1.copyFrameBitmap bitmap) b) ++ []))
      [.IndexedBitmapBlock] :=
    Tagged.chunk z .IndexedBitmapBlock (Or.inr (Or.inl rfl)) _ _ Tagged.nil
  rw [List.append_nil] at hI
  rcases hcases with ⟨-, he, hout⟩ | ⟨-, -, hz0, -, -, hout⟩ | ⟨-, -, he, hout⟩
  · refine ⟨[.IndexedBitmapBlock], ?_, hk, hpalette,
      Or.inr (Or.inr (Or.inr (Or.inl ⟨rfl, by rw [hp, he]⟩)))⟩
    rw [hout]
    exact Tagged.keyTag _ hI
  · refine ⟨[.PaletteResetBlock, .PaletteBlock, .IndexedBitmapBlock], ?_, hk, hpalette,
      Or.inr (Or.inr (Or.inr (Or.inr (Or.inl ⟨rfl, hz0⟩))))⟩
    rw [hout, List.append_assoc]
    exact Tagged.keyTag _ (Tagged.cons .PaletteResetBlock [] _ _ rfl
      (Tagged.chunk z .PaletteBlock (Or.inl rfl) _ _ hI))
  · have hds := Palette.difference_sorted hinv.sorted hs
    obtain ⟨hm, -, -, hdisj⟩ := setUnion_spec hds hinv.sorted
    have hcolors : enc.encoder.palette.colors =
        setUnion ColorOrdering ((e.afterKeyFrame keyFrame).palette.difference new).colors
          (e.afterKeyFrame keyFrame).palette.colors := by
      rw [hp, he]; rfl
    refine ⟨[.PaletteBlock, .IndexedBitmapBlock], ?_, hk, hpalette,
      Or.inr (Or.inr (Or.inr (Or.inr (Or.inr ⟨rfl, ?_, ?_⟩))))⟩
    · rw [hout, List.append_assoc]
      exact Tagged.keyTag _ (Tagged.chunk z .PaletteBlock (Or.inl rfl) _ _ hI)
    · rw [Palette.size, Palette.size, hcolors, hdisj (by
        intro c hc
        rw [hdiff] at hc
        simpa using (List.mem_filter.1 hc).2)]
      omega
    · intro c hc
      rw [hcolors, hm c]
      exact Or.inr hc

theorem getElem?_of_bounded {α : Type} (l : List α) (p : Nat → Prop) (x : α)
    (h : ∀ i < l.length, l[i]? = some x → p i) : ∀ i, l[i]? = some x → p i := by
  intro i hi
  by_cases hlt : i < l.length
  · exact h i hlt hi
  · rw [List.getElem?_eq_none (by omega)] at hi
    cases hi

/-- In a sequence of blocks made of an optional KeyFrame block and one of the
six bodies, the KeyFrame block is first, the last block is the one bitmap
block, and a PaletteReset block is followed by a Palette block. -/
theorem frameBlocks_props (k : Bool) (body : List FrameBlock)
    (hbody : body = [.NullBitmapBlock] ∨ body = [.SolidColorBitmapBlock] ∨
      body = [.RawBitmapBlock] ∨ body = [.IndexedBitmapBlock] ∨
      body = [.PaletteBlock, .IndexedBitmapBlock] ∨
      body = [.PaletteResetBlock, .PaletteBlock, .IndexedBitmapBlock]) :
    (∀ i, ((if k = true then [FrameBlock.KeyFrameBlock] else []) ++ body)[i]? =
      some .KeyFrameBlock → i = 0) ∧
    (((if k = true then [FrameBlock.KeyFrameBlock] else []) ++ body).getLast?.map
        FrameBlock.isBitmap = some true ∧
      ∀ b ∈ ((if k = true then [FrameBlock.KeyFrameBlock] else []) ++ body).dropLast,
        b.isBitmap = false) ∧
    (∀ i, ((if k = true then [FrameBlock.KeyFrameBlock] else []) ++ body)[i]? =
      some .PaletteResetBlock →
      ((if k = true then [FrameBlock.KeyFrameBlock] else []) ++ body)[i + 1]? =
        some .PaletteBlock) := by
  refine ⟨getElem?_of_bounded _ _ _ ?_, ?_, getElem?_of_bounded _ _ _ ?_⟩
  all_goals
    rcases hbody with rfl | rfl | rfl | rfl | rfl | rfl <;> cases k <;> decide

/-- C27: on a reachable encoder, for every frame of `width * height` colours
and every flag, `encode` returns when the codec keeps to its bound, and when
it returns the octets it wrote split into blocks in one way only, whose tags
are 0 exactly when the frame is a key frame, followed by one of [6], [5],
[4], [3], [1, 3], [2, 1, 3]; for a key frame the tags behind the 0 are not
[6] and not [2, 1, 3].  So the KeyFrame block occurs at most once and first,
one bitmap block (tag 3, 4, 5 or 6) is written and it is last, a PaletteReset
block is followed at once by a Palette block, and a key frame holds neither a
NullBitmap nor a PaletteReset block. -/
theorem frame_grammar (z : Zstd) (bitmapInfo : BitmapInfo) (settings : EncoderSettings)
    (last : Option (List Color)) (e : Encoder)
    (hafter : Encoder.After z bitmapInfo settings last e) (bitmap : List Color)
    (hlen : bitmap.length = bitmapInfo.width * bitmapInfo.height) (keyFrame : Bool) :
    (z.Bounded → ∃ enc, e.encode z bitmap keyFrame = .ok enc) ∧
    ∀ enc : Encoded, e.encode z bitmap keyFrame = .ok enc →
      ∃ blocks body : List FrameBlock,
        Tagged enc.output blocks ∧ (∀ blocks', Tagged enc.output blocks' → blocks' = blocks) ∧
        blocks = (if enc.result.keyFrame = true then [FrameBlock.KeyFrameBlock] else []) ++
          body ∧
        blocks.map variant_type_index =
          (if enc.result.keyFrame = true then [0] else []) ++ body.map variant_type_index ∧
        (body.map variant_type_index = [6] ∨ body.map variant_type_index = [5] ∨
          body.map variant_type_index = [4] ∨ body.map variant_type_index = [3] ∨
          body.map variant_type_index = [1, 3] ∨ body.map variant_type_index = [2, 1, 3]) ∧
        (enc.result.keyFrame = true →
          body.map variant_type_index ≠ [6] ∧ body.map variant_type_index ≠ [2, 1, 3] ∧
          FrameBlock.NullBitmapBlock ∉ blocks ∧ FrameBlock.PaletteResetBlock ∉ blocks) ∧
        (∀ i, blocks[i]? = some .KeyFrameBlock → i = 0) ∧
        (blocks.getLast?.map FrameBlock.isBitmap = some true ∧
          ∀ b ∈ blocks.dropLast, b.isBitmap = false) ∧
        (∀ i, blocks[i]? = some .PaletteResetBlock → blocks[i + 1]? = some .PaletteBlock) := by
  refine ⟨fun hb => Encoder.encode_ok hb keyFrame hafter.inv.1
    (by rw [hafter.inv.2.1]; exact hlen), ?_⟩
  intro enc henc
  obtain ⟨body, htag, hk, hpalette, hcase⟩ := hafter.encode_grammar hlen henc
  rw [hk]
  have hsize0 : (last.isNone || keyFrame) = true →
      (e.afterKeyFrame keyFrame).palette.size = 0 := by
    intro h
    rw [hpalette, if_pos h]
    rfl
  have hbody : body = [.NullBitmapBlock] ∨ body = [.SolidColorBitmapBlock] ∨
      body = [.RawBitmapBlock] ∨ body = [.IndexedBitmapBlock] ∨
      body = [.PaletteBlock, .IndexedBitmapBlock] ∨
      body = [.PaletteResetBlock, .PaletteBlock, .IndexedBitmapBlock] := by
    rcases hcase with ⟨h, -⟩ | ⟨h, -⟩ | ⟨h, -⟩ | ⟨h, -⟩ | ⟨h, -⟩ | ⟨h, -⟩
    · exact Or.inl h
    · exact Or.inr (Or.inl h)
    · exact Or.inr (Or.inr (Or.inl h))
    · exact Or.inr (Or.inr (Or.inr (Or.inl h)))
    · exact Or.inr (Or.inr (Or.inr (Or.inr (Or.inr h))))
    · exact Or.inr (Or.inr (Or.inr (Or.inr (Or.inl h))))
  have hkey : (last.isNone || keyFrame) = true →
      body ≠ [.NullBitmapBlock] ∧
        body ≠ [.PaletteResetBlock, .PaletteBlock, .IndexedBitmapBlock] := by
    intro hkt
    rcases hcase with ⟨-, hkf, -⟩ | ⟨h, -⟩ | ⟨h, -⟩ | ⟨h, -⟩ | ⟨-, hz0⟩ | ⟨h, -⟩
    · rw [hkt] at hkf; cases hkf
    · rw [h]; exact ⟨by decide, by decide⟩
    · rw [h]; exact ⟨by decide, by decide⟩
    · rw [h]; exact ⟨by decide, by decide⟩
    · exact absurd (hsize0 hkt) hz0
    · rw [h]; exact ⟨by decide, by decide⟩
  obtain ⟨hp1, hp2, hp3⟩ := frameBlocks_props (last.isNone || keyFrame) body hbody
  refine ⟨_, body, htag, fun blocks' h' => Tagged.unique h' htag, rfl, ?_, ?_, ?_, hp1, hp2,
    hp3⟩
  · cases (last.isNone || keyFrame) <;> rfl
  · rcases hbody with rfl | rfl | rfl | rfl | rfl | rfl <;> decide
  · intro hkt
    obtain ⟨hn1, hn2⟩ := hkey hkt
    rw [hkt]
    rcases hbody with rfl | rfl | rfl | rfl | rfl | rfl
    · exact absurd rfl hn1
    · decide
    · decide
    · decide
    · decide
    · exact absurd rfl hn2

/-- Witness for C27: behind `twoColourExample`, a frame with one other colour
is written with the tags 2, 1, 3. -/
theorem frame_grammar_witness :
    ∃ blocks body : List FrameBlock,
      Tagged (twoColourEncoder.encoded Zstd.store [⟨1, 2, 3⟩, ⟨255, 0, 0⟩] false).output
        blocks ∧
      blocks = (if (twoColourEncoder.encoded Zstd.store [⟨1, 2, 3⟩, ⟨255, 0, 0⟩]
        false).result.keyFrame = true then [FrameBlock.KeyFrameBlock] else []) ++ body ∧
      (body.map variant_type_index = [6] ∨ body.map variant_type_index = [5] ∨
        body.map variant_type_index = [4] ∨ body.map variant_type_index = [3] ∨
        body.map variant_type_index = [1, 3] ∨ body.map variant_type_index = [2, 1, 3]) :=
  have ⟨blocks, body, h1, _, h3, _, h5, _⟩ :=
    (frame_grammar Zstd.store ⟨2, 1⟩ {} (some twoColourExample) twoColourEncoder
      twoColourEncoder_after [⟨1, 2, 3⟩, ⟨255, 0, 0⟩] rfl false).2
      (twoColourEncoder.encoded Zstd.store [⟨1, 2, 3⟩, ⟨255, 0, 0⟩] false) rfl
  ⟨blocks, body, h1, h3, h5⟩

/-! ### The palette from block to block -/

theorem PaletteBlock.encode_palette {z : Zstd} {e e' : Encoder} {w w' : BufferWriter}
    {palette : Palette} (h : PaletteBlock.encode z e w palette = .ok (e', w')) :
    e'.palette = e.palette.merge palette := by
  unfold PaletteBlock.encode at h
  split at h
  · cases h
  · obtain ⟨payload, -, h⟩ := Except.bind_eq_ok h
    obtain ⟨⟨e1, w1⟩, h1, h⟩ := Except.bind_eq_ok h
    obtain ⟨-, he, -⟩ := Encoder.compressBuffer_framed_inv h1
    simp only [pure, Except.pure, Except.ok.injEq, Prod.mk.injEq] at h
    rw [← h.1, he]

theorem Palette.merge_superset {self other : Palette} (hs : self.Sorted) (ho : other.Sorted) :
    self.size ≤ (self.merge other).size ∧
    ∀ c ∈ self.colors, c ∈ (self.merge other).colors := by
  obtain ⟨hm, hsorted, -, -⟩ := setUnion_spec ho hs
  have hsub : self.colors ⊆ (self.merge other).colors := by
    intro c hc
    exact (hm c).2 (Or.inr hc)
  exact ⟨(List.subperm_of_subset (Increasing.nodup hs) hsub).length_le, hsub⟩

/-- C23: on a reachable encoder, for every frame of `width * height` colours,
`encode` returns when the codec keeps to its bound, and a returning call
that writes neither a KeyFrame nor a PaletteReset block leaves a palette at
least as large as the one it found, with every colour of that one in it.
Block by block: the Palette block replaces the palette by its merge with the
colours sent, which for strictly increasing palettes has at least as many
colours and keeps every one; the IndexedBitmap, RawBitmap, SolidColorBitmap
and NullBitmap blocks and `copyFrameBitmap` leave the palette as it is; only
the KeyFrame and PaletteReset blocks empty it. -/
theorem palette_monotonicity (z : Zstd) (bitmapInfo : BitmapInfo)
    (settings : EncoderSettings) (last : Option (List Color)) (e : Encoder)
    (hafter : Encoder.After z bitmapInfo settings last e) (bitmap : List Color)
    (hlen : bitmap.length = bitmapInfo.width * bitmapInfo.height) (keyFrame : Bool) :
    (z.Bounded → ∃ enc, e.encode z bitmap keyFrame = .ok enc) ∧
    (∀ enc : Encoded, e.encode z bitmap keyFrame = .ok enc →
      ∀ blocks, Tagged enc.output blocks →
        FrameBlock.KeyFrameBlock ∉ blocks → FrameBlock.PaletteResetBlock ∉ blocks →
        e.palette.size ≤ enc.encoder.palette.size ∧
        ∀ c ∈ e.palette.colors, c ∈ enc.encoder.palette.colors) ∧
    (∀ (e0 e' : Encoder) (w w' : BufferWriter) (palette : Palette),
      e0.palette.Sorted → palette.Sorted →
      PaletteBlock.encode z e0 w palette = .ok (e', w') →
      e'.palette = e0.palette.merge palette ∧ e0.palette.size ≤ e'.palette.size ∧
      ∀ c ∈ e0.palette.colors, c ∈ e'.palette.colors) ∧
    (∀ (e0 e' : Encoder) (w w' : BufferWriter),
      IndexedBitmapBlock.encode z e0 w = .ok (e', w') → e'.palette = e0.palette) ∧
    (∀ (e0 e' : Encoder) (w w' : BufferWriter),
      RawBitmapBlock.encode z e0 w = .ok (e', w') → e'.palette = e0.palette) ∧
    (∀ (e0 e' : Encoder) (w w' : BufferWriter) (color : Color),
      SolidColorBitmapBlock.encode e0 w color = .ok (e', w') → e'.palette = e0.palette) ∧
    (∀ (e0 e' : Encoder) (w w' : BufferWriter),
      NullBitmapBlock.encode e0 w = .ok (e', w') → e'.palette = e0.palette) ∧
    (∀ (e0 : Encoder) (frame : List Color), (e0.copyFrameBitmap frame).palette = e0.palette) ∧
    (∀ (e0 e' : Encoder) (w w' : BufferWriter),
      KeyFrameBlock.encode e0 w = .ok (e', w') ∨ PaletteResetBlock.encode e0 w = .ok (e', w') →
      e'.palette.size = 0) := by
  refine ⟨fun hb => Encoder.encode_ok hb keyFrame hafter.inv.1
    (by rw [hafter.inv.2.1]; exact hlen), ?_, ?_, ?_, ?_, ?_, ?_, ?_, ?_⟩
  · intro enc henc blocks hblocks hnoKey hnoReset
    obtain ⟨body, htag, -, hpalette, hcase⟩ := hafter.encode_grammar hlen henc
    have hb := Tagged.unique hblocks htag
    subst hb
    have hk : (last.isNone || keyFrame) = false := by
      cases hkk : (last.isNone || keyFrame)
      · rfl
      · rw [hkk] at hnoKey
        exact absurd (List.mem_append_left _ (List.mem_singleton.2 rfl)) hnoKey
    rw [hk] at hpalette
    simp only [Bool.false_eq_true, if_false] at hpalette
    rcases hcase with ⟨-, -, he⟩ | ⟨-, hp⟩ | ⟨-, hp⟩ | ⟨-, hp⟩ | ⟨hbody, -⟩ | ⟨-, hsz, hmem⟩
    · rw [he]
      exact ⟨Nat.le_refl _, fun c hc => hc⟩
    · rw [hp, hpalette]
      exact ⟨Nat.le_refl _, fun c hc => hc⟩
    · rw [hp, hpalette]
      exact ⟨Nat.le_refl _, fun c hc => hc⟩
    · rw [hp, hpalette]
      exact ⟨Nat.le_refl _, fun c hc => hc⟩
    · rw [hbody] at hnoReset
      exact absurd (List.mem_append_right _ (List.mem_cons_self _ _)) hnoReset
    · rw [hpalette] at hsz hmem
      exact ⟨hsz, hmem⟩
  · intro e0 e' w w' palette hs hp h
    have he := PaletteBlock.encode_palette h
    rw [he]
    exact ⟨rfl, Palette.merge_superset hs hp⟩
  · intro e0 e' w w' h
    unfold IndexedBitmapBlock.encode at h
    obtain ⟨payload, -, h⟩ := Except.bind_eq_ok h
    obtain ⟨-, he, -⟩ := Encoder.compressBuffer_framed_inv h
    rw [he]
  · intro e0 e' w w' h
    unfold RawBitmapBlock.encode at h
    obtain ⟨-, he, -⟩ := Encoder.compressBuffer_framed_inv h
    rw [he]
  · intro e0 e' w w' color h
    unfold SolidColorBitmapBlock.encode at h
    obtain ⟨w1, -, h⟩ := Except.bind_eq_ok h
    simp only [pure, Except.pure, Except.ok.injEq, Prod.mk.injEq] at h
    rw [← h.1]
  · intro e0 e' w w' h
    simp only [NullBitmapBlock.encode, pure, Except.pure, Except.ok.injEq, Prod.mk.injEq] at h
    rw [← h.1]
  · intro e0 frame
    rfl
  · intro e0 e' w w' h
    rcases h with h | h
    · simp only [KeyFrameBlock.encode, pure, Except.pure, Except.ok.injEq, Prod.mk.injEq] at h
      rw [← h.1]
      rfl
    · simp only [PaletteResetBlock.encode, pure, Except.pure, Except.ok.injEq,
        Prod.mk.injEq] at h
      rw [← h.1]
      rfl

theorem threePixelEncoder_after :
    Encoder.After Zstd.store ⟨3, 1⟩ {} (some threePixelExample) threePixelEncoder :=
  Encoder.After.call none (Encoder.construct ⟨3, 1⟩ {}) threePixelExample false
    ((Encoder.construct ⟨3, 1⟩ {}).encoded Zstd.store threePixelExample false)
    Encoder.After.fresh rfl rfl

theorem threePixelEncoder_output :
    (threePixelEncoder.encoded Zstd.store [⟨255, 0, 0⟩, ⟨0, 0, 255⟩, ⟨0, 255, 0⟩] false).output =
      [1, 4, 0, 0, 0, 0, 0, 255, 0, 3, 2, 0, 0, 0, 2, 18] := by
  decide

theorem threePixelEncoder_tagged :
    Tagged
      (threePixelEncoder.encoded Zstd.store [⟨255, 0, 0⟩, ⟨0, 0, 255⟩, ⟨0, 255, 0⟩] false).output
      [.PaletteBlock, .IndexedBitmapBlock] := by
  rw [threePixelEncoder_output]
  exact Tagged.cons .PaletteBlock [4, 0, 0, 0, 0, 0, 255, 0] [3, 2, 0, 0, 0, 2, 18]
    [.IndexedBitmapBlock] ⟨[0, 0, 255, 0], by decide, rfl⟩
    (Tagged.cons .IndexedBitmapBlock [2, 0, 0, 0, 2, 18] [] [] ⟨[2, 18], by decide, rfl⟩
      Tagged.nil)

/-- Witness for C23: behind `threePixelExample`, a 3×1 frame with a third
colour is sent with a Palette and an IndexedBitmap block; the palette grows
from two to three colours. -/
theorem palette_monotonicity_witness :
    Tagged
      (threePixelEncoder.encoded Zstd.store [⟨255, 0, 0⟩, ⟨0, 0, 255⟩, ⟨0, 255, 0⟩] false).output
      [.PaletteBlock, .IndexedBitmapBlock] ∧
    threePixelEncoder.palette.size ≤
      (threePixelEncoder.encoded Zstd.store [⟨255, 0, 0⟩, ⟨0, 0, 255⟩, ⟨0, 255, 0⟩]
        false).encoder.palette.size ∧
    ∀ c ∈ threePixelEncoder.palette.colors,
      c ∈ (threePixelEncoder.encoded Zstd.store [⟨255, 0, 0⟩, ⟨0, 0, 255⟩, ⟨0, 255, 0⟩]
        false).encoder.palette.colors :=
  ⟨threePixelEncoder_tagged,
    (palette_monotonicity Zstd.store ⟨3, 1⟩ {} (some threePixelExample) threePixelEncoder
      threePixelEncoder_after [⟨255, 0, 0⟩, ⟨0, 0, 255⟩, ⟨0, 255, 0⟩] rfl false).2.1
      (threePixelEncoder.encoded Zstd.store [⟨255, 0, 0⟩, ⟨0, 0, 255⟩, ⟨0, 255, 0⟩] false) rfl
      [.PaletteBlock, .IndexedBitmapBlock] threePixelEncoder_tagged (by decide) (by decide)⟩

/-! ### The state of the encoder between calls -/

theorem colorMapFill_eq : ∀ (cs : List Color) (k : Nat) (m : List (Color × Byte)),
    cs.Nodup → (∀ c ∈ cs, m.lookup c = none) →
    colorMapFill cs k m = m ++ (cs.enumFrom k).map (fun p => (p.2, toUInt8 p.1)) := by
  intro cs
  induction cs with
  | nil => intro k m _ _; simp [colorMapFill]
  | cons c rest ih =>
    intro k m hnd hm
    have hc : m.lookup c = none := hm c (List.mem_cons_self _ _)
    have hnd' := List.nodup_cons.1 hnd
    rw [colorMapFill, colorMapEmplace, hc]
    simp only [Option.isSome_none, Bool.false_eq_true, if_false]
    rw [ih (k + 1) _ hnd'.2 (by
      intro c' hc'
      rw [List.lookup_append, hm c' (List.mem_cons_of_mem _ hc'), Option.none_or,
        List.lookup_cons]
      have hne : c' ≠ c := fun h => hnd'.1 (h ▸ hc')
      have hbeq : (c' == c) = false := beq_false_of_ne hne
      rw [hbeq]
      rfl)]
    simp [List.enumFrom_cons]

theorem colorMapFill_mem {cs : List Color} (hnd : cs.Nodup) (hsize : cs.length ≤ 256)
    (c : Color) (i : Byte) :
    (c, i) ∈ colorMapFill cs 0 [] ↔ cs[i.val]? = some c := by
  rw [colorMapFill_eq cs 0 [] hnd (fun _ _ => rfl), List.nil_append, List.mem_map]
  constructor
  · rintro ⟨⟨j, c'⟩, hmem, heq⟩
    simp only [Prod.mk.injEq] at heq
    obtain ⟨rfl, rfl⟩ := heq
    have hj := List.mk_mem_enumFrom_iff_le_and_getElem?_sub.1 hmem
    simp only [Nat.zero_le, Nat.sub_zero, true_and] at hj
    have hlt : j < cs.length := by
      by_contra hge
      rw [List.getElem?_eq_none (by omega)] at hj
      cases hj
    rw [toUInt8_val, Nat.mod_eq_of_lt (by omega)]
    exact hj
  · intro h
    refine ⟨(i.val, c), List.mk_mem_enumFrom_iff_le_and_getElem?_sub.2
      ⟨Nat.zero_le _, by simpa using h⟩, ?_⟩
    simp only [Prod.mk.injEq, true_and]
    exact toUInt8_of_val i

/-- C24: an encoder reached from construction by returning `encode` calls has
a palette of at most 256 colours, strictly increasing in the lexicographic
order of (r, g, b), hence without repetition, and its colour map holds
exactly the pairs of the colour at position `i` of the palette and `i`, for
`i` below the size of the palette, in this order; it is empty when the
palette is empty, and looking a colour up finds its position. -/
theorem encoder_state_invariant (z : Zstd) (bitmapInfo : BitmapInfo)
    (settings : EncoderSettings) (last : Option (List Color)) (e : Encoder)
    (hafter : Encoder.After z bitmapInfo settings last e) :
    e.palette.size ≤ 256 ∧
    e.palette.colors.Pairwise (fun a b =>
      a.r < b.r ∨ (a.r = b.r ∧ (a.g < b.g ∨ (a.g = b.g ∧ a.b < b.b)))) ∧
    e.palette.colors.Nodup ∧
    (∀ (c : Color) (i : Byte), (c, i) ∈ e.colorMap ↔ e.palette.colors[i.val]? = some c) ∧
    e.colorMap = e.palette.colors.enum.map (fun p => (p.2, toUInt8 p.1)) ∧
    e.colorMap.length = e.palette.size ∧
    (e.palette.size = 0 → e.colorMap = []) ∧
    (∀ (c : Color) (i : Byte),
      colorMapAt e.colorMap c = .ok i ↔ e.palette.colors[i.val]? = some c) := by
  obtain ⟨hinv, -⟩ := hafter.inv
  have hnd := Increasing.nodup hinv.sorted
  have hsize : e.palette.colors.length ≤ 256 := hinv.size
  have hmap : e.colorMap = e.palette.colors.enum.map (fun p => (p.2, toUInt8 p.1)) := by
    rw [hinv.colorMap, colorMapFill_eq _ 0 [] hnd (fun _ _ => rfl), List.nil_append]
    rfl
  refine ⟨hinv.size, ?_, hnd, ?_, hmap, ?_, ?_, ?_⟩
  · refine List.Pairwise.imp ?_ hinv.sorted
    intro a b hab
    unfold ColorOrdering at hab
    by_cases h1 : a.r < b.r
    · exact Or.inl h1
    · rw [if_neg h1] at hab
      by_cases h2 : b.r < a.r
      · rw [if_pos h2] at hab; cases hab
      · rw [if_neg h2] at hab
        have hr : a.r = b.r := le_antisymm (not_lt.1 h2) (not_lt.1 h1)
        refine Or.inr ⟨hr, ?_⟩
        by_cases h3 : a.g < b.g
        · exact Or.inl h3
        · rw [if_neg h3] at hab
          by_cases h4 : b.g < a.g
          · rw [if_pos h4] at hab; cases hab
          · rw [if_neg h4] at hab
            exact Or.inr ⟨le_antisymm (not_lt.1 h4) (not_lt.1 h3), of_decide_eq_true hab⟩
  · intro c i
    rw [hinv.colorMap]
    exact colorMapFill_mem hnd hsize c i
  · rw [hmap, List.length_map, List.enum_length]
    rfl
  · intro h0
    rw [hmap, List.length_eq_zero.1 h0]
    rfl
  · intro c i
    rw [hinv.colorMap]
    constructor
    · intro h
      obtain ⟨hc, hi⟩ := colorMapAt_fill_inv h
      rw [hi, toUInt8_val, Nat.mod_eq_of_lt
        (Nat.lt_of_lt_of_le (List.indexOf_lt_length.2 hc) hsize)]
      exact List.getElem?_indexOf hc
    · intro h
      have hlt : i.val < e.palette.colors.length := by
        by_contra hge
        rw [List.getElem?_eq_none (by omega)] at h
        cases h
      have hget : e.palette.colors[i.val] = c := by
        rw [List.getElem?_eq_getElem hlt] at h
        exact Option.some.inj h
      have hc : c ∈ e.palette.colors := hget ▸ List.getElem_mem hlt
      rw [colorMapAt_fill hc]
      have hidx : e.palette.colors.indexOf c = i.val := by
        rw [← hget]
        exact List.indexOf_getElem hnd i.val hlt
      rw [hidx, toUInt8_of_val]

/-- Witness for C24: the encoder that has encoded `twoColourExample`. -/
theorem encoder_state_invariant_witness :
    twoColourEncoder.palette.colors = [⟨0, 0, 255⟩, ⟨255, 0, 0⟩] ∧
    twoColourEncoder.colorMap = [(⟨0, 0, 255⟩, 0), (⟨255, 0, 0⟩, 1)] ∧
    twoColourEncoder.palette.size ≤ 256 ∧
    ∀ (c : Color) (i : Byte),
      (c, i) ∈ twoColourEncoder.colorMap ↔ twoColourEncoder.palette.colors[i.val]? = some c :=
  have h := encoder_state_invariant Zstd.store ⟨2, 1⟩ {} (some twoColourExample)
    twoColourEncoder twoColourEncoder_after
  ⟨by decide, by decide, h.1, h.2.2.2.1⟩

/-! ### The bit width of the IndexedBitmap block -/

/-- A returning `encode` call whose output holds an IndexedBitmap block took
the palette branch with a frame that is not of one colour. -/
theorem Encoder.After.indexed_of_mem {z : Zstd} {bitmapInfo : BitmapInfo}
    {settings : EncoderSettings} {last : Option (List Color)} {e : Encoder}
    (hafter : Encoder.After z bitmapInfo settings last e) {bitmap : List Color}
    (hlen : bitmap.length = bitmapInfo.width * bitmapInfo.height) {keyFrame : Bool}
    {enc : Encoded} (henc : e.encode z bitmap keyFrame = .ok enc)
    {blocks : List FrameBlock} (htag : Tagged enc.output blocks)
    (hmem : FrameBlock.IndexedBitmapBlock ∈ blocks) :
    settings.usePalette = true ∧ ¬ (last = some bitmap ∧ keyFrame = false ∧ bitmap ≠ []) ∧
    bitmap.toFinset.card ≤ 256 ∧ bitmap.toFinset.card ≠ 1 := by
  obtain ⟨body, htag', -, -, hcase⟩ := hafter.encode_grammar hlen henc
  have hb := Tagged.unique htag htag'
  subst hb
  have hbody : FrameBlock.IndexedBitmapBlock ∈ body := by
    rcases List.mem_append.1 hmem with h | h
    · split at h <;> simp at h
    · exact h
  rcases hafter.encode_shape hlen henc with ⟨-, -, -, rfl⟩ | ⟨hnull, -, hc⟩
  · exfalso
    have hu := Tagged.unique htag' (@Tagged.single .NullBitmapBlock _ rfl)
    have hm := hmem
    rw [hu] at hm
    simp at hm
  rcases hc with ⟨-, -, c, -, hout, -⟩ | ⟨-, hout, -⟩ | ⟨hpal, hcard, hc1, -⟩
  · exfalso
    have ht : Tagged enc.output
        ((if (last.isNone || keyFrame) = true then [FrameBlock.KeyFrameBlock] else []) ++
          [.SolidColorBitmapBlock]) := by
      rw [hout]
      exact Tagged.keyTag _ (@Tagged.single .SolidColorBitmapBlock _ ⟨c, rfl⟩)
    have hu := List.append_cancel_left (Tagged.unique htag' ht)
    rw [hu] at hbody
    simp at hbody
  · exfalso
    have ht : Tagged enc.output
        ((if (last.isNone || keyFrame) = true then [FrameBlock.KeyFrameBlock] else []) ++
          [.RawBitmapBlock]) := by
      rw [hout]
      have := Tagged.chunk z .RawBitmapBlock (Or.inr (Or.inr rfl))
        (e.afterKeyFrame keyFrame).zstdCompressor (colorsToBytes bitmap) Tagged.nil
      rw [List.append_nil] at this
      exact Tagged.keyTag _ this
    have hu := List.append_cancel_left (Tagged.unique htag' ht)
    rw [hu] at hbody
    simp at hbody
  · exact ⟨hpal, hnull, hcard, hc1⟩

theorem Zstd.framed_nil (z : Zstd) (history : List (List Byte)) :
    z.framed history [] = [0, 0, 0, 0] := by
  unfold Zstd.framed
  simp only [if_true]
  rfl

/-- For a bitmap of no pixel the palette of a reachable encoder is empty. -/
theorem Encoder.After.palette_empty_of_no_pixels {z : Zstd} {bitmapInfo : BitmapInfo}
    {settings : EncoderSettings} {last : Option (List Color)} {e : Encoder}
    (hafter : Encoder.After z bitmapInfo settings last e)
    (h0 : bitmapInfo.width * bitmapInfo.height = 0) : e.palette.size = 0 := by
  induction hafter with
  | fresh => rfl
  | call last e bitmap keyFrame enc hprev hlen henc ih =>
    have hnil : bitmap = [] := List.length_eq_zero.1 (by rw [hlen, h0])
    obtain ⟨hinv, -, -, hpalette, -, -⟩ := hprev.afterKeyFrame_inv keyFrame
    have hcur : (e.afterKeyFrame keyFrame).palette.size = 0 := by
      rw [hpalette]
      split
      · rfl
      · exact ih
    rcases hprev.encode_shape hlen henc with ⟨-, -, -, rfl⟩ | ⟨hnull, -, hcase⟩
    · exact ih
    rcases hcase with ⟨-, -, -, -, -, hp⟩ | ⟨-, -, hp⟩ | ⟨hpal, hcard, hc1, -⟩
    · rw [hp]; exact hcur
    · rw [hp]; exact hcur
    obtain ⟨new, bn, e1, b, -, -, hsz, -, -, -, -, -, -, -, -, hp, hcases⟩ :=
      hprev.encode_indexed hlen henc hpal hnull hcard hc1
    have hnew : new.size = 0 := by rw [hsz, hnil]; rfl
    have hle := Palette.difference_size_le (e.afterKeyFrame keyFrame).palette new
    rcases hcases with ⟨-, he, -⟩ | ⟨hpos, -⟩ | ⟨hpos, -⟩
    · rw [hp, he]; exact hcur
    · omega
    · omega

/-- C25, as the code has it: on a reachable encoder, `encode` returns when
the codec keeps to its bound, and when a returning call wrote an
IndexedBitmap block, the content of that block before the entropy coder
starts with the octet `b`, where `b` is `bits()` of the palette the encoder
has when it writes the block (and keeps); for frames of at least one pixel
`b` is 1, 2, 4 or 8.  For the bitmap of no pixel, every returning call in
palette mode writes, behind the optional KeyFrame tag, one IndexedBitmap
block whose content is the single octet 0, the palette being empty; without
palette mode it writes a RawBitmap block of no octet instead. -/
theorem indexed_block_width (z : Zstd) (bitmapInfo : BitmapInfo) (settings : EncoderSettings)
    (last : Option (List Color)) (e : Encoder)
    (hafter : Encoder.After z bitmapInfo settings last e) (bitmap : List Color)
    (hlen : bitmap.length = bitmapInfo.width * bitmapInfo.height) (keyFrame : Bool) :
    (z.Bounded → ∃ enc, e.encode z bitmap keyFrame = .ok enc) ∧
    (∀ enc : Encoded, e.encode z bitmap keyFrame = .ok enc →
      ∀ blocks, Tagged enc.output blocks → FrameBlock.IndexedBitmapBlock ∈ blocks →
      ∃ (cur : Encoder) (b : Nat) (front rest : List Byte),
        cur.palette = enc.encoder.palette ∧ cur.frameBitmap = bitmap ∧
        cur.palette.bits = .ok b ∧
        (1 ≤ bitmapInfo.width * bitmapInfo.height → b = 1 ∨ b = 2 ∨ b = 4 ∨ b = 8) ∧
        (toUInt8 b).val = b ∧
        IndexedBitmapBlock.payload cur = .ok (toUInt8 b :: rest) ∧
        enc.output = front ++ 3 :: z.framed cur.zstdCompressor (toUInt8 b :: rest)) ∧
    (bitmapInfo.width * bitmapInfo.height = 0 → settings.usePalette = true →
      ∀ enc : Encoded, e.encode z bitmap keyFrame = .ok enc →
        ∃ cur : Encoder,
          cur.palette = enc.encoder.palette ∧ cur.palette.size = 0 ∧ cur.frameBitmap = [] ∧
          cur.palette.bits = .ok 0 ∧
          cur.zstdCompressor = (if enc.result.keyFrame = true then [] else e.zstdCompressor) ∧
          IndexedBitmapBlock.payload cur = .ok [0] ∧
          enc.output = (if enc.result.keyFrame = true then [0] else []) ++
            3 :: z.framed cur.zstdCompressor [0] ∧
          Tagged enc.output
            ((if enc.result.keyFrame = true then [FrameBlock.KeyFrameBlock] else []) ++
              [.IndexedBitmapBlock]) ∧
          ∀ blocks', Tagged enc.output blocks' →
            blocks' = (if enc.result.keyFrame = true then [FrameBlock.KeyFrameBlock] else []) ++
              [.IndexedBitmapBlock]) ∧
    (bitmapInfo.width * bitmapInfo.height = 0 → settings.usePalette = false →
      ∀ enc : Encoded, e.encode z bitmap keyFrame = .ok enc →
        enc.output = (if enc.result.keyFrame = true then [0] else []) ++ [4, 0, 0, 0, 0] ∧
        ∀ blocks, Tagged enc.output blocks → FrameBlock.IndexedBitmapBlock ∉ blocks) := by
  refine ⟨fun hb => Encoder.encode_ok hb keyFrame hafter.inv.1
    (by rw [hafter.inv.2.1]; exact hlen), ?_, ?_, ?_⟩
  · intro enc henc blocks htag hmem
    obtain ⟨hpal, hnull, hcard, hc1⟩ := hafter.indexed_of_mem hlen henc htag hmem
    obtain ⟨hinv, hbi, -, -, -, -⟩ := hafter.afterKeyFrame_inv keyFrame
    have hsafe := Encoder.safeOutputBufferSize_ge z e
    have hw0 : (⟨if (last.isNone || keyFrame) = true then [0] else [],
        e.safeOutputBufferSize z⟩ : BufferWriter).offset ≤
        (⟨if (last.isNone || keyFrame) = true then [0] else [],
          e.safeOutputBufferSize z⟩ : BufferWriter).size := by
      show (if (last.isNone || keyFrame) = true then ([0] : List Byte) else []).length ≤
        e.safeOutputBufferSize z
      split <;> simp only [List.length_singleton, List.length_nil] <;> omega
    rcases hafter.encode_shape hlen henc with ⟨h1, h2, h3, -⟩ | ⟨-, -, hcase⟩
    · exact absurd ⟨h1, h2, h3⟩ hnull
    rcases hcase with ⟨-, h1, -⟩ | ⟨hraw, -⟩ | ⟨-, -, -, new, e1, palBytes, b, -, hs, hsz, -,
      hu, -, -, hbits, hbb, hpay, hout, hp⟩
    · exact absurd h1 hc1
    · rcases hraw with h | h
      · rw [hpal] at h; cases h
      · omega
    obtain ⟨-, -, -, -, -, -, -, hsame, -⟩ := Encoder.updatePalette_inv hinv hs
      (by rw [hsz]; exact hcard) hw0 hu
    have hb : 1 ≤ bitmapInfo.width * bitmapInfo.height → b = 1 ∨ b = 2 ∨ b = 4 ∨ b = 8 := by
      intro hN
      rcases hbb with h | h
      · rw [h] at hlen
        simp only [List.length_nil] at hlen
        omega
      · exact h
    have hframe : (e1.copyFrameBitmap bitmap).frameBitmap = bitmap := by
      show bitmap.take (e1.bitmapInfo.width * e1.bitmapInfo.height) = bitmap
      rw [hsame.bitmapInfo, hbi]
      exact List.take_of_length_le (Nat.le_of_eq hlen)
    refine ⟨e1.copyFrameBitmap bitmap, b,
      (if (last.isNone || keyFrame) = true then [0] else []) ++ palBytes,
      packedBytes b ((e1.copyFrameBitmap bitmap).frameBitmap.map
        (e1.copyFrameBitmap bitmap).palette.indexByte) 0 0,
      hp.symm, hframe, hbits, hb, ?_, hpay, hout⟩
    obtain ⟨-, -, hb3, -⟩ := Palette.bits_inv hbits
    rw [toUInt8_val]
    rcases hb3 with rfl | rfl | rfl | rfl | rfl <;> rfl
  · intro h0 hpal enc henc
    have hnil : bitmap = [] := List.length_eq_zero.1 (by rw [hlen, h0])
    obtain ⟨hinv, hbi, -, hpalette, hsession, -⟩ := hafter.afterKeyFrame_inv keyFrame
    have hE := hafter.palette_empty_of_no_pixels h0
    have hcur : (e.afterKeyFrame keyFrame).palette.size = 0 := by
      rw [hpalette]
      split
      · rfl
      · exact hE
    have hnull : ¬ (last = some bitmap ∧ keyFrame = false ∧ bitmap ≠ []) :=
      fun h => h.2.2 hnil
    have hcard : bitmap.toFinset.card = 0 := by rw [hnil]; rfl
    obtain ⟨new, bn, e1, b, -, -, hsz, -, -, -, -, hbits, -, hpay, hres, hp, hcases⟩ :=
      hafter.encode_indexed hlen henc hpal hnull (by omega) (by omega)
    have hle := Palette.difference_size_le (e.afterKeyFrame keyFrame).palette new
    have he : e1 = e.afterKeyFrame keyFrame ∧
        enc.output = (if (last.isNone || keyFrame) = true then [0] else []) ++
          3 :: z.framed e1.zstdCompressor
            (IndexedBitmapBlock.content (e1.copyFrameBitmap bitmap) b) := by
      rcases hcases with ⟨-, he, hout⟩ | ⟨hpos, -⟩ | ⟨hpos, -⟩
      · exact ⟨he, hout⟩
      · omega
      · omega
    obtain ⟨he1, hout⟩ := he
    have hk : enc.result.keyFrame = (last.isNone || keyFrame) := by rw [hres]
    have hsz1 : e1.palette.size = 0 := by rw [he1]; exact hcur
    have hb0 : b = 0 := by
      have h : e1.palette.bits = .ok 0 := by
        unfold Palette.bits
        rw [if_pos (by omega)]
      rw [hbits] at h
      exact Except.ok.inj h
    subst hb0
    have hframe : (e1.copyFrameBitmap bitmap).frameBitmap = [] := by
      show bitmap.take _ = []
      rw [hnil, List.take_nil]
    have hcontent : IndexedBitmapBlock.content (e1.copyFrameBitmap bitmap) 0 = [0] := by
      unfold IndexedBitmapBlock.content
      rw [hframe]
      rfl
    rw [hcontent] at hpay hout
    have hI : Tagged (3 :: (z.framed e1.zstdCompressor [0] ++ [])) [.IndexedBitmapBlock] :=
      Tagged.chunk z .IndexedBitmapBlock (Or.inr (Or.inl rfl)) _ _ Tagged.nil
    rw [List.append_nil] at hI
    have htag : Tagged enc.output
        ((if (last.isNone || keyFrame) = true then [FrameBlock.KeyFrameBlock] else []) ++
          [.IndexedBitmapBlock]) := by
      rw [hout]; exact Tagged.keyTag _ hI
    rw [hk]
    refine ⟨e1.copyFrameBitmap bitmap, hp.symm, hsz1, hframe, hbits, ?_, hpay, hout, htag,
      fun blocks' h' => Tagged.unique h' htag⟩
    show e1.zstdCompressor = _
    rw [he1, hsession]
  · intro h0 hoff enc henc
    have hnil : bitmap = [] := List.length_eq_zero.1 (by rw [hlen, h0])
    obtain ⟨-, -, -, -, hsession, -⟩ := hafter.afterKeyFrame_inv keyFrame
    rcases hafter.encode_shape hlen henc with ⟨-, -, h3, -⟩ | ⟨-, hres, hcase⟩
    · exact absurd hnil h3
    have hk : enc.result.keyFrame = (last.isNone || keyFrame) := by rw [hres]
    rcases hcase with ⟨hpal, -⟩ | ⟨-, hout, -⟩ | ⟨hpal, -⟩
    · rw [hoff] at hpal; cases hpal
    · have hout' : enc.output =
          (if (last.isNone || keyFrame) = true then [0] else []) ++ [4, 0, 0, 0, 0] := by
        rw [hout, hnil]
        show _ ++ 4 :: z.framed _ [] = _
        rw [Zstd.framed_nil]
      have htag : Tagged enc.output
          ((if (last.isNone || keyFrame) = true then [FrameBlock.KeyFrameBlock] else []) ++
            [.RawBitmapBlock]) := by
        rw [hout']
        exact Tagged.keyTag _
          (Tagged.cons .RawBitmapBlock [0, 0, 0, 0] [] [] ⟨[], by decide, rfl⟩ Tagged.nil)
      rw [hk]
      refine ⟨hout', ?_⟩
      intro blocks hblocks hm
      rw [Tagged.unique hblocks htag] at hm
      rcases List.mem_append.1 hm with h | h
      · split at h <;> simp at h
      · simp at h
    · rw [hoff] at hpal; cases hpal

theorem twoColourEncoder_output :
    (twoColourEncoder.encoded Zstd.store [⟨1, 2, 3⟩, ⟨255, 0, 0⟩] false).output =
      [2, 1, 7, 0, 0, 0, 1, 1, 2, 3, 255, 0, 0, 3, 2, 0, 0, 0, 1, 2] := by
  decide

theorem twoColourEncoder_tagged :
    Tagged (twoColourEncoder.encoded Zstd.store [⟨1, 2, 3⟩, ⟨255, 0, 0⟩] false).output
      [.PaletteResetBlock, .PaletteBlock, .IndexedBitmapBlock] := by
  rw [twoColourEncoder_output]
  exact Tagged.cons .PaletteResetBlock [] _ _ rfl
    (Tagged.cons .PaletteBlock [7, 0, 0, 0, 1, 1, 2, 3, 255, 0, 0] [3, 2, 0, 0, 0, 1, 2]
      [.IndexedBitmapBlock] ⟨[1, 1, 2, 3, 255, 0, 0], by decide, rfl⟩
      (Tagged.cons .IndexedBitmapBlock [2, 0, 0, 0, 1, 2] [] [] ⟨[1, 2], by decide, rfl⟩
        Tagged.nil))

/-- Witness for C25: behind `twoColourExample`, the frame (1, 2, 3),
(255, 0, 0) is sent with an IndexedBitmap block of bit width 1; the first
frame of a 0×0 bitmap is sent with one of bit width 0. -/
theorem indexed_block_width_witness :
    (twoColourEncoder.encoded Zstd.store [⟨1, 2, 3⟩, ⟨255, 0, 0⟩] false).output =
      [2, 1, 7, 0, 0, 0, 1, 1, 2, 3, 255, 0, 0, 3, 2, 0, 0, 0, 1, 2] ∧
    (∃ (cur : Encoder) (b : Nat) (front rest : List Byte),
      cur.palette =
        (twoColourEncoder.encoded Zstd.store [⟨1, 2, 3⟩, ⟨255, 0, 0⟩] false).encoder.palette ∧
      cur.frameBitmap = [⟨1, 2, 3⟩, ⟨255, 0, 0⟩] ∧
      cur.palette.bits = .ok b ∧ (1 ≤ 2 * 1 → b = 1 ∨ b = 2 ∨ b = 4 ∨ b = 8) ∧
      (toUInt8 b).val = b ∧
      IndexedBitmapBlock.payload cur = .ok (toUInt8 b :: rest) ∧
      (twoColourEncoder.encoded Zstd.store [⟨1, 2, 3⟩, ⟨255, 0, 0⟩] false).output =
        front ++ 3 :: Zstd.store.framed cur.zstdCompressor (toUInt8 b :: rest)) ∧
    ∃ cur : Encoder,
      cur.palette.bits = .ok 0 ∧ IndexedBitmapBlock.payload cur = .ok [0] ∧
      ((Encoder.construct ⟨0, 0⟩ {}).encoded Zstd.store [] false).output =
        (if ((Encoder.construct ⟨0, 0⟩ {}).encoded Zstd.store [] false).result.keyFrame = true
          then [0] else []) ++ 3 :: Zstd.store.framed cur.zstdCompressor [0] :=
  ⟨twoColourEncoder_output,
    (indexed_block_width Zstd.store ⟨2, 1⟩ {} (some twoColourExample)
      twoColourEncoder twoColourEncoder_after [⟨1, 2, 3⟩, ⟨255, 0, 0⟩] rfl false).2.1
      (twoColourEncoder.encoded Zstd.store [⟨1, 2, 3⟩, ⟨255, 0, 0⟩] false) rfl
      [.PaletteResetBlock, .PaletteBlock, .IndexedBitmapBlock] twoColourEncoder_tagged
      (by decide),
    have ⟨cur, _, _, _, h4, _, h6, h7, _⟩ :=
      (indexed_block_width Zstd.store ⟨0, 0⟩ {} none (Encoder.construct ⟨0, 0⟩ {})
        Encoder.After.fresh [] rfl false).2.2.1 rfl rfl
        ((Encoder.construct ⟨0, 0⟩ {}).encoded Zstd.store [] false) rfl
    ⟨cur, h4, h6, h7⟩⟩

/-- Counterexample to C25 as stated: for the bitmap of no pixel (width 0) the
first `encode` call writes the KeyFrame tag and an IndexedBitmap block whose
content is the single octet 0, the `bits()` of the empty palette. -/
theorem indexed_block_width_zero_without_pixels :
    ((Encoder.construct ⟨0, 0⟩ {}).encode Zstd.store [] false).toOption.map
      (fun enc => (enc.output, enc.encoder.palette.bits)) =
        some ([0, 3, 1, 0, 0, 0, 0], .ok 0) ∧
    Tagged [0, 3, 1, 0, 0, 0, 0] [.KeyFrameBlock, .IndexedBitmapBlock] ∧
    IndexedBitmapBlock.payload
      (((Encoder.construct ⟨0, 0⟩ {}).afterKeyFrame false).copyFrameBitmap []) = .ok [0] ∧
    Zstd.store.framed [] [0] = [1, 0, 0, 0, 0] ∧
    ¬ ((0 : Nat) = 1 ∨ (0 : Nat) = 2 ∨ (0 : Nat) = 4 ∨ (0 : Nat) = 8) :=
  ⟨rfl,
    Tagged.cons .KeyFrameBlock [] _ _ rfl
      (Tagged.cons .IndexedBitmapBlock [1, 0, 0, 0, 0] [] [] ⟨[0], by decide, rfl⟩ Tagged.nil),
    rfl, by decide, by decide⟩

/-! ### The KeyFrame block on both sides -/

/-- C26, as the code has it: `KeyFrameBlock::encode` returns for every
encoder and leaves it with an empty palette, an empty colour map, an empty
previous frame and a new compression session, the other members unchanged.
`KeyFrameBlock::decode` returns for every decoder and leaves it with an empty
palette, a new decompression session and the key-frame flag set; it reads no
octet and keeps the previous frame, the frame buffer and the internal buffer
as they are: `Decoder::reset` does not clear `previousFrameBitmap_`. -/
theorem key_frame_reset (e : Encoder) (w : BufferWriter) (d : Decoder) (r : BufferReader) :
    (∃ e', KeyFrameBlock.encode e w = .ok (e', w) ∧
      e'.palette.size = 0 ∧ e'.palette.colors = [] ∧ e'.colorMap = [] ∧
      e'.previousFrameBitmap = [] ∧ e'.zstdCompressor = [] ∧
      e'.settings = e.settings ∧ e'.bitmapInfo = e.bitmapInfo ∧
      e'.frameBitmap = e.frameBitmap ∧ e'.firstFrame = e.firstFrame ∧
      e'.internalBufferSize = e.internalBufferSize) ∧
    (∃ d', KeyFrameBlock.decode d r = .ok (d', r) ∧
      d'.palette.size = 0 ∧ d'.palette.colors = [] ∧ d'.zstdDecompressor = [] ∧
      d'.result.keyFrame = true ∧
      d'.previousFrameBitmap = d.previousFrameBitmap ∧ d'.frameBitmap = d.frameBitmap ∧
      d'.internalBuffer = d.internalBuffer ∧ d'.bitmapInfo = d.bitmapInfo) :=
  ⟨⟨e.reset, rfl, rfl, rfl, rfl, rfl, rfl, rfl, rfl, rfl, rfl, rfl⟩,
    ⟨{ d.reset with result := { d.reset.result with keyFrame := true } }, rfl, rfl, rfl, rfl,
      rfl, rfl, rfl, rfl, rfl⟩⟩

/-- Counterexample to C26 as stated: a decoder that has decoded the frame
`solidExample` keeps it as previous frame across a KeyFrame block, so that
the octets 0, 6 (which no encoder writes) make it return that frame again, as
a key frame. -/
theorem decoder_key_frame_keeps_previous_frame :
    ((Decoder.construct ⟨2, 1⟩).decode Zstd.store [0, 5, 7, 8, 9]).toOption.bind
      (fun dec => (KeyFrameBlock.decode dec.decoder ⟨[0], 1⟩).toOption.map
        (fun p => p.1.previousFrameBitmap)) = some solidExample ∧
    solidExample ≠ [] ∧
    ((Decoder.construct ⟨2, 1⟩).decode Zstd.store [0, 5, 7, 8, 9]).toOption.bind
      (fun dec => (dec.decoder.decode Zstd.store [0, 6]).toOption.map
        (fun again => (again.bitmap, again.result.keyFrame))) = some (solidExample, true) := by
  decide

/-! ### The bit width behind a palette change -/

theorem Palette.bits_cases {p : Palette} {b : Nat} (h : p.bits = .ok b) :
    (p.size ≤ 1 ∧ b = 0) ∨ (p.size = 2 ∧ b = 1) ∨ (3 ≤ p.size ∧ p.size ≤ 4 ∧ b = 2) ∨
    (5 ≤ p.size ∧ p.size ≤ 16 ∧ b = 4) ∨ (17 ≤ p.size ∧ p.size ≤ 256 ∧ b = 8) := by
  unfold Palette.bits at h
  split_ifs at h with h1 h2 h3 h4 h5 <;> cases h
  · exact Or.inl ⟨h1, rfl⟩
  · exact Or.inr (Or.inl ⟨by omega, rfl⟩)
  · exact Or.inr (Or.inr (Or.inl ⟨by omega, h3, rfl⟩))
  · exact Or.inr (Or.inr (Or.inr (Or.inl ⟨by omega, h4, rfl⟩)))
  · exact Or.inr (Or.inr (Or.inr (Or.inr ⟨by omega, h5, rfl⟩)))

theorem Palette.bits_mono {p q : Palette} {a b : Nat} (hp : p.bits = .ok a)
    (hq : q.bits = .ok b) (h : p.size ≤ q.size) : a ≤ b := by
  rcases Palette.bits_cases hp with h1 | h1 | h1 | h1 | h1 <;>
    rcases Palette.bits_cases hq with h2 | h2 | h2 | h2 | h2 <;> omega

theorem Palette.bits_le_of_fits {p q : Palette} {a b : Nat} (hp : p.bits = .ok a)
    (hq : q.bits = .ok b) (h : q.size ≤ 2 ^ a) : b ≤ a := by
  have ha : a = 0 ∨ a = 1 ∨ a = 2 ∨ a = 4 ∨ a = 8 := by
    rcases Palette.bits_cases hp with h1 | h1 | h1 | h1 | h1 <;> omega
  rcases ha with rfl | rfl | rfl | rfl | rfl <;> norm_num at h <;>
    rcases Palette.bits_cases hq with h2 | h2 | h2 | h2 | h2 <;> omega

theorem Palette.bits_congr {p q : Palette} (h : p.size = q.size) : p.bits = q.bits := by
  unfold Palette.bits
  rw [h]

/-- C29: on a reachable encoder, `encode` returns when the codec keeps to its
bound, and when a returning call wrote an IndexedBitmap block for a frame of
`k` distinct colours, the bit width `b` at the start of the content of that
block is at least `bits(k)`, and it is `bits(k)` whenever the call also
wrote a Palette block (by increment or by replacement); so `b > bits(k)`
occurs only without a Palette block. -/
theorem index_width_minimal (z : Zstd) (bitmapInfo : BitmapInfo) (settings : EncoderSettings)
    (last : Option (List Color)) (e : Encoder)
    (hafter : Encoder.After z bitmapInfo settings last e) (bitmap : List Color)
    (hlen : bitmap.length = bitmapInfo.width * bitmapInfo.height) (keyFrame : Bool) :
    (z.Bounded → ∃ enc, e.encode z bitmap keyFrame = .ok enc) ∧
    ∀ enc : Encoded, e.encode z bitmap keyFrame = .ok enc →
      ∀ blocks, Tagged enc.output blocks → FrameBlock.IndexedBitmapBlock ∈ blocks →
      ∃ (bitsOfK b : Nat) (cur : Encoder) (front rest : List Byte),
        bitmap.toFinset.card ≤ 256 ∧
        (Palette.ofSize bitmap.toFinset.card).bits = .ok bitsOfK ∧
        cur.palette = enc.encoder.palette ∧ cur.palette.bits = .ok b ∧
        IndexedBitmapBlock.payload cur = .ok (toUInt8 b :: rest) ∧
        enc.output = front ++ 3 :: z.framed cur.zstdCompressor (toUInt8 b :: rest) ∧
        bitsOfK ≤ b ∧
        (FrameBlock.PaletteBlock ∈ blocks → b = bitsOfK) ∧
        (bitsOfK < b → FrameBlock.PaletteBlock ∉ blocks) := by
  refine ⟨fun hb => Encoder.encode_ok hb keyFrame hafter.inv.1
    (by rw [hafter.inv.2.1]; exact hlen), ?_⟩
  intro enc henc blocks htag hmem
  obtain ⟨hpal, hnull, hcard, hc1⟩ := hafter.indexed_of_mem hlen henc htag hmem
  obtain ⟨hinv, -, -, -, -, -⟩ := hafter.afterKeyFrame_inv keyFrame
  obtain ⟨new, bn, e1, b, hs, hmemN, hsz, hbn, hdiff, hinv1, hfr, hbits, -, hpay, -, hp,
    hcases⟩ := hafter.encode_indexed hlen henc hpal hnull hcard hc1
  have hofSize : (Palette.ofSize bitmap.toFinset.card).bits = .ok bn := by
    rw [← hbn]
    apply Palette.bits_congr
    rw [hsz]
    simp [Palette.size, Palette.ofSize]
  have hsub : new.colors ⊆ e1.palette.colors := fun c hc => hfr c ((hmemN c).1 hc)
  have hle : new.size ≤ e1.palette.size :=
    (List.subperm_of_subset (Increasing.nodup hs) hsub).length_le
  have hge : bn ≤ b := Palette.bits_mono hbn hbits hle
  have hI : Tagged (3 :: (z.framed e1.zstdCompressor
      (IndexedBitmapBlock.content (e1.copyFrameBitmap bitmap) b) ++ []))
      [.IndexedBitmapBlock] :=
    Tagged.chunk z .IndexedBitmapBlock (Or.inr (Or.inl rfl)) _ _ Tagged.nil
  rw [List.append_nil] at hI
  have heq : FrameBlock.PaletteBlock ∈ blocks → b = bn := by
    intro hpb
    rcases hcases with ⟨-, -, hout⟩ | ⟨-, -, -, -, hcol, -⟩ | ⟨-, hfit, he, -⟩
    · exfalso
      have ht : Tagged enc.output
          ((if (last.isNone || keyFrame) = true then [FrameBlock.KeyFrameBlock] else []) ++
            [.IndexedBitmapBlock]) := by
        rw [hout]; exact Tagged.keyTag _ hI
      rw [Tagged.unique htag ht] at hpb
      rcases List.mem_append.1 hpb with h | h
      · split at h <;> simp at h
      · simp at h
    · have hsize : e1.palette.size = new.size := by
        simp only [Palette.size, hcol]
      have := Palette.bits_congr hsize
      rw [hbits, hbn] at this
      exact Except.ok.inj this
    · have hds := Palette.difference_sorted hinv.sorted hs
      obtain ⟨-, -, hlen', -⟩ := setUnion_spec hds hinv.sorted
      have hsize : e1.palette.size ≤ 2 ^ bn := by
        have hcolors : e1.palette.colors =
            setUnion ColorOrdering ((e.afterKeyFrame keyFrame).palette.difference new).colors
              (e.afterKeyFrame keyFrame).palette.colors := by
          rw [he]; rfl
        simp only [Palette.size] at hfit ⊢
        rw [hcolors]
        omega
      exact Nat.le_antisymm (Palette.bits_le_of_fits hbn hbits hsize) hge
  have hout : ∃ front, enc.output = front ++
      3 :: z.framed e1.zstdCompressor
        (IndexedBitmapBlock.content (e1.copyFrameBitmap bitmap) b) := by
    rcases hcases with ⟨-, -, hout⟩ | ⟨-, -, -, -, -, hout⟩ | ⟨-, -, -, hout⟩
    · exact ⟨_, hout⟩
    · exact ⟨_, hout⟩
    · exact ⟨_, hout⟩
  obtain ⟨front, hout⟩ := hout
  exact ⟨bn, b, e1.copyFrameBitmap bitmap, front,
    packedBytes b ((e1.copyFrameBitmap bitmap).frameBitmap.map
      (e1.copyFrameBitmap bitmap).palette.indexByte) 0 0,
    hcard, hofSize, hp.symm, hbits, hpay, hout, hge, heq,
    fun hlt hpb => absurd (heq hpb) (by omega)⟩

/-- Witness for C29: behind `threePixelExample`, the 3×1 frame with a third
colour is written with a Palette block and the bit width `bits(3)`. -/
theorem index_width_minimal_witness :
    (threePixelEncoder.encoded Zstd.store [⟨255, 0, 0⟩, ⟨0, 0, 255⟩, ⟨0, 255, 0⟩] false).output =
      [1, 4, 0, 0, 0, 0, 0, 255, 0, 3, 2, 0, 0, 0, 2, 18] ∧
    ∃ (bitsOfK b : Nat) (cur : Encoder) (front rest : List Byte),
      ([⟨255, 0, 0⟩, ⟨0, 0, 255⟩, ⟨0, 255, 0⟩] : List Color).toFinset.card ≤ 256 ∧
      (Palette.ofSize
        ([⟨255, 0, 0⟩, ⟨0, 0, 255⟩, ⟨0, 255, 0⟩] : List Color).toFinset.card).bits =
          .ok bitsOfK ∧
      cur.palette = (threePixelEncoder.encoded Zstd.store
        [⟨255, 0, 0⟩, ⟨0, 0, 255⟩, ⟨0, 255, 0⟩] false).encoder.palette ∧
      cur.palette.bits = .ok b ∧
      IndexedBitmapBlock.payload cur = .ok (toUInt8 b :: rest) ∧
      (threePixelEncoder.encoded Zstd.store [⟨255, 0, 0⟩, ⟨0, 0, 255⟩, ⟨0, 255, 0⟩]
        false).output = front ++ 3 :: Zstd.store.framed cur.zstdCompressor (toUInt8 b :: rest) ∧
      bitsOfK ≤ b ∧
      (FrameBlock.PaletteBlock ∈ [FrameBlock.PaletteBlock, FrameBlock.IndexedBitmapBlock] →
        b = bitsOfK) ∧
      (bitsOfK < b →
        FrameBlock.PaletteBlock ∉ [FrameBlock.PaletteBlock, FrameBlock.IndexedBitmapBlock]) :=
  ⟨threePixelEncoder_output,
    (index_width_minimal Zstd.store ⟨3, 1⟩ {} (some threePixelExample) threePixelEncoder
      threePixelEncoder_after [⟨255, 0, 0⟩, ⟨0, 0, 255⟩, ⟨0, 255, 0⟩] rfl false).2
      (threePixelEncoder.encoded Zstd.store [⟨255, 0, 0⟩, ⟨0, 0, 255⟩, ⟨0, 255, 0⟩] false) rfl
      [.PaletteBlock, .IndexedBitmapBlock] threePixelEncoder_tagged (by decide)⟩

/-! ### The errors of `encode` -/

theorem BufferWriter.write_overflow {w : BufferWriter} {width value : Nat} {err : Error}
    (h : w.write width value = .error err) : err = .bufferOverflow := by
  unfold BufferWriter.write at h
  split at h
  · cases h; rfl
  · cases h

theorem BufferWriter.advance_overflow {w : BufferWriter} {stored : List Byte} {err : Error}
    (h : w.advance stored = .error err) : err = .bufferOverflow := by
  unfold BufferWriter.advance at h
  split at h
  · cases h; rfl
  · cases h

theorem writeColor_overflow {w : BufferWriter} {color : Color} {err : Error}
    (h : writeColor w color = .error err) : err = .bufferOverflow := by
  unfold writeColor at h
  rcases Except.bind_eq_error h with h1 | ⟨w1, -, h⟩
  · exact BufferWriter.write_overflow h1
  rcases Except.bind_eq_error h with h2 | ⟨w2, -, h⟩
  · exact BufferWriter.write_overflow h2
  · exact BufferWriter.write_overflow h

theorem Encoder.compressBuffer_overflow {z : Zstd} {e : Encoder} {w : BufferWriter}
    {input : List Byte} {err : Error} (h : e.compressBuffer z w input = .error err) :
    err = .bufferOverflow ∨ err = .zstdDstTooSmall := by
  unfold Encoder.compressBuffer at h
  rcases Except.bind_eq_error h with h1 | ⟨w1, -, h⟩
  · exact Or.inl (BufferWriter.write_overflow h1)
  dsimp only at h
  by_cases hc : (if input = [] then [] else z.compress e.zstdCompressor input).length >
      w1.size - w1.offset
  · rw [if_pos hc] at h
    cases h
    exact Or.inr rfl
  · rw [if_neg hc] at h
    rcases Except.bind_eq_error h with h2 | ⟨w2, -, h⟩
    · exact Or.inl (BufferWriter.advance_overflow h2)
    · cases h

theorem writeBlock_overflow {kind : FrameBlock} {w : BufferWriter}
    {encode : BufferWriter → Except Error (Encoder × BufferWriter)} {err : Error}
    (henc : ∀ w', encode w' = .error err → err = .bufferOverflow ∨ err = .zstdDstTooSmall)
    (h : writeBlock kind w encode = .error err) :
    err = .bufferOverflow ∨ err = .zstdDstTooSmall := by
  unfold writeBlock at h
  rcases Except.bind_eq_error h with h1 | ⟨w1, -, h⟩
  · exact Or.inl (BufferWriter.write_overflow h1)
  · exact henc w1 h

theorem PaletteBlock.encode_overflow {z : Zstd} {e : Encoder} {w : BufferWriter}
    {palette : Palette} {err : Error} (hpos : palette.size ≠ 0)
    (hsize : palette.size ≤ Palette.maxColorCount)
    (hbuf : PaletteBlock.maxSize ≤ e.internalBufferSize)
    (h : PaletteBlock.encode z e w palette = .error err) :
    err = .bufferOverflow ∨ err = .zstdDstTooSmall := by
  unfold PaletteBlock.encode at h
  rw [if_neg hpos, PaletteBlock.palette_payload_eq e palette hsize hbuf] at h
  rcases Except.bind_eq_error h with h1 | ⟨payload, -, h⟩
  · cases h1
  rcases Except.bind_eq_error h with h2 | ⟨⟨e2, w2⟩, -, h⟩
  · exact Encoder.compressBuffer_overflow h2
  · cases h

theorem Encoder.updatePalette_overflow {z : Zstd} {e : Encoder} {w : BufferWriter}
    {newPalette : Palette} {err : Error} (hinv : e.Inv)
    (hsize : newPalette.size ≤ Palette.maxColorCount)
    (h : e.updatePalette z w newPalette = .error err) :
    err = .bufferOverflow ∨ err = .zstdDstTooSmall := by
  have hbuf : PaletteBlock.maxSize ≤ e.internalBufferSize := by
    rw [hinv.buffer]; exact (safeInternal_ge e.bitmapInfo).1
  obtain ⟨b, hbits⟩ := Palette.bits_ok hsize
  unfold Encoder.updatePalette at h
  simp only [] at h
  by_cases hnew : (e.palette.difference newPalette).size > 0
  · rw [if_pos hnew] at h
    simp only [hbits, bind, Except.bind] at h
    have hle := Palette.difference_size_le e.palette newPalette
    by_cases hgt : e.palette.size + (e.palette.difference newPalette).size > 1 <<< b
    · rw [if_pos hgt] at h
      by_cases hz0 : e.palette.size ≠ 0
      · rw [if_pos hz0] at h
        cases hr : writeBlock .PaletteResetBlock w (PaletteResetBlock.encode e) with
        | error err' =>
          rw [hr] at h
          simp only [Except.error.injEq] at h
          subst h
          exact writeBlock_overflow (fun w' hw' => by
            simp only [PaletteResetBlock.encode, pure, Except.pure] at hw'
            cases hw') hr
        | ok p =>
          rw [hr] at h
          obtain ⟨-, hr1⟩ := writeBlock_inv hr
          simp only [PaletteResetBlock.encode, pure, Except.pure] at hr1
          cases hr1
          simp only at h
          exact writeBlock_overflow (fun w' hw' =>
            PaletteBlock.encode_overflow (by omega) hsize (by exact hbuf) hw') h
      · rw [if_neg hz0] at h
        simp only [pure, Except.pure] at h
        exact writeBlock_overflow (fun w' hw' =>
          PaletteBlock.encode_overflow (by omega) hsize hbuf hw') h
    · rw [if_neg hgt] at h
      exact writeBlock_overflow (fun w' hw' =>
        PaletteBlock.encode_overflow (by omega) (Nat.le_trans hle hsize) hbuf hw') h
  · rw [if_neg hnew] at h
    cases h

theorem Encoder.encodeBitmap_overflow {z : Zstd} {e : Encoder} {w : BufferWriter}
    {bitmap : List Color} {err : Error} (hinv : e.Inv)
    (hlen : bitmap.length = e.bitmapInfo.width * e.bitmapInfo.height)
    (hw0 : w.offset ≤ w.size) (h : e.encodeBitmap z w bitmap = .error err) :
    err = .bufferOverflow ∨ err = .zstdDstTooSmall := by
  have hraw : writeBlock .RawBitmapBlock w
      (RawBitmapBlock.encode z (e.copyFrameBitmap bitmap)) = .error err →
      err = .bufferOverflow ∨ err = .zstdDstTooSmall :=
    writeBlock_overflow (fun w' hw' => Encoder.compressBuffer_overflow hw')
  have htake : bitmap.take (e.bitmapInfo.width * e.bitmapInfo.height) = bitmap :=
    List.take_of_length_le (Nat.le_of_eq hlen)
  unfold Encoder.encodeBitmap at h
  by_cases hpal : e.settings.usePalette = true
  · rw [if_pos hpal] at h
    rcases e.makePalette_spec bitmap with hnone | ⟨p, hsome, hps, hpsize, hpmem⟩
    · simp only [hnone, bind, Except.bind] at h
      exact hraw h
    · rw [htake] at hpmem
      simp only [hsome, bind, Except.bind] at h
      by_cases h1 : p.size = 1
      · rw [if_pos h1] at h
        refine writeBlock_overflow (fun w' hw' => ?_) h
        unfold SolidColorBitmapBlock.encode at hw'
        rcases Except.bind_eq_error hw' with h2 | ⟨w2, -, h3⟩
        · exact Or.inl (writeColor_overflow h2)
        · cases h3
      · rw [if_neg h1] at h
        cases hu : e.updatePalette z w p with
        | error err' =>
          rw [hu] at h
          simp only [Except.error.injEq] at h
          subst h
          exact Encoder.updatePalette_overflow hinv hpsize hu
        | ok r =>
          obtain ⟨e1, w1⟩ := r
          rw [hu] at h
          simp only at h
          obtain ⟨-, -, -, -, -, -, hinv1, hsame1, -, hmem1, -, -, -⟩ :=
            Encoder.updatePalette_inv hinv hps hpsize hw0 hu
          have hlen2 : bitmap.length = e1.bitmapInfo.pixelCount := by
            rw [hsame1.bitmapInfo]; exact hlen
          obtain ⟨hinv2, hfr2⟩ := hinv1.copyFrameBitmap hlen2
          have hframe : ∀ c ∈ bitmap, c ∈ e1.palette.colors :=
            fun c hc => hmem1 c ((hpmem c).2 hc)
          obtain ⟨b, hbits⟩ := Palette.bits_ok hinv1.size
          obtain ⟨hb1, hb2, hb3, hb4⟩ := Palette.bits_inv hbits
          have hb : bitmap = [] ∨ (b = 1 ∨ b = 2 ∨ b = 4 ∨ b = 8) := by
            by_cases hnil : bitmap = []
            · exact Or.inl hnil
            · right
              obtain ⟨x, hx⟩ := List.exists_mem_of_ne_nil _ hnil
              have hpne : p.colors ≠ [] := List.ne_nil_of_mem ((hpmem x).2 hx)
              have hp2 : 2 ≤ p.colors.length := by
                have h0 : p.colors.length ≠ 0 := fun h => hpne (List.length_eq_zero.1 h)
                simp only [Palette.size] at h1
                omega
              have hsub : p.colors ⊆ e1.palette.colors := fun c hc => hmem1 c hc
              have hle := (List.subperm_of_subset (Increasing.nodup hps) hsub).length_le
              have hp3 : 2 ≤ e1.palette.size := by
                simp only [Palette.size]
                omega
              rcases hb3 with h0 | h0
              · have := hb4.1 h0; omega
              · exact h0
          have hpay := IndexedBitmapBlock.indexed_payload_eq (e1.copyFrameBitmap bitmap) b
            hbits (by rw [hfr2]; exact hb) hinv2.colorMap (by rw [hfr2]; exact hframe)
            (by rw [hinv2.buffer, hinv2.frame]; exact (safeInternal_ge _).2)
          refine writeBlock_overflow (fun w' hw' => ?_) h
          unfold IndexedBitmapBlock.encode at hw'
          rw [hpay] at hw'
          exact Encoder.compressBuffer_overflow hw'
  · rw [if_neg hpal] at h
    exact hraw h

/-- C28: on a reachable encoder, for every frame of `N = width * height`
colours: `encode` returns when the codec keeps to its bound; with any codec
a failing call fails for lack of room in the output buffer only (the
overflow check of the output cursor or a destination too small for the
codec), never with the errors of an empty palette in `PaletteBlock::encode`,
of `bits()` on more than 256 colours, of a colour missing in the colour map,
or of the range constructor.  The internal buffer has `max(769, 1 + N)`
octets; the content of a Palette block of 1 to 256 colours is built in it
without overflow and has at most 769 octets, and the content of an
IndexedBitmap block for a frame whose colours are in the palette has at most
`1 + N` octets.  When a returning call wrote an IndexedBitmap block, every
colour of the frame is in the colour map, with its position in the
palette. -/
theorem encode_internal_errors (z : Zstd) (bitmapInfo : BitmapInfo)
    (settings : EncoderSettings) (last : Option (List Color)) (e : Encoder)
    (hafter : Encoder.After z bitmapInfo settings last e) (bitmap : List Color)
    (hlen : bitmap.length = bitmapInfo.width * bitmapInfo.height) (keyFrame : Bool) :
    (z.Bounded → ∃ enc, e.encode z bitmap keyFrame = .ok enc) ∧
    (∀ err, e.encode z bitmap keyFrame = .error err →
      (err = .bufferOverflow ∨ err = .zstdDstTooSmall) ∧
      err ≠ .emptyPalette ∧ err ≠ .invalidPalette ∧ err ≠ .colorNotMapped ∧
      err ≠ .tooManyColors) ∧
    e.internalBufferSize = max 769 (1 + bitmapInfo.width * bitmapInfo.height) ∧
    (∀ palette : Palette, 1 ≤ palette.size → palette.size ≤ 256 →
      ∃ payload, PaletteBlock.payload e palette = .ok payload ∧
        payload.length = 1 + 3 * palette.size ∧ payload.length ≤ 769 ∧
        payload.length ≤ e.internalBufferSize) ∧
    (∀ cur : Encoder, cur.Inv → cur.bitmapInfo = bitmapInfo →
      (∀ c ∈ cur.frameBitmap, c ∈ cur.palette.colors) →
      (cur.frameBitmap = [] ∨ 2 ≤ cur.palette.size) →
      ∃ payload, IndexedBitmapBlock.payload cur = .ok payload ∧
        payload.length ≤ 1 + bitmapInfo.width * bitmapInfo.height ∧
        payload.length ≤ cur.internalBufferSize) ∧
    (∀ enc : Encoded, e.encode z bitmap keyFrame = .ok enc →
      ∀ blocks, Tagged enc.output blocks → FrameBlock.IndexedBitmapBlock ∈ blocks →
        enc.encoder.palette.size ≤ 256 ∧
        ∀ c ∈ bitmap, ∃ i : Byte, colorMapAt enc.encoder.colorMap c = .ok i ∧
          enc.encoder.palette.colors[i.val]? = some c) := by
  obtain ⟨hinvE, hbiE, -⟩ := hafter.inv
  have hbufE : e.internalBufferSize =
      max 769 (1 + bitmapInfo.width * bitmapInfo.height) := by
    rw [hinvE.buffer, hbiE]
    simp only [safeInternalOutpuBufferSize, PaletteBlock.maxSize, Palette.maxColorCount,
      IndexedBitmapBlock.maxSize, Nat.mul_one]
  refine ⟨fun hb => Encoder.encode_ok hb keyFrame hinvE (by rw [hbiE]; exact hlen), ?_, hbufE,
    ?_, ?_, ?_⟩
  · intro err herr
    have hout : err = .bufferOverflow ∨ err = .zstdDstTooSmall := by
      obtain ⟨hinv, hbi, -⟩ := hafter.afterKeyFrame_inv keyFrame
      have hsafe := Encoder.safeOutputBufferSize_ge z e
      by_cases hnull : last = some bitmap ∧ keyFrame = false ∧ bitmap ≠ []
      · rw [(hafter.encode_cases hlen keyFrame).1 hnull] at herr
        cases herr
      · rw [(hafter.encode_cases hlen keyFrame).2 hnull] at herr
        cases hb : (e.afterKeyFrame keyFrame).encodeBitmap z
            ⟨if (last.isNone || keyFrame) = true then [0] else [], e.safeOutputBufferSize z⟩
            bitmap with
        | ok r =>
          rw [hb] at herr
          cases herr
        | error err' =>
          rw [hb] at herr
          simp only [Except.error.injEq] at herr
          subst herr
          refine Encoder.encodeBitmap_overflow hinv (by rw [hbi]; exact hlen) ?_ hb
          show (if (last.isNone || keyFrame) = true then ([0] : List Byte) else []).length ≤
            e.safeOutputBufferSize z
          split <;> simp only [List.length_singleton, List.length_nil] <;> omega
    refine ⟨hout, ?_, ?_, ?_, ?_⟩ <;> rcases hout with h | h <;> rw [h] <;> decide
  · intro palette hpos hsize
    have hbuf : PaletteBlock.maxSize ≤ e.internalBufferSize := by
      rw [hinvE.buffer]; exact (safeInternal_ge e.bitmapInfo).1
    refine ⟨_, PaletteBlock.palette_payload_eq e palette hsize hbuf, ?_, ?_, ?_⟩
    · simp only [List.length_cons, colorsToBytes_length, Palette.size]; omega
    · simp only [List.length_cons, colorsToBytes_length, Palette.size] at hsize ⊢; omega
    · simp only [List.length_cons, colorsToBytes_length, Palette.size, PaletteBlock.maxSize,
        Palette.maxColorCount] at hsize hbuf ⊢
      omega
  · intro cur hinv hbi hframe hb
    obtain ⟨b, hbits⟩ := Palette.bits_ok hinv.size
    obtain ⟨-, -, hb3, hb4⟩ := Palette.bits_inv hbits
    have hb' : cur.frameBitmap = [] ∨ (b = 1 ∨ b = 2 ∨ b = 4 ∨ b = 8) := by
      rcases hb with h0 | h2
      · exact Or.inl h0
      · right
        rcases hb3 with h | h
        · have := hb4.1 h; omega
        · exact h
    have hbuf : 1 + cur.frameBitmap.length ≤ cur.internalBufferSize := by
      rw [hinv.buffer, hinv.frame]; exact (safeInternal_ge _).2
    have hple := @packedBytes_length_le b (cur.frameBitmap.map cur.palette.indexByte) (by
      rcases hb' with h0 | h0
      · left; rw [h0]; rfl
      · right; exact h0)
    rw [List.length_map] at hple
    have hfr := hinv.frame
    rw [hbi, BitmapInfo.pixelCount] at hfr
    refine ⟨_, IndexedBitmapBlock.indexed_payload_eq cur b hbits hb' hinv.colorMap hframe hbuf,
      ?_, ?_⟩
    · simp only [List.length_cons]; omega
    · simp only [List.length_cons]; omega
  · intro enc henc blocks htag hmem
    obtain ⟨hpal, hnull, hcard, hc1⟩ := hafter.indexed_of_mem hlen henc htag hmem
    obtain ⟨new, bn, e1, b, -, -, -, -, -, -, hfr, -, -, -, -, hp, -⟩ :=
      hafter.encode_indexed hlen henc hpal hnull hcard hc1
    obtain ⟨hinv', -⟩ := (Encoder.After.call last e bitmap keyFrame enc hafter hlen henc).inv
    refine ⟨hinv'.size, ?_⟩
    intro c hc
    have hcp : c ∈ enc.encoder.palette.colors := by rw [hp]; exact hfr c hc
    refine ⟨toUInt8 (enc.encoder.palette.colors.indexOf c), ?_, ?_⟩
    · rw [hinv'.colorMap]
      exact colorMapAt_fill hcp
    · have hlt : enc.encoder.palette.colors.indexOf c < 256 :=
        Nat.lt_of_lt_of_le (List.indexOf_lt_length.2 hcp) hinv'.size
      rw [toUInt8_val, Nat.mod_eq_of_lt hlt]
      exact List.getElem?_indexOf hcp

/-- Witness for C28: the second frame of a 2×1 stream. -/
theorem encode_internal_errors_witness :
    (∃ enc, twoColourEncoder.encode Zstd.store [⟨1, 2, 3⟩, ⟨255, 0, 0⟩] false = .ok enc) ∧
    twoColourEncoder.internalBufferSize = max 769 (1 + 2 * 1) :=
  have h := encode_internal_errors Zstd.store ⟨2, 1⟩ {} (some twoColourExample)
    twoColourEncoder twoColourEncoder_after [⟨1, 2, 3⟩, ⟨255, 0, 0⟩] rfl false
  ⟨h.1 Zstd.store_bounded, h.2.2.1⟩

/-! ### The same frame twice -/

theorem Zstd.framed_length_ge (z : Zstd) (history : List (List Byte)) (input : List Byte) :
    4 ≤ (z.framed history input).length := by
  obtain ⟨chunk, -, h⟩ := z.framed_chunk history input
  rw [h, List.length_append, littleEndian_length]
  omega

/-- C15, as the code has it: when the frame of the call before (of
`width * height ≥ 1` colours) is passed again to `encode`, a call that asks
for no key frame returns, writes exactly one octet, the NullBitmap tag 6, and
reports `bytesWritten = 1`.  A call that asks for a key frame returns when
the codec keeps to its bound and writes the KeyFrame tag 0 followed by a
complete new encoding of the frame, which depends on the frame, the settings
and the codec only: the SolidColorBitmap block for a frame of one colour in
palette mode, the Palette block of all the colours of the frame and the
IndexedBitmap block for 2 to 256 colours in palette mode, the RawBitmap block
otherwise; at least five octets are written, and the one way to split them
into blocks holds no NullBitmap block. -/
theorem repeated_frame (z : Zstd) (bitmapInfo : BitmapInfo) (settings : EncoderSettings)
    (hN : 1 ≤ bitmapInfo.width * bitmapInfo.height) (bitmap : List Color) (e : Encoder)
    (hafter : Encoder.After z bitmapInfo settings (some bitmap) e) (keyFrame : Bool) :
    (keyFrame = false ∨ z.Bounded → ∃ enc, e.encode z bitmap keyFrame = .ok enc) ∧
    ∀ enc : Encoded, e.encode z bitmap keyFrame = .ok enc →
      (keyFrame = false → enc.result.bytesWritten = 1 ∧ enc.output = [6]) ∧
      (keyFrame = true → enc.output.head? = some 0 ∧ 5 ≤ enc.result.bytesWritten ∧
        enc.result.bytesWritten = enc.output.length ∧
        enc.result.keyFrame = true ∧ enc.encoder.previousFrameBitmap = bitmap ∧
        ∃ blocks : List FrameBlock, Tagged enc.output blocks ∧
          (∀ blocks', Tagged enc.output blocks' → blocks' = blocks) ∧
          FrameBlock.NullBitmapBlock ∉ blocks ∧
          ((settings.usePalette = true ∧ bitmap.toFinset.card = 1 ∧
              ∃ c, (∀ x ∈ bitmap, x = c) ∧ enc.output = [0, 5, c.r, c.g, c.b] ∧
                blocks = [.KeyFrameBlock, .SolidColorBitmapBlock]) ∨
           (settings.usePalette = true ∧ 2 ≤ bitmap.toFinset.card ∧
              bitmap.toFinset.card ≤ 256 ∧
              ∃ (new : Palette) (b : Nat), new.Sorted ∧ (∀ x, x ∈ new.colors ↔ x ∈ bitmap) ∧
                new.bits = .ok b ∧
                enc.output = 0 :: 1 :: z.framed [] (PaletteBlock.content new) ++
                  3 :: z.framed [PaletteBlock.content new]
                    (toUInt8 b :: packedBytes b (bitmap.map new.indexByte) 0 0) ∧
                blocks = [.KeyFrameBlock, .PaletteBlock, .IndexedBitmapBlock]) ∨
           ((settings.usePalette = false ∨ 256 < bitmap.toFinset.card) ∧
              enc.output = 0 :: 4 :: z.framed [] (colorsToBytes bitmap) ∧
              blocks = [.KeyFrameBlock, .RawBitmapBlock]))) := by
  have hlen := hafter.last_length bitmap rfl
  have hne : bitmap ≠ [] := by
    intro h
    rw [h] at hlen
    simp only [List.length_nil] at hlen
    omega
  refine ⟨?_, ?_⟩
  · rintro (hk | hb)
    · subst hk
      exact ⟨_, (hafter.encode_cases hlen false).1 ⟨rfl, rfl, hne⟩⟩
    · exact Encoder.encode_ok hb keyFrame hafter.inv.1 (by rw [hafter.inv.2.1]; exact hlen)
  intro enc henc
  constructor
  · intro hk
    subst hk
    rw [(hafter.encode_cases hlen false).1 ⟨rfl, rfl, hne⟩] at henc
    cases henc
    exact ⟨rfl, rfl⟩
  · intro hk
    subst hk
    obtain ⟨hinv, hbi, -, hpalette, hsession, -⟩ := hafter.afterKeyFrame_inv true
    simp only [Option.isNone_some, Bool.or_true, if_true] at hpalette hsession
    have hcur : (e.afterKeyFrame true).palette.colors = [] := by rw [hpalette]; rfl
    have hcur0 : (e.afterKeyFrame true).palette.size = 0 := by rw [hpalette]; rfl
    have hprev : enc.encoder.previousFrameBitmap = bitmap :=
      (Encoder.After.call (some bitmap) e bitmap true enc hafter hlen henc).inv.2.2.2.2
    have hpos : 0 < bitmap.toFinset.card := by
      obtain ⟨x, hx⟩ := List.exists_mem_of_ne_nil _ hne
      exact Finset.card_pos.2 ⟨x, List.mem_toFinset.2 hx⟩
    rcases hafter.encode_shape hlen henc with ⟨-, h2, -⟩ | ⟨-, hres, hcase⟩
    · cases h2
    simp only [Option.isNone_some, Bool.or_true, if_true] at hres hcase
    have hbw : enc.result.bytesWritten = enc.output.length := by rw [hres]
    have hkf : enc.result.keyFrame = true := by rw [hres]
    rcases hcase with ⟨hpal, hc1, c, hall, hout, -⟩ | ⟨hraw, hout, -⟩ |
      ⟨hpal, hcard, hc1, new, e1, palBytes, b, -, hs, hsz, hmem, hu, -, -, hbits, -, -, hout, -⟩
    · have htag : Tagged enc.output [.KeyFrameBlock, .SolidColorBitmapBlock] := by
        rw [hout]
        exact Tagged.cons .KeyFrameBlock [] _ _ rfl
          (@Tagged.single .SolidColorBitmapBlock _ ⟨c, rfl⟩)
      refine ⟨by rw [hout]; rfl, by rw [hbw, hout]; simp, hbw, hkf, hprev, _, htag,
        fun blocks' h' => Tagged.unique h' htag, by decide,
        Or.inl ⟨hpal, hc1, c, hall, hout, rfl⟩⟩
    · rw [hsession] at hout
      have hout' : enc.output = 0 :: 4 :: z.framed [] (colorsToBytes bitmap) := hout
      have htag : Tagged enc.output [.KeyFrameBlock, .RawBitmapBlock] := by
        rw [hout']
        have := Tagged.chunk z .RawBitmapBlock (Or.inr (Or.inr rfl)) []
          (colorsToBytes bitmap) Tagged.nil
        rw [List.append_nil] at this
        exact Tagged.cons .KeyFrameBlock [] _ _ rfl this
      have hl := z.framed_length_ge [] (colorsToBytes bitmap)
      refine ⟨by rw [hout']; rfl, ?_, hbw, hkf, hprev, _, htag,
        fun blocks' h' => Tagged.unique h' htag, by decide,
        Or.inr (Or.inr ⟨hraw, hout', rfl⟩)⟩
      rw [hbw, hout']
      simp only [List.length_cons]
      omega
    · obtain ⟨bn, hbn, hcases⟩ := Encoder.updatePalette_cases hinv
        (by rw [hsz]; exact hcard) hu
      have hdiff : ((e.afterKeyFrame true).palette.difference new).colors = new.colors := by
        rw [Palette.difference_colors hinv.sorted hs, hcur]
        exact List.filter_eq_self.2 (fun c _ => by simp)
      have hdsize : ((e.afterKeyFrame true).palette.difference new).size = new.size := by
        simp only [Palette.size, hdiff]
      have hcontent : PaletteBlock.content ((e.afterKeyFrame true).palette.difference new) =
          PaletteBlock.content new := by
        rw [PaletteBlock.content, PaletteBlock.content, hdsize, hdiff]
      have hthird : palBytes = 1 :: z.framed [] (PaletteBlock.content new) ∧
          e1.zstdCompressor = [PaletteBlock.content new] ∧
          e1.palette.colors = new.colors ∧
          e1.bitmapInfo = (e.afterKeyFrame true).bitmapInfo := by
        rcases hcases with ⟨h0, -, -⟩ | ⟨-, -, hz0, -⟩ | ⟨-, -, hw, he⟩
        · omega
        · exact absurd hcur0 hz0
        · simp only [BufferWriter.mk.injEq, and_true] at hw
          have hpb := List.append_cancel_left hw
          rw [hcontent, hsession] at hpb
          refine ⟨hpb, ?_, ?_, ?_⟩
          · rw [he]
            show PaletteBlock.content _ :: (e.afterKeyFrame true).zstdCompressor = _
            rw [hcontent, hsession]
          · rw [he]
            show setUnion ColorOrdering _ (e.afterKeyFrame true).palette.colors = _
            rw [hcur, setUnion_nil_right, hdiff]
          · rw [he]
      obtain ⟨hpb, hz1, hcol1, hbi1⟩ := hthird
      have hbnew : new.bits = .ok b := by
        rw [← hbits]
        apply Palette.bits_congr
        simp only [Palette.size, hcol1]
      have hframe : (e1.copyFrameBitmap bitmap).frameBitmap = bitmap := by
        show bitmap.take (e1.bitmapInfo.width * e1.bitmapInfo.height) = bitmap
        rw [hbi1, hbi]
        exact List.take_of_length_le (Nat.le_of_eq hlen)
      have hidx : (e1.copyFrameBitmap bitmap).palette.indexByte = new.indexByte := by
        funext c
        show toUInt8 (e1.palette.colors.indexOf c) = toUInt8 (new.colors.indexOf c)
        rw [hcol1]
      have hic : IndexedBitmapBlock.content (e1.copyFrameBitmap bitmap) b =
          toUInt8 b :: packedBytes b (bitmap.map new.indexByte) 0 0 := by
        rw [IndexedBitmapBlock.content, hframe, hidx]
      rw [hpb, hz1, hic] at hout
      have hout' : enc.output = 0 :: 1 :: z.framed [] (PaletteBlock.content new) ++
          3 :: z.framed [PaletteBlock.content new]
            (toUInt8 b :: packedBytes b (bitmap.map new.indexByte) 0 0) := by
        rw [hout]
        rfl
      have hI : Tagged (3 :: (z.framed [PaletteBlock.content new]
          (toUInt8 b :: packedBytes b (bitmap.map new.indexByte) 0 0) ++ []))
          [.IndexedBitmapBlock] :=
        Tagged.chunk z .IndexedBitmapBlock (Or.inr (Or.inl rfl)) _ _ Tagged.nil
      rw [List.append_nil] at hI
      have htag : Tagged enc.output [.KeyFrameBlock, .PaletteBlock, .IndexedBitmapBlock] := by
        rw [hout']
        exact Tagged.cons .KeyFrameBlock [] _ _ rfl
          (Tagged.chunk z .PaletteBlock (Or.inl rfl) _ _ hI)
      have hl := z.framed_length_ge [] (PaletteBlock.content new)
      refine ⟨by rw [hout']; rfl, ?_, hbw, hkf, hprev, _, htag,
        fun blocks' h' => Tagged.unique h' htag, by decide,
        Or.inr (Or.inl ⟨hpal, by omega, hcard, new, b, hs, hmem, hbnew, hout', rfl⟩)⟩
      rw [hbw, hout']
      simp only [List.length_cons, List.length_append]
      omega

/-- Witness for C15 on `twoColourExample`: the second call writes the octet 6
without a key-frame request, and with one the KeyFrame tag, the Palette block
of both colours and the IndexedBitmap block, 20 octets. -/
theorem repeated_frame_witness :
    ((twoColourEncoder.encoded Zstd.store twoColourExample false).result.bytesWritten = 1 ∧
      (twoColourEncoder.encoded Zstd.store twoColourExample false).output = [6]) ∧
    (twoColourEncoder.encoded Zstd.store twoColourExample true).output =
      [0, 1, 7, 0, 0, 0, 1, 0, 0, 255, 255, 0, 0, 3, 2, 0, 0, 0, 1, 1] ∧
    (twoColourEncoder.encoded Zstd.store twoColourExample true).output.head? = some 0 ∧
    5 ≤ (twoColourEncoder.encoded Zstd.store twoColourExample true).result.bytesWritten ∧
    ∃ blocks : List FrameBlock,
      Tagged (twoColourEncoder.encoded Zstd.store twoColourExample true).output blocks ∧
      (∀ blocks', Tagged (twoColourEncoder.encoded Zstd.store twoColourExample true).output
        blocks' → blocks' = blocks) ∧
      FrameBlock.NullBitmapBlock ∉ blocks :=
  have hfalse := ((repeated_frame Zstd.store ⟨2, 1⟩ {} (by decide) twoColourExample
    twoColourEncoder twoColourEncoder_after false).2
    (twoColourEncoder.encoded Zstd.store twoColourExample false) rfl).1 rfl
  have ⟨h1, h2, _, _, _, blocks, h6, h7, h8, _⟩ :=
    ((repeated_frame Zstd.store ⟨2, 1⟩ {} (by decide) twoColourExample
      twoColourEncoder twoColourEncoder_after true).2
      (twoColourEncoder.encoded Zstd.store twoColourExample true) rfl).2 rfl
  ⟨hfalse, by decide, h1, h2, blocks, h6, h7, h8⟩

end lpvc
